import Mathlib

/-! mbuffer: a verification development

A shallow embedding of parts of `mbuffer` (settings.c, mbuffer.c, input.c,
tapetest.c) and theorems about them.

Conventions of the embedding.

* Unsigned 64-bit quantities (`unsigned long long`, and `unsigned long` on an
  LP64 platform) are natural numbers; where the C code multiplies them the
  product is reduced modulo `2^64` explicitly.
* A `double` that holds a size given on the command line is a rational; the
  theorems that speak about such numbers stay in the range where the C
  arithmetic is exact. The watermarks and the rate limiter compute in the
  type `Dbl`, which rounds as the machine does and has infinities and NaN.
* `fatal(...)` ends the process: functions that can call it return an error.
-/

set_option autoImplicit false


/-- Equality of results of type `Except` can be decided. -/
instance Except.decEq {ε α : Type} [DecidableEq ε] [DecidableEq α] : DecidableEq (Except ε α)
  | Except.ok a, Except.ok b =>
    if h : a = b then isTrue (congrArg Except.ok h) else isFalse (fun h1 => h (Except.ok.inj h1))
  | Except.error a, Except.error b =>
    if h : a = b then isTrue (congrArg Except.error h)
    else isFalse (fun h1 => h (Except.error.inj h1))
  | Except.ok _, Except.error _ => isFalse (fun h => Except.noConfusion h)
  | Except.error _, Except.ok _ => isFalse (fun h => Except.noConfusion h)

/-! ## The type `double`

The watermarks and the rate limiter compute in `double`. The model is IEEE 754
binary64 with the default rounding: a value is a rational number that the
format holds, an infinity or NaN, and every operation gives the value nearest
to its exact result, the one with the even significand of two that are equally
near (each operation is rounded to `double`, as on x86-64). The sign of a zero
is not kept; a zero divisor counts as `+0`, which is what the divisors of the
code are (a time difference that is not negative, an unsigned limit, a
constant). -/

/-- A value of the type `double`. -/
inductive Dbl where
  /-- a finite value -/
  | num (q : ℚ)
  /-- an infinity, the negative one if `neg` is set -/
  | inf (neg : Bool)
  /-- NaN, not a number -/
  | nan
deriving DecidableEq

/-- The number of binary digits of `n`, counted in at most `fuel` steps. -/
def bitsAux : Nat → Nat → Nat
  | 0, _ => 0
  | fuel + 1, n => if n = 0 then 0 else bitsAux fuel (n / 2) + 1

/-- The number of binary digits of `n`. -/
def bits (n : Nat) : Nat := bitsAux n n

/-- The power `2^e`. -/
def pow2 (e : Int) : ℚ :=
  if 0 ≤ e then ((2 ^ e.toNat : Nat) : ℚ) else 1 / ((2 ^ (-e).toNat : Nat) : ℚ)

/-- The binary exponent of a positive number `a`: the `e` with
`2^e ≤ a < 2^(e+1)`. -/
def exponent (a : ℚ) : Int :=
  let e0 : Int := (bits a.num.natAbs : Int) - (bits a.den : Int)
  if pow2 e0 ≤ a then e0 else e0 - 1

/-- The integer nearest to `x ≥ 0`, the even one of two that are equally
near. -/
def roundEven (x : ℚ) : Nat :=
  if x - (⌊x⌋₊ : ℚ) < 1 / 2 then ⌊x⌋₊
  else if 1 / 2 < x - (⌊x⌋₊ : ℚ) then ⌊x⌋₊ + 1
  else if ⌊x⌋₊ % 2 = 0 then ⌊x⌋₊ else ⌊x⌋₊ + 1

/-- The `double` nearest to the number `q`: a significand of 53 binary digits,
exponents from -1022 (below which the spacing stays `2^-1074`) to 1023 (above
which the result is an infinity). -/
def Dbl.round (q : ℚ) : Dbl :=
  if q = 0 then Dbl.num 0
  else
    let ulp := pow2 (max (exponent |q|) (-1022) - 52)
    let m := roundEven (|q| / ulp)
    if pow2 1024 ≤ (m : ℚ) * ulp then Dbl.inf (decide (q < 0))
    else Dbl.num (if q < 0 then -((m : ℚ) * ulp) else (m : ℚ) * ulp)

/-- The conversion `(double)z` of an integer. -/
def Dbl.ofInt (z : Int) : Dbl := Dbl.round (z : ℚ)

/-- A literal that is a whole number; the literals of the code (0, 1, 100,
1E6) are held exactly. -/
instance (n : Nat) : OfNat Dbl n := ⟨Dbl.num (n : ℚ)⟩

/-- The constant `1E-6`: the `double` nearest to a millionth. -/
def Dbl.micro : Dbl := Dbl.round (1 / 1000000)

/-- The value `-x`. -/
def Dbl.neg : Dbl → Dbl
  | Dbl.num q => Dbl.num (-q)
  | Dbl.inf n => Dbl.inf (!n)
  | Dbl.nan => Dbl.nan

/-- The sum `x + y`. -/
def Dbl.add : Dbl → Dbl → Dbl
  | Dbl.num a, Dbl.num b => Dbl.round (a + b)
  | Dbl.num _, Dbl.inf n => Dbl.inf n
  | Dbl.inf n, Dbl.num _ => Dbl.inf n
  | Dbl.inf n, Dbl.inf m => if n = m then Dbl.inf n else Dbl.nan
  | _, _ => Dbl.nan

/-- The difference `x - y`. -/
def Dbl.sub (x y : Dbl) : Dbl := x.add y.neg

/-- The product `x * y`. -/
def Dbl.mul : Dbl → Dbl → Dbl
  | Dbl.num a, Dbl.num b => Dbl.round (a * b)
  | Dbl.num a, Dbl.inf n => if a = 0 then Dbl.nan else Dbl.inf (xor (decide (a < 0)) n)
  | Dbl.inf n, Dbl.num b => if b = 0 then Dbl.nan else Dbl.inf (xor n (decide (b < 0)))
  | Dbl.inf n, Dbl.inf m => Dbl.inf (xor n m)
  | _, _ => Dbl.nan

/-- The quotient `x / y`. -/
def Dbl.div : Dbl → Dbl → Dbl
  | Dbl.num a, Dbl.num b =>
    if b = 0 then (if a = 0 then Dbl.nan else Dbl.inf (decide (a < 0)))
    else Dbl.round (a / b)
  | Dbl.num _, Dbl.inf _ => Dbl.num 0
  | Dbl.inf n, Dbl.num b => Dbl.inf (xor n (decide (b < 0)))
  | _, _ => Dbl.nan

instance : Neg Dbl := ⟨Dbl.neg⟩
instance : Add Dbl := ⟨Dbl.add⟩
instance : Sub Dbl := ⟨Dbl.sub⟩
instance : Mul Dbl := ⟨Dbl.mul⟩
instance : Div Dbl := ⟨Dbl.div⟩

/-- The comparison `x < y`; it is false when an operand is NaN. -/
def Dbl.lt : Dbl → Dbl → Prop
  | Dbl.num a, Dbl.num b => a < b
  | Dbl.num _, Dbl.inf n => n = false
  | Dbl.inf n, Dbl.num _ => n = true
  | Dbl.inf n, Dbl.inf m => n = true ∧ m = false
  | _, _ => False

/-- The comparison `x <= y`; it is false when an operand is NaN. -/
def Dbl.le : Dbl → Dbl → Prop
  | Dbl.num a, Dbl.num b => a ≤ b
  | Dbl.num _, Dbl.inf n => n = false
  | Dbl.inf n, Dbl.num _ => n = true
  | Dbl.inf n, Dbl.inf m => n = true ∨ m = false
  | _, _ => False

instance : LT Dbl := ⟨Dbl.lt⟩
instance : LE Dbl := ⟨Dbl.le⟩

instance Dbl.decLt : (x y : Dbl) → Decidable (x < y)
  | Dbl.num a, Dbl.num b => inferInstanceAs (Decidable (a < b))
  | Dbl.num _, Dbl.inf n => inferInstanceAs (Decidable (n = false))
  | Dbl.inf n, Dbl.num _ => inferInstanceAs (Decidable (n = true))
  | Dbl.inf n, Dbl.inf m => inferInstanceAs (Decidable (n = true ∧ m = false))
  | Dbl.num _, Dbl.nan => isFalse (fun h => h)
  | Dbl.inf _, Dbl.nan => isFalse (fun h => h)
  | Dbl.nan, _ => isFalse (fun h => h)

instance Dbl.decLe : (x y : Dbl) → Decidable (x ≤ y)
  | Dbl.num a, Dbl.num b => inferInstanceAs (Decidable (a ≤ b))
  | Dbl.num _, Dbl.inf n => inferInstanceAs (Decidable (n = false))
  | Dbl.inf n, Dbl.num _ => inferInstanceAs (Decidable (n = true))
  | Dbl.inf n, Dbl.inf m => inferInstanceAs (Decidable (n = true ∨ m = false))
  | Dbl.num _, Dbl.nan => isFalse (fun h => h)
  | Dbl.inf _, Dbl.nan => isFalse (fun h => h)
  | Dbl.nan, _ => isFalse (fun h => h)
/-! ## Sizes: `calcval` and `calcint` (settings.c) -/

/-- The outcome of `sscanf(arg,"%lf%c",&d,&ch)`: the number of items converted
together with the converted items. -/
inductive Scanned where
  /-- sscanf returned 0: no number could be converted -/
  | none
  /-- sscanf returned 1: a number without a following character -/
  | num (d : ℚ)
  /-- sscanf returned 2: a number followed by the character `ch` -/
  | numch (d : ℚ) (ch : Char)
deriving DecidableEq

/-- The conversion of a `double` to `unsigned long long`: truncation, defined
for values in `[0, 2^64)` only. -/
def toULL (d : ℚ) : Option Nat :=
  if 0 ≤ d ∧ d < 2 ^ 64 then some ⌊d⌋₊ else Option.none

/-- What a size parser hands back. -/
inductive CalcRes where
  /-- the parser returned the value `v` -/
  | ret (v : Nat)
  /-- the parser rejected the argument with the message `msg`
  (`fatal` in calcint, a returned error string in calcval) -/
  | rejected (msg : String)
  /-- calcint only: `errormsg("unrecognized argument ...")`, then the default
  value is returned -/
  | unrecognized (v : Nat)
  /-- the conversion to `unsigned long long` was out of range -/
  | undefined
deriving DecidableEq

/-- Store or return `d` as an `unsigned long long`. -/
def CalcRes.ofDouble (d : ℚ) : CalcRes :=
  match toULL d with
  | some v => CalcRes.ret v
  | Option.none => CalcRes.undefined

/-- The function `calcval` of settings.c (sizes in config files), applied to the
result of its `sscanf`. -/
def calcval (sc : Scanned) : CalcRes :=
  match sc with
  | Scanned.numch d ch =>
    if d ≤ 0 then CalcRes.rejected "negative value out of range"
    else if ch = 'k' ∨ ch = 'K' then CalcRes.ofDouble (d * 1024)
    else if ch = 'm' ∨ ch = 'M' then CalcRes.ofDouble (d * (1024 * 1024))
    else if ch = 'g' ∨ ch = 'G' then CalcRes.ofDouble (d * (1024 * 1024 * 1024))
    else if ch = 't' ∨ ch = 'T' then CalcRes.ofDouble (d * (1024 * 1024 * 1024 * 1024))
    else if ch = '%' then
      if d ≥ 90 ∨ d ≤ 0 then CalcRes.rejected "invalid value for percentage (must be 0..90)"
      else CalcRes.ofDouble d
    else if ch = 'b' ∨ ch = 'B' then
      if d < 128 then CalcRes.rejected "invalid value for number of bytes"
      else CalcRes.ofDouble d
    else CalcRes.rejected "invalid dimension"
  | Scanned.num d =>
    if d ≤ 0 then CalcRes.rejected "value out of range"
    else CalcRes.ofDouble d
  | Scanned.none => CalcRes.rejected "unrecognized argument"

/-- The function `calcint` of settings.c (sizes on the command line), applied
to the result of its `sscanf`; `dflt` is the parameter `def`, which `d` holds
when nothing was converted. -/
def calcint (sc : Scanned) (dflt : Nat) : CalcRes :=
  match sc with
  | Scanned.numch d ch =>
    if d ≤ 0 then CalcRes.rejected "invalid argument - must be > 0"
    else if ch = 'k' ∨ ch = 'K' then CalcRes.ofDouble (d * 1024)
    else if ch = 'm' ∨ ch = 'M' then CalcRes.ofDouble (d * (1024 * 1024))
    else if ch = 'g' ∨ ch = 'G' then CalcRes.ofDouble (d * (1024 * 1024 * 1024))
    else if ch = 't' ∨ ch = 'T' then CalcRes.ofDouble (d * (1024 * 1024 * 1024 * 1024))
    else if ch = '%' then
      if d ≥ 90 ∨ d ≤ 0 then CalcRes.rejected "invalid value for percentage (must be 0..90)"
      else CalcRes.ofDouble d
    else if ch = 'b' ∨ ch = 'B' then
      if d < 128 then CalcRes.rejected "invalid value for number of bytes"
      else CalcRes.ofDouble d
    else CalcRes.rejected "unrecognized size charakter"
  | Scanned.num d =>
    if d ≤ 0 then CalcRes.rejected "invalid argument - must be > 0"
    else if d ≤ 100 then CalcRes.rejected "invalid low value for option - missing suffix?"
    else CalcRes.ofDouble d
  | Scanned.none => CalcRes.unrecognized dflt

/-! ## Start-up validation (`main` in mbuffer.c) -/

/-- Bit of `Options` set by `-b`. -/
def OPTION_B : Nat := 1
/-- Bit of `Options` set by `-m`. -/
def OPTION_M : Nat := 2
/-- Bit of `Options` set by `-s`. -/
def OPTION_S : Nat := 4

/-- The settings that the consistency check of `main` reads and writes
(globals of settings.c and globals.c, under their names). -/
structure Settings where
  Options : Nat := 0
  Numblocks : Nat := 512
  Blocksize : Nat := 10240
  Outsize : Nat := 10240
  Totalmem : Nat := 0
  OutVolsize : Nat := 0
  AutoloadTime : Nat := 0
  Timeout : Nat := 0
  StartWrite : Dbl := 0
  StartRead : Dbl := 1
  NumSenders : Int := -1
  Hashers : Int := 0
  Autoloader : Bool := false
  NumVolumes : Nat := 1
  Infile : Option String := Option.none
  OutFile : Option String := Option.none
deriving DecidableEq

/-- The first part of the consistency check of `main` (mbuffer.c, the
`if (Options == ...)` chain): the relation of `-b`, `-s` and `-m`. A division
by zero, which ends the C program with a signal, is an error here. -/
def checkBufferSizing (s : Settings) : Except String Settings :=
  if s.Options = (OPTION_B ||| OPTION_M ||| OPTION_S) then
    if (s.Numblocks * s.Blocksize) % 2 ^ 64 ≠ s.Totalmem then
      Except.error "inconsistent options: blocksize * number of blocks != totalsize!"
    else Except.ok s
  else if s.Options = (OPTION_S ||| OPTION_M) ∨ s.Options = OPTION_M then
    if s.Totalmem < (s.Blocksize * 5) % 2 ^ 64 then
      Except.error "total memory must be large enough for 5 blocks"
    else if s.Blocksize = 0 then Except.error "division by zero"
    else Except.ok { s with Numblocks := s.Totalmem / s.Blocksize }
  else if s.Options = (OPTION_B ||| OPTION_M) then
    if s.Blocksize = 0 then Except.error "blocksize must be greater than 0"
    else if s.Totalmem ≤ s.Blocksize then
      Except.error "total memory must be larger than block size"
    else if s.Numblocks = 0 then Except.error "division by zero"
    else Except.ok { s with Blocksize := s.Totalmem / s.Numblocks }
  else Except.ok s

/-- The rest of the consistency check of `main`, after the sizing chain, up to
`Minimum block count is 5`. -/
def checkRemaining (s : Settings) : Except String Settings :=
  if s.StartRead < 1 ∧ s.StartWrite > 0 then
    Except.error "setting both low watermark and high watermark doesn't make any sense..."
  else if s.NumSenders - s.Hashers > 0 ∧ (s.Autoloader = true ∨ s.OutVolsize ≠ 0) then
    Except.error "multi-volume support is unsupported with multiple outputs"
  else if s.Autoloader = true ∧ s.OutFile = Option.none ∧ s.Infile = Option.none then
    Except.error "Setting autoloader time or command without using a device doesn't make any sense!"
  else if s.Autoloader = true ∧ s.OutFile ≠ Option.none ∧ s.Infile ≠ Option.none then
    Except.error "Which one is your autoloader? Input or output? Replace input or output with a pipe."
  else if s.NumVolumes ≠ 1 ∧ s.Infile = Option.none then
    Except.error "multi volume support for input needs an explicit given input device (option -i)"
  else if s.OutVolsize ≠ 0 ∧ s.OutFile = Option.none then
    Except.error "Setting OutVolsize without an output device doesn't make sense!"
  else if s.OutVolsize ≠ 0 ∧ s.OutVolsize < s.Blocksize then
    Except.error "If non-zero, OutVolsize must be at least as large as the buffer blocksize!"
  else if s.Numblocks < 5 then Except.error "Minimum block count is 5."
  else Except.ok s

/-- The consistency check for options of `main` (mbuffer.c), from
`autoload time must be smaller than watchdog timeout` to
`Minimum block count is 5`: the settings with which the buffer is created, or
the reason why the program ends. -/
def checkOptions (s : Settings) : Except String Settings :=
  if s.AutoloadTime ≠ 0 ∧ s.Timeout ≠ 0 ∧ s.Timeout ≤ s.AutoloadTime then
    Except.error "autoload time must be smaller than watchdog timeout"
  else
    match checkBufferSizing s with
    | Except.error e => Except.error e
    | Except.ok s1 => checkRemaining s1

/-- Settings after `-b 8 -s 2305843009213694464 -m 4k`: the block size is
`2^61 + 512`, and `8 * (2^61 + 512) = 2^64 + 4096`. -/
def overflowSettings : Settings :=
  { Options := 7, Numblocks := 8, Blocksize := 2 ^ 61 + 512, Outsize := 2 ^ 61 + 512,
    Totalmem := 4096 }

/-- Settings after `-s 1000 -m 10000`. -/
def sizedSettings : Settings :=
  { Options := 6, Blocksize := 1000, Outsize := 1000, Totalmem := 10000 }

/-! ## The ring of blocks

`inputThread` and `readBlock` (input.c) fill the blocks of `Buffer`, and
`outputThread` (mbuffer.c) drains them; the two threads meet in the semaphores
`Dev2Buf` (free blocks) and `Buf2Dev` (filled blocks) and in the globals
`Finish` and `Rest`.

The model below is the single-destination case (`dest->next == 0`, so
`NumSenders == 0` and `multipleSenders == 0`) with one input volume
(`NumVolumes == 1`), no watermarks (`StartRead == 1`, `StartWrite == 0`) and
without the `sendfile` path. The input is read with `read`, or through
`devread` when it is a block or character device (`IDevBSize != 0`). Rate
limits, pauses and the status display only take time and are left out;
`errormsg` only reports (`ErrorsFatal == 0`). Each thread is cut into steps
that touch the shared state at most once; a schedule decides which thread
takes the next step. -/

/-- The values of `errno` that `outputThread` tells apart after a failed
`write`. -/
inductive Errno where
  /-- interrupted by a signal -/
  | EINTR
  /-- `EINVAL` on a descriptor with `O_DIRECT`, which `disable_directio` then
  switches off (it returns 1) -/
  | EINVALdirect
  /-- `EINVAL` where `disable_directio` returns 0 -/
  | EINVAL
  | ENOMEM
  | ENOSPC
  /-- any other error -/
  | EIO
deriving DecidableEq

/-- The result of a call of `write`. The count is stored in `int num`; counts
are taken to fit. -/
inductive WRes where
  /-- `write` returned the count `k` (which may be 0) -/
  | ret (k : Nat)
  /-- `write` returned -1 with `errno` set to `e` -/
  | fail (e : Errno)
deriving DecidableEq

/-- The primary output seen from `outputThread`: `write dv n` is one call of
`write(out, ptr, n)` on the output in state `dv`, and `change dv` is the outcome
of the media change and reopen loop of `requestOutputVolume`: the state of the
reopened output, or `none` when the function returns -1. -/
structure Dev (σ : Type) where
  write : σ → Nat → WRes × σ
  change : σ → Option σ

/-- The locals `countENOSPC` and `tapeEWEOM` of `outputThread`. -/
structure TapeState where
  countENOSPC : Nat := 0
  tapeEWEOM : Bool := false
deriving DecidableEq

/-- What `outputThread` does with the result of one `write`. -/
inductive Next where
  /-- `continue`: the same chunk is written again -/
  | again
  /-- `requestOutputVolume` is called, then `continue` -/
  | newVolume
  /-- the error is reported and the main output is given up -/
  | failed
  /-- `rest -= num` -/
  | advance (k : Nat)
deriving DecidableEq

/-- The test `(num == 0) || ((num < 0) && (errno == ENOSPC))`. -/
def WRes.isENOSPC (r : WRes) : Bool :=
  decide (r = WRes.ret 0) || decide (r = WRes.fail Errno.ENOSPC)

/-- The body of the `do ... while (rest > 0)` loop of `outputThread` after the
`write`: the `if (TapeAware)` block, the `if (Terminal||Autoloader)` block and
the `if (-1 == num)` block. `termOrAuto` is `Terminal||Autoloader`. -/
def afterWrite (TapeAware termOrAuto : Bool) (t : TapeState) (r : WRes) : Next × TapeState :=
  let c1 := if TapeAware && r.isENOSPC then t.countENOSPC + 1 else t.countENOSPC
  if TapeAware && r.isENOSPC && decide (c1 ≤ 1) then
    (Next.again, { t with countENOSPC := c1 })
  else
    let t1 : TapeState :=
      if TapeAware then { countENOSPC := 0, tapeEWEOM := t.tapeEWEOM || decide (c1 > 0) }
      else t
    if termOrAuto && (decide (r = WRes.fail Errno.ENOMEM) || decide (r = WRes.fail Errno.ENOSPC)
        || decide (r = WRes.ret 0)) then
      (Next.newVolume, { t1 with tapeEWEOM := false })
    else
      match r with
      | WRes.fail Errno.EINVALdirect => (Next.again, t1)
      | WRes.fail Errno.EINTR => (Next.again, t1)
      | WRes.fail _ => (Next.failed, t1)
      | WRes.ret k => (Next.advance k, t1)

/-- Where `inputThread` (with `readBlock` inlined) stands. -/
inductive IPc where
  /-- at the head of the loop, before `if (Terminate)` -/
  | top
  /-- before `sem_wait(&Dev2Buf)` -/
  | semwait
  /-- in the loop of `readBlock`, before `read` -/
  | read
  /-- the block is full: before `sem_post(&Buf2Dev)` -/
  | post
  /-- end of file, `Rest` is set: before `Finish = at` -/
  | finish
  /-- end of file: before the last `sem_post(&Buf2Dev)` -/
  | finpost
  /-- the thread has returned -/
  | done
deriving DecidableEq

/-- Where `outputThread` stands. -/
inductive OPc where
  /-- at the head of the loop, before `sem_wait(&Buf2Dev)` -/
  | top
  /-- before `if (Terminate)` -/
  | termchk
  /-- before the first `if (Finish == at)` -/
  | finchk
  /-- `Finish == at` held: before `sem_getvalue` and the test of `Rest` -/
  | finfill
  /-- before the `-D` test `(OutVolsize != 0) && (Numout > 0) && ...` -/
  | volchk
  /-- in the `do ... while (rest > 0)` loop, before `write` -/
  | write
  /-- the block is written: before `sem_post(&Dev2Buf)` -/
  | post
  /-- before the second `if (Finish == at)` -/
  | fin2
  /-- `Finish == at` held: before `sem_getvalue` -/
  | fin2fill
  /-- write error: before `sem_post(&Dev2Buf)` and `terminateOutputThread(dest,1)` -/
  | errpost
  /-- before `terminateOutputThread(dest,status)` -/
  | term (status : Bool)
  /-- the thread has exited -/
  | done
  /-- the process was ended by a division by zero in the `-D` test -/
  | crashed
deriving DecidableEq

/-- The effect of `read(In, Buffer[slot] + off, ...)` returning `chunk`. -/
def store {α : Type} (buf : Nat → Nat → α) (slot off : Nat) (chunk : List α) : Nat → Nat → α :=
  fun sl o => if sl = slot ∧ off ≤ o then (chunk[o - off]?).getD (buf sl o) else buf sl o

/-- The `k` bytes at `Buffer[slot] + off`. -/
def load {α : Type} (buf : Nat → Nat → α) (slot off k : Nat) : List α :=
  (List.range k).map (fun i => buf slot (off + i))

/-! ### Reading from a device (`devread` in input.c) -/

/-- What the device answers to a call of `read`. -/
inductive DevAnswer where
  /-- the call returns as many bytes as are asked for and left on the device,
  but at most `got + 1` (0 at the end of the input) -/
  | upTo (got : Nat)
  /-- the call returns -1 with `errno` set to `e` -/
  | fail (e : Errno)
deriving DecidableEq

/-- The statics of `devread`, the device and the ring. `DevBuf` holds the
bytes of the last read into the staging buffer; `input` is what the device has
still to deliver; `Buffer slot offset` is the byte `Buffer[slot][offset]`. -/
structure DevRead (α : Type) where
  DevBuf : List α := []
  IFill : Nat := 0
  Off : Nat := 0
  hadzero : Bool := false
  input : List α
  Buffer : Nat → Nat → α
  errno : Option Errno := Option.none

/-- The loop of `devread(at)` from its head, with the local `num`: at most
`fuel` passes, the answers of the device taken from `script` (a device that
is asked beyond the script delivers one byte per call, until its end). The
value returned, the state
afterwards and the rest of the script. -/
def devreadLoop {α : Type} (Blocksize IDevBSize at_ : Nat) :
    Nat → List DevAnswer → Nat → DevRead α → Int × DevRead α × List DevAnswer
  | 0, script, _, s => (-1, s, script)
  | fuel + 1, script, num, s =>
    -- `if (IFill) { ... memcpy(Buffer[at]+num,DevBuf+Off,s); ... }`
    let k := if s.IFill ≤ Blocksize - num then s.IFill else Blocksize - num
    let s1 : DevRead α :=
      if s.IFill ≠ 0 then
        { s with Buffer := store s.Buffer at_ num ((s.DevBuf.drop s.Off).take k),
                 Off := s.Off + k, IFill := s.IFill - k }
      else s
    let num1 := if s.IFill ≠ 0 then num + k else num
    if s.IFill ≠ 0 ∧ num1 = Blocksize then ((num1 : Int), s1, script)
    else if s1.hadzero then (0, { s1 with hadzero := false }, script)
    else
      -- `in = read(In,Buffer[at] + num,Blocksize - num)`
      match script.headD (DevAnswer.upTo 0) with
      | DevAnswer.upTo got =>
        let n := min (got + 1) (min (Blocksize - num1) s1.input.length)
        if 0 < n then
          let s2 : DevRead α :=
            { s1 with Buffer := store s1.Buffer at_ num1 (s1.input.take n),
                      input := s1.input.drop n }
          if num1 + n ≠ Blocksize then
            devreadLoop Blocksize IDevBSize at_ fuel script.tail (num1 + n) s2
          else (((num1 + n : Nat) : Int), s2, script.tail)
        else
          (((num1 : Nat) : Int), { s1 with hadzero := decide (num1 ≠ 0) }, script.tail)
      | DevAnswer.fail Errno.EINVALdirect =>
        if num1 ≠ Blocksize then devreadLoop Blocksize IDevBSize at_ fuel script.tail num1 s1
        else (((num1 : Nat) : Int), s1, script.tail)
      | DevAnswer.fail Errno.ENOMEM =>
        -- `i2 = read(In,DevBuf,IDevBSize)`
        match script.tail.headD (DevAnswer.upTo 0) with
        | DevAnswer.upTo got =>
          let n := min (got + 1) (min IDevBSize s1.input.length)
          if 0 < n then
            let s2 : DevRead α :=
              { s1 with DevBuf := s1.input.take n, input := s1.input.drop n, IFill := n, Off := 0 }
            if num1 ≠ Blocksize then
              devreadLoop Blocksize IDevBSize at_ fuel script.tail.tail num1 s2
            else (((num1 : Nat) : Int), s2, script.tail.tail)
          else
            (((num1 : Nat) : Int), { s1 with hadzero := decide (num1 ≠ 0) }, script.tail.tail)
        | DevAnswer.fail Errno.EINVALdirect =>
          if num1 ≠ Blocksize then
            devreadLoop Blocksize IDevBSize at_ fuel script.tail.tail num1 s1
          else (((num1 : Nat) : Int), s1, script.tail.tail)
        | DevAnswer.fail e => (-1, { s1 with errno := some e }, script.tail.tail)
      | DevAnswer.fail e => (-1, { s1 with errno := some e }, script.tail)

/-- The function `devread` of input.c: the loop entered with `num = 0`. -/
def devread {α : Type} (Blocksize IDevBSize at_ fuel : Nat) (script : List DevAnswer)
    (s : DevRead α) : Int × DevRead α × List DevAnswer :=
  devreadLoop Blocksize IDevBSize at_ fuel script 0 s

/-! ### The state of the ring -/

/-- The settings the two threads read. -/
structure Cfg where
  Numblocks : Nat
  Blocksize : Nat
  Outsize : Nat
  OutVolsize : Nat := 0
  TapeAware : Bool := false
  Terminal : Bool := false

/-- The state of the ring, of the two threads and of the output, together with
a record of what `outputThread` handed to `write`. `α` is the type of a byte,
`σ` the type of the states of the output. -/
structure RingSt (α σ : Type) where
  /-- semaphore of the free blocks -/
  Dev2Buf : Nat
  /-- semaphore of the filled blocks -/
  Buf2Dev : Nat
  Finish : Int
  Rest : Nat
  Numin : Nat
  Numout : Nat
  Terminate : Bool
  MainOutOK : Bool
  Done : Bool
  Autoloader : Bool
  /-- `Buffer slot offset` is the byte `Buffer[slot][offset]` -/
  Buffer : Nat → Nat → α
  /-- `inputThread`: program counter, `at`, `num` of `readBlock`, and the part
  of the input that has not been read -/
  ipc : IPc
  iat : Nat
  num : Nat
  input : List α
  /-- the global `IDevBSize`: the block size of the input if it is a block or
  character device, else 0 -/
  IDevBSize : Nat
  /-- the statics of `devread` -/
  DevBuf : List α
  IFill : Nat
  Off : Nat
  hadzero : Bool
  /-- what the input device answers to the calls of `read` that `devread`
  makes, call by call -/
  answers : List DevAnswer
  /-- `outputThread`: program counter, `at` and further locals, and the state
  of the output -/
  opc : OPc
  oat : Nat
  blocksize : Nat
  rest : Nat
  haderror : Bool
  tape : TapeState
  out : σ
  /-- all bytes accepted by `write`, in order, over all volumes -/
  written : List α
  /-- the length of `written` at each reopening of the output: the volumes
  are the pieces of `written` between these marks -/
  cuts : List Nat
  /-- the bytes accepted by `write` from the block that is being written -/
  cur : List α
  /-- for every block that was written completely, the bytes it gave -/
  drained : List (List α)
  /-- the sizes requested from `write`, call by call -/
  issued : List Nat
  /-- the number of calls of `requestOutputVolume` -/
  volumes : Nat

/-- What a step of the input thread is told about its `read`. -/
inductive ReadRes where
  /-- the call returns as many bytes as are asked for and left in the input,
  but at most `got + 1` (0 at the end of the input) -/
  | upTo (got : Nat)
  /-- the call fails with `EINTR`, or with `EINVAL` after which
  `disable_directio` succeeds: `readBlock` runs `continue` -/
  | retry
deriving DecidableEq

/-- The pass through the loop of `readBlock` with `in = devread(at)`: one call
of `devread`, which takes the answers of the device from `answers`, and what
`readBlock` does with the value returned. The local `num` of `readBlock` keeps
its value when `devread` returns -1 with `EINTR` (or `EINVAL` on a descriptor
with `O_DIRECT`), while `devread` starts at the head of the block again. -/
def devreadStep {α σ : Type} (c : Cfg) (s : RingSt α σ) : RingSt α σ :=
  let res := devread c.Blocksize s.IDevBSize s.iat (c.Blocksize + s.answers.length + 2)
    s.answers
    { DevBuf := s.DevBuf, IFill := s.IFill, Off := s.Off, hadzero := s.hadzero,
      input := s.input, Buffer := s.Buffer }
  let s1 : RingSt α σ :=
    { s with DevBuf := res.2.1.DevBuf, IFill := res.2.1.IFill, Off := res.2.1.Off,
             hadzero := res.2.1.hadzero, input := res.2.1.input, Buffer := res.2.1.Buffer,
             answers := res.2.2 }
  if 0 < res.1 then
    -- `num += in`
    if s.num + res.1.toNat < c.Blocksize then { s1 with num := s.num + res.1.toNat }
    else { s1 with num := s.num + res.1.toNat, ipc := IPc.post }
  else if res.1 = -1 ∧
      (res.2.1.errno = some Errno.EINVALdirect ∨ res.2.1.errno = some Errno.EINTR) then
    -- `continue`
    if s.num < c.Blocksize then s1 else { s1 with ipc := IPc.post }
  else
    -- the end of the input, or an error: `Rest = num`
    { s1 with Rest := s.num, ipc := IPc.finish }

/-- The pass through the loop of `readBlock` with
`in = read(In, Buffer[at] + num, Blocksize - num)`, of which `r` is the
result, and what `readBlock` does with it. -/
def readStep {α σ : Type} (c : Cfg) (r : ReadRes) (s : RingSt α σ) : RingSt α σ :=
  match r with
  | ReadRes.retry => if s.num < c.Blocksize then s else { s with ipc := IPc.post }
  | ReadRes.upTo got =>
    let n := min (got + 1) (min (c.Blocksize - s.num) s.input.length)
    if 0 < n then
      let s1 := { s with Buffer := store s.Buffer s.iat s.num (s.input.take n),
                         input := s.input.drop n, num := s.num + n }
      if s1.num < c.Blocksize then s1 else { s1 with ipc := IPc.post }
    else { s with Rest := s.num, ipc := IPc.finish }

/-- One step of `inputThread` (input.c) with `readBlock` inlined: in the loop
of `readBlock`, `if (IDevBSize) in = devread(at); else in = read(...)`. -/
def inputStep {α σ : Type} (c : Cfg) (r : ReadRes) (s : RingSt α σ) : RingSt α σ :=
  match s.ipc with
  | IPc.top => if s.Terminate then { s with ipc := IPc.done } else { s with ipc := IPc.semwait }
  | IPc.semwait =>
    if s.Dev2Buf = 0 then s
    else { s with Dev2Buf := s.Dev2Buf - 1, num := 0, ipc := IPc.read }
  | IPc.read => if s.IDevBSize ≠ 0 then devreadStep c s else readStep c r s
  | IPc.finish => { s with Finish := (s.iat : Int), ipc := IPc.finpost }
  | IPc.finpost => { s with Buf2Dev := s.Buf2Dev + 1, ipc := IPc.done }
  | IPc.post =>
    { s with Buf2Dev := s.Buf2Dev + 1,
             iat := if s.iat + 1 = c.Numblocks then 0 else s.iat + 1,
             Numin := s.Numin + 1, ipc := IPc.top }
  | IPc.done => s

/-- The function `terminateOutputThread` of mbuffer.c, as far as it touches the
ring: `if (status) sem_post(&Dev2Buf)`, `Done = 1`, `pthread_exit`. -/
def terminateOutputThread {α σ : Type} (status : Bool) (s : RingSt α σ) : RingSt α σ :=
  { s with Dev2Buf := if status then s.Dev2Buf + 1 else s.Dev2Buf, Done := true,
           opc := OPc.done }

/-- The function `requestOutputVolume` of mbuffer.c together with the
`if (out == -1) haderror = 1` that follows each of its calls. A failure leaves
`Autoloader` at 0. -/
def requestOutputVolume {α σ : Type} (d : Dev σ) (s : RingSt α σ) : RingSt α σ :=
  match d.change s.out with
  | some o => { s with out := o, volumes := s.volumes + 1, cuts := s.cuts ++ [s.written.length] }
  | none => { s with haderror := true, Autoloader := false, volumes := s.volumes + 1 }

/-- The end of the loop body of `outputThread`: `if (Numblocks == ++at) at = 0`
and `Numout++`. -/
def nextBlock {α σ : Type} (c : Cfg) (s : RingSt α σ) : RingSt α σ :=
  { s with oat := if c.Numblocks = s.oat + 1 then 0 else s.oat + 1, Numout := s.Numout + 1,
           opc := OPc.top }

/-- The test `while (rest > 0)` of the write loop of `outputThread`. -/
def writeLoop {α σ : Type} (s : RingSt α σ) : RingSt α σ :=
  if 0 < s.rest then { s with opc := OPc.write } else { s with opc := OPc.post }

/-- One pass through the body of the write loop of `outputThread`. -/
def writeStep {α σ : Type} (c : Cfg) (d : Dev σ) (s : RingSt α σ) : RingSt α σ :=
  let n := min s.rest c.Outsize
  let off := s.blocksize - s.rest
  -- `if (haderror) { if (NumSenders == 0) Terminate = 1; num = (int)rest; } else num = write(...)`
  let r : WRes := if s.haderror then WRes.ret s.rest else (d.write s.out n).1
  let s1 : RingSt α σ :=
    if s.haderror then { s with Terminate := true }
    else { s with out := (d.write s.out n).2, issued := s.issued ++ [n] }
  let nx := afterWrite c.TapeAware (c.Terminal || s.Autoloader) s.tape r
  let s2 : RingSt α σ := { s1 with tape := nx.2 }
  match nx.1 with
  | Next.again => writeLoop s2
  | Next.newVolume => writeLoop (requestOutputVolume d s2)
  | Next.failed => { s2 with MainOutOK := false, Terminate := true, opc := OPc.errpost }
  | Next.advance k =>
    if s.haderror then writeLoop { s2 with rest := s2.rest - k }
    else writeLoop { s2 with rest := s2.rest - k,
                             written := s2.written ++ load s.Buffer s.oat off k,
                             cur := s2.cur ++ load s.Buffer s.oat off k }

/-- One step of `outputThread` (mbuffer.c). -/
def outputStep {α σ : Type} (c : Cfg) (d : Dev σ) (s : RingSt α σ) : RingSt α σ :=
  match s.opc with
  | OPc.top =>
    if s.Buf2Dev = 0 then s
    else { s with Buf2Dev := s.Buf2Dev - 1, rest := s.blocksize, cur := [], opc := OPc.termchk }
  | OPc.termchk =>
    if s.Terminate then { s with opc := OPc.term true } else { s with opc := OPc.finchk }
  | OPc.finchk =>
    if s.Finish = (s.oat : Int) then { s with opc := OPc.finfill }
    else { s with opc := OPc.volchk }
  | OPc.finfill =>
    if s.Buf2Dev = 0 ∧ s.Rest = 0 then { s with opc := OPc.term s.haderror }
    else { s with blocksize := s.Rest, rest := s.Rest, opc := OPc.volchk }
  | OPc.volchk =>
    if c.OutVolsize ≠ 0 ∧ 0 < s.Numout then
      if c.Blocksize = 0 ∨ c.OutVolsize / c.Blocksize = 0 then { s with opc := OPc.crashed }
      else if s.Numout % (c.OutVolsize / c.Blocksize) = 0 then
        { requestOutputVolume d s with opc := OPc.write }
      else { s with opc := OPc.write }
    else { s with opc := OPc.write }
  | OPc.write => writeStep c d s
  | OPc.post =>
    { s with Dev2Buf := s.Dev2Buf + 1, drained := s.drained ++ [s.cur], opc := OPc.fin2 }
  | OPc.fin2 =>
    if s.Finish = (s.oat : Int) then { s with opc := OPc.fin2fill } else nextBlock c s
  | OPc.fin2fill =>
    if s.Buf2Dev = 0 then { s with opc := OPc.term false } else nextBlock c s
  | OPc.errpost => { s with Dev2Buf := s.Dev2Buf + 1, opc := OPc.term true }
  | OPc.term status => terminateOutputThread status s
  | OPc.done => s
  | OPc.crashed => s

/-- An entry of a schedule: which thread takes the next step, and for the input
thread what its `read` returns if the step is a `read`. -/
inductive Ev where
  | input (r : ReadRes)
  | output
deriving DecidableEq

/-- One step of the process. -/
def step {α σ : Type} (c : Cfg) (d : Dev σ) (s : RingSt α σ) (e : Ev) : RingSt α σ :=
  if s.opc = OPc.crashed then s
  else
    match e with
    | Ev.input r => inputStep c r s
    | Ev.output => outputStep c d s

/-- The state after a schedule. -/
def run {α σ : Type} (c : Cfg) (d : Dev σ) (s : RingSt α σ) (es : List Ev) : RingSt α σ :=
  es.foldl (step c d) s

/-- The state in which `main` starts the threads: `sem_init(&Buf2Dev,0,0)`,
`sem_init(&Dev2Buf,0,Numblocks)`, the initial values of the globals, and the
locals of the threads at their declarations. `buf` is the content of the
allocated buffer, `X` the input, `o` the state of the opened output. The
input is no block or character device: `IDevBSize` has its initial value
0. -/
def init {α σ : Type} (c : Cfg) (buf : Nat → Nat → α) (X : List α) (o : σ)
    (autoloader : Bool) : RingSt α σ :=
  { Dev2Buf := c.Numblocks, Buf2Dev := 0, Finish := -1, Rest := 0, Numin := 0, Numout := 0,
    Terminate := false, MainOutOK := true, Done := false, Autoloader := autoloader,
    Buffer := buf,
    ipc := IPc.top, iat := 0, num := 0, input := X,
    IDevBSize := 0, DevBuf := [], IFill := 0, Off := 0, hadzero := false, answers := [],
    opc := OPc.top, oat := 0, blocksize := c.Blocksize, rest := c.Blocksize, haderror := false,
    tape := {}, out := o,
    written := [], cuts := [], cur := [], drained := [], issued := [], volumes := 0 }

/-- The state in which `main` starts the threads when it has set `IDevBSize`
to `bsz`, the `st_blksize` of an input that is a block or character device
(0 for any other input); `answers` is what the device will answer to the
calls of `read`. -/
def initDev {α σ : Type} (c : Cfg) (buf : Nat → Nat → α) (X : List α) (o : σ)
    (autoloader : Bool) (bsz : Nat) (answers : List DevAnswer) : RingSt α σ :=
  { init c buf X o autoloader with IDevBSize := bsz, answers := answers }

/-- An output that accepts every byte it is offered. -/
def fileDev : Dev Unit :=
  { write := fun _ n => (WRes.ret n, ()), change := fun _ => some () }

/-- A schedule that lets the two threads take turns `n` times, every `read`
returning all that is asked for. -/
def turns (n : Nat) : List Ev :=
  (List.replicate n [Ev.input (ReadRes.upTo 1000000), Ev.output]).flatten
/-! ### The invariant of the ring -/

/-- 1 once `inputThread` has taken a free block for the block it works on. -/
def IPc.waited : IPc → Nat
  | IPc.top => 0
  | IPc.semwait => 0
  | _ => 1

/-- 1 once `inputThread` has posted `Buf2Dev` for the end of the input. -/
def IPc.posted : IPc → Nat
  | IPc.done => 1
  | _ => 0

/-- The number of bytes of the current block that `readBlock` has stored. -/
def IPc.progress : IPc → Nat → Nat
  | IPc.top, _ => 0
  | IPc.semwait, _ => 0
  | _, num => num

/-- `readBlock` has seen the end of the input. -/
def IPc.atEof : IPc → Bool
  | IPc.finish => true
  | IPc.finpost => true
  | IPc.done => true
  | _ => false

/-- `Finish` has been set. -/
def IPc.finished : IPc → Bool
  | IPc.finpost => true
  | IPc.done => true
  | _ => false

/-- 1 once `outputThread` has taken a filled block in the current pass. -/
def OPc.waited : OPc → Nat
  | OPc.top => 0
  | _ => 1

/-- 1 once `outputThread` has given back the block of the current pass. -/
def OPc.posted : OPc → Nat
  | OPc.fin2 => 1
  | OPc.fin2fill => 1
  | _ => 0

/-- `outputThread` is in or past `terminateOutputThread`. -/
def OPc.ended : OPc → Bool
  | OPc.term _ => true
  | OPc.done => true
  | _ => false

/-- `outputThread` has fixed the length of the block it writes. -/
def OPc.holding : OPc → Bool
  | OPc.volchk => true
  | OPc.write => true
  | OPc.post => true
  | OPc.fin2 => true
  | OPc.fin2fill => true
  | _ => false

/-- `outputThread` is before the write loop of the current pass. -/
def OPc.early : OPc → Bool
  | OPc.top => true
  | OPc.termchk => true
  | OPc.finchk => true
  | OPc.finfill => true
  | _ => false

/-- The number of bytes of the current block that were written. -/
def OPc.progress : OPc → Nat → Nat → Nat
  | OPc.write, blocksize, rest => blocksize - rest
  | OPc.post, blocksize, _ => blocksize
  | OPc.fin2, blocksize, _ => blocksize
  | OPc.fin2fill, blocksize, _ => blocksize
  | _, _, _ => 0

/-- The number of blocks that were written completely. -/
def OPc.drainedCount : OPc → Nat → Nat → Nat
  | OPc.fin2, numout, _ => numout + 1
  | OPc.fin2fill, numout, _ => numout + 1
  | OPc.term _, numout, rest => if 0 < rest then numout + 1 else numout
  | OPc.done, numout, rest => if 0 < rest then numout + 1 else numout
  | _, numout, _ => numout

/-- The `i`-th block of the input `X` for the block size `bs`. -/
def blockOf {α : Type} (X : List α) (bs i : Nat) : List α :=
  (X.drop (i * bs)).take bs

/-- No error has been met: `Terminate` and `haderror` are 0 and the process
did not crash. -/
def clean {α σ : Type} (s : RingSt α σ) : Prop :=
  s.Terminate = false ∧ s.haderror = false ∧ s.opc ≠ OPc.crashed

/-- The error exits of `outputThread` are only taken after an error. -/
def Guard {α σ : Type} (s : RingSt α σ) : Prop :=
  (s.opc = OPc.errpost ∨ s.opc = OPc.term true) → (s.Terminate = true ∨ s.haderror = true)

/-- The output never takes more than it is offered. -/
def Dev.sane {σ : Type} (d : Dev σ) : Prop :=
  ∀ dv n k, (d.write dv n).1 = WRes.ret k → k ≤ n

/-- What holds in every state of a run without error, for the input `X`. -/
structure RingCore {α σ : Type} (c : Cfg) (X : List α) (s : RingSt α σ) : Prop where
  filled : s.Buf2Dev + s.Numout + s.opc.waited = s.Numin + s.ipc.posted
  free : s.opc.ended = false →
    s.Dev2Buf + s.Numin + s.ipc.waited = c.Numblocks + s.Numout + s.opc.posted
  iat_eq : s.iat = s.Numin % c.Numblocks
  oat_eq : s.oat = s.Numout % c.Numblocks
  input_eq : s.input = X.drop (s.Numin * c.Blocksize + s.ipc.progress s.num)
  ipos_le : s.Numin * c.Blocksize + s.ipc.progress s.num ≤ X.length
  num_lt : s.ipc = IPc.read → s.num < c.Blocksize
  num_post : s.ipc = IPc.post → s.num = c.Blocksize
  eof : s.ipc.atEof = true → s.input = [] ∧ s.Rest = s.num ∧ s.num < c.Blocksize
  finish_set : s.ipc.finished = true → s.Finish = (s.iat : Int)
  finish_unset : s.ipc.finished = false → s.Finish = -1
  buf_full : ∀ b o, s.Numout + s.opc.posted ≤ b → b < s.Numin → o < c.Blocksize →
    X[b * c.Blocksize + o]? = some (s.Buffer (b % c.Numblocks) o)
  buf_cur : ∀ o, o < s.ipc.progress s.num →
    X[s.Numin * c.Blocksize + o]? = some (s.Buffer (s.Numin % c.Numblocks) o)
  ended : s.opc.ended = true → s.ipc = IPc.done ∧ s.Numout = s.Numin ∧ s.written = X
  seen : s.opc = OPc.finfill ∨ s.opc = OPc.fin2fill → s.Finish = (s.oat : Int)
  blk : s.opc.holding = true →
    (s.Numout < s.Numin ∧ s.blocksize = c.Blocksize) ∨
    (s.Numout = s.Numin ∧ s.ipc = IPc.done ∧ s.blocksize = s.Rest ∧ 0 < s.Rest)
  blk0 : s.opc.early = true → s.blocksize = c.Blocksize
  opos : s.opc.ended = false →
    s.written = X.take (s.Numout * c.Blocksize + s.opc.progress s.blocksize s.rest)
  cur_eq : s.opc.ended = false → s.opc ≠ OPc.top →
    s.cur = (X.drop (s.Numout * c.Blocksize)).take (s.opc.progress s.blocksize s.rest)
  rest_le : s.opc = OPc.write → 0 < s.rest ∧ s.rest ≤ s.blocksize
  rest_eq : s.opc.early = true ∨ s.opc = OPc.volchk → s.opc ≠ OPc.top → s.rest = s.blocksize
  drained_eq : s.drained =
    (List.range (s.opc.drainedCount s.Numout s.Rest)).map (blockOf X c.Blocksize)
  out_le : s.Numout ≤ s.Numin
  plain : s.IDevBSize = 0

/-- The invariant of the ring for the input `X`. -/
def RingInv {α σ : Type} (c : Cfg) (X : List α) (s : RingSt α σ) : Prop :=
  Guard s ∧ (clean s → RingCore c X s)

/-- Both threads have ended. -/
def finished {α σ : Type} (s : RingSt α σ) : Prop :=
  s.ipc = IPc.done ∧ s.opc = OPc.done

/-! ### Progress -/

/-- What makes the write loop of `outputThread` come to an end on the output
`d` when `TapeAware` is `ta` and `Terminal||Autoloader` is `tm`: a write of at
least one byte never leads to the error exit, every count it returns is
positive, and a potential `pot` of the output and the tape counters, at most
`P`, goes down with every retry and every change of volume, which succeeds. -/
structure Dev.Live {σ : Type} (d : Dev σ) (ta tm : Bool) (pot : σ → TapeState → Nat)
    (P : Nat) : Prop where
  bound : ∀ dv t, pot dv t ≤ P
  not_failed : ∀ dv t n, 0 < n → (afterWrite ta tm t (d.write dv n).1).1 ≠ Next.failed
  advance : ∀ dv t n k, 0 < n → (afterWrite ta tm t (d.write dv n).1).1 = Next.advance k → 1 ≤ k
  again : ∀ dv t n, 0 < n → (afterWrite ta tm t (d.write dv n).1).1 = Next.again →
    pot (d.write dv n).2 (afterWrite ta tm t (d.write dv n).1).2 < pot dv t
  newVolume : ∀ dv t n, 0 < n → (afterWrite ta tm t (d.write dv n).1).1 = Next.newVolume →
    ∃ dv', d.change (d.write dv n).2 = some dv' ∧
      pot dv' (afterWrite ta tm t (d.write dv n).1).2 < pot dv t

/-- How far `inputThread` is from the end of its pass. -/
def IPc.rank : IPc → Nat
  | IPc.post => 7
  | IPc.top => 6
  | IPc.semwait => 5
  | IPc.read => 4
  | IPc.finish => 2
  | IPc.finpost => 1
  | IPc.done => 0

/-- How far `outputThread` is from the end of its pass; `B` bounds the rank of
the write loop. -/
def OPc.rank (B P rest pot : Nat) : OPc → Nat
  | OPc.top => B + 10
  | OPc.termchk => B + 9
  | OPc.finchk => B + 8
  | OPc.finfill => B + 7
  | OPc.volchk => B + 6
  | OPc.write => rest * (P + 1) + pot + 5
  | OPc.post => 4
  | OPc.fin2 => 3
  | OPc.fin2fill => 2
  | OPc.term _ => 1
  | _ => 0

/-- The number of steps `inputThread` can still take, at most. -/
def measureIn {α σ : Type} (s : RingSt α σ) : Nat :=
  8 * s.input.length + s.ipc.rank

/-- The number of steps `outputThread` can still take, at most, for an input
of `K` full blocks. -/
def measureOut {α σ : Type} (c : Cfg) (K P : Nat) (pot : σ → TapeState → Nat)
    (s : RingSt α σ) : Nat :=
  (c.Blocksize * (P + 1) + P + 11) * (K + 1 - s.Numout)
    + s.opc.rank (c.Blocksize * (P + 1) + P) P s.rest (pot s.out s.tape)

/-- Every write of at least one byte succeeds, possibly in part. -/
def Dev.accepting {σ : Type} (d : Dev σ) : Prop :=
  ∀ dv n, 0 < n → ∃ k, (d.write dv n).1 = WRes.ret k ∧ 1 ≤ k

/-- The settings of scenarios 1 and 2 of the specification: 5 blocks of 16
bytes. -/
def cfg16 : Cfg := { Numblocks := 5, Blocksize := 16, Outsize := 16 }

/-- The input of scenario 2: the letter `A` 33 times. -/
def input33 : List Nat := List.replicate 33 65

/-- The input of scenario 1: the 80 bytes `00..4F`. -/
def input80 : List Nat := List.range 80

/-! ### Outputs and tape end-of-media -/

/-- An output on which every `write` fails with `EIO`. -/
def brokenDev : Dev Unit :=
  { write := fun _ _ => (WRes.fail Errno.EIO, ()), change := fun _ => none }

/-- The locals `countENOSPC` and `tapeEWEOM` after the results `rs` of
successive calls of `write` in `outputThread`, starting from `t`. -/
def tapeAfter (ta tm : Bool) (t : TapeState) (rs : List WRes) : TapeState :=
  rs.foldl (fun u r => (afterWrite ta tm u r).2) t

/-- What `outputThread` does after each of the results `rs` of successive calls
of `write`, the locals `countENOSPC` and `tapeEWEOM` starting as `t`. -/
def tapeRun (ta tm : Bool) : TapeState → List WRes → List Next
  | _, [] => []
  | t, r :: rs => (afterWrite ta tm t r).1 :: tapeRun ta tm (afterWrite ta tm t r).2 rs

/-- The number of results at the end of `rs` that are `ENOSPC` or a count
of zero. -/
def trailingENOSPC (rs : List WRes) : Nat :=
  (rs.reverse.takeWhile WRes.isENOSPC).length

/-- A schedule in which `inputThread` fills one block, `outputThread` then
runs until it has exited, and `inputThread` takes one more step. -/
def errorSchedule : List Ev :=
  List.replicate 4 (Ev.input (ReadRes.upTo 1000000)) ++ List.replicate 7 Ev.output
    ++ [Ev.input (ReadRes.upTo 1000000)]

/-- Every call of `write` takes all the bytes it is offered. -/
def Dev.full {σ : Type} (d : Dev σ) : Prop :=
  ∀ dv n, (d.write dv n).1 = WRes.ret n

/-- Settings as after `-b 5 -s 100`: 5 blocks of 100 bytes. -/
def cfg100 : Cfg := { Numblocks := 5, Blocksize := 100, Outsize := 100 }

/-- An input of 250 bytes. -/
def input250 : List Nat := List.replicate 250 65

/-! ## The barrier of the senders

With more than one destination (`dest->next != 0`) the block that
`outputThread` is about to write is handed to the threads of the other
destinations (`senderThread` of mbuffer.c, `hashThread` of hashing.c) through
`syncSenders`: every thread calls it once per block, the call of the last one
to arrive publishes the block in `SendAt` and `SendSize` and wakes the others.
The model is for `Terminate == 0` and for senders that have reached their
loop. A `pthread_cond_wait` returns when the condition has been broadcast;
where the system allows it (`FanSt.spurious`) it also returns without a
broadcast, a spurious wakeup, and `syncSenders` has no loop around its wait.
`SendMut` is held while a thread is between its `pthread_mutex_lock` and the
matching unlock or wait. Block sizes fit the `int` that `syncSenders` takes. -/

/-- Where a thread stands in `syncSenders` and around it. -/
inductive SPc where
  /-- before `pthread_mutex_lock(&SendMut)` in `syncSenders` -/
  | call
  /-- last to arrive, `SendMut` held: before `SendAt = buf` -/
  | setAt
  /-- before `SendSize = size` -/
  | setSize
  /-- before `buf = 0`, the `sem_post(&Dev2Buf)` or `skipped = 1`, and the unlock -/
  | post
  /-- before `pthread_cond_broadcast(&SendCond)` -/
  | bcast
  /-- in `pthread_cond_wait(&SendCond,&SendMut)`, the condition not yet broadcast -/
  | waiting
  /-- in `pthread_cond_wait`, the wait over (the condition broadcast, or a
  spurious wakeup): before `SendMut` is taken again and released by
  `pthread_cleanup_pop(1)` -/
  | woken
  /-- `syncSenders` has returned -/
  | back
  /-- `senderThread`, `hashThread`: in the loop over the block, before the use of
  `SendAt` -/
  | write
  /-- the thread has exited -/
  | done
deriving DecidableEq

/-- A thread of the fan-out: `outputThread` (`isMain`), seen through its calls of
`syncSenders`, or a `senderThread` or `hashThread`. -/
structure Th where
  isMain : Bool
  pc : SPc := SPc.call
  /-- `outputThread`: the blocks `(Buffer[at], blocksize)` it has still to pass to
  `syncSenders` -/
  todo : List (Nat × Int) := []
  /-- a sender: a `write` has failed, `terminateSender(out,dest,1)` is under way -/
  failed : Bool := false
  /-- a sender: the local `size` -/
  size : Int := 0
  /-- a sender: the value of `SendAt` in the first pass of the loop over the block -/
  first : Option Nat := none
  /-- a sender: the blocks `(SendAt, size)` it has used, in order -/
  obs : List (Nat × Int) := []
  /-- a sender: some later pass of the loop over a block found another `SendAt` -/
  torn : Bool := false

/-- The statics of `syncSenders`, the globals it shares with the threads, and
the threads. -/
structure FanSt where
  buf : Nat
  size : Int
  skipped : Bool
  ActSenders : Int
  NumSenders : Int
  SendAt : Nat
  SendSize : Int
  /-- `SendMut` is held -/
  lock : Bool
  /-- the number of `sem_post(&Dev2Buf)` that `syncSenders` has made -/
  posts : Nat
  /-- the number of times the condition has been broadcast -/
  rounds : Nat
  /-- which statement the thread that arrived last is before: 1 `SendAt = buf`,
  2 `SendSize = size`, 3 the post and unlock, 4 the broadcast; 0 if there is none -/
  stage : Nat
  threads : List Th
  /-- the system lets `pthread_cond_wait` return without a broadcast (a
  spurious wakeup, which POSIX allows) -/
  spurious : Bool := false
  /-- the assertion `(buf != 0) || Terminate` has failed and ended the process -/
  aborted : Bool := false

/-- The effect of `pthread_cond_broadcast(&SendCond)` on a thread. -/
def wake (t : Th) : Th :=
  if t.pc = SPc.waiting then { t with pc := SPc.woken } else t

/-- One step of a thread at `pc` inside `syncSenders(b, s)`; `b = 0` is the null
pointer. -/
def syncSenders (b : Nat) (s : Int) (pc : SPc) (st : FanSt) : SPc × FanSt :=
  match pc with
  | SPc.call =>
    if st.lock then (SPc.call, st)
    else
      let buf := if b ≠ 0 then b else st.buf
      let size := if b ≠ 0 then s else st.size
      let num := if s < 0 then st.NumSenders - 1 else st.NumSenders
      if st.ActSenders - 1 ≠ 0 then
        (SPc.waiting, { st with buf := buf, size := size, NumSenders := num,
                                ActSenders := st.ActSenders - 1 })
      else
        (SPc.setAt, { st with buf := buf, size := size, NumSenders := num,
                              ActSenders := num + 1, lock := true, stage := 1 })
  | SPc.setAt =>
    -- `assert((buf != 0) || Terminate)`, with `Terminate == 0`
    if st.buf = 0 then (SPc.setAt, { st with aborted := true })
    else (SPc.setSize, { st with SendAt := st.buf, stage := 2 })
  | SPc.setSize => (SPc.post, { st with SendSize := st.size, stage := 3 })
  | SPc.post =>
    (SPc.bcast, { st with buf := 0, posts := if st.skipped then st.posts + 1 else st.posts,
                          skipped := true, lock := false, stage := 4 })
  | SPc.bcast =>
    (SPc.back, { st with threads := st.threads.map wake, rounds := st.rounds + 1, stage := 0 })
  | SPc.waiting => if st.spurious then (SPc.woken, st) else (SPc.waiting, st)
  | SPc.woken => if st.lock then (SPc.woken, st) else (SPc.back, st)
  | pc => (pc, st)

/-- How a call of `write` (or the hashing of the block) by a sender ends: the
block is done, there is more of it to write (also after `EINTR`), or the
write has failed. -/
inductive Outcome where
  | all
  | part
  | error
deriving DecidableEq

/-- The arguments of the call of `syncSenders` that a thread is in:
`outputThread` passes its next block, and `(0xdeadbeef, 0)` after the last;
a sender passes `(0, 0)`, and `(0, -1)` from `terminateSender`. -/
def syncArgs (t : Th) : Nat × Int :=
  if t.isMain then t.todo.headD (0xdeadbeef, 0)
  else (0, if t.failed then -1 else 0)

/-- One step of the thread `t` outside `syncSenders`. -/
def ownStep (o : Outcome) (st : FanSt) (t : Th) : Th :=
  match t.pc with
  | SPc.back =>
    if t.isMain then
      match t.todo with
      | _ :: rest => { t with todo := rest, pc := SPc.call }
      | [] => { t with pc := SPc.done }
    else if t.failed then { t with pc := SPc.done }
    else if st.SendSize = 0 then { t with size := st.SendSize, pc := SPc.done }
    else { t with size := st.SendSize, pc := SPc.write }
  | SPc.write =>
    let t1 : Th :=
      match t.first with
      | none => { t with obs := t.obs ++ [(st.SendAt, t.size)], first := some st.SendAt }
      | some a => { t with torn := t.torn || decide (a ≠ st.SendAt) }
    match o with
    | Outcome.all => { t1 with pc := SPc.call, first := none }
    | Outcome.part => t1
    | Outcome.error => { t1 with pc := SPc.call, first := none, failed := true }
  | _ => t

/-- An entry of a schedule: the thread that takes the next step, and how its
`write` ends if the step is one. -/
structure FanEv where
  thread : Nat
  outcome : Outcome := Outcome.all
deriving DecidableEq

/-- One step of the fan-out; there is none after the process has ended. -/
def fanStep (st : FanSt) (e : FanEv) : FanSt :=
  if st.aborted then st
  else
    match st.threads[e.thread]? with
    | none => st
    | some t =>
      match t.pc with
      | SPc.back => { st with threads := st.threads.set e.thread (ownStep e.outcome st t) }
      | SPc.write => { st with threads := st.threads.set e.thread (ownStep e.outcome st t) }
      | SPc.done => st
      | pc =>
        { (syncSenders (syncArgs t).1 (syncArgs t).2 pc st).2 with
          threads := (syncSenders (syncArgs t).1 (syncArgs t).2 pc st).2.threads.set e.thread
            { t with pc := (syncSenders (syncArgs t).1 (syncArgs t).2 pc st).1 } }

/-- The state after a schedule. -/
def fanRun (st : FanSt) (es : List FanEv) : FanSt :=
  es.foldl fanStep st

/-- The state in which `outputThread` has created `K` senders and has the
blocks `ps` to write: `ActSenders = NumSenders + 1`, the statics and globals
at their initial values; on a system on which `pthread_cond_wait` returns
after a broadcast only. -/
def fanInit (K : Nat) (ps : List (Nat × Int)) : FanSt :=
  { buf := 0, size := 0, skipped := false, ActSenders := (K : Int) + 1, NumSenders := K,
    SendAt := 0, SendSize := 0, lock := false, posts := 0, rounds := 0, stage := 0,
    threads := { isMain := true, todo := ps } :: List.replicate K { isMain := false } }

/-- The block of round `r` (counted from 0): the `r`-th block of `outputThread`,
and `(0xdeadbeef, 0)` after the last. -/
def pairAt (ps : List (Nat × Int)) (r : Nat) : Nat × Int :=
  ps.getD r (0xdeadbeef, 0)

/-- The thread is the last to arrive and has not yet broadcast. -/
def SPc.isLast : SPc → Bool
  | SPc.setAt => true
  | SPc.setSize => true
  | SPc.post => true
  | SPc.bcast => true
  | _ => false

/-- The value of `FanSt.stage` that belongs to a program counter. -/
def SPc.stageOf : SPc → Nat
  | SPc.setAt => 1
  | SPc.setSize => 2
  | SPc.post => 3
  | SPc.bcast => 4
  | _ => 0

/-- The thread is in the call of `syncSenders` of the current round and has
not been woken. -/
def SPc.early : SPc → Bool
  | SPc.call => true
  | SPc.waiting => true
  | SPc.setAt => true
  | SPc.setSize => true
  | SPc.post => true
  | SPc.bcast => true
  | _ => false

/-- 1 if the thread has still to arrive in the current round. -/
def Th.isA (t : Th) : Nat :=
  if t.pc = SPc.call ∨
    (t.failed = false ∧ (t.pc = SPc.write ∨ t.pc = SPc.woken ∨ t.pc = SPc.back)) then 1 else 0

/-- 1 if the thread is counted in `NumSenders + 1`. -/
def Th.isIn (t : Th) : Nat :=
  if t.pc = SPc.call ∨ (t.failed = false ∧ t.pc ≠ SPc.done) then 1 else 0

/-- 1 if the thread is the last to arrive and has not yet broadcast. -/
def Th.isL (t : Th) : Nat :=
  if t.pc.isLast then 1 else 0

/-- The number of threads counted by `f`. -/
def cnt (f : Th → Nat) (l : List Th) : Nat :=
  (l.map f).sum

/-- What holds of a thread in every state of the fan-out of the blocks `ps`. -/
structure ThOK (ps : List (Nat × Int)) (st : FanSt) (t : Th) : Prop where
  stage_pc : t.pc.isLast = true → st.stage = t.pc.stageOf
  first_none : t.pc ≠ SPc.write → t.first = none
  not_torn : t.torn = false
  obs_prefix : t.obs <+: ps
  failed_pc : t.failed = true → t.pc ≠ SPc.write ∧ t.isMain = false
  main_pc : t.isMain = true → t.pc ≠ SPc.write
  early : t.pc.early = true → t.failed = false →
    if t.isMain then t.todo = ps.drop st.rounds else t.obs = ps.take st.rounds
  late : t.pc = SPc.woken ∨ t.pc = SPc.back → t.failed = false →
    1 ≤ st.rounds ∧
    if t.isMain then t.todo = ps.drop (st.rounds - 1) else t.obs = ps.take (st.rounds - 1)
  writing : t.pc = SPc.write →
    1 ≤ st.rounds ∧ st.rounds ≤ ps.length ∧ t.size = (pairAt ps (st.rounds - 1)).2 ∧
    (t.first = none → t.obs = ps.take (st.rounds - 1)) ∧
    (∀ a, t.first = some a → a = st.SendAt ∧ t.obs = ps.take st.rounds)
  finished : t.pc = SPc.done → t.failed = false →
    if t.isMain then st.rounds = ps.length + 1 else t.obs = ps
  main_waiting : t.isMain = true → t.pc = SPc.waiting → st.stage = 0 →
    st.buf = (pairAt ps st.rounds).1 ∧ st.size = (pairAt ps st.rounds).2

/-- What holds in every state of the fan-out of the blocks `ps`. -/
structure FanInv (ps : List (Nat × Int)) (st : FanSt) : Prop where
  rounds_le : st.rounds ≤ ps.length + 1
  stage_le : st.stage ≤ 4
  lock_eq : st.lock = true ↔ (1 ≤ st.stage ∧ st.stage ≤ 3)
  cntL : cnt Th.isL st.threads = if st.stage = 0 then 0 else 1
  open_counts : st.stage = 0 → st.rounds ≤ ps.length →
    st.ActSenders = cnt Th.isA st.threads ∧ st.NumSenders + 1 = cnt Th.isIn st.threads ∧
    1 ≤ st.ActSenders
  last_counts : st.stage ≠ 0 →
    st.rounds ≤ ps.length ∧ cnt Th.isA st.threads = 0 ∧
    st.ActSenders = cnt Th.isIn st.threads ∧ st.NumSenders + 1 = cnt Th.isIn st.threads
  closed : st.rounds = ps.length + 1 →
    st.stage = 0 ∧ ∀ t ∈ st.threads, t.pc = SPc.woken ∨ t.pc = SPc.back ∨ t.pc = SPc.done
  globals : st.stage = 0 → 1 ≤ st.rounds →
    st.SendAt = (pairAt ps (st.rounds - 1)).1 ∧ st.SendSize = (pairAt ps (st.rounds - 1)).2
  statics1 : st.stage = 1 →
    st.buf = (pairAt ps st.rounds).1 ∧ st.size = (pairAt ps st.rounds).2
  statics2 : st.stage = 2 →
    st.SendAt = (pairAt ps st.rounds).1 ∧ st.size = (pairAt ps st.rounds).2
  statics3 : 3 ≤ st.stage →
    st.SendAt = (pairAt ps st.rounds).1 ∧ st.SendSize = (pairAt ps st.rounds).2
  skipped_eq : st.skipped = decide (1 ≤ st.rounds + (if st.stage = 4 then 1 else 0))
  posts_eq : st.posts = st.rounds + (if st.stage = 4 then 1 else 0) - 1
  has_main : ∃ m, st.threads[0]? = some m ∧ m.isMain = true
  threads_ok : ∀ t ∈ st.threads, ThOK ps st t

/-- The system has no spurious wakeups and no assertion has failed. -/
def FanSt.quiet (st : FanSt) : Prop :=
  st.spurious = false ∧ st.aborted = false

/-- How far a thread is from the end of its pass through `syncSenders` and the
block. -/
def SPc.rank : SPc → Nat
  | SPc.call => 9
  | SPc.waiting => 8
  | SPc.setAt => 7
  | SPc.setSize => 6
  | SPc.post => 5
  | SPc.bcast => 4
  | SPc.woken => 3
  | SPc.back => 2
  | SPc.write => 1
  | SPc.done => 0

/-- The number of steps a thread can still take, at most, when `outputThread`
has `n` blocks in all. -/
def Th.rank (n : Nat) (t : Th) : Nat :=
  (if t.isMain then 12 * t.todo.length else if t.failed then 0 else 12 * (n - t.obs.length))
    + (if t.pc = SPc.write ∧ t.first ≠ none then 10 else t.pc.rank)

/-- Three blocks of `outputThread`: two of 16 bytes and a last one of 1 byte. -/
def ps3 : List (Nat × Int) := [(4096, 16), (4112, 16), (4128, 1)]

/-- The branch `-P <arg>` of `parseOption`; `sc` is the value that
`sscanf(arg,"%lf",&StartWrite)` converted, if it converted one: a number, an
infinity, or NaN (for the text `nan`). -/
def parseOption_P (sc : Option Dbl) (s : Settings) : Except String Settings :=
  let sw : Dbl := (match sc with | some d => d | Option.none => 0) / 100
  if sw > 1 ∨ sw ≤ 0 then
    Except.error "error in argument -P: must be bigger than 0 and less or equal 100"
  else Except.ok { s with StartWrite := sw }

/-- The branch `-p <arg>` of `parseOption`; `sc` is the value that
`sscanf(arg,"%lf",&StartRead)` converted, if it converted one. -/
def parseOption_p (sc : Option Dbl) (s : Settings) : Except String Settings :=
  let sr : Dbl := match sc with | some d => d / 100 | Option.none => 1
  if sr ≥ 1 ∨ sr < 0 then
    Except.error "error in argument -p: must be bigger or equal to 0 and less than 100"
  else Except.ok { s with StartRead := sr }

/-- The key `startread` of `readConfigFile`: an invalid value is ignored with a
warning, which leaves the settings as they are. -/
def readConfigFile_startread (sc : Option Dbl) (s : Settings) : Settings :=
  let sr : Dbl := match sc with | some d => d / 100 | Option.none => 0
  if sr ≤ 1 ∧ sr > 0 then { s with StartRead := sr } else s

/-- The key `startwrite` of `readConfigFile`. -/
def readConfigFile_startwrite (sc : Option Dbl) (s : Settings) : Settings :=
  let sw : Dbl := match sc with | some d => d / 100 | Option.none => 0
  if sw ≤ 1 ∧ sw > 0 then { s with StartWrite := sw } else s

/-- One item of the configuration that sets a watermark, with the result of
its `sscanf`. -/
inductive WatermarkArg where
  /-- the option `-P` -/
  | optP (sc : Option Dbl)
  /-- the option `-p` -/
  | optp (sc : Option Dbl)
  /-- the line `startread = ...` of a config file -/
  | startread (sc : Option Dbl)
  /-- the line `startwrite = ...` of a config file -/
  | startwrite (sc : Option Dbl)

/-- The value that `sscanf` converted for the item. -/
def WatermarkArg.value : WatermarkArg → Option Dbl
  | WatermarkArg.optP sc => sc
  | WatermarkArg.optp sc => sc
  | WatermarkArg.startread sc => sc
  | WatermarkArg.startwrite sc => sc

/-- The effect of one watermark item on the settings. -/
def applyWatermarkArg (s : Settings) : WatermarkArg → Except String Settings
  | WatermarkArg.optP sc => parseOption_P sc s
  | WatermarkArg.optp sc => parseOption_p sc s
  | WatermarkArg.startread sc => Except.ok (readConfigFile_startread sc s)
  | WatermarkArg.startwrite sc => Except.ok (readConfigFile_startwrite sc s)

/-- Config-file loading and option parsing, restricted to the watermark items:
the items are handled one after the other, the first `fatal` ends the
program. -/
def applyWatermarkArgs (s : Settings) : List WatermarkArg → Except String Settings
  | [] => Except.ok s
  | a :: l =>
    match applyWatermarkArg s a with
    | Except.error e => Except.error e
    | Except.ok s1 => applyWatermarkArgs s1 l

/-! ## The autoload time (`parseOption` in settings.c, `requestOutputVolume`
in mbuffer.c) -/

/-- The limit `UINT_MAX`. -/
def UINT_MAX : Int := 2 ^ 32 - 1

/-- The branch `-a <arg>` of `parseOption`; `v` is the value returned by
`strtol(arg,0,0)` and `einval` tells whether `errno` is `EINVAL`. The
messages of `errormsg` and `warningmsg` leave the settings as they are. -/
def parseOption_a (v : Int) (einval : Bool) (s : Settings) : Settings :=
  let at_ : Int := v - 1
  if at_ = 0 ∧ einval = true then s
  else if at_ < 0 ∨ at_ > UINT_MAX then s
  else { s with Autoloader := true, AutoloadTime := at_.toNat }

/-- The seconds for which `requestOutputVolume` sleeps after the autoload
command has run: `if (AutoloadTime) sleep(AutoloadTime)`. -/
def autoloadSleep (s : Settings) : Nat :=
  if s.AutoloadTime ≠ 0 then s.AutoloadTime else 0

/-! ## Time differences and the rate limiter (common.c) -/

/-- A `struct timespec`. -/
structure timespec where
  tv_sec : Int
  tv_nsec : Int
deriving DecidableEq

/-- The range of a `long long` (and of a `long` on an LP64 platform). -/
def inLL (x : Int) : Prop := -2 ^ 63 ≤ x ∧ x < 2 ^ 63

instance (x : Int) : Decidable (inLL x) := by unfold inLL; infer_instance

/-- A signed 64-bit value from an integer, by wrapping: the result of the
conversion that follows an unsigned addition. -/
def wrapLL (x : Int) : Int := (x + 2 ^ 63) % 2 ^ 64 - 2 ^ 63

/-- The function `timediff` of common.c: the microseconds from `t2` to `t1`,
together with the value that `*t2` has afterwards. The division of C
truncates towards zero. A signed overflow, which is undefined in C, gives no
result. -/
def timediff (t1 t2 : timespec) : Option (Int × timespec) :=
  let secs : Int := t1.tv_sec - t2.tv_sec
  let nsecs : Int := t1.tv_nsec - t2.tv_nsec
  let tdiff : Int := secs * 1000000 + nsecs.tdiv 1000
  if inLL secs ∧ inLL (secs * 1000000) ∧ inLL nsecs ∧ inLL tdiff then
    if tdiff < 0 then some (0, t1) else some (tdiff, t2)
  else Option.none

/-- Truncation of a number towards zero, for values in the range of
`long long` only. -/
def truncLL (q : ℚ) : Option Int :=
  let z : Int := if 0 ≤ q then ⌊q⌋ else ⌈q⌉
  if inLL z then some z else Option.none

/-- The conversion `(long long)x` of a `double`: truncation towards zero,
defined for numbers in the range of the type only. -/
def Dbl.toLL : Dbl → Option Int
  | Dbl.num q => truncLL q
  | _ => Option.none

/-- What a call of `enforceSpeedLimit` did: the value returned, the value of
`*last` afterwards, and the argument of `mt_usleep` if it was called. -/
structure SpeedRes where
  ret : Int
  last : timespec
  slept : Option Int
deriving DecidableEq

/-- The function `enforceSpeedLimit` of common.c. `Blocksize` and `TickTime`
are the globals, `now` is the clock at the call and `woke` the clock after
`mt_usleep`. The arithmetic on `dt`, `req` and the value returned after the
sleep is that of `double`; a conversion to `long long` that is out of range
and a signed overflow, which C leaves undefined, give no result. -/
def enforceSpeedLimit (Blocksize : Nat) (TickTime : Int) (now woke : timespec)
    (limit : Nat) (num : Int) (last : timespec) : Option SpeedRes :=
  let num1 : Int := wrapLL (num + Blocksize)
  if num1 < 0 then some { ret := num1, last := last, slept := Option.none }
  else
    match timediff now last with
    | Option.none => Option.none
    | some (tdiff, last1) =>
      -- `dt = (double)tdiff * 1E-6`
      let dt : Dbl := Dbl.ofInt tdiff * Dbl.micro
      if Dbl.ofInt num1 / dt > Dbl.ofInt limit then
        -- `req = (double)num/limit - dt`, `w = (long long) (req * 1E6)`
        let req : Dbl := Dbl.ofInt num1 / Dbl.ofInt limit - dt
        match (req * 1000000).toLL with
        | Option.none => Option.none
        | some w =>
          if w ≥ TickTime then
            match timediff woke now with
            | Option.none => Option.none
            | some (slept, _) =>
              if inLL (slept - w) then
                -- `ret = -(long long)((double)limit * (double)(slept-w) * 1E-6)`
                match (Dbl.ofInt limit * Dbl.ofInt (slept - w) * Dbl.micro).toLL with
                | Option.none => Option.none
                | some r =>
                  if inLL (-r) then some { ret := -r, last := woke, slept := some w }
                  else Option.none
              else Option.none
          else some { ret := num1, last := last1, slept := Option.none }
      else some { ret := num1, last := last1, slept := Option.none }

/-- A timestamp as the clock gives it: the nanoseconds are below a second. -/
def timespec.normal (t : timespec) : Prop := 0 ≤ t.tv_nsec ∧ t.tv_nsec < 1000000000

instance (t : timespec) : Decidable t.normal := by unfold timespec.normal; infer_instance

/-- The timestamp `a` is earlier than `b`. -/
def timespec.earlier (a b : timespec) : Prop :=
  a.tv_sec < b.tv_sec ∨ (a.tv_sec = b.tv_sec ∧ a.tv_nsec < b.tv_nsec)

instance (a b : timespec) : Decidable (a.earlier b) := by
  unfold timespec.earlier; infer_instance

/-- The arithmetic of `timediff` on `t1` and `t2` stays in the range of the
types. -/
def timediffDefined (t1 t2 : timespec) : Prop :=
  inLL (t1.tv_sec - t2.tv_sec) ∧ inLL ((t1.tv_sec - t2.tv_sec) * 1000000) ∧
  inLL (t1.tv_nsec - t2.tv_nsec) ∧
  inLL ((t1.tv_sec - t2.tv_sec) * 1000000 + (t1.tv_nsec - t2.tv_nsec).tdiv 1000)

instance (t1 t2 : timespec) : Decidable (timediffDefined t1 t2) := by
  unfold timediffDefined; infer_instance

/-! ## The watchdog (`watchdogThread` in mbuffer.c) -/

/-- The signals that the watchdog sends to its own process. -/
inductive Signal where
  | SIGINT
  | SIGKILL
deriving DecidableEq

/-- The state of `watchdogThread` between two intervals: its locals `ni` and
`no` and the global `Watchdog` (0: off, 1: started, 2: raised). -/
structure WatchSt where
  ni : Nat
  no : Nat
  Watchdog : Nat
deriving DecidableEq

/-- The globals that the watchdog reads after an interval. -/
structure Counters where
  Numin : Nat
  Numout : Nat
  Finish : Int
deriving DecidableEq

/-- One pass of the loop of `watchdogThread` after `mt_usleep(timeout)`: the
signals sent in this interval and the state for the next one. `SIGKILL` ends
the process, so there is no next state. -/
def watchdogStep (g : Counters) (w : WatchSt) : List Signal × Option WatchSt :=
  if w.Watchdog > 1 then ([Signal.SIGKILL], Option.none)
  else
    let inStalled : Bool := decide (w.ni = g.Numin ∧ g.Finish = -1)
    let outStalled : Bool := decide (w.no = g.Numout)
    let sig1 : List Signal := if inStalled then [Signal.SIGINT] else []
    let wd1 : Nat := if inStalled then 2 else w.Watchdog
    let sig2 : List Signal := if outStalled then [Signal.SIGINT] else []
    let wd2 : Nat := if outStalled then 2 else wd1
    (sig1 ++ sig2, some { ni := g.Numin, no := g.Numout, Watchdog := wd2 })

/-- The watchdog over a sequence of intervals, given the globals seen at the
end of each: the signals sent interval by interval, up to the end of the
process. -/
def watchdogRun (w : WatchSt) : List Counters → List (List Signal)
  | [] => []
  | g :: gs =>
    match watchdogStep g w with
    | (sigs, Option.none) => [sigs]
    | (sigs, some w1) => sigs :: watchdogRun w1 gs

/-- The counters advanced in the interval that ends with `g`. -/
def progressed (g : Counters) (w : WatchSt) : Prop := w.ni < g.Numin ∧ w.no < g.Numout

instance (g : Counters) (w : WatchSt) : Decidable (progressed g w) := by
  unfold progressed; infer_instance

/-! ## Messages and the exit status (log.c, `sigHandler` and `main` in
mbuffer.c) -/

/-- The level `errors` of `verbose_t`. -/
def errors : Nat := 2
/-- The level `fatals` of `verbose_t`. -/
def fatals : Nat := 1
/-- The level `warnings` of `verbose_t`. -/
def warnings : Nat := 3

/-- The exit status `EXIT_SUCCESS`. -/
def EXIT_SUCCESS : Nat := 0
/-- The exit status `EXIT_FAILURE`. -/
def EXIT_FAILURE : Nat := 1

/-- The globals of log.c, with the text written to the descriptor `Log`. -/
structure LogSt where
  Verbose : Nat := 3
  ErrorOccurred : Int := 0
  ErrorsFatal : Int := 0
  written : List String := []
deriving DecidableEq

/-- The function `infomsg`. -/
def infomsg (msg : String) (l : LogSt) : LogSt :=
  if l.Verbose ≥ 4 then { l with written := l.written ++ [msg] } else l

/-- The function `statusmsg`. -/
def statusmsg (msg : String) (l : LogSt) : LogSt :=
  if l.Verbose ≥ warnings then { l with written := l.written ++ [msg] } else l

/-- The function `warningmsg`. -/
def warningmsg (msg : String) (l : LogSt) : LogSt :=
  if l.Verbose ≥ warnings then { l with written := l.written ++ ["warning: " ++ msg] } else l

/-- The function `errormsg`: the state afterwards, and the exit status if the
call ended the process. -/
def errormsg (msg : String) (l : LogSt) : LogSt × Option Nat :=
  let l1 : LogSt := { l with ErrorOccurred := 1 }
  let l2 : LogSt :=
    if l1.Verbose ≥ errors then { l1 with written := l1.written ++ ["error: " ++ msg] } else l1
  if l2.ErrorsFatal ≠ 0 then (l2, some EXIT_FAILURE) else (l2, Option.none)

/-- The function `fatal`: the state at the end of the process and the exit
status. -/
def fatal (msg : String) (l : LogSt) : LogSt × Nat :=
  let l1 : LogSt :=
    if l.Verbose ≥ fatals then { l with written := l.written ++ ["fatal: " ++ msg] } else l
  (l1, EXIT_FAILURE)

/-- The function `sigHandler` for `SIGHUP` and `SIGINT`, as far as log.c sees
it. -/
def sigHandler (l : LogSt) : LogSt := { l with ErrorOccurred := 1 }

/-- What happens during a run, as far as the exit status depends on it. -/
inductive Event where
  | infomsg (msg : String)
  | statusmsg (msg : String)
  | warningmsg (msg : String)
  | errormsg (msg : String)
  | fatal (msg : String)
  /-- `SIGHUP` or `SIGINT` was delivered -/
  | interrupt
  /-- the option `-v <n>` was parsed -/
  | setVerbose (n : Nat)
  /-- the option `-e` was parsed -/
  | setErrorsFatal
  /-- `usage`, `version` or `--hash list`: the text is printed and the process
  ends with `exit(EXIT_SUCCESS)` -/
  | help
deriving DecidableEq

/-- The event is a call of `errormsg`. -/
def Event.isError : Event → Bool
  | Event.errormsg _ => true
  | _ => false

/-- The event is a call of `fatal`. -/
def Event.isFatal : Event → Bool
  | Event.fatal _ => true
  | _ => false

/-- The exit status of a run of `main` in which the events `evs` happen, from
the state `l` of the log: a `fatal`, an `errormsg` with `ErrorsFatal`, or a
request for help ends the process at once; otherwise `main` ends with
`exit(ErrorOccurred ? EXIT_FAILURE : EXIT_SUCCESS)`. -/
def exitStatus (l : LogSt) : List Event → Nat
  | [] => if l.ErrorOccurred ≠ 0 then EXIT_FAILURE else EXIT_SUCCESS
  | Event.infomsg m :: evs => exitStatus (infomsg m l) evs
  | Event.statusmsg m :: evs => exitStatus (statusmsg m l) evs
  | Event.warningmsg m :: evs => exitStatus (warningmsg m l) evs
  | Event.errormsg m :: evs =>
    match errormsg m l with
    | (_, some code) => code
    | (l1, Option.none) => exitStatus l1 evs
  | Event.fatal m :: _ => (fatal m l).2
  | Event.interrupt :: evs => exitStatus (sigHandler l) evs
  | Event.setVerbose n :: evs => exitStatus { l with Verbose := n } evs
  | Event.setErrorsFatal :: evs => exitStatus { l with ErrorsFatal := 1 } evs
  | Event.help :: _ => EXIT_SUCCESS

/-! ## Open modes of the output (`parseOption` in settings.c,
`openDestinationFiles` and `requestOutputVolume` in mbuffer.c) -/

/-- A set of flags for `open`, one field for each flag that the program
uses. -/
@[ext]
structure OpenMode where
  O_WRONLY : Bool := false
  O_CREAT : Bool := false
  O_EXCL : Bool := false
  O_TRUNC : Bool := false
  O_APPEND : Bool := false
  O_SYNC : Bool := false
  O_LARGEFILE : Bool := false
deriving DecidableEq

/-- The bitwise or of two sets of flags. -/
def OpenMode.or (a b : OpenMode) : OpenMode :=
  { O_WRONLY := a.O_WRONLY || b.O_WRONLY, O_CREAT := a.O_CREAT || b.O_CREAT,
    O_EXCL := a.O_EXCL || b.O_EXCL, O_TRUNC := a.O_TRUNC || b.O_TRUNC,
    O_APPEND := a.O_APPEND || b.O_APPEND, O_SYNC := a.O_SYNC || b.O_SYNC,
    O_LARGEFILE := a.O_LARGEFILE || b.O_LARGEFILE }

instance : OrOp OpenMode := ⟨OpenMode.or⟩

/-- The flag `O_WRONLY`. -/
def O_WRONLY : OpenMode := { O_WRONLY := true }
/-- The flag `O_CREAT`. -/
def O_CREAT : OpenMode := { O_CREAT := true }
/-- The flag `O_EXCL`. -/
def O_EXCL : OpenMode := { O_EXCL := true }
/-- The flag `O_TRUNC`. -/
def O_TRUNC : OpenMode := { O_TRUNC := true }
/-- The flag `O_APPEND`. -/
def O_APPEND : OpenMode := { O_APPEND := true }
/-- The flag `O_SYNC`. -/
def O_SYNC : OpenMode := { O_SYNC := true }
/-- The flag `O_LARGEFILE`. -/
def O_LARGEFILE : OpenMode := { O_LARGEFILE := true }

/-- The globals `OptMode` and `OptSync` during option parsing, and the mode
of the destinations created so far (`dest->arg` and `dest->mode`), newest
first. -/
structure OptState where
  OptMode : OpenMode := O_EXCL
  OptSync : OpenMode := {}
  Dest : List (String × OpenMode) := []
deriving DecidableEq

/-- The options that act on the open mode of an output. -/
inductive ModeOpt where
  /-- the option `--append` -/
  | append
  /-- the option `--truncate` -/
  | truncate
  /-- the option `-f` -/
  | f
  /-- the option `-c` -/
  | c
  /-- the option `-o <path>` with a path other than `-` -/
  | o (path : String)
deriving DecidableEq

/-- The branches of `parseOption` for these options. -/
def parseModeOpt (st : OptState) : ModeOpt → OptState
  | ModeOpt.append =>
    { st with OptMode := { (st.OptMode ||| O_APPEND) with O_EXCL := false } }
  | ModeOpt.truncate => { st with OptMode := st.OptMode ||| O_TRUNC }
  | ModeOpt.f => { st with OptMode := { st.OptMode with O_EXCL := false } ||| O_TRUNC }
  | ModeOpt.c => { st with OptSync := O_SYNC }
  | ModeOpt.o path =>
    { st with
      Dest := (path, O_CREAT ||| O_WRONLY ||| st.OptMode ||| O_LARGEFILE ||| st.OptSync) :: st.Dest,
      OptMode := O_EXCL }

/-- The whole command line, from the initial values of the globals. -/
def parseModeOpts (opts : List ModeOpt) : OptState :=
  opts.foldl parseModeOpt {}

/-- The test `0 == strncmp(path,"/dev/",5)`. -/
def isDev (path : String) : Bool := decide (path.toList.take 5 = "/dev/".toList)

/-- The mode with which `openDestinationFiles` opens a destination created
with the mode `mode`: `O_EXCL` is cleared for a path that begins with
`/dev/`. -/
def openDestinationMode (path : String) (mode : OpenMode) : OpenMode :=
  if isDev path then { mode with O_EXCL := false } else mode

/-- The mode with which `requestOutputVolume` reopens the output `outfile`. -/
def requestOutputVolumeMode (OptSync : OpenMode) (outfile : String) : OpenMode :=
  let mode : OpenMode := O_WRONLY ||| O_TRUNC ||| OptSync ||| O_LARGEFILE
  if isDev outfile then mode else mode ||| O_CREAT

/-! ## Concrete configurations -/

/-- Settings after `-s 1000 -m 10000 -p 1 -P 99`: low watermark 1%, high
watermark 99%. -/
def bothWatermarks : Settings :=
  { sizedSettings with StartRead := 1 / 100, StartWrite := 99 / 100 }

/-- Settings after `-s 1000 -m 10000 -P 99`: the high watermark alone. -/
def highWatermark : Settings := { sizedSettings with StartWrite := 99 / 100 }

/-- Settings after `-a 5`. -/
def autoload5 : Settings := parseOption_a 5 false {}

/-- The command line `-o out.bin`. -/
def plainOutput : List ModeOpt := [ModeOpt.o "out.bin"]

/-- The command line `-f -o out.bin`. -/
def forcedOutput : List ModeOpt := [ModeOpt.f, ModeOpt.o "out.bin"]

/-- The command line `-o /dev/st0`. -/
def tapeOutput : List ModeOpt := [ModeOpt.o "/dev/st0"]

/-! ## Start-up with several input volumes (`main` in mbuffer.c, `readBlock`
in input.c) -/

/-- The part of `main` that finds the controlling terminal: `Terminal` is 1
if the read from `STDERR_FILENO` does not fail (or fails with `EAGAIN`), or
if `/dev/tty` can be opened; else it is 0, with at most a warning. -/
def detectTerminal (stderrReadable ttyOpens : Bool) : Bool :=
  if stderrReadable then true
  else if ttyOpens then true else false

/-- The function `main` from the consistency check for options to the search
for the terminal, as far as the settings decide: the settings with which the
threads start and the value of `Terminal`, or the message of `fatal`. What
lies in between (`initBuffer`, the semaphores, the opening of input and
outputs) ends the program only for lack of a resource. -/
def startup (s : Settings) (stderrReadable ttyOpens : Bool) : Except String (Settings × Bool) :=
  match checkOptions s with
  | Except.error e => Except.error e
  | Except.ok s1 => Except.ok (s1, detectTerminal stderrReadable ttyOpens)

/-- The result of a call of `read`, or of `devread`. -/
inductive RRes where
  /-- the call returned the count `k` (0 at the end of the input) -/
  | ret (k : Nat)
  /-- the call returned -1 with `errno` set to `e` -/
  | fail (e : Errno)
deriving DecidableEq

/-- What `readBlock` does with the result of its read. -/
inductive AfterRead where
  /-- `num += in` -/
  | add (k : Nat)
  /-- `requestInputVolume()` is called -/
  | newVolume
  /-- `continue` -/
  | again
  /-- `Rest = num; Finish = at`, and the thread ends; `err` tells whether
  `errormsg` was called -/
  | last (err : Bool)
deriving DecidableEq

/-- The `if ... else if ... else if` of the loop of `readBlock`. -/
def afterRead (Terminal Autoloader : Bool) (NumVolumes : Nat) (Terminate : Bool)
    (r : RRes) : AfterRead :=
  match r with
  | RRes.ret (k + 1) => AfterRead.add (k + 1)
  | r =>
    if (decide (r = RRes.ret 0) || decide (r = RRes.fail Errno.EIO)) && (Terminal || Autoloader)
        && decide (NumVolumes ≠ 1) then AfterRead.newVolume
    else
      match r with
      | RRes.fail Errno.EINVALdirect => AfterRead.again
      | RRes.fail Errno.EINTR => AfterRead.again
      | RRes.fail _ => AfterRead.last (!Terminate)
      | RRes.ret _ => AfterRead.last false

/-- Settings after `-i /dev/st0 -n 3`: three input volumes, no autoloader. -/
def threeVolumes : Settings := { Infile := some "/dev/st0", NumVolumes := 3 }

/-! ## Options that set the sizes (`parseOption` and `readConfigFile` in
settings.c) -/

/-- The branch `-b <arg>` of `parseOption`; `nb` is the value returned by
`strtol(arg,0,0)`, `einval` tells whether `errno` is `EINVAL`. The value is
stored in an `unsigned long`. -/
def parseOption_b (nb : Int) (einval : Bool) (s : Settings) : Settings :=
  if nb = 0 ∧ einval = true then s
  else { s with Numblocks := (nb % 2 ^ 64).toNat, Options := s.Options ||| OPTION_B }

/-- The branch `-m <arg>` of `parseOption`; `v` is the value returned by
`calcint`, `NumP` and `PgSz` are the number of physical pages and the page
size. -/
def parseOption_m (v NumP PgSz : Nat) (s : Settings) : Settings :=
  { s with Totalmem := if v < 100 then ((NumP * PgSz * v) % 2 ^ 64) / 100 else v,
           Options := s.Options ||| OPTION_M }

/-- The key `blocksize` of `readConfigFile`; `r` is the result of `calcval`
on the value. An error of `calcval` gives a warning and leaves the settings
as they are. -/
def readConfigFile_blocksize (r : CalcRes) (s : Settings) : Settings :=
  match r with
  | CalcRes.ret v => { s with Blocksize := v }
  | _ => s

/-- Settings after `-b 0 -m 1M`. -/
def zeroBlocks : Settings := parseOption_m 1048576 0 4096 (parseOption_b 0 false {})

/-- Settings after the line `blocksize = 0.5` of a config file and `-m 1M`. -/
def halfBlocksize : Settings :=
  parseOption_m 1048576 0 4096 (readConfigFile_blocksize (calcval (Scanned.num (1 / 2))) {})

/-- Settings after `-b 30000 -m 20000`. -/
def manyBlocks : Settings := parseOption_m 20000 0 4096 (parseOption_b 30000 false {})

/-! ## Flags in config files (`parseFlag` and `readConfigFile` in
settings.c) -/

/-- The type `flag_t`. -/
inductive flag_t where
  | off
  | on
  | invalid
deriving DecidableEq

/-- The comparison `strcasecmp(a,b) == 0`, for ASCII. -/
def strcaseeq (a b : String) : Bool :=
  decide (a.toList.map Char.toLower = b.toList.map Char.toLower)

/-- The function `parseFlag` of settings.c. -/
def parseFlag (valuestr : String) : flag_t :=
  if strcaseeq valuestr "yes" || strcaseeq valuestr "on" || decide (valuestr = "1")
      || decide (valuestr = "true") then flag_t.on
  else if strcaseeq valuestr "no" || strcaseeq valuestr "off" || decide (valuestr = "0")
      || decide (valuestr = "false") then flag_t.off
  else flag_t.invalid

/-- The globals that the flags of a config file set, with their initial
values. -/
structure ConfigFlags where
  Quiet : Int := 0
  TapeAware : Int := 0
  StatusLog : Int := 1
  Memlock : Int := 0
deriving DecidableEq

/-- The branches of `readConfigFile` for the keys `showstatus`, `tapeaware`,
`logstatus` and `memlock`; an invalid value gives a warning. -/
def readConfigFile_flag (key valuestr : String) (f : ConfigFlags) : ConfigFlags :=
  if strcaseeq key "showstatus" then
    match parseFlag valuestr with
    | flag_t.on => { f with Quiet := 0 }
    | flag_t.off => { f with Quiet := 1 }
    | flag_t.invalid => f
  else if strcaseeq key "tapeaware" then
    match parseFlag valuestr with
    | flag_t.on => { f with TapeAware := 0 }
    | flag_t.off => { f with TapeAware := 1 }
    | flag_t.invalid => f
  else if strcaseeq key "logstatus" then
    match parseFlag valuestr with
    | flag_t.on => { f with StatusLog := 1 }
    | flag_t.off => { f with StatusLog := 0 }
    | flag_t.invalid => f
  else if strcaseeq key "memlock" then
    match parseFlag valuestr with
    | flag_t.on => { f with Memlock := 1 }
    | flag_t.off => { f with Memlock := 0 }
    | flag_t.invalid => f
  else f

/-! ## The command of the autoloader (`requestOutputVolume` in mbuffer.c,
`requestInputVolume` in input.c) -/

/-- What `snprintf(buf, size, ...)` leaves in `buf` when the formatted text
is `text`: at most `size - 1` characters of it. Lengths are counted in
characters, which are bytes for ASCII. -/
def snprintf (size : Nat) (text : String) : String :=
  String.mk (text.toList.take (size - 1))

/-- The format `"mt -f %s offline"` with the argument `arg`. -/
def default_cmd (arg : String) : String :=
  "mt -f " ++ arg ++ " offline"

/-- The size `sizeof(default_cmd)` of the format with its final 0. -/
def sizeof_default_cmd : Nat := 17

/-- The command that `requestOutputVolume(out, outfile)` passes to `system`
when `Autoloader` is set: `AutoloadCmd`, or else the text that
`snprintf(cmd_buf, sizeof(cmd_buf), default_cmd, Infile)` puts into
`char cmd_buf[sizeof(default_cmd)+strlen(outfile)]`. With `Infile == 0` the
argument of `%s` is a null pointer, for which C defines no result. -/
def requestOutputVolume_cmd (AutoloadCmd Infile : Option String) (outfile : String) :
    Option String :=
  match AutoloadCmd with
  | some cmd => some cmd
  | Option.none =>
    match Infile with
    | some inf => some (snprintf (sizeof_default_cmd + outfile.length) (default_cmd inf))
    | Option.none => Option.none

/-- The command that `requestInputVolume` passes to `system` when `Autoloader`
and `Infile` are set: `AutoloadCmd`, or else the text that `snprintf` puts
into `char cmd_buf[15+strlen(Infile)]`. -/
def requestInputVolume_cmd (AutoloadCmd : Option String) (Infile : String) : String :=
  match AutoloadCmd with
  | some cmd => cmd
  | Option.none => snprintf (15 + Infile.length) (default_cmd Infile)

/-! ## Outputs on the command line and the count of senders (`parseOption` in
settings.c) -/

/-- An option that creates a destination. -/
inductive OutOpt where
  /-- `-o <path>` with a path other than `-` -/
  | file (path : String)
  /-- `-o -` -/
  | stdout
  /-- `-O <host:port>`; `connected` tells whether `createNetworkOutput` got a
  connection (`d->fd != -1`) -/
  | network (arg : String) (connected : Bool)
  /-- `-H`, `--md5` or `--hash <name>`; `found` is the result of
  `addHashAlgorithm` -/
  | hash (name : String) (found : Bool)
deriving DecidableEq

/-- The effect of such an option on `NumSenders`, `Hashers` and `OutFile`.
For a file `NumSenders` is left as it is: it is incremented by
`openDestinationFiles`, after the consistency check of `main`. -/
def parseOutOpt (s : Settings) : OutOpt → Settings
  | OutOpt.file path =>
    { s with OutFile := if s.OutFile = Option.none then some path else s.OutFile }
  | OutOpt.stdout =>
    { s with NumSenders := s.NumSenders + 1,
             OutFile := if s.OutFile = Option.none then some "-" else s.OutFile }
  | OutOpt.network _ connected =>
    if connected then { s with NumSenders := s.NumSenders + 1 } else s
  | OutOpt.hash _ found =>
    if found then { s with Hashers := s.Hashers + 1, NumSenders := s.NumSenders + 1 } else s

/-- The options for the outputs of a command line, one after the other. -/
def parseOutOpts (s : Settings) (opts : List OutOpt) : Settings :=
  opts.foldl parseOutOpt s

/-- The option is `-o` with a file. -/
def OutOpt.isFile : OutOpt → Bool
  | OutOpt.file _ => true
  | _ => false

/-- The option is for a hash. -/
def OutOpt.isHash : OutOpt → Bool
  | OutOpt.hash _ _ => true
  | _ => false

/-- Settings after `-o a.img -o b.img -D 1G`. -/
def twoFiles : Settings :=
  { parseOutOpts {} [OutOpt.file "a.img", OutOpt.file "b.img"] with OutVolsize := 1073741824 }

/-! ## The list of destinations (hashing.c, `main` in mbuffer.c) -/

/-- The fields of `dest_t` that the choice of the main output reads. -/
structure dest_t where
  arg : Option String
  name : Option String
  fd : Int
  mode : Int
deriving DecidableEq

/-- The constant `USE_MHASH` of hashing.c. -/
def USE_MHASH : Int := -3
/-- The constant `USE_GCRYPT` of hashing.c. -/
def USE_GCRYPT : Int := -4
/-- The constant `USE_LIBMD5` of hashing.c. -/
def USE_LIBMD5 : Int := -5
/-- The constant `USE_SSLMD5` of hashing.c. -/
def USE_SSLMD5 : Int := -6
/-- The constant `USE_RHASH` of hashing.c. -/
def USE_RHASH : Int := -7

/-- The function `addDigestDestination` of hashing.c on the list `Dest`: the
new destination becomes the second of the list, or the first of an empty
list. -/
def addDigestDestination (lib algo : Int) (algoname : String) (Dest : List dest_t) :
    List dest_t :=
  match Dest with
  | d :: rest => d :: { arg := Option.none, name := some algoname, fd := lib, mode := algo } :: rest
  | [] => [{ arg := Option.none, name := some algoname, fd := lib, mode := algo }]

/-- The function `outputIsSet` of mbuffer.c. -/
def outputIsSet : List dest_t → Bool
  | [] => false
  | d :: rest => if d.fd ≠ -2 then true else outputIsSet rest

/-- The destination that `main` adds when `outputIsSet` returns 0; `fd` is the
result of `dup(STDOUT_FILENO)`. -/
def stdoutDest (fd : Int) : dest_t :=
  { arg := some "<stdout>", name := some "<stdout>", fd := fd, mode := 0 }

/-- The loop `while (dest && dest->fd < 0) dest = dest->next` of `main`. -/
def selectDestination : List dest_t → Option dest_t
  | [] => Option.none
  | d :: rest => if d.fd < 0 then selectDestination rest else some d

/-- The part of `main` that settles the main output, from `outputIsSet` to
`no output to send data to`, for destinations none of which is a file still
to be opened: the destination given to `outputThread`, or the message of
`fatal`. `fd` is the result of `dup(STDOUT_FILENO)`. -/
def mainOutput (fd : Int) (Dest : List dest_t) : Except String dest_t :=
  let Dest1 : List dest_t := if outputIsSet Dest then Dest else stdoutDest fd :: Dest
  match selectDestination Dest1 with
  | some d => Except.ok d
  | Option.none => Except.error "no output to send data to"

/-- The list `Dest` after the digests of the libraries `libs` have been
added. -/
def digestsOnly (libs : List Int) : List dest_t :=
  libs.foldl (fun Dest lib => addDigestDestination lib 0 "md5" Dest) []

/-! ## The first round of the barrier -/

/-- A schedule for `outputThread` and one sender: `outputThread` arrives and
waits, then the sender arrives as the last and goes through `syncSenders` to
its end. -/
def firstRound : List FanEv :=
  [{ thread := 0 }, { thread := 1 }, { thread := 1 }, { thread := 1 }, { thread := 1 },
   { thread := 1 }]

/-! ## The main output next to other destinations (`outputThread` in
mbuffer.c) -/

/-- The part of the state of `outputThread` that a write error touches when
there are other destinations (`multipleSenders != 0`), with a record of its
calls of `write` and of `syncSenders`. -/
structure MainOut where
  MainOutOK : Bool := true
  Terminate : Bool := false
  Autoloader : Bool := false
  /-- the global `ErrorsFatal` of log.c, which `-e` sets to 1 -/
  ErrorsFatal : Int := 0
  haderror : Bool := false
  /-- `terminateOutputThread` was called, or the process was ended: by
  `errormsg` when `ErrorsFatal` is set, or by a division by zero in the `-D`
  test -/
  exited : Bool := false
  tape : TapeState := {}
  Numout : Nat := 0
  rest : Nat := 0
  /-- the calls `write(out, Buffer[at] + off, n)`: `(at, off, n)` -/
  writes : List (Nat × Nat × Nat) := []
  /-- the calls `syncSenders(Buffer[at], blocksize)`: `(at, blocksize)` -/
  syncs : List (Nat × Nat) := []
  /-- the number of calls of `requestOutputVolume` -/
  volumes : Nat := 0
deriving DecidableEq

/-- A call of `requestOutputVolume` with the `if (out == -1) haderror = 1`
that follows it; `change` tells whether a new volume is found. Where the
function returns -1 it has called `errormsg` before, which ends the process
when `ErrorsFatal` is set. -/
def MainOut.newVolume (change : Bool) (s : MainOut) : MainOut :=
  if change then { s with volumes := s.volumes + 1 }
  else if s.ErrorsFatal ≠ 0 then { s with volumes := s.volumes + 1, exited := true }
  else { s with volumes := s.volumes + 1, haderror := true, Autoloader := false }

/-- What a call of `readBlock` returns: its value (1 for a block, otherwise
the end of the input or an error), the local `num` (the value of `Rest` at
the end of the input), the state and the rest of the script. -/
structure ReadBlock (α : Type) where
  ret : Int
  num : Nat
  state : DevRead α
  script : List DevAnswer

/-- The loop of `readBlock(at)` of input.c with `IDevBSize != 0`, for one
input volume: at most `fuel` passes, each with a call of `devread`. -/
def readBlockLoop {α : Type} (Blocksize IDevBSize at_ : Nat) :
    Nat → List DevAnswer → Nat → DevRead α → ReadBlock α
  | 0, script, num, s => { ret := -1, num := num, state := s, script := script }
  | fuel + 1, script, num, s =>
    let r := devread Blocksize IDevBSize at_ (Blocksize + script.length + 2) script s
    if 0 < r.1 then
      if num + r.1.toNat < Blocksize then
        readBlockLoop Blocksize IDevBSize at_ fuel r.2.2 (num + r.1.toNat) r.2.1
      else { ret := 1, num := num + r.1.toNat, state := r.2.1, script := r.2.2 }
    else if r.1 = -1 ∧ (r.2.1.errno = some Errno.EINVALdirect ∨ r.2.1.errno = some Errno.EINTR) then
      if num < Blocksize then readBlockLoop Blocksize IDevBSize at_ fuel r.2.2 num r.2.1
      else { ret := 1, num := num, state := r.2.1, script := r.2.2 }
    else { ret := r.1, num := num, state := r.2.1, script := r.2.2 }

/-- The function `readBlock` of input.c with `IDevBSize != 0`. -/
def readBlock {α : Type} (Blocksize IDevBSize at_ fuel : Nat) (script : List DevAnswer)
    (s : DevRead α) : ReadBlock α :=
  readBlockLoop Blocksize IDevBSize at_ fuel script 0 s

/-- A device that holds the 150 bytes 0 .. 149, and an empty ring. -/
def device150 : DevRead Nat := { input := List.range 150, Buffer := fun _ _ => 0 }

/-- The device delivers 50 bytes, the next `read` is interrupted by a signal,
then the device delivers 50 bytes twice. -/
def interrupted : List DevAnswer :=
  [DevAnswer.upTo 49, DevAnswer.fail Errno.EINTR, DevAnswer.upTo 49, DevAnswer.upTo 49]

/-- The device delivers 50 bytes, the next `read` is interrupted by a signal,
then the device delivers all that is asked for, up to 100 bytes a call. -/
def interruptedOnce : List DevAnswer :=
  [DevAnswer.upTo 49, DevAnswer.fail Errno.EINTR, DevAnswer.upTo 99, DevAnswer.upTo 99]

/-- The same answers of the device without the interruption. -/
def uninterrupted : List DevAnswer :=
  [DevAnswer.upTo 49, DevAnswer.upTo 49, DevAnswer.upTo 49]

/-! ## Output volumes of a fixed size (`-D`, `outputThread` in mbuffer.c) -/

/-- Every change of the output volume finds a new volume. -/
def Dev.changes {σ : Type} (d : Dev σ) : Prop :=
  ∀ dv, ∃ dv1, d.change dv = some dv1

/-- The number of blocks for which `outputThread` has made the `-D` test:
the blocks written completely, and the block that is being written. -/
def checked {α σ : Type} (s : RingSt α σ) : Nat :=
  s.drained.length + (if s.opc = OPc.write ∨ s.opc = OPc.post then 1 else 0)

/-- What holds of the changes of volume in a run with `-D`: when the `-D`
test has been made for `k` blocks there were `(k - 1) / m` changes, where
`m = OutVolsize / Blocksize`, and the `i`-th change came when `(i + 1) * m`
blocks had been written. -/
def Volumes {α σ : Type} (c : Cfg) (s : RingSt α σ) : Prop :=
  s.volumes = (checked s - 1) / (c.OutVolsize / c.Blocksize) ∧
  s.cuts = (List.range s.volumes).map
    (fun i => (i + 1) * (c.OutVolsize / c.Blocksize) * c.Blocksize)

/-- Settings as after `-b 5 -s 100 -D 250`: volumes of two blocks. -/
def cfgVol : Cfg := { Numblocks := 5, Blocksize := 100, Outsize := 100, OutVolsize := 250 }

/-- An input of 450 bytes. -/
def input450 : List Nat := List.replicate 450 65
/-! # Theorems -/

set_option linter.unusedTactic false
set_option linter.unreachableTactic false
set_option linter.unusedVariables false
set_option linter.unnecessarySeqFocus false


/-! ## The type `double` -/

@[simp]
theorem Dbl.zero_eq : (0 : Dbl) = Dbl.num 0 := congrArg Dbl.num Nat.cast_zero

@[simp]
theorem Dbl.one_eq : (1 : Dbl) = Dbl.num 1 := congrArg Dbl.num Nat.cast_one

theorem Dbl.hundred_eq : (100 : Dbl) = Dbl.num 100 := congrArg Dbl.num (Nat.cast_ofNat)

@[simp]
theorem Dbl.num_lt_num (a b : ℚ) : Dbl.num a < Dbl.num b ↔ a < b := Iff.rfl

@[simp]
theorem Dbl.num_le_num (a b : ℚ) : Dbl.num a ≤ Dbl.num b ↔ a ≤ b := Iff.rfl

@[simp]
theorem Dbl.num_lt_inf (a : ℚ) (n : Bool) : Dbl.num a < Dbl.inf n ↔ n = false := Iff.rfl

@[simp]
theorem Dbl.inf_lt_num (a : ℚ) (n : Bool) : Dbl.inf n < Dbl.num a ↔ n = true := Iff.rfl

@[simp]
theorem Dbl.num_le_inf (a : ℚ) (n : Bool) : Dbl.num a ≤ Dbl.inf n ↔ n = false := Iff.rfl

@[simp]
theorem Dbl.inf_le_num (a : ℚ) (n : Bool) : Dbl.inf n ≤ Dbl.num a ↔ n = true := Iff.rfl

@[simp]
theorem Dbl.not_nan_lt (x : Dbl) : ¬ (Dbl.nan < x) := fun h => h

@[simp]
theorem Dbl.not_lt_nan (x : Dbl) : ¬ (x < Dbl.nan) := by
  cases x <;> exact fun h => h

@[simp]
theorem Dbl.not_nan_le (x : Dbl) : ¬ (Dbl.nan ≤ x) := fun h => h

@[simp]
theorem Dbl.not_le_nan (x : Dbl) : ¬ (x ≤ Dbl.nan) := by
  cases x <;> exact fun h => h

/-- Rounding gives a number or an infinity. -/
theorem Dbl.round_ne_nan (q : ℚ) : Dbl.round q ≠ Dbl.nan := by
  unfold Dbl.round
  by_cases h0 : q = 0
  · simp [h0]
  · simp only [if_neg h0]
    split <;> simp

/-- A quotient by a number other than 0 is NaN only if the dividend is. -/
theorem Dbl.div_num_eq_nan (x : Dbl) (b : ℚ) (hb : b ≠ 0) :
    x / Dbl.num b = Dbl.nan ↔ x = Dbl.nan := by
  cases x with
  | num a =>
    show Dbl.div (Dbl.num a) (Dbl.num b) = Dbl.nan ↔ _
    simp [Dbl.div, hb, Dbl.round_ne_nan]
  | inf n =>
    show Dbl.div (Dbl.inf n) (Dbl.num b) = Dbl.nan ↔ _
    simp [Dbl.div]
  | nan =>
    show Dbl.div Dbl.nan (Dbl.num b) = Dbl.nan ↔ _
    simp [Dbl.div]

/-- What passes the test of `-p`. -/
theorem Dbl.pass_p (x : Dbl) (h : ¬ (x ≥ 1 ∨ x < 0)) : x = Dbl.nan ∨ (0 ≤ x ∧ x < 1) := by
  cases x with
  | num a =>
    simp only [ge_iff_le, Dbl.one_eq, Dbl.zero_eq, Dbl.num_le_num, Dbl.num_lt_num, not_or,
      not_le, not_lt] at h ⊢
    exact Or.inr ⟨h.2, h.1⟩
  | inf n =>
    cases n <;> simp at h
  | nan => exact Or.inl rfl

/-- What passes the test of `-P`. -/
theorem Dbl.pass_P (x : Dbl) (h : ¬ (x > 1 ∨ x ≤ 0)) : x = Dbl.nan ∨ (0 < x ∧ x ≤ 1) := by
  cases x with
  | num a =>
    simp only [gt_iff_lt, Dbl.one_eq, Dbl.zero_eq, Dbl.num_le_num, Dbl.num_lt_num, not_or,
      not_le, not_lt] at h ⊢
    exact Or.inr ⟨h.2, h.1⟩
  | inf n =>
    cases n <;> simp at h
  | nan => exact Or.inl rfl

/-- What passes the test of the keys `startread` and `startwrite`. -/
theorem Dbl.pass_key (x : Dbl) (h : x ≤ 1 ∧ x > 0) : x ≠ Dbl.nan := by
  rintro rfl
  exact Dbl.not_nan_le _ h.1

theorem Dbl.le_from_lt (x y : Dbl) (h : x < y) : x ≤ y := by
  cases x with
  | num a =>
    cases y with
    | num b => exact (Dbl.num_le_num a b).mpr ((Dbl.num_lt_num a b).mp h).le
    | inf m => exact h
    | nan => exact absurd h (Dbl.not_lt_nan _)
  | inf n =>
    cases y with
    | num b => exact h
    | inf m => exact Or.inl h.1
    | nan => exact absurd h (Dbl.not_lt_nan _)
  | nan => exact absurd h (Dbl.not_nan_lt _)
theorem floor_natCast_mul (v c : Nat) : ⌊((v : ℚ) * (c : ℚ))⌋₊ = v * c := by
  have h : ((v : ℚ) * (c : ℚ)) = ((v * c : Nat) : ℚ) := by push_cast; ring
  rw [h, Nat.floor_natCast]

theorem ofDouble_natCast_mul (v c : Nat) (h : v * c < 2 ^ 64) :
    CalcRes.ofDouble ((v : ℚ) * (c : ℚ)) = CalcRes.ret (v * c) := by
  have h0 : (0 : ℚ) ≤ (v : ℚ) * (c : ℚ) := by positivity
  have h1 : (v : ℚ) * (c : ℚ) < 2 ^ 64 := by
    have : ((v * c : Nat) : ℚ) < ((2 ^ 64 : Nat) : ℚ) := by exact_mod_cast h
    push_cast at this
    exact this
  simp [CalcRes.ofDouble, toULL, h0, h1, floor_natCast_mul]

/-- C10: for every positive integer `v` with `v * 1024^4` below `2^64` (so that
every product below is exact in a double and fits the result type), calcint
and calcval return `v*1024` for the suffixes `k` and `K`, `v*1024^2` for `M`,
`v*1024^3` for `G` and `v*1024^4` for `T`. -/
theorem size_suffixes (v dflt : Nat) (hv : 0 < v) (hrep : v * 1024 ^ 4 < 2 ^ 64) :
    (calcint (Scanned.numch v 'k') dflt = CalcRes.ret (v * 1024) ∧
     calcint (Scanned.numch v 'K') dflt = CalcRes.ret (v * 1024) ∧
     calcint (Scanned.numch v 'M') dflt = CalcRes.ret (v * 1024 ^ 2) ∧
     calcint (Scanned.numch v 'G') dflt = CalcRes.ret (v * 1024 ^ 3) ∧
     calcint (Scanned.numch v 'T') dflt = CalcRes.ret (v * 1024 ^ 4)) ∧
    (calcval (Scanned.numch v 'k') = CalcRes.ret (v * 1024) ∧
     calcval (Scanned.numch v 'K') = CalcRes.ret (v * 1024) ∧
     calcval (Scanned.numch v 'M') = CalcRes.ret (v * 1024 ^ 2) ∧
     calcval (Scanned.numch v 'G') = CalcRes.ret (v * 1024 ^ 3) ∧
     calcval (Scanned.numch v 'T') = CalcRes.ret (v * 1024 ^ 4)) := by
  have hpos : ¬ ((v : ℚ) ≤ 0) := by
    have : (0 : ℚ) < (v : ℚ) := by exact_mod_cast hv
    exact not_le.mpr this
  have h1 : v * 1024 < 2 ^ 64 := by omega
  have h2 : v * 1024 ^ 2 < 2 ^ 64 := by omega
  have h3 : v * 1024 ^ 3 < 2 ^ 64 := by omega
  have e1 := ofDouble_natCast_mul v 1024 h1
  have e2 := ofDouble_natCast_mul v (1024 ^ 2) h2
  have e3 := ofDouble_natCast_mul v (1024 ^ 3) h3
  have e4 := ofDouble_natCast_mul v (1024 ^ 4) hrep
  have c2 : ((1024 ^ 2 : Nat) : ℚ) = 1024 * 1024 := by norm_num
  have c3 : ((1024 ^ 3 : Nat) : ℚ) = 1024 * 1024 * 1024 := by norm_num
  have c4 : ((1024 ^ 4 : Nat) : ℚ) = 1024 * 1024 * 1024 * 1024 := by norm_num
  have c1 : ((1024 : Nat) : ℚ) = 1024 := by norm_num
  rw [c1] at e1
  rw [c2] at e2
  rw [c3] at e3
  rw [c4] at e4
  refine ⟨⟨?_, ?_, ?_, ?_, ?_⟩, ⟨?_, ?_, ?_, ?_, ?_⟩⟩ <;>
    simp [calcint, calcval, hpos, e1, e2, e3, e4]

/-- Witness of `size_suffixes` at `v = 5`. -/
theorem size_suffixes_witness :
    (calcint (Scanned.numch ((5 : Nat) : ℚ) 'k') 0 = CalcRes.ret (5 * 1024) ∧
     calcint (Scanned.numch ((5 : Nat) : ℚ) 'K') 0 = CalcRes.ret (5 * 1024) ∧
     calcint (Scanned.numch ((5 : Nat) : ℚ) 'M') 0 = CalcRes.ret (5 * 1024 ^ 2) ∧
     calcint (Scanned.numch ((5 : Nat) : ℚ) 'G') 0 = CalcRes.ret (5 * 1024 ^ 3) ∧
     calcint (Scanned.numch ((5 : Nat) : ℚ) 'T') 0 = CalcRes.ret (5 * 1024 ^ 4)) ∧
    (calcval (Scanned.numch ((5 : Nat) : ℚ) 'k') = CalcRes.ret (5 * 1024) ∧
     calcval (Scanned.numch ((5 : Nat) : ℚ) 'K') = CalcRes.ret (5 * 1024) ∧
     calcval (Scanned.numch ((5 : Nat) : ℚ) 'M') = CalcRes.ret (5 * 1024 ^ 2) ∧
     calcval (Scanned.numch ((5 : Nat) : ℚ) 'G') = CalcRes.ret (5 * 1024 ^ 3) ∧
     calcval (Scanned.numch ((5 : Nat) : ℚ) 'T') = CalcRes.ret (5 * 1024 ^ 4)) :=
  size_suffixes 5 0 (by decide) (by norm_num)

theorem checkRemaining_ok (s s' : Settings) (h : checkRemaining s = Except.ok s') : s' = s := by
  unfold checkRemaining at h
  repeat' split at h
  all_goals first
    | (cases h; rfl)
    | cases h

theorem checkOptions_ok (s s' : Settings) (h : checkOptions s = Except.ok s') :
    checkBufferSizing s = Except.ok s' := by
  unfold checkOptions at h
  split at h
  · cases h
  · split at h
    · cases h
    · rename_i s1 h1
      rw [checkRemaining_ok s1 s' h] 
      exact h1

/-- C9, counterexample: `-b 8 -s 2305843009213694464 -m 4k` passes the
consistency check although `Numblocks * Blocksize` is `2^64 + 4096`, which is
neither equal to nor at most `Totalmem = 4096`. -/
theorem buffer_sizing_overflow :
    checkOptions overflowSettings = Except.ok overflowSettings ∧
    overflowSettings.Options = (OPTION_B ||| OPTION_M ||| OPTION_S) ∧
    ¬ (overflowSettings.Numblocks * overflowSettings.Blocksize = overflowSettings.Totalmem) ∧
    ¬ (overflowSettings.Numblocks * overflowSettings.Blocksize ≤ overflowSettings.Totalmem) := by
  refine ⟨?_, ?_, ?_, ?_⟩
  · simp [checkOptions, checkBufferSizing, checkRemaining, overflowSettings, OPTION_B, OPTION_M,
      OPTION_S]
  · decide
  · simp [overflowSettings]
  · simp [overflowSettings]

/-- C9, amended: when the consistency check accepts the options, `-m` with
`-s` (or `-m` alone) sets the block count to `Totalmem / Blocksize`, `-b` with
`-m` sets the block size to `Totalmem / Numblocks`, and `-b`, `-s` and `-m`
together are accepted only if `Numblocks * Blocksize` equals `Totalmem` modulo
`2^64`; hence whenever `-m` is given and `Numblocks * Blocksize` is below
`2^64`, the accepted configuration has `Numblocks * Blocksize <= Totalmem`. -/
theorem buffer_sizing (s s' : Settings) (h : checkOptions s = Except.ok s') :
    (s.Options = (OPTION_S ||| OPTION_M) ∨ s.Options = OPTION_M →
      s'.Numblocks = s.Totalmem / s.Blocksize ∧ 0 < s.Blocksize ∧
      s'.Blocksize = s.Blocksize ∧ s'.Totalmem = s.Totalmem) ∧
    (s.Options = (OPTION_B ||| OPTION_M) →
      s'.Blocksize = s.Totalmem / s.Numblocks ∧ 0 < s.Numblocks ∧
      s'.Numblocks = s.Numblocks ∧ s'.Totalmem = s.Totalmem) ∧
    (s.Options = (OPTION_B ||| OPTION_M ||| OPTION_S) →
      (s.Numblocks * s.Blocksize) % 2 ^ 64 = s.Totalmem ∧ s' = s) ∧
    (s.Options &&& OPTION_M ≠ 0 → s.Options < 8 →
      s'.Numblocks * s'.Blocksize < 2 ^ 64 →
      s'.Numblocks * s'.Blocksize ≤ s'.Totalmem) := by
  have hb := checkOptions_ok s s' h
  have key : ∀ o : Nat, o < 8 → o &&& OPTION_M ≠ 0 → o = 2 ∨ o = 3 ∨ o = 6 ∨ o = 7 := by
    decide
  have e7 : (OPTION_B ||| OPTION_M ||| OPTION_S) = 7 := by decide
  have e6 : (OPTION_S ||| OPTION_M) = 6 := by decide
  have e3 : (OPTION_B ||| OPTION_M) = 3 := by decide
  have e2 : OPTION_M = 2 := by decide
  have hS : s.Options = 6 ∨ s.Options = 2 → s'.Numblocks = s.Totalmem / s.Blocksize ∧
      0 < s.Blocksize ∧ s'.Blocksize = s.Blocksize ∧ s'.Totalmem = s.Totalmem := by
    intro ho
    unfold checkBufferSizing at hb
    rw [e7, e6, e3, e2] at hb
    split_ifs at hb with h1 h2 h3 h4
    · omega
    · injection hb with hb
      subst hb
      exact ⟨rfl, by omega, rfl, rfl⟩
  have hB : s.Options = 3 → s'.Blocksize = s.Totalmem / s.Numblocks ∧ 0 < s.Numblocks ∧
      s'.Numblocks = s.Numblocks ∧ s'.Totalmem = s.Totalmem := by
    intro ho
    unfold checkBufferSizing at hb
    rw [e7, e6, e3, e2] at hb
    split_ifs at hb with h1 h2 h3 h4
    · omega
    · omega
    · injection hb with hb
      subst hb
      exact ⟨rfl, by omega, rfl, rfl⟩
  have hA : s.Options = 7 → (s.Numblocks * s.Blocksize) % 2 ^ 64 = s.Totalmem ∧ s' = s := by
    intro ho
    unfold checkBufferSizing at hb
    rw [e7, e6, e3, e2] at hb
    split_ifs at hb with h1
    · injection hb with hb
      exact ⟨not_not.mp h1, hb.symm⟩
  refine ⟨?_, ?_, ?_, ?_⟩
  · intro ho
    apply hS
    simpa [OPTION_S, OPTION_M, show (4 ||| 2 : Nat) = 6 from rfl] using ho
  · intro ho
    apply hB
    simpa [OPTION_B, OPTION_M, show (1 ||| 2 : Nat) = 3 from rfl] using ho
  · intro ho
    apply hA
    simpa [OPTION_B, OPTION_S, OPTION_M, show (1 ||| 2 ||| 4 : Nat) = 7 from rfl] using ho
  · intro hM h8 hlt
    rcases key s.Options h8 hM with ho | ho | ho | ho
    · obtain ⟨h1, h2, h3, h4⟩ := hS (Or.inr ho)
      rw [h1, h3, h4]
      exact Nat.div_mul_le_self _ _
    · obtain ⟨h1, h2, h3, h4⟩ := hB ho
      rw [h1, h3, h4, Nat.mul_comm]
      exact Nat.div_mul_le_self _ _
    · obtain ⟨h1, h2, h3, h4⟩ := hS (Or.inl ho)
      rw [h1, h3, h4]
      exact Nat.div_mul_le_self _ _
    · obtain ⟨h1, h2⟩ := hA ho
      rw [h2] at hlt ⊢
      rw [Nat.mod_eq_of_lt hlt] at h1
      omega

/-- Witness of `buffer_sizing`: `-s 1000 -m 10000` is accepted with 10 blocks. -/
theorem buffer_sizing_witness :
    checkOptions sizedSettings = Except.ok { sizedSettings with Numblocks := 10 } ∧
    ((sizedSettings.Options = (OPTION_S ||| OPTION_M) ∨ sizedSettings.Options = OPTION_M →
      ({ sizedSettings with Numblocks := 10 } : Settings).Numblocks
        = sizedSettings.Totalmem / sizedSettings.Blocksize ∧ 0 < sizedSettings.Blocksize ∧
      ({ sizedSettings with Numblocks := 10 } : Settings).Blocksize = sizedSettings.Blocksize ∧
      ({ sizedSettings with Numblocks := 10 } : Settings).Totalmem = sizedSettings.Totalmem) ∧
    (sizedSettings.Options = (OPTION_B ||| OPTION_M) →
      ({ sizedSettings with Numblocks := 10 } : Settings).Blocksize
        = sizedSettings.Totalmem / sizedSettings.Numblocks ∧ 0 < sizedSettings.Numblocks ∧
      ({ sizedSettings with Numblocks := 10 } : Settings).Numblocks = sizedSettings.Numblocks ∧
      ({ sizedSettings with Numblocks := 10 } : Settings).Totalmem = sizedSettings.Totalmem) ∧
    (sizedSettings.Options = (OPTION_B ||| OPTION_M ||| OPTION_S) →
      (sizedSettings.Numblocks * sizedSettings.Blocksize) % 2 ^ 64 = sizedSettings.Totalmem ∧
      ({ sizedSettings with Numblocks := 10 } : Settings) = sizedSettings) ∧
    (sizedSettings.Options &&& OPTION_M ≠ 0 → sizedSettings.Options < 8 →
      ({ sizedSettings with Numblocks := 10 } : Settings).Numblocks
        * ({ sizedSettings with Numblocks := 10 } : Settings).Blocksize < 2 ^ 64 →
      ({ sizedSettings with Numblocks := 10 } : Settings).Numblocks
        * ({ sizedSettings with Numblocks := 10 } : Settings).Blocksize
        ≤ ({ sizedSettings with Numblocks := 10 } : Settings).Totalmem)) :=
  have h0 : checkOptions sizedSettings = Except.ok { sizedSettings with Numblocks := 10 } := by
    simp [checkOptions, checkBufferSizing, checkRemaining, sizedSettings, OPTION_B, OPTION_M,
      OPTION_S]
  ⟨h0, buffer_sizing sizedSettings _ h0⟩

/-! ## The ring of blocks: safety -/

theorem wrap_succ (a n N : Nat) (hN : 0 < N) (h : a = n % N) :
    (if a + 1 = N then 0 else a + 1) = (n + 1) % N := by
  have hlt : n % N < N := Nat.mod_lt _ hN
  rw [Nat.add_mod]
  split
  · next h1 =>
    have : n % N + 1 = N := by omega
    by_cases h1N : N = 1
    · subst h1N; omega
    · have : 1 % N = 1 := Nat.mod_eq_of_lt (by omega)
      rw [this]
      have : n % N + 1 = N := by omega
      rw [this, Nat.mod_self]
  · next h1 =>
    have h2 : n % N + 1 < N := by omega
    have : 1 % N = 1 := Nat.mod_eq_of_lt (by omega)
    rw [this, Nat.mod_eq_of_lt h2]
    omega

theorem wrap_succ' (a n N : Nat) (hN : 0 < N) (h : a = n % N) :
    (if N = a + 1 then 0 else a + 1) = (n + 1) % N := by
  rw [← wrap_succ a n N hN h]
  by_cases h1 : a + 1 = N
  · simp [h1]
  · have : ¬ N = a + 1 := fun h2 => h1 h2.symm
    simp [h1, this]

theorem mod_window (b m N : Nat) (h1 : b ≤ m) (h2 : m < b + N) (h : b % N = m % N) : b = m := by
  have h3 : (m - b) % N = 0 := Nat.sub_mod_eq_zero_of_mod_eq h.symm
  have h4 : m - b < N := by omega
  rw [Nat.mod_eq_of_lt h4] at h3
  omega

theorem load_eq {α : Type} (X : List α) (buf : Nat → Nat → α) (slot base off k bound : Nat)
    (h : ∀ o, o < bound → X[base + o]? = some (buf slot o)) (hk : off + k ≤ bound) :
    load buf slot off k = (X.drop (base + off)).take k := by
  apply List.ext_getElem?
  intro i
  unfold load
  by_cases hi : i < k
  · have h1 := h (off + i) (by omega)
    rw [List.getElem?_take_of_lt hi, List.getElem?_drop]
    simp [List.getElem?_map, List.getElem?_range hi]
    rw [← h1]
    congr 1
    omega
  · have hi' : k ≤ i := by omega
    rw [List.getElem?_eq_none (by simp; omega), List.getElem?_eq_none]
    simp
    omega

theorem afterWrite_advance (ta tm : Bool) (t : TapeState) (r : WRes) (k : Nat)
    (h : (afterWrite ta tm t r).1 = Next.advance k) : r = WRes.ret k := by
  cases r with
  | ret k1 =>
    simp only [afterWrite] at h
    split_ifs at h <;> simp_all
  | fail e =>
    cases e <;> simp only [afterWrite] at h <;> split_ifs at h <;> simp_all

theorem store_other {α : Type} (buf : Nat → Nat → α) (slot off : Nat) (chunk : List α)
    (sl o : Nat) (h : sl ≠ slot) : store buf slot off chunk sl o = buf sl o := by
  simp [store, h]

theorem store_before {α : Type} (buf : Nat → Nat → α) (slot off : Nat) (chunk : List α)
    (sl o : Nat) (h : o < off) : store buf slot off chunk sl o = buf sl o := by
  have : ¬ off ≤ o := by omega
  simp [store, this]

theorem store_at {α : Type} (buf : Nat → Nat → α) (slot off : Nat) (chunk : List α)
    (o : Nat) (h1 : off ≤ o) (h2 : o - off < chunk.length) :
    chunk[o - off]? = some (store buf slot off chunk slot o) := by
  simp [store, h1, List.getElem?_eq_getElem h2]

theorem opc_not_ended {α σ : Type} (c : Cfg) (X : List α) (s : RingSt α σ)
    (hc : RingCore c X s) (hi : s.ipc ≠ IPc.done) : s.opc.ended = false := by
  cases h : s.opc.ended
  · rfl
  · exact absurd (hc.ended h).1 hi

theorem core_input_top {α σ : Type} (c : Cfg) (X : List α) (s : RingSt α σ) (r : ReadRes)
    (hc : RingCore c X s) (hcl : clean s) (hi : s.ipc = IPc.top) :
    RingCore c X (inputStep c r s) := by
  obtain ⟨h1, h2, h3⟩ := hcl
  have hne := opc_not_ended c X s hc (by rw [hi]; decide)
  obtain ⟨filled, free, iat_eq, oat_eq, input_eq, ipos_le, num_lt, num_post, eof, finish_set,
    finish_unset, buf_full, buf_cur, ended, seen, blk, blk0, opos, cur_eq, rest_le, rest_eq,
    drained_eq, out_le, plain⟩ := hc
  simp [hi, hne, IPc.waited, IPc.posted, IPc.progress, IPc.atEof, IPc.finished] at filled free input_eq ipos_le num_lt num_post eof finish_set finish_unset buf_full buf_cur ended blk opos cur_eq
  have hs : inputStep c r s = { s with ipc := IPc.semwait } := by
    simp only [inputStep, hi, h1]
    rfl
  rw [hs]
  constructor <;> dsimp only [IPc.waited, IPc.posted, IPc.progress, IPc.atEof, IPc.finished]
  all_goals first
    | assumption
    | omega
    | (simp [hne]; done)
    | (simp [hne]; assumption)

theorem core_input_semwait {α σ : Type} (c : Cfg) (X : List α) (s : RingSt α σ) (r : ReadRes)
    (hbs : 0 < c.Blocksize)
    (hc : RingCore c X s) (hi : s.ipc = IPc.semwait) :
    RingCore c X (inputStep c r s) := by
  by_cases hD : s.Dev2Buf = 0
  · have hs : inputStep c r s = s := by
      simp only [inputStep, hi, hD]
      rfl
    rw [hs]
    exact hc
  have hne := opc_not_ended c X s hc (by rw [hi]; decide)
  obtain ⟨filled, free, iat_eq, oat_eq, input_eq, ipos_le, num_lt, num_post, eof, finish_set,
    finish_unset, buf_full, buf_cur, ended, seen, blk, blk0, opos, cur_eq, rest_le, rest_eq,
    drained_eq, out_le, plain⟩ := hc
  simp [hi, hne, IPc.waited, IPc.posted, IPc.progress, IPc.atEof, IPc.finished] at filled free input_eq ipos_le num_lt num_post eof finish_set finish_unset buf_full buf_cur ended blk opos cur_eq
  have hs : inputStep c r s = { s with Dev2Buf := s.Dev2Buf - 1, num := 0, ipc := IPc.read } := by
    simp only [inputStep, hi, hD]
    rfl
  rw [hs]
  constructor <;> dsimp only [IPc.waited, IPc.posted, IPc.progress, IPc.atEof, IPc.finished]
  all_goals first
    | assumption
    | omega
    | (simp [hne]; done)
    | (simp [hne]; assumption)
    | (simp [hne]; omega)

theorem drainedCount_not_ended (o : OPc) (n r r' : Nat) (h : o.ended = false) :
    o.drainedCount n r = o.drainedCount n r' := by
  cases o <;> simp [OPc.drainedCount, OPc.ended] at h ⊢

/-- For an input that is no device the pass through the loop of `readBlock`
is that of `read`. -/
theorem inputStep_read {α σ : Type} (c : Cfg) (r : ReadRes) (s : RingSt α σ)
    (hi : s.ipc = IPc.read) (hdev : s.IDevBSize = 0) : inputStep c r s = readStep c r s := by
  unfold inputStep
  rw [hi]
  simp only
  rw [if_neg (by simp [hdev])]

theorem core_input_read {α σ : Type} (c : Cfg) (X : List α) (s : RingSt α σ) (r : ReadRes)
    (hN : 0 < c.Numblocks)
    (hc : RingCore c X s) (hi : s.ipc = IPc.read) :
    RingCore c X (inputStep c r s) := by
  have hne := opc_not_ended c X s hc (by rw [hi]; decide)
  have hnum := hc.num_lt hi
  have plain := hc.plain
  rw [inputStep_read c r s hi plain]
  cases r with
  | retry =>
    have hs : readStep c ReadRes.retry s = s := by
      simp only [readStep, hnum]
      rfl
    rw [hs]
    exact hc
  | upTo got =>
    obtain ⟨filled, free, iat_eq, oat_eq, input_eq, ipos_le, num_lt, num_post, eof, finish_set,
      finish_unset, buf_full, buf_cur, ended, seen, blk, blk0, opos, cur_eq, rest_le, rest_eq,
      drained_eq, out_le, _⟩ := hc
    simp [hi, hne, IPc.waited, IPc.posted, IPc.progress, IPc.atEof, IPc.finished] at filled free input_eq ipos_le num_lt num_post eof finish_set finish_unset buf_full buf_cur ended blk opos cur_eq
    have hlen : s.input.length = X.length - (s.Numin * c.Blocksize + s.num) := by
      rw [input_eq, List.length_drop]
    by_cases hn : 0 < min (got + 1) (min (c.Blocksize - s.num) s.input.length)
    · -- data
      generalize hnd : min (got + 1) (min (c.Blocksize - s.num) s.input.length) = n at hn
      have hn1 : n ≤ c.Blocksize - s.num := by omega
      have hn2 : n ≤ s.input.length := by omega
      have hwin : ∀ b, s.Numout + s.opc.posted ≤ b → b < s.Numin →
          b % c.Numblocks ≠ s.Numin % c.Numblocks := by
        intro b hb1 hb2 hmod
        have := mod_window b s.Numin c.Numblocks (by omega) (by omega) hmod
        omega
      have hbf : ∀ b o, s.Numout + s.opc.posted ≤ b → b < s.Numin → o < c.Blocksize →
          X[b * c.Blocksize + o]? =
            some (store s.Buffer s.iat s.num (List.take n s.input) (b % c.Numblocks) o) := by
        intro b o hb1 hb2 ho
        rw [store_other _ _ _ _ _ _ (by rw [iat_eq]; exact hwin b hb1 hb2)]
        exact buf_full b o hb1 hb2 ho
      have hbc : ∀ o, o < s.num + n → X[s.Numin * c.Blocksize + o]? =
            some (store s.Buffer s.iat s.num (List.take n s.input) (s.Numin % c.Numblocks) o) := by
        intro o ho
        by_cases ho1 : o < s.num
        · rw [store_before _ _ _ _ _ _ ho1]
          exact buf_cur o ho1
        · have hl : o - s.num < (List.take n s.input).length := by
            rw [List.length_take]; omega
          rw [← iat_eq, ← store_at s.Buffer s.iat s.num (List.take n s.input) o (by omega) hl]
          rw [List.getElem?_take_of_lt (by omega), input_eq, List.getElem?_drop]
          congr 1
          omega
      have hie : List.drop n s.input = List.drop (s.Numin * c.Blocksize + (s.num + n)) X := by
        rw [input_eq, List.drop_drop]
        congr 1
        omega
      by_cases hfull : s.num + n < c.Blocksize
      · have hs : readStep c (ReadRes.upTo got) s =
            { s with Buffer := store s.Buffer s.iat s.num (s.input.take n),
                     input := s.input.drop n, num := s.num + n } := by
          simp only [readStep, hnd, hn, hfull, if_true]
        rw [hs]
        constructor <;> dsimp only [IPc.waited, IPc.posted, IPc.progress, IPc.atEof, IPc.finished]
        all_goals try rw [hi]
        all_goals first
          | assumption
          | omega
          | (simp [hne, IPc.waited, IPc.posted, IPc.progress, IPc.atEof, IPc.finished]; done)
          | (simp [hne, IPc.waited, IPc.posted, IPc.progress, IPc.atEof, IPc.finished]; assumption)
          | (simp [hne, IPc.waited, IPc.posted, IPc.progress, IPc.atEof, IPc.finished]; omega)
      · have hs : readStep c (ReadRes.upTo got) s =
            { s with Buffer := store s.Buffer s.iat s.num (s.input.take n),
                     input := s.input.drop n, num := s.num + n, ipc := IPc.post } := by
          simp only [readStep, hnd, hn, hfull, if_true, if_false]
        rw [hs]
        constructor <;> dsimp only [IPc.waited, IPc.posted, IPc.progress, IPc.atEof, IPc.finished]
        all_goals first
          | assumption
          | omega
          | (simp [hne, IPc.waited, IPc.posted, IPc.progress, IPc.atEof, IPc.finished]; done)
          | (simp [hne, IPc.waited, IPc.posted, IPc.progress, IPc.atEof, IPc.finished]; assumption)
          | (simp [hne, IPc.waited, IPc.posted, IPc.progress, IPc.atEof, IPc.finished]; omega)
    · -- end of file
      have hin : s.input = [] := by
        apply List.eq_nil_of_length_eq_zero
        omega
      have hs : readStep c (ReadRes.upTo got) s = { s with Rest := s.num, ipc := IPc.finish } := by
        simp only [readStep, hn, if_false]
      rw [hs]
      constructor <;> dsimp only [IPc.waited, IPc.posted, IPc.progress, IPc.atEof, IPc.finished]
      all_goals first
        | assumption
        | omega
        | exact fun _ => ⟨hin, rfl, hnum⟩
        | (rw [drainedCount_not_ended _ _ _ s.Rest hne]; assumption)
        | (simp [hne, IPc.waited, IPc.posted, IPc.progress, IPc.atEof, IPc.finished]; done)
        | (simp [hne, IPc.waited, IPc.posted, IPc.progress, IPc.atEof, IPc.finished]; assumption)
        | (simp [hne, IPc.waited, IPc.posted, IPc.progress, IPc.atEof, IPc.finished]; omega)

theorem core_input_finish {α σ : Type} (c : Cfg) (X : List α) (s : RingSt α σ) (r : ReadRes)
    (hc : RingCore c X s) (hi : s.ipc = IPc.finish) :
    RingCore c X (inputStep c r s) := by
  have hne := opc_not_ended c X s hc (by rw [hi]; decide)
  obtain ⟨filled, free, iat_eq, oat_eq, input_eq, ipos_le, num_lt, num_post, eof, finish_set,
    finish_unset, buf_full, buf_cur, ended, seen, blk, blk0, opos, cur_eq, rest_le, rest_eq,
    drained_eq, out_le, plain⟩ := hc
  simp [hi, hne, IPc.waited, IPc.posted, IPc.progress, IPc.atEof, IPc.finished] at filled free input_eq ipos_le num_lt num_post eof finish_set finish_unset buf_full buf_cur ended blk opos cur_eq
  have hs : inputStep c r s = { s with Finish := (s.iat : Int), ipc := IPc.finpost } := by
    simp only [inputStep, hi]
  rw [hs]
  have hseen : s.opc = OPc.finfill ∨ s.opc = OPc.fin2fill → (s.iat : Int) = (s.oat : Int) := by
    intro h
    have := seen h
    omega
  constructor <;> dsimp only [IPc.waited, IPc.posted, IPc.progress, IPc.atEof, IPc.finished]
  all_goals first
    | assumption
    | omega
    | (simp [hne, IPc.waited, IPc.posted, IPc.progress, IPc.atEof, IPc.finished]; done)
    | (simp [hne, IPc.waited, IPc.posted, IPc.progress, IPc.atEof, IPc.finished]; assumption)
    | (simp [hne, IPc.waited, IPc.posted, IPc.progress, IPc.atEof, IPc.finished]; omega)

theorem core_input_finpost {α σ : Type} (c : Cfg) (X : List α) (s : RingSt α σ) (r : ReadRes)
    (hc : RingCore c X s) (hi : s.ipc = IPc.finpost) :
    RingCore c X (inputStep c r s) := by
  have hne := opc_not_ended c X s hc (by rw [hi]; decide)
  obtain ⟨filled, free, iat_eq, oat_eq, input_eq, ipos_le, num_lt, num_post, eof, finish_set,
    finish_unset, buf_full, buf_cur, ended, seen, blk, blk0, opos, cur_eq, rest_le, rest_eq,
    drained_eq, out_le, plain⟩ := hc
  simp [hi, hne, IPc.waited, IPc.posted, IPc.progress, IPc.atEof, IPc.finished] at filled free input_eq ipos_le num_lt num_post eof finish_set finish_unset buf_full buf_cur ended blk opos cur_eq
  have hs : inputStep c r s = { s with Buf2Dev := s.Buf2Dev + 1, ipc := IPc.done } := by
    simp only [inputStep, hi]
  rw [hs]
  constructor <;> dsimp only [IPc.waited, IPc.posted, IPc.progress, IPc.atEof, IPc.finished]
  all_goals first
    | assumption
    | omega
    | exact fun h => Or.inl (blk h)
    | (simp [hne, IPc.waited, IPc.posted, IPc.progress, IPc.atEof, IPc.finished]; done)
    | (simp [hne, IPc.waited, IPc.posted, IPc.progress, IPc.atEof, IPc.finished]; assumption)
    | (simp [hne, IPc.waited, IPc.posted, IPc.progress, IPc.atEof, IPc.finished]; omega)

theorem core_input_post {α σ : Type} (c : Cfg) (X : List α) (s : RingSt α σ) (r : ReadRes)
    (hN : 0 < c.Numblocks)
    (hc : RingCore c X s) (hi : s.ipc = IPc.post) :
    RingCore c X (inputStep c r s) := by
  have hne := opc_not_ended c X s hc (by rw [hi]; decide)
  obtain ⟨filled, free, iat_eq, oat_eq, input_eq, ipos_le, num_lt, num_post, eof, finish_set,
    finish_unset, buf_full, buf_cur, ended, seen, blk, blk0, opos, cur_eq, rest_le, rest_eq,
    drained_eq, out_le, plain⟩ := hc
  simp [hi, hne, IPc.waited, IPc.posted, IPc.progress, IPc.atEof, IPc.finished] at filled free input_eq ipos_le num_lt num_post eof finish_set finish_unset buf_full buf_cur ended blk opos cur_eq
  have hs : inputStep c r s =
      { s with
        Buf2Dev := s.Buf2Dev + 1
        iat := (if s.iat + 1 = c.Numblocks then 0 else s.iat + 1)
        Numin := s.Numin + 1
        ipc := IPc.top } := by
    simp only [inputStep, hi]
  rw [hs]
  have hmul : (s.Numin + 1) * c.Blocksize = s.Numin * c.Blocksize + s.num := by
    rw [Nat.add_mul, num_post]; omega
  have hbf : ∀ (b o : ℕ), s.Numout + s.opc.posted ≤ b → b < s.Numin + 1 → o < c.Blocksize →
      X[b * c.Blocksize + o]? = some (s.Buffer (b % c.Numblocks) o) := by
    intro b o hb1 hb2 ho
    by_cases hb : b < s.Numin
    · exact buf_full b o hb1 hb ho
    · have : b = s.Numin := by omega
      subst this
      exact buf_cur o (by omega)
  constructor <;> dsimp only [IPc.waited, IPc.posted, IPc.progress, IPc.atEof, IPc.finished]
  all_goals first
    | assumption
    | omega
    | exact wrap_succ _ _ _ hN iat_eq
    | exact fun h => Or.inl ⟨by have := (blk h).1; omega, (blk h).2⟩
    | (rw [Nat.add_zero, hmul]; exact input_eq)
    | (simp [hne, IPc.waited, IPc.posted, IPc.progress, IPc.atEof, IPc.finished]; done)
    | (simp [hne, IPc.waited, IPc.posted, IPc.progress, IPc.atEof, IPc.finished]; assumption)
    | (simp [hne, IPc.waited, IPc.posted, IPc.progress, IPc.atEof, IPc.finished]; omega)

theorem core_inputStep {α σ : Type} (c : Cfg) (X : List α) (s : RingSt α σ) (r : ReadRes)
    (hN : 0 < c.Numblocks) (hbs : 0 < c.Blocksize)
    (hc : RingCore c X s) (hcl : clean s) :
    RingCore c X (inputStep c r s) := by
  cases hi : s.ipc
  · exact core_input_top c X s r hc hcl hi
  · exact core_input_semwait c X s r hbs hc hi
  · exact core_input_read c X s r hN hc hi
  · exact core_input_post c X s r hN hc hi
  · exact core_input_finish c X s r hc hi
  · exact core_input_finpost c X s r hc hi
  · have hs : inputStep c r s = s := by
      simp only [inputStep, hi]
    rw [hs]
    exact hc

theorem core_output_top {α σ : Type} (c : Cfg) (d : Dev σ) (X : List α) (s : RingSt α σ)
    (hc : RingCore c X s) (ho : s.opc = OPc.top) :
    RingCore c X (outputStep c d s) := by
  by_cases hB : s.Buf2Dev = 0
  · have hs : outputStep c d s = s := by
      simp only [outputStep, ho, hB]
      rfl
    rw [hs]
    exact hc
  obtain ⟨filled, free, iat_eq, oat_eq, input_eq, ipos_le, num_lt, num_post, eof, finish_set,
    finish_unset, buf_full, buf_cur, ended, seen, blk, blk0, opos, cur_eq, rest_le, rest_eq,
    drained_eq, out_le, plain⟩ := hc
  simp [ho, OPc.waited, OPc.posted, OPc.ended, OPc.holding, OPc.early, OPc.progress,
    OPc.drainedCount] at filled free buf_full ended seen blk blk0 opos cur_eq rest_le rest_eq drained_eq
  have hs : outputStep c d s =
      { s with
        Buf2Dev := s.Buf2Dev - 1
        rest := s.blocksize
        cur := []
        opc := OPc.termchk } := by
    simp only [outputStep, ho, hB]
    rfl
  rw [hs]
  constructor <;> dsimp only [OPc.waited, OPc.posted, OPc.ended, OPc.holding, OPc.early,
    OPc.progress, OPc.drainedCount]
  all_goals first
    | assumption
    | omega
    | (simp [OPc.waited, OPc.posted, OPc.ended, OPc.holding, OPc.early, OPc.progress, OPc.drainedCount]; done)
    | (simp [OPc.waited, OPc.posted, OPc.ended, OPc.holding, OPc.early, OPc.progress, OPc.drainedCount]; assumption)
    | (simp [OPc.waited, OPc.posted, OPc.ended, OPc.holding, OPc.early, OPc.progress, OPc.drainedCount]; omega)

theorem core_output_termchk {α σ : Type} (c : Cfg) (d : Dev σ) (X : List α) (s : RingSt α σ)
    (hc : RingCore c X s) (hcl : clean s) (ho : s.opc = OPc.termchk) :
    RingCore c X (outputStep c d s) := by
  obtain ⟨h1, h2, h3⟩ := hcl
  obtain ⟨filled, free, iat_eq, oat_eq, input_eq, ipos_le, num_lt, num_post, eof, finish_set,
    finish_unset, buf_full, buf_cur, ended, seen, blk, blk0, opos, cur_eq, rest_le, rest_eq,
    drained_eq, out_le, plain⟩ := hc
  simp [ho, OPc.waited, OPc.posted, OPc.ended, OPc.holding, OPc.early, OPc.progress,
    OPc.drainedCount] at filled free buf_full ended seen blk blk0 opos cur_eq rest_le rest_eq drained_eq
  have hs : outputStep c d s = { s with opc := OPc.finchk } := by
    simp only [outputStep, ho, h1]
    rfl
  rw [hs]
  constructor <;> dsimp only [OPc.waited, OPc.posted, OPc.ended, OPc.holding, OPc.early,
    OPc.progress, OPc.drainedCount]
  all_goals first
    | assumption
    | omega
    | (simp [OPc.waited, OPc.posted, OPc.ended, OPc.holding, OPc.early, OPc.progress, OPc.drainedCount]; done)
    | (simp [OPc.waited, OPc.posted, OPc.ended, OPc.holding, OPc.early, OPc.progress, OPc.drainedCount]; assumption)
    | (simp [OPc.waited, OPc.posted, OPc.ended, OPc.holding, OPc.early, OPc.progress, OPc.drainedCount]; omega)

theorem IPc.posted_le (p : IPc) : p.posted ≤ 1 := by
  cases p <;> simp [IPc.posted]

theorem IPc.waited_le (p : IPc) : p.waited ≤ 1 := by
  cases p <;> simp [IPc.waited]

theorem IPc.posted_eq_one (p : IPc) (h : p.posted = 1) : p = IPc.done := by
  cases p <;> simp [IPc.posted] at h
  rfl

theorem IPc.waited_of_finished (p : IPc) (h : p.finished = true) : p.waited = 1 := by
  cases p <;> simp [IPc.finished] at h <;> rfl

/-- Facts on the final pass of `outputThread`: when `Finish == at` is seen with
a block taken and not given back, the input thread is done and this block is
the last one. -/
theorem final_of_seen {α σ : Type} (c : Cfg) (X : List α) (s : RingSt α σ)
    (hc : RingCore c X s) (hw : s.opc.waited = 1) (hp : s.opc.posted = 0)
    (hne : s.opc.ended = false) (hseen : s.Finish = (s.oat : Int)) :
    s.ipc = IPc.done ∧ s.Numout = s.Numin ∧ s.Buf2Dev = 0 := by
  have hfin : s.ipc.finished = true := by
    cases h : s.ipc.finished
    · have := hc.finish_unset h
      omega
    · rfl
  have h1 := hc.finish_set hfin
  have h2 := hc.filled
  have h3 := hc.free hne
  have h4 := hc.iat_eq
  have h5 := hc.oat_eq
  have hw2 : s.ipc.waited = 1 := IPc.waited_of_finished _ hfin
  have hp2 : s.ipc.posted ≤ 1 := IPc.posted_le _
  have hmod : s.Numout % c.Numblocks = s.Numin % c.Numblocks := by omega
  have heq := mod_window s.Numout s.Numin c.Numblocks (by omega) (by omega) hmod
  have hp3 : s.ipc.posted = 1 := by omega
  exact ⟨IPc.posted_eq_one _ hp3, heq, by omega⟩

theorem core_output_finchk {α σ : Type} (c : Cfg) (d : Dev σ) (X : List α) (s : RingSt α σ)
    (hc : RingCore c X s) (ho : s.opc = OPc.finchk) :
    RingCore c X (outputStep c d s) := by
  have hfinal := final_of_seen c X s hc (by simp [ho, OPc.waited]) (by simp [ho, OPc.posted])
    (by simp [ho, OPc.ended])
  have hfs := hc.finish_set
  obtain ⟨filled, free, iat_eq, oat_eq, input_eq, ipos_le, num_lt, num_post, eof, finish_set,
    finish_unset, buf_full, buf_cur, ended, seen, blk, blk0, opos, cur_eq, rest_le, rest_eq,
    drained_eq, out_le, plain⟩ := hc
  simp [ho, OPc.waited, OPc.posted, OPc.ended, OPc.holding, OPc.early, OPc.progress,
    OPc.drainedCount] at filled free buf_full ended seen blk blk0 opos cur_eq rest_le rest_eq drained_eq
  by_cases hF : s.Finish = (s.oat : Int)
  · have hs : outputStep c d s = { s with opc := OPc.finfill } := by
      simp only [outputStep, ho, hF, if_true]
    rw [hs]
    constructor <;> dsimp only [OPc.waited, OPc.posted, OPc.ended, OPc.holding, OPc.early,
      OPc.progress, OPc.drainedCount]
    all_goals first
      | assumption
      | omega
      | (simp [OPc.waited, OPc.posted, OPc.ended, OPc.holding, OPc.early, OPc.progress, OPc.drainedCount]; done)
      | (simp [OPc.waited, OPc.posted, OPc.ended, OPc.holding, OPc.early, OPc.progress, OPc.drainedCount]; assumption)
      | (simp [OPc.waited, OPc.posted, OPc.ended, OPc.holding, OPc.early, OPc.progress, OPc.drainedCount]; omega)

  · have hs : outputStep c d s = { s with opc := OPc.volchk } := by
      simp only [outputStep, ho, hF, if_false]
    rw [hs]
    have hlt : s.Numout < s.Numin := by
      by_contra hcon
      have hp2 := IPc.posted_le s.ipc
      have hp : s.ipc.posted = 1 := by omega
      have hd : s.ipc = IPc.done := IPc.posted_eq_one _ hp
      have := hfs (by simp [hd, IPc.finished])
      have : s.Numout = s.Numin := by omega
      apply hF
      rw [‹s.Finish = (s.iat : Int)›, iat_eq, oat_eq, this]
    constructor <;> dsimp only [OPc.waited, OPc.posted, OPc.ended, OPc.holding, OPc.early,
      OPc.progress, OPc.drainedCount]
    all_goals first
      | assumption
      | omega
      | exact fun _ => Or.inl ⟨hlt, blk0⟩
      | (simp [OPc.waited, OPc.posted, OPc.ended, OPc.holding, OPc.early, OPc.progress, OPc.drainedCount]; done)
      | (simp [OPc.waited, OPc.posted, OPc.ended, OPc.holding, OPc.early, OPc.progress, OPc.drainedCount]; assumption)
      | (simp [OPc.waited, OPc.posted, OPc.ended, OPc.holding, OPc.early, OPc.progress, OPc.drainedCount]; omega)

/-- The invariant does not speak about the state of the output, the record of
the volumes and of the requests, or the tape counters. -/
theorem core_frame {α σ : Type} (c : Cfg) (X : List α) (s : RingSt α σ) (hc : RingCore c X s)
    (o : σ) (v : Nat) (cs : List Nat) (is : List Nat) (t : TapeState) :
    RingCore c X { s with out := o, volumes := v, cuts := cs, issued := is, tape := t } := by
  obtain ⟨filled, free, iat_eq, oat_eq, input_eq, ipos_le, num_lt, num_post, eof, finish_set,
    finish_unset, buf_full, buf_cur, ended, seen, blk, blk0, opos, cur_eq, rest_le, rest_eq,
    drained_eq, out_le, plain⟩ := hc
  constructor <;> assumption

theorem take_all_of_eof {α : Type} (X : List α) (m n : Nat) (h : List.drop m X = [])
    (hn : m ≤ n) : List.take n X = X := by
  apply List.take_of_length_le
  have := List.drop_eq_nil_iff.mp h
  omega

theorem core_output_finfill {α σ : Type} (c : Cfg) (d : Dev σ) (X : List α) (s : RingSt α σ)
    (hc : RingCore c X s) (hcl : clean s) (ho : s.opc = OPc.finfill) :
    RingCore c X (outputStep c d s) := by
  obtain ⟨hd, hnn, hB⟩ := final_of_seen c X s hc (by simp [ho, OPc.waited])
    (by simp [ho, OPc.posted]) (by simp [ho, OPc.ended]) (hc.seen (Or.inl ho))
  obtain ⟨h1, h2, h3⟩ := hcl
  obtain ⟨he1, he2, he3⟩ := hc.eof (by simp [hd, IPc.atEof])
  have hmulEq : s.Numout * c.Blocksize = s.Numin * c.Blocksize := by rw [hnn]
  have hie := hc.input_eq
  have hil := hc.ipos_le
  simp [hd, IPc.progress] at hie hil
  obtain ⟨filled, free, iat_eq, oat_eq, input_eq, ipos_le, num_lt, num_post, eof, finish_set,
    finish_unset, buf_full, buf_cur, ended, seen, blk, blk0, opos, cur_eq, rest_le, rest_eq,
    drained_eq, out_le, plain⟩ := hc
  simp [ho, OPc.waited, OPc.posted, OPc.ended, OPc.holding, OPc.early, OPc.progress,
    OPc.drainedCount] at filled free buf_full ended seen blk blk0 opos cur_eq rest_le rest_eq drained_eq
  by_cases hR : s.Rest = 0
  · have hs : outputStep c d s = { s with opc := OPc.term false } := by
      simp only [outputStep, ho, hR, hB, h2, and_self, if_true]
    rw [hs]
    have hX : s.written = X := by
      rw [opos]
      apply take_all_of_eof X (s.Numin * c.Blocksize + s.num)
      · rw [← hie]; exact he1
      · omega
    constructor <;> dsimp only [OPc.waited, OPc.posted, OPc.ended, OPc.holding, OPc.early,
      OPc.progress, OPc.drainedCount]
    all_goals first
      | assumption
      | omega
      | exact fun _ => ⟨hd, hnn, hX⟩
      | (simp [OPc.drainedCount, hR]; assumption)
      | (simp [OPc.waited, OPc.posted, OPc.ended, OPc.holding, OPc.early, OPc.progress, OPc.drainedCount]; done)
      | (simp [OPc.waited, OPc.posted, OPc.ended, OPc.holding, OPc.early, OPc.progress, OPc.drainedCount]; assumption)
      | (simp [OPc.waited, OPc.posted, OPc.ended, OPc.holding, OPc.early, OPc.progress, OPc.drainedCount]; omega)

  · have hs : outputStep c d s =
        { s with
          blocksize := s.Rest
          rest := s.Rest
          opc := OPc.volchk } := by
      simp only [outputStep, ho, hR, hB, and_false, if_false]
    rw [hs]
    constructor <;> dsimp only [OPc.waited, OPc.posted, OPc.ended, OPc.holding, OPc.early,
      OPc.progress, OPc.drainedCount]
    all_goals first
      | assumption
      | omega
      | exact fun _ => Or.inr ⟨hnn, hd, rfl, by omega⟩
      | (simp [OPc.waited, OPc.posted, OPc.ended, OPc.holding, OPc.early, OPc.progress, OPc.drainedCount]; done)
      | (simp [OPc.waited, OPc.posted, OPc.ended, OPc.holding, OPc.early, OPc.progress, OPc.drainedCount]; assumption)
      | (simp [OPc.waited, OPc.posted, OPc.ended, OPc.holding, OPc.early, OPc.progress, OPc.drainedCount]; omega)

theorem requestOutputVolume_clean {α σ : Type} (d : Dev σ) (s : RingSt α σ)
    (h2 : s.haderror = false) (h : (requestOutputVolume d s).haderror = false) :
    ∃ o, requestOutputVolume d s =
      { s with out := o, volumes := s.volumes + 1, cuts := s.cuts ++ [s.written.length],
               issued := s.issued, tape := s.tape } := by
  unfold requestOutputVolume at h ⊢
  cases hch : d.change s.out with
  | none => simp [hch] at h
  | some o => exact ⟨o, rfl⟩

theorem core_volchk_write {α σ : Type} (c : Cfg) (X : List α) (s : RingSt α σ)
    (hbs : 0 < c.Blocksize)
    (hc : RingCore c X s) (ho : s.opc = OPc.volchk) :
    RingCore c X { s with opc := OPc.write } := by
  obtain ⟨filled, free, iat_eq, oat_eq, input_eq, ipos_le, num_lt, num_post, eof, finish_set,
    finish_unset, buf_full, buf_cur, ended, seen, blk, blk0, opos, cur_eq, rest_le, rest_eq,
    drained_eq, out_le, plain⟩ := hc
  simp [ho, OPc.waited, OPc.posted, OPc.ended, OPc.holding, OPc.early, OPc.progress,
    OPc.drainedCount] at filled free buf_full ended seen blk blk0 opos cur_eq rest_le rest_eq drained_eq
  have hpos : 0 < s.blocksize := by
    rcases blk with h | h
    · omega
    · omega
  constructor <;> dsimp only [OPc.waited, OPc.posted, OPc.ended, OPc.holding, OPc.early,
    OPc.progress, OPc.drainedCount]
  all_goals first
    | assumption
    | omega
    | (simp [rest_eq]; simpa using opos)
    | (simp [rest_eq]; simpa using cur_eq)
    | (simp [OPc.waited, OPc.posted, OPc.ended, OPc.holding, OPc.early, OPc.progress, OPc.drainedCount]; done)
    | (simp [OPc.waited, OPc.posted, OPc.ended, OPc.holding, OPc.early, OPc.progress, OPc.drainedCount]; assumption)
    | (simp [OPc.waited, OPc.posted, OPc.ended, OPc.holding, OPc.early, OPc.progress, OPc.drainedCount]; omega)

theorem core_output_volchk {α σ : Type} (c : Cfg) (d : Dev σ) (X : List α) (s : RingSt α σ)
    (hbs : 0 < c.Blocksize)
    (hc : RingCore c X s) (hcl : clean s) (hcl' : clean (outputStep c d s))
    (ho : s.opc = OPc.volchk) :
    RingCore c X (outputStep c d s) := by
  obtain ⟨h1, h2, h3⟩ := hcl
  obtain ⟨h1', h2', h3'⟩ := hcl'
  simp only [outputStep, ho] at h1' h2' h3' ⊢
  split_ifs at h1' h2' h3' ⊢ with hv hz hm
  · simp at h3'
  · obtain ⟨o, hr⟩ := requestOutputVolume_clean d s h2 h2'
    rw [hr]
    exact core_volchk_write c X _ hbs (core_frame c X s hc _ _ _ _ _) ho
  · exact core_volchk_write c X s hbs hc ho
  · exact core_volchk_write c X s hbs hc ho

/-- While `outputThread` writes a block, the block lies in the buffer. -/
theorem block_in_buffer {α σ : Type} (c : Cfg) (X : List α) (s : RingSt α σ)
    (hc : RingCore c X s) (ho : s.opc = OPc.write) :
    ∀ o, o < s.blocksize →
      X[s.Numout * c.Blocksize + o]? = some (s.Buffer s.oat o) := by
  intro o hlt
  have hb := hc.blk (by simp [ho, OPc.holding])
  rw [hc.oat_eq]
  rcases hb with ⟨h1, h2⟩ | ⟨h1, h2, h3, h4⟩
  · exact hc.buf_full s.Numout o (by simp [ho, OPc.posted]) h1 (by omega)
  · have he := hc.eof (by simp [h2, IPc.atEof])
    have := hc.buf_cur o (by simp [h2, IPc.progress]; omega)
    rw [h1]
    exact this

theorem core_write_advance {α σ : Type} (c : Cfg) (X : List α) (s : RingSt α σ)
    (hc : RingCore c X s) (ho : s.opc = OPc.write) (k : Nat) (hk : k ≤ min s.rest c.Outsize) :
    RingCore c X (writeLoop { s with
      rest := s.rest - k
      written := s.written ++ load s.Buffer s.oat (s.blocksize - s.rest) k
      cur := s.cur ++ load s.Buffer s.oat (s.blocksize - s.rest) k }) := by
  have hbuf := block_in_buffer c X s hc ho
  obtain ⟨filled, free, iat_eq, oat_eq, input_eq, ipos_le, num_lt, num_post, eof, finish_set,
    finish_unset, buf_full, buf_cur, ended, seen, blk, blk0, opos, cur_eq, rest_le, rest_eq,
    drained_eq, out_le, plain⟩ := hc
  simp [ho, OPc.waited, OPc.posted, OPc.ended, OPc.holding, OPc.early, OPc.progress,
    OPc.drainedCount] at filled free buf_full ended seen blk blk0 opos cur_eq rest_le rest_eq drained_eq
  have hk1 : k ≤ s.rest := by omega
  have hload : load s.Buffer s.oat (s.blocksize - s.rest) k =
      (X.drop (s.Numout * c.Blocksize + (s.blocksize - s.rest))).take k :=
    load_eq X s.Buffer s.oat _ _ k s.blocksize hbuf (by omega)
  have hw : s.written ++ load s.Buffer s.oat (s.blocksize - s.rest) k =
      X.take (s.Numout * c.Blocksize + (s.blocksize - s.rest) + k) := by
    rw [hload, opos, ← List.take_add]
  have hcu : s.cur ++ load s.Buffer s.oat (s.blocksize - s.rest) k =
      (X.drop (s.Numout * c.Blocksize)).take ((s.blocksize - s.rest) + k) := by
    rw [hload, cur_eq, List.take_add, List.drop_drop]
  unfold writeLoop
  dsimp only
  split_ifs with hr
  · have e1 : s.blocksize - s.rest + k = s.blocksize - (s.rest - k) := by omega
    rw [hw, hcu, Nat.add_assoc, e1]
    constructor <;> dsimp only [OPc.waited, OPc.posted, OPc.ended, OPc.holding, OPc.early,
      OPc.progress, OPc.drainedCount]
    all_goals first
      | assumption
      | omega
      | (simp [ho]; done)
      | (simp [OPc.waited, OPc.posted, OPc.ended, OPc.holding, OPc.early, OPc.progress, OPc.drainedCount]; done)
      | (simp [OPc.waited, OPc.posted, OPc.ended, OPc.holding, OPc.early, OPc.progress, OPc.drainedCount]; assumption)
      | (simp [OPc.waited, OPc.posted, OPc.ended, OPc.holding, OPc.early, OPc.progress, OPc.drainedCount]; omega)

  · have e1 : s.blocksize - s.rest + k = s.blocksize := by omega
    rw [hw, hcu, Nat.add_assoc, e1]
    constructor <;> dsimp only [OPc.waited, OPc.posted, OPc.ended, OPc.holding, OPc.early,
      OPc.progress, OPc.drainedCount]
    all_goals first
      | assumption
      | omega
      | (simp [ho]; done)
      | (simp [OPc.waited, OPc.posted, OPc.ended, OPc.holding, OPc.early, OPc.progress, OPc.drainedCount]; done)
      | (simp [OPc.waited, OPc.posted, OPc.ended, OPc.holding, OPc.early, OPc.progress, OPc.drainedCount]; assumption)
      | (simp [OPc.waited, OPc.posted, OPc.ended, OPc.holding, OPc.early, OPc.progress, OPc.drainedCount]; omega)

theorem set_opc_same {α σ : Type} (s : RingSt α σ) (p : OPc) (h : s.opc = p) :
    { s with opc := p } = s := by
  cases s
  simp only at h
  subst h
  rfl

theorem writeLoop_pos {α σ : Type} (s : RingSt α σ) (h : 0 < s.rest) (ho : s.opc = OPc.write) :
    writeLoop s = s := by
  unfold writeLoop
  rw [if_pos h]
  exact set_opc_same s _ ho

theorem writeLoop_haderror {α σ : Type} (s : RingSt α σ) :
    (writeLoop s).haderror = s.haderror := by
  unfold writeLoop
  split_ifs <;> rfl

theorem core_output_write {α σ : Type} (c : Cfg) (d : Dev σ) (X : List α) (s : RingSt α σ)
    (hd : d.sane)
    (hc : RingCore c X s) (hcl : clean s) (hcl' : clean (outputStep c d s))
    (ho : s.opc = OPc.write) :
    RingCore c X (outputStep c d s) := by
  obtain ⟨h1, h2, h3⟩ := hcl
  obtain ⟨h1', h2', h3'⟩ := hcl'
  have hrest := hc.rest_le ho
  cases s with
  | mk Dev2Buf Buf2Dev Finish Rest Numin Numout Terminate MainOutOK Done Autoloader Buffer ipc iat
      num input IDevBSize DevBuf IFill Off hadzero answers opc oat blocksize rest haderror tape out written cuts cur drained issued volumes =>
  simp only at ho h1 h2 hrest
  subst ho
  subst h2
  subst h1
  simp only [outputStep, writeStep] at h1' h2' h3' ⊢
  simp only [Bool.false_eq_true, if_false] at h1' h2' h3' ⊢
  generalize hnx : afterWrite c.TapeAware (c.Terminal || Autoloader) tape
    (d.write out (min rest c.Outsize)).1 = nx at h1' h2' h3' ⊢
  obtain ⟨n1, t1⟩ := nx
  cases n1 with
  | again =>
    simp only at h1' h2' h3' ⊢
    rw [writeLoop_pos _ hrest.1 rfl]
    exact core_frame c X _ hc _ _ _ _ _
  | newVolume =>
    simp only at h1' h2' h3' ⊢
    rw [writeLoop_haderror] at h2'
    obtain ⟨o, hr⟩ := requestOutputVolume_clean d _ rfl h2'
    rw [hr, writeLoop_pos _ hrest.1 rfl]
    exact core_frame c X _ hc _ _ _ _ _
  | failed =>
    simp at h1'
  | advance k =>
    simp only at h1' h2' h3' ⊢
    have hr := afterWrite_advance _ _ _ _ k (by rw [hnx])
    have hk := hd _ _ _ hr
    exact core_write_advance c X _ (core_frame c X _ hc _ volumes cuts _ t1) rfl k hk

theorem core_output_post {α σ : Type} (c : Cfg) (d : Dev σ) (X : List α) (s : RingSt α σ)
    (hc : RingCore c X s) (ho : s.opc = OPc.post) :
    RingCore c X (outputStep c d s) := by
  have heof := hc.eof
  have hie := hc.input_eq
  obtain ⟨filled, free, iat_eq, oat_eq, input_eq, ipos_le, num_lt, num_post, eof, finish_set,
    finish_unset, buf_full, buf_cur, ended, seen, blk, blk0, opos, cur_eq, rest_le, rest_eq,
    drained_eq, out_le, plain⟩ := hc
  simp [ho, OPc.waited, OPc.posted, OPc.ended, OPc.holding, OPc.early, OPc.progress,
    OPc.drainedCount] at filled free buf_full ended seen blk blk0 opos cur_eq rest_le rest_eq drained_eq
  have hs : outputStep c d s =
      { s with
        Dev2Buf := s.Dev2Buf + 1
        drained := s.drained ++ [s.cur]
        opc := OPc.fin2 } := by
    simp only [outputStep, ho]
  rw [hs]
  have hcur : s.cur = blockOf X c.Blocksize s.Numout := by
    rw [cur_eq]
    unfold blockOf
    rcases blk with ⟨h1, h2⟩ | ⟨h1, h2, h3, h4⟩
    · rw [h2]
    · obtain ⟨e1, e2, e3⟩ := heof (by simp [h2, IPc.atEof])
      rw [e1] at hie
      simp [h2, IPc.progress] at hie
      have hl : (List.drop (s.Numout * c.Blocksize) X).length ≤ s.Rest := by
        rw [List.length_drop, h1]
        omega
      rw [h3, List.take_of_length_le hl, List.take_of_length_le (by omega)]
  have hdr : s.drained ++ [s.cur] =
      List.map (blockOf X c.Blocksize) (List.range (s.Numout + 1)) := by
    rw [List.range_succ, List.map_append, ← drained_eq, hcur]
    rfl
  have hbf : ∀ (b o : ℕ), s.Numout + 1 ≤ b → b < s.Numin → o < c.Blocksize →
      X[b * c.Blocksize + o]? = some (s.Buffer (b % c.Numblocks) o) :=
    fun b o hb1 hb2 ho => buf_full b o (by omega) hb2 ho
  constructor <;> dsimp only [OPc.waited, OPc.posted, OPc.ended, OPc.holding, OPc.early,
    OPc.progress, OPc.drainedCount]
  all_goals first
    | assumption
    | omega
    | (simp [OPc.waited, OPc.posted, OPc.ended, OPc.holding, OPc.early, OPc.progress, OPc.drainedCount]; done)
    | (simp [OPc.waited, OPc.posted, OPc.ended, OPc.holding, OPc.early, OPc.progress, OPc.drainedCount]; assumption)
    | (simp [OPc.waited, OPc.posted, OPc.ended, OPc.holding, OPc.early, OPc.progress, OPc.drainedCount]; omega)

theorem core_output_nextBlock {α σ : Type} (c : Cfg) (X : List α) (s : RingSt α σ)
    (hN : 0 < c.Numblocks)
    (hc : RingCore c X s) (ho : s.opc.posted = 1) (hlt : s.Numout < s.Numin) :
    RingCore c X (nextBlock c s) := by
  have hbs := hc.blk (by cases h : s.opc <;> simp [h, OPc.posted] at ho <;> rfl)
  have hpr : s.opc.progress s.blocksize s.rest = s.blocksize := by
    cases h : s.opc <;> simp [h, OPc.posted] at ho <;> rfl
  have hw : s.opc.waited = 1 := by
    cases h : s.opc <;> simp [h, OPc.posted] at ho <;> rfl
  have hne : s.opc.ended = false := by
    cases h : s.opc <;> simp [h, OPc.posted] at ho <;> rfl
  have hdc : s.opc.drainedCount s.Numout s.Rest = s.Numout + 1 := by
    cases h : s.opc <;> simp [h, OPc.posted] at ho <;> rfl
  obtain ⟨filled, free, iat_eq, oat_eq, input_eq, ipos_le, num_lt, num_post, eof, finish_set,
    finish_unset, buf_full, buf_cur, ended, seen, blk, blk0, opos, cur_eq, rest_le, rest_eq,
    drained_eq, out_le, plain⟩ := hc
  rw [hw] at filled
  rw [ho] at buf_full
  rw [hdc] at drained_eq
  have free' := free hne
  rw [ho] at free'
  have opos' := opos hne
  rw [hpr] at opos'
  have hb : s.blocksize = c.Blocksize := by
    rcases hbs with h | h
    · exact h.2
    · omega
  have hmul : (s.Numout + 1) * c.Blocksize = s.Numout * c.Blocksize + s.blocksize := by
    rw [Nat.add_mul, hb]; omega
  unfold nextBlock
  constructor <;> dsimp only [OPc.waited, OPc.posted, OPc.ended, OPc.holding, OPc.early,
    OPc.progress, OPc.drainedCount]
  all_goals first
    | assumption
    | omega
    | exact wrap_succ' _ _ _ hN oat_eq
    | (rw [Nat.add_zero, hmul]; exact fun _ => opos')
    | (simp [OPc.waited, OPc.posted, OPc.ended, OPc.holding, OPc.early, OPc.progress, OPc.drainedCount]; done)
    | (simp [OPc.waited, OPc.posted, OPc.ended, OPc.holding, OPc.early, OPc.progress, OPc.drainedCount]; assumption)
    | (simp [OPc.waited, OPc.posted, OPc.ended, OPc.holding, OPc.early, OPc.progress, OPc.drainedCount]; omega)

/-- After a block was given back, `Finish == at` with an empty ring means that
the block was the last one; and on the last pass the ring is empty. -/
theorem final_iff_empty {α σ : Type} (c : Cfg) (X : List α) (s : RingSt α σ)
    (hN : 2 ≤ c.Numblocks)
    (hc : RingCore c X s) (ho : s.opc = OPc.fin2fill) :
    (s.Buf2Dev = 0 → s.Numout = s.Numin ∧ s.ipc = IPc.done ∧ s.blocksize = s.Rest ∧ 0 < s.Rest) ∧
    (s.Buf2Dev ≠ 0 → s.Numout < s.Numin) := by
  have hseen := hc.seen (Or.inr ho)
  have hfin : s.ipc.finished = true := by
    cases h : s.ipc.finished
    · have := hc.finish_unset h
      omega
    · rfl
  have h1 := hc.finish_set hfin
  have h2 := hc.filled
  have h3 := hc.free (by simp [ho, OPc.ended])
  have h4 := hc.iat_eq
  have h5 := hc.oat_eq
  have hb := hc.blk (by simp [ho, OPc.holding])
  simp [ho, OPc.waited, OPc.posted] at h2 h3
  have hp2 := IPc.posted_le s.ipc
  have hw2 := IPc.waited_of_finished _ hfin
  have hmod : s.Numout % c.Numblocks = s.Numin % c.Numblocks := by omega
  constructor
  · intro hB
    rcases hb with ⟨hlt, _⟩ | hfinal
    · exfalso
      have h6 : s.Numin = s.Numout + 1 := by omega
      rw [h6] at hmod
      have := mod_window s.Numout (s.Numout + 1) c.Numblocks (by omega) (by omega) hmod
      omega
    · exact hfinal
  · intro hB
    rcases hb with ⟨hlt, _⟩ | ⟨e1, e2, _⟩
    · exact hlt
    · exfalso
      rw [e2] at h2
      simp [IPc.posted] at h2
      omega

theorem core_output_fin2 {α σ : Type} (c : Cfg) (d : Dev σ) (X : List α) (s : RingSt α σ)
    (hN : 0 < c.Numblocks)
    (hc : RingCore c X s) (ho : s.opc = OPc.fin2) :
    RingCore c X (outputStep c d s) := by
  by_cases hF : s.Finish = (s.oat : Int)
  · have hs : outputStep c d s = { s with opc := OPc.fin2fill } := by
      simp only [outputStep, ho, hF, if_true]
    rw [hs]
    obtain ⟨filled, free, iat_eq, oat_eq, input_eq, ipos_le, num_lt, num_post, eof, finish_set,
      finish_unset, buf_full, buf_cur, ended, seen, blk, blk0, opos, cur_eq, rest_le, rest_eq,
      drained_eq, out_le, plain⟩ := hc
    simp [ho, OPc.waited, OPc.posted, OPc.ended, OPc.holding, OPc.early, OPc.progress,
      OPc.drainedCount] at filled free buf_full ended seen blk blk0 opos cur_eq rest_le rest_eq drained_eq
    constructor <;> dsimp only [OPc.waited, OPc.posted, OPc.ended, OPc.holding, OPc.early,
      OPc.progress, OPc.drainedCount]
    all_goals try first
      | assumption
      | omega
      | (simp [OPc.waited, OPc.posted, OPc.ended, OPc.holding, OPc.early, OPc.progress, OPc.drainedCount]; done)
      | (simp [OPc.waited, OPc.posted, OPc.ended, OPc.holding, OPc.early, OPc.progress, OPc.drainedCount]; assumption)
      | (simp [OPc.waited, OPc.posted, OPc.ended, OPc.holding, OPc.early, OPc.progress, OPc.drainedCount]; omega)

  · have hs : outputStep c d s = nextBlock c s := by
      simp only [outputStep, ho, hF, if_false]
    rw [hs]
    apply core_output_nextBlock c X s hN hc (by simp [ho, OPc.posted])
    rcases hc.blk (by simp [ho, OPc.holding]) with ⟨hlt, _⟩ | ⟨e1, e2, _⟩
    · exact hlt
    · exfalso
      apply hF
      rw [hc.finish_set (by simp [e2, IPc.finished]), hc.iat_eq, hc.oat_eq, e1]

theorem core_output_fin2fill {α σ : Type} (c : Cfg) (d : Dev σ) (X : List α) (s : RingSt α σ)
    (hN : 2 ≤ c.Numblocks)
    (hc : RingCore c X s) (ho : s.opc = OPc.fin2fill) :
    RingCore c X (outputStep c d s) := by
  obtain ⟨hA, hB⟩ := final_iff_empty c X s hN hc ho
  by_cases hE : s.Buf2Dev = 0
  · obtain ⟨e1, e2, e3, e4⟩ := hA hE
    have hs : outputStep c d s = { s with opc := OPc.term false } := by
      simp only [outputStep, ho, hE, if_true]
    rw [hs]
    obtain ⟨he1, he2, he3⟩ := hc.eof (by simp [e2, IPc.atEof])
    have hie := hc.input_eq
    simp [e2, IPc.progress] at hie
    have hmulEq : s.Numout * c.Blocksize = s.Numin * c.Blocksize := by rw [e1]
    obtain ⟨filled, free, iat_eq, oat_eq, input_eq, ipos_le, num_lt, num_post, eof, finish_set,
      finish_unset, buf_full, buf_cur, ended, seen, blk, blk0, opos, cur_eq, rest_le, rest_eq,
      drained_eq, out_le, plain⟩ := hc
    simp [ho, OPc.waited, OPc.posted, OPc.ended, OPc.holding, OPc.early, OPc.progress,
      OPc.drainedCount] at filled free buf_full ended seen blk blk0 opos cur_eq rest_le rest_eq drained_eq
    have hX : s.written = X := by
      rw [opos]
      apply take_all_of_eof X (s.Numin * c.Blocksize + s.num)
      · rw [← hie]; exact he1
      · omega
    constructor <;> dsimp only [OPc.waited, OPc.posted, OPc.ended, OPc.holding, OPc.early,
      OPc.progress, OPc.drainedCount]
    all_goals try first
      | assumption
      | omega
      | exact fun _ => ⟨e2, e1, hX⟩
      | (simp [OPc.drainedCount, e4]; assumption)
      | (simp [OPc.waited, OPc.posted, OPc.ended, OPc.holding, OPc.early, OPc.progress, OPc.drainedCount]; done)
      | (simp [OPc.waited, OPc.posted, OPc.ended, OPc.holding, OPc.early, OPc.progress, OPc.drainedCount]; assumption)
      | (simp [OPc.waited, OPc.posted, OPc.ended, OPc.holding, OPc.early, OPc.progress, OPc.drainedCount]; omega)

  · have hs : outputStep c d s = nextBlock c s := by
      simp only [outputStep, ho, hE, if_false]
    rw [hs]
    exact core_output_nextBlock c X s (by omega) hc (by simp [ho, OPc.posted]) (hB hE)

theorem core_output_term {α σ : Type} (c : Cfg) (d : Dev σ) (X : List α) (s : RingSt α σ)
    (hc : RingCore c X s) (ho : s.opc = OPc.term false) :
    RingCore c X (outputStep c d s) := by
  have hs : outputStep c d s = { s with Done := true, opc := OPc.done } := by
    simp only [outputStep, ho, terminateOutputThread, Bool.false_eq_true, if_false]
  rw [hs]
  obtain ⟨filled, free, iat_eq, oat_eq, input_eq, ipos_le, num_lt, num_post, eof, finish_set,
    finish_unset, buf_full, buf_cur, ended, seen, blk, blk0, opos, cur_eq, rest_le, rest_eq,
    drained_eq, out_le, plain⟩ := hc
  simp [ho, OPc.waited, OPc.posted, OPc.ended, OPc.holding, OPc.early, OPc.progress,
    OPc.drainedCount] at filled free buf_full ended seen blk blk0 opos cur_eq rest_le rest_eq drained_eq
  constructor <;> dsimp only [OPc.waited, OPc.posted, OPc.ended, OPc.holding, OPc.early,
    OPc.progress, OPc.drainedCount]
  all_goals try first
    | assumption
    | omega
    | (simp [OPc.waited, OPc.posted, OPc.ended, OPc.holding, OPc.early, OPc.progress, OPc.drainedCount]; done)
    | (simp [OPc.waited, OPc.posted, OPc.ended, OPc.holding, OPc.early, OPc.progress, OPc.drainedCount]; assumption)
    | (simp [OPc.waited, OPc.posted, OPc.ended, OPc.holding, OPc.early, OPc.progress, OPc.drainedCount]; omega)

theorem core_outputStep {α σ : Type} (c : Cfg) (d : Dev σ) (X : List α) (s : RingSt α σ)
    (hN : 2 ≤ c.Numblocks) (hbs : 0 < c.Blocksize) (hd : d.sane) (hg : Guard s)
    (hc : RingCore c X s) (hcl : clean s) (hcl' : clean (outputStep c d s)) :
    RingCore c X (outputStep c d s) := by
  cases ho : s.opc with
  | top => exact core_output_top c d X s hc ho
  | termchk => exact core_output_termchk c d X s hc hcl ho
  | finchk => exact core_output_finchk c d X s hc ho
  | finfill => exact core_output_finfill c d X s hc hcl ho
  | volchk => exact core_output_volchk c d X s hbs hc hcl hcl' ho
  | write => exact core_output_write c d X s hd hc hcl hcl' ho
  | post => exact core_output_post c d X s hc ho
  | fin2 => exact core_output_fin2 c d X s (by omega) hc ho
  | fin2fill => exact core_output_fin2fill c d X s hN hc ho
  | errpost =>
    exfalso
    rcases hg (Or.inl ho) with h | h
    · rw [hcl.1] at h; cases h
    · rw [hcl.2.1] at h; cases h
  | term st =>
    cases st with
    | false => exact core_output_term c d X s hc ho
    | true =>
      exfalso
      rcases hg (Or.inr ho) with h | h
      · rw [hcl.1] at h; cases h
      · rw [hcl.2.1] at h; cases h
  | done =>
    have hs : outputStep c d s = s := by
      simp only [outputStep, ho]
    rw [hs]
    exact hc
  | crashed => exact absurd ho hcl.2.2

/-! ### Errors are never forgotten -/

/-- What a pass through the loop of `readBlock` leaves as it is. -/
theorem readLoop_frame {α σ : Type} (c : Cfg) (r : ReadRes) (s : RingSt α σ) (t : RingSt α σ)
    (ht : t = devreadStep c s ∨ t = readStep c r s) :
    t.Terminate = s.Terminate ∧ t.haderror = s.haderror ∧ t.opc = s.opc ∧
    t.Numout = s.Numout ∧ t.rest = s.rest ∧ t.out = s.out ∧ t.tape = s.tape ∧
    t.Autoloader = s.Autoloader ∧ t.issued = s.issued ∧ t.written = s.written ∧
    t.volumes = s.volumes ∧ t.cuts = s.cuts ∧ t.drained = s.drained ∧
    t.IDevBSize = s.IDevBSize := by
  rcases ht with ht | ht
  · subst ht
    unfold devreadStep
    simp only
    split_ifs <;> simp
  · subst ht
    unfold readStep
    cases r <;> simp only
    · split_ifs <;> simp
    · split_ifs <;> simp

/-- What a step of `inputThread` leaves as it is. -/
theorem inputStep_same {α σ : Type} (c : Cfg) (r : ReadRes) (s : RingSt α σ) :
    (inputStep c r s).Terminate = s.Terminate ∧ (inputStep c r s).haderror = s.haderror ∧
    (inputStep c r s).opc = s.opc ∧ (inputStep c r s).Numout = s.Numout ∧
    (inputStep c r s).rest = s.rest ∧ (inputStep c r s).out = s.out ∧
    (inputStep c r s).tape = s.tape ∧ (inputStep c r s).Autoloader = s.Autoloader ∧
    (inputStep c r s).issued = s.issued ∧ (inputStep c r s).written = s.written ∧
    (inputStep c r s).volumes = s.volumes ∧ (inputStep c r s).cuts = s.cuts ∧
    (inputStep c r s).drained = s.drained ∧ (inputStep c r s).IDevBSize = s.IDevBSize := by
  unfold inputStep
  cases s.ipc <;> simp only
  · split_ifs <;> simp
  · split_ifs <;> simp
  · split_ifs
    · exact readLoop_frame c r s _ (Or.inl rfl)
    · exact readLoop_frame c r s _ (Or.inr rfl)
  · simp
  · simp
  · simp
  · simp

theorem inputStep_frame {α σ : Type} (c : Cfg) (r : ReadRes) (s : RingSt α σ) :
    (inputStep c r s).Terminate = s.Terminate ∧ (inputStep c r s).haderror = s.haderror ∧
    (inputStep c r s).opc = s.opc := by
  obtain ⟨h1, h2, h3, _⟩ := inputStep_same c r s
  exact ⟨h1, h2, h3⟩

theorem writeLoop_frame {α σ : Type} (s : RingSt α σ) :
    (writeLoop s).Terminate = s.Terminate ∧ (writeLoop s).haderror = s.haderror ∧
    ((writeLoop s).opc = OPc.write ∨ (writeLoop s).opc = OPc.post) := by
  unfold writeLoop
  split_ifs <;> simp

theorem requestOutputVolume_frame {α σ : Type} (d : Dev σ) (s : RingSt α σ) :
    (requestOutputVolume d s).Terminate = s.Terminate ∧
    (s.haderror = true → (requestOutputVolume d s).haderror = true) ∧
    (requestOutputVolume d s).opc = s.opc := by
  unfold requestOutputVolume
  cases d.change s.out <;> simp

theorem writeLoop_Terminate {α σ : Type} (s : RingSt α σ) :
    (writeLoop s).Terminate = s.Terminate := (writeLoop_frame s).1

theorem writeLoop_opc {α σ : Type} (s : RingSt α σ) :
    (writeLoop s).opc ≠ OPc.crashed ∧ (writeLoop s).opc ≠ OPc.errpost ∧
    (writeLoop s).opc ≠ OPc.term true := by
  rcases (writeLoop_frame s).2.2 with h | h <;> simp [h]

theorem writeStep_sticky {α σ : Type} (c : Cfg) (d : Dev σ) (s : RingSt α σ) :
    (s.Terminate = true → (writeStep c d s).Terminate = true) ∧
    (s.haderror = true → (writeStep c d s).haderror = true) ∧
    (writeStep c d s).opc ≠ OPc.crashed ∧
    ((writeStep c d s).opc = OPc.errpost → (writeStep c d s).Terminate = true) ∧
    (writeStep c d s).opc ≠ OPc.term true := by
  unfold writeStep
  cases hh : s.haderror <;> simp only [Bool.false_eq_true, if_false, if_true]
  all_goals generalize afterWrite _ _ _ _ = nx
  all_goals obtain ⟨n1, t1⟩ := nx
  all_goals cases n1 <;> simp only
  all_goals first
    | (refine ⟨?_, ?_, ?_, ?_, ?_⟩ <;>
        simp [writeLoop_Terminate, writeLoop_haderror, writeLoop_opc,
          (requestOutputVolume_frame _ _).1] <;> done)
    | (refine ⟨?_, ?_, ?_, ?_, ?_⟩ <;>
        simp [writeLoop_Terminate, writeLoop_haderror, writeLoop_opc,
          (requestOutputVolume_frame _ _).1] <;>
        exact (requestOutputVolume_frame _ _).2.1 rfl)
    | skip

theorem outputStep_sticky {α σ : Type} (c : Cfg) (d : Dev σ) (s : RingSt α σ) :
    (s.Terminate = true → (outputStep c d s).Terminate = true) ∧
    (s.haderror = true → (outputStep c d s).haderror = true) := by
  unfold outputStep
  cases ho : s.opc <;> simp only
  case write => exact ⟨(writeStep_sticky c d s).1, (writeStep_sticky c d s).2.1⟩
  case volchk =>
    split_ifs
    · simp
    · exact ⟨fun h => by simp [(requestOutputVolume_frame d s).1, h],
        fun h => by simpa using (requestOutputVolume_frame d s).2.1 h⟩
    · simp
    · simp
  all_goals first
    | (split_ifs <;> simp <;> done)
    | (simp [terminateOutputThread, nextBlock]; done)
    | (split_ifs <;> simp [terminateOutputThread, nextBlock] <;> done)

theorem guard_outputStep {α σ : Type} (c : Cfg) (d : Dev σ) (s : RingSt α σ) (hg : Guard s) :
    Guard (outputStep c d s) := by
  unfold Guard at hg ⊢
  unfold outputStep
  cases ho : s.opc <;> simp only
  case write =>
    intro h
    rcases h with h | h
    · exact Or.inl ((writeStep_sticky c d s).2.2.2.1 h)
    · exact absurd h (writeStep_sticky c d s).2.2.2.2
  case errpost =>
    intro _
    simpa using hg (Or.inl ho)
  case term st =>
    simp [terminateOutputThread]
  case volchk =>
    split_ifs <;> simp
  case finfill =>
    split_ifs <;> simp
    intro h; exact Or.inr h
  case termchk =>
    split_ifs with h
    · intro _; exact Or.inl h
    · simp
  all_goals first
    | (split_ifs <;> simp [nextBlock, ho] at hg ⊢ <;> done)
    | (simp [nextBlock, ho] at hg ⊢; done)
    | (split_ifs <;> simp [nextBlock, ho] at hg ⊢ <;> assumption)

theorem unclean_step {α σ : Type} (c : Cfg) (d : Dev σ) (s : RingSt α σ) (e : Ev)
    (h : clean (step c d s e)) : clean s := by
  unfold step at h
  by_cases hcr : s.opc = OPc.crashed
  · rw [if_pos hcr] at h
    exact h
  rw [if_neg hcr] at h
  obtain ⟨h1, h2, h3⟩ := h
  cases e with
  | input r =>
    simp only at h1 h2 h3
    obtain ⟨f1, f2, f3⟩ := inputStep_frame c r s
    rw [f1] at h1
    rw [f2] at h2
    exact ⟨h1, h2, hcr⟩
  | output =>
    simp only at h1 h2 h3
    obtain ⟨f1, f2⟩ := outputStep_sticky c d s
    refine ⟨?_, ?_, hcr⟩
    · cases ht : s.Terminate
      · rfl
      · rw [f1 ht] at h1; cases h1
    · cases ht : s.haderror
      · rfl
      · rw [f2 ht] at h2; cases h2

theorem guard_step {α σ : Type} (c : Cfg) (d : Dev σ) (s : RingSt α σ) (e : Ev)
    (hg : Guard s) : Guard (step c d s e) := by
  unfold step
  split_ifs with hcr
  · exact hg
  cases e with
  | input r =>
    simp only
    obtain ⟨f1, f2, f3⟩ := inputStep_frame c r s
    unfold Guard at hg ⊢
    rw [f1, f2, f3]
    exact hg
  | output => exact guard_outputStep c d s hg

theorem inv_step {α σ : Type} (c : Cfg) (d : Dev σ) (X : List α) (s : RingSt α σ) (e : Ev)
    (hN : 2 ≤ c.Numblocks) (hbs : 0 < c.Blocksize) (hd : d.sane)
    (h : RingInv c X s) : RingInv c X (step c d s e) := by
  obtain ⟨hg, hc⟩ := h
  refine ⟨guard_step c d s e hg, ?_⟩
  intro hcl'
  have hcl := unclean_step c d s e hcl'
  have hcore := hc hcl
  unfold step at hcl' ⊢
  rw [if_neg hcl.2.2] at hcl' ⊢
  cases e with
  | input r => exact core_inputStep c X s r (by omega) hbs hcore hcl
  | output => exact core_outputStep c d X s hN hbs hd hg hcore hcl hcl'

theorem inv_run {α σ : Type} (c : Cfg) (d : Dev σ) (X : List α) (es : List Ev)
    (hN : 2 ≤ c.Numblocks) (hbs : 0 < c.Blocksize) (hd : d.sane) :
    ∀ s : RingSt α σ, RingInv c X s → RingInv c X (run c d s es) := by
  induction es with
  | nil => intro s h; exact h
  | cons e es ih =>
    intro s h
    exact ih _ (inv_step c d X s e hN hbs hd h)

theorem inv_init {α σ : Type} (c : Cfg) (buf : Nat → Nat → α) (X : List α) (o : σ) (a : Bool) :
    RingInv c X (init c buf X o a) := by
  refine ⟨?_, ?_⟩
  · intro h
    simp [init] at h
  · intro _
    constructor <;> simp [init, IPc.waited, IPc.posted, IPc.progress, IPc.atEof, IPc.finished,
      OPc.waited, OPc.posted, OPc.ended, OPc.holding, OPc.early, OPc.progress, OPc.drainedCount]

/-! ### What the invariant says when the threads have ended -/

theorem input_done_facts {α σ : Type} (c : Cfg) (X : List α) (s : RingSt α σ)
    (hc : RingCore c X s) (hi : s.ipc = IPc.done) :
    X.length = s.Numin * c.Blocksize + s.Rest ∧ s.Rest < c.Blocksize ∧
    s.Finish = ((s.Numin % c.Numblocks : Nat) : Int) := by
  obtain ⟨e1, e2, e3⟩ := hc.eof (by simp [hi, IPc.atEof])
  have h1 := hc.input_eq
  have h2 := hc.ipos_le
  have h3 := hc.finish_set (by simp [hi, IPc.finished])
  simp [hi, IPc.progress] at h1 h2
  rw [e1] at h1
  have h4 := List.drop_eq_nil_iff.mp h1.symm
  refine ⟨by omega, by omega, ?_⟩
  rw [h3, hc.iat_eq]

theorem div_mod_of_eq (L k bs r : Nat) (h : L = k * bs + r) (hr : r < bs) :
    L / bs = k ∧ L % bs = r := by
  subst h
  constructor
  · apply Nat.div_eq_of_lt_le
    · omega
    · rw [Nat.add_mul]; omega
  · rw [Nat.add_comm, Nat.add_mul_mod_self_right]
    exact Nat.mod_eq_of_lt hr

/-! ## The ring of blocks: progress -/

theorem inputStep_out {α σ : Type} (c : Cfg) (r : ReadRes) (s : RingSt α σ) :
    (inputStep c r s).Numout = s.Numout ∧ (inputStep c r s).rest = s.rest ∧
    (inputStep c r s).out = s.out ∧ (inputStep c r s).tape = s.tape ∧
    (inputStep c r s).Autoloader = s.Autoloader := by
  obtain ⟨_, _, _, h4, h5, h6, h7, h8, _⟩ := inputStep_same c r s
  exact ⟨h4, h5, h6, h7, h8⟩

theorem measureOut_input {α σ : Type} (c : Cfg) (K P : Nat) (pot : σ → TapeState → Nat)
    (r : ReadRes) (s : RingSt α σ) :
    measureOut c K P pot (inputStep c r s) = measureOut c K P pot s := by
  obtain ⟨h1, h2, h3, h4, _⟩ := inputStep_out c r s
  unfold measureOut
  rw [h1, h2, h3, h4, (inputStep_frame c r s).2.2]

theorem input_progress {α σ : Type} (c : Cfg) (X : List α) (s : RingSt α σ)
    (hbs : 0 < c.Blocksize) (hc : RingCore c X s) (hcl : clean s)
    (hnd : s.ipc ≠ IPc.done) (hfree : s.ipc = IPc.semwait → 0 < s.Dev2Buf) :
    measureIn (inputStep c (ReadRes.upTo 0) s) < measureIn s := by
  unfold measureIn inputStep
  cases hi : s.ipc <;> simp only
  · simp [hcl.1, IPc.rank]
  · have := hfree hi
    have h0 : s.Dev2Buf ≠ 0 := by omega
    simp [h0, IPc.rank]
  · have hn := hc.num_lt hi
    rw [if_neg (by simp [hc.plain])]
    unfold readStep
    simp only
    split_ifs with h1 h2
    · simp [IPc.rank, hi] at h1 ⊢
      omega
    · simp [IPc.rank, hi] at h1 ⊢
      omega
    · simp [IPc.rank, hi]
  · simp [IPc.rank]
  · simp [IPc.rank]
  · simp [IPc.rank]
  · exact absurd hi hnd

theorem numin_le_blocks {α σ : Type} (c : Cfg) (X : List α) (s : RingSt α σ)
    (hbs : 0 < c.Blocksize) (hc : RingCore c X s) : s.Numin ≤ X.length / c.Blocksize := by
  rw [Nat.le_div_iff_mul_le hbs]
  have := hc.ipos_le
  omega

theorem pass_lt (W K m a b : Nat) (hm : m ≤ K) (h : a < W + b) :
    W * (K - m) + a < W * (K + 1 - m) + b := by
  have : K + 1 - m = (K - m) + 1 := by omega
  rw [this, Nat.mul_succ]
  omega

theorem blocksize_le {α σ : Type} (c : Cfg) (X : List α) (s : RingSt α σ)
    (hc : RingCore c X s) (ho : s.opc.holding = true ∨ s.opc.early = true) :
    s.blocksize ≤ c.Blocksize := by
  rcases ho with ho | ho
  · rcases hc.blk ho with h | ⟨_, h2, h3, _⟩
    · omega
    · have := (hc.eof (by simp [h2, IPc.atEof]))
      omega
  · have := hc.blk0 ho
    omega

theorem output_progress_simple {α σ : Type} (c : Cfg) (d : Dev σ) (X : List α)
    (s : RingSt α σ) (P : Nat) (pot : σ → TapeState → Nat)
    (hN : 2 ≤ c.Numblocks) (hbs : 0 < c.Blocksize) (hvol : c.OutVolsize = 0)
    (hb : ∀ dv t, pot dv t ≤ P)
    (hg : Guard s) (hc : RingCore c X s) (hcl : clean s)
    (hen : s.opc = OPc.top → 0 < s.Buf2Dev) (hnd : s.opc ≠ OPc.done)
    (hnw : s.opc ≠ OPc.write) :
    clean (outputStep c d s) ∧ (outputStep c d s).Autoloader = s.Autoloader ∧
    measureOut c (X.length / c.Blocksize) P pot (outputStep c d s)
      < measureOut c (X.length / c.Blocksize) P pot s ∧
    measureIn (outputStep c d s) = measureIn s := by
  obtain ⟨h1, h2, h3⟩ := hcl
  have hK := numin_le_blocks c X s hbs hc
  have hle := hc.out_le
  have hpot := hb s.out s.tape
  have hrank : s.opc = OPc.volchk →
      s.rest * (P + 1) + pot s.out s.tape ≤ c.Blocksize * (P + 1) + P := by
    intro ho
    have e1 := hc.rest_eq (Or.inr ho) (by simp [ho])
    have e2 := blocksize_le c X s hc (Or.inl (by simp [ho, OPc.holding]))
    have := Nat.mul_le_mul_right (P + 1) (show s.rest ≤ c.Blocksize by omega)
    omega
  unfold measureOut measureIn clean
  generalize c.Blocksize * (P + 1) + P = B at hrank ⊢
  generalize hKd : X.length / c.Blocksize = K at hK ⊢
  cases ho : s.opc with
  | top =>
    have hB : s.Buf2Dev ≠ 0 := by have := hen ho; omega
    simp only [outputStep, ho, hB, if_false]
    simp [h1, h2, OPc.rank]
  | termchk =>
    simp only [outputStep, ho, h1]
    simp [h1, h2, OPc.rank]
  | finchk =>
    simp only [outputStep, ho]
    split_ifs <;> simp [h1, h2, OPc.rank]
  | finfill =>
    simp only [outputStep, ho]
    split_ifs <;> simp [h1, h2, OPc.rank]
  | volchk =>
    have := hrank ho
    simp only [outputStep, ho, hvol]
    simp [h1, h2, OPc.rank]
    omega
  | write => exact absurd ho hnw
  | post =>
    simp only [outputStep, ho]
    simp [h1, h2, OPc.rank]
  | fin2 =>
    simp only [outputStep, ho]
    split_ifs with hF
    · simp [h1, h2, OPc.rank]
    · have hlt : s.Numout < s.Numin := by
        rcases hc.blk (by simp [ho, OPc.holding]) with ⟨hlt, _⟩ | ⟨e1, e2, _⟩
        · exact hlt
        · exfalso
          apply hF
          rw [hc.finish_set (by simp [e2, IPc.finished]), hc.iat_eq, hc.oat_eq, e1]
      unfold nextBlock
      refine ⟨⟨h1, h2, by simp⟩, rfl, ?_, rfl⟩
      simp only [OPc.rank]
      have := pass_lt (B + 11) K s.Numout (B + 10) 3 (by omega) (by omega)
      have e : K + 1 - (s.Numout + 1) = K - s.Numout := by omega
      rw [e]
      exact this
  | fin2fill =>
    simp only [outputStep, ho]
    split_ifs with hE
    · simp [h1, h2, OPc.rank]
    · have hlt : s.Numout < s.Numin := (final_iff_empty c X s hN hc ho).2 hE
      unfold nextBlock
      refine ⟨⟨h1, h2, by simp⟩, rfl, ?_, rfl⟩
      simp only [OPc.rank]
      have := pass_lt (B + 11) K s.Numout (B + 10) 2 (by omega) (by omega)
      have e : K + 1 - (s.Numout + 1) = K - s.Numout := by omega
      rw [e]
      exact this
  | errpost =>
    exfalso
    rcases hg (Or.inl ho) with h | h
    · rw [h1] at h; cases h
    · rw [h2] at h; cases h
  | term st =>
    cases st with
    | false =>
      simp only [outputStep, ho, terminateOutputThread]
      simp [h1, h2, OPc.rank]
    | true =>
      exfalso
      rcases hg (Or.inr ho) with h | h
      · rw [h1] at h; cases h
      · rw [h2] at h; cases h
  | done => exact absurd ho hnd
  | crashed => exact absurd ho h3

theorem rank_write_lt (P rest k pot pot' : Nat) (hk1 : 1 ≤ k) (hk2 : k ≤ rest) (hp : pot' ≤ P) :
    (rest - k) * (P + 1) + pot' < rest * (P + 1) + pot := by
  have h1 : (rest - k) * (P + 1) + (P + 1) ≤ rest * (P + 1) := by
    have : rest - k + 1 ≤ rest := by omega
    calc (rest - k) * (P + 1) + (P + 1) = (rest - k + 1) * (P + 1) := by
          rw [Nat.add_mul, Nat.one_mul]
      _ ≤ rest * (P + 1) := Nat.mul_le_mul_right _ this
  omega

theorem output_progress_write {α σ : Type} (c : Cfg) (d : Dev σ) (X : List α)
    (s : RingSt α σ) (P : Nat) (pot : σ → TapeState → Nat)
    (hOut : 0 < c.Outsize) (hd : d.sane)
    (hl : Dev.Live d c.TapeAware (c.Terminal || s.Autoloader) pot P)
    (hc : RingCore c X s) (hcl : clean s) (ho : s.opc = OPc.write) :
    clean (outputStep c d s) ∧ (outputStep c d s).Autoloader = s.Autoloader ∧
    measureOut c (X.length / c.Blocksize) P pot (outputStep c d s)
      < measureOut c (X.length / c.Blocksize) P pot s ∧
    measureIn (outputStep c d s) = measureIn s := by
  obtain ⟨h1, h2, h3⟩ := hcl
  have hrest := hc.rest_le ho
  unfold measureOut measureIn clean
  generalize c.Blocksize * (P + 1) + P = B
  generalize X.length / c.Blocksize = K
  clear hc
  cases s with
  | mk Dev2Buf Buf2Dev Finish Rest Numin Numout Terminate MainOutOK Done Autoloader Buffer ipc iat
      num input IDevBSize DevBuf IFill Off hadzero answers opc oat blocksize rest haderror tape out written cuts cur drained issued volumes =>
  simp only at ho h1 h2 hrest hl
  subst ho
  subst h2
  subst h1
  have hn : 0 < min rest c.Outsize := by omega
  have hnf := hl.not_failed out tape _ hn
  have hadv := hl.advance out tape (min rest c.Outsize)
  have hag := hl.again out tape _ hn
  have hnv := hl.newVolume out tape _ hn
  have hbound := hl.bound
  simp only [outputStep, writeStep]
  simp only [Bool.false_eq_true, if_false]
  generalize hnx : afterWrite c.TapeAware (c.Terminal || Autoloader) tape
    (d.write out (min rest c.Outsize)).1 = nx at hnf hadv hag hnv ⊢
  obtain ⟨n1, t1⟩ := nx
  cases n1 with
  | again =>
    simp only at hag ⊢
    rw [writeLoop_pos _ hrest.1 rfl]
    have := hag trivial
    simp [OPc.rank]
    omega
  | newVolume =>
    simp only at hnv ⊢
    obtain ⟨dv', hch, hlt⟩ := hnv trivial
    simp only [requestOutputVolume, hch]
    rw [writeLoop_pos _ hrest.1 rfl]
    simp [OPc.rank]
    omega
  | failed =>
    simp at hnf
  | advance k =>
    simp only at hadv ⊢
    have hk1 := hadv k hn rfl
    have hr := afterWrite_advance _ _ _ _ k (by rw [hnx])
    have hk2 := hd _ _ _ hr
    unfold writeLoop
    dsimp only
    split_ifs with hr0
    · simp [OPc.rank]
      have := rank_write_lt P rest k (pot out tape) (pot (d.write out (min rest c.Outsize)).2 t1)
        hk1 (by omega) (hbound _ _)
      omega
    · simp [OPc.rank]

theorem progress {α σ : Type} (c : Cfg) (d : Dev σ) (X : List α)
    (s : RingSt α σ) (P : Nat) (pot : σ → TapeState → Nat)
    (hN : 2 ≤ c.Numblocks) (hbs : 0 < c.Blocksize) (hOut : 0 < c.Outsize)
    (hvol : c.OutVolsize = 0) (hd : d.sane)
    (hl : Dev.Live d c.TapeAware (c.Terminal || s.Autoloader) pot P)
    (hinv : RingInv c X s) (hcl : clean s) (hnf : ¬ finished s) :
    ∃ e, clean (step c d s e) ∧ (step c d s e).Autoloader = s.Autoloader ∧
      measureIn (step c d s e) + measureOut c (X.length / c.Blocksize) P pot (step c d s e)
        < measureIn s + measureOut c (X.length / c.Blocksize) P pot s := by
  obtain ⟨hg, hcore⟩ := hinv
  have hc := hcore hcl
  have hcr : s.opc ≠ OPc.crashed := hcl.2.2
  by_cases hblocked : (s.opc = OPc.top ∧ s.Buf2Dev = 0)
  · -- the output thread waits: the input thread can go on
    obtain ⟨ho, hB⟩ := hblocked
    have h1 := hc.filled
    have h2 := hc.free (by simp [ho, OPc.ended])
    have h3 := hc.out_le
    simp [ho, OPc.waited, OPc.posted] at h1 h2
    have hp : s.ipc.posted = 0 := by omega
    have hnd : s.ipc ≠ IPc.done := by
      intro h
      simp [h, IPc.posted] at hp
    have hfree : s.ipc = IPc.semwait → 0 < s.Dev2Buf := by
      intro h
      simp [h, IPc.waited] at h2
      omega
    refine ⟨Ev.input (ReadRes.upTo 0), ?_⟩
    unfold step
    rw [if_neg hcr]
    simp only
    obtain ⟨f1, f2, f3⟩ := inputStep_frame c (ReadRes.upTo 0) s
    refine ⟨⟨by rw [f1]; exact hcl.1, by rw [f2]; exact hcl.2.1, by rw [f3]; exact hcr⟩,
      (inputStep_out c _ s).2.2.2.2, ?_⟩
    rw [measureOut_input]
    have := input_progress c X s hbs hc hcl hnd hfree
    omega
  · -- the output thread can take a step
    have hnd : s.opc ≠ OPc.done := by
      intro h
      apply hnf
      exact ⟨(hc.ended (by simp [h, OPc.ended])).1, h⟩
    have hen : s.opc = OPc.top → 0 < s.Buf2Dev := by
      intro h
      by_contra h0
      exact hblocked ⟨h, by omega⟩
    refine ⟨Ev.output, ?_⟩
    unfold step
    rw [if_neg hcr]
    simp only
    by_cases hw : s.opc = OPc.write
    · obtain ⟨g1, g2, g3, g4⟩ := output_progress_write c d X s P pot hOut hd hl hc hcl hw
      exact ⟨g1, g2, by omega⟩
    · obtain ⟨g1, g2, g3, g4⟩ := output_progress_simple c d X s P pot hN hbs hvol hl.bound hg hc
        hcl hen hnd hw
      exact ⟨g1, g2, by omega⟩

theorem run_cons {α σ : Type} (c : Cfg) (d : Dev σ) (s : RingSt α σ) (e : Ev) (es : List Ev) :
    run c d s (e :: es) = run c d (step c d s e) es := rfl

theorem run_append {α σ : Type} (c : Cfg) (d : Dev σ) (s : RingSt α σ) (es fs : List Ev) :
    run c d s (es ++ fs) = run c d (run c d s es) fs := by
  unfold run
  rw [List.foldl_append]

/-- From every state of a run without error the two threads can run to their
end without error. -/
theorem live {α σ : Type} (c : Cfg) (d : Dev σ) (X : List α) (a : Bool)
    (P : Nat) (pot : σ → TapeState → Nat)
    (hN : 2 ≤ c.Numblocks) (hbs : 0 < c.Blocksize) (hOut : 0 < c.Outsize)
    (hvol : c.OutVolsize = 0) (hd : d.sane)
    (hl : Dev.Live d c.TapeAware (c.Terminal || a) pot P) :
    ∀ (n : Nat) (s : RingSt α σ),
      measureIn s + measureOut c (X.length / c.Blocksize) P pot s ≤ n →
      RingInv c X s → clean s → s.Autoloader = a →
      ∃ es, finished (run c d s es) ∧ clean (run c d s es) := by
  intro n
  induction n with
  | zero =>
    intro s hm hinv hcl ha
    by_cases hf : finished s
    · exact ⟨[], hf, hcl⟩
    · obtain ⟨e, _, _, h⟩ := progress c d X s P pot hN hbs hOut hvol hd (by rw [ha]; exact hl)
        hinv hcl hf
      omega
  | succ n ih =>
    intro s hm hinv hcl ha
    by_cases hf : finished s
    · exact ⟨[], hf, hcl⟩
    · obtain ⟨e, h1, h2, h3⟩ := progress c d X s P pot hN hbs hOut hvol hd
        (by rw [ha]; exact hl) hinv hcl hf
      obtain ⟨es, h4, h5⟩ := ih (step c d s e) (by omega) (inv_step c d X s e hN hbs hd hinv) h1
        (by rw [h2, ha])
      exact ⟨e :: es, by rw [run_cons]; exact h4, by rw [run_cons]; exact h5⟩

/-- With an output on which the write loop comes to an end, and without `-D`,
no step of a run without error leads to an error. -/
theorem clean_step {α σ : Type} (c : Cfg) (d : Dev σ) (X : List α)
    (s : RingSt α σ) (e : Ev) (P : Nat) (pot : σ → TapeState → Nat)
    (hN : 2 ≤ c.Numblocks) (hbs : 0 < c.Blocksize) (hOut : 0 < c.Outsize)
    (hvol : c.OutVolsize = 0) (hd : d.sane)
    (hl : Dev.Live d c.TapeAware (c.Terminal || s.Autoloader) pot P)
    (hinv : RingInv c X s) (hcl : clean s) :
    clean (step c d s e) ∧ (step c d s e).Autoloader = s.Autoloader := by
  obtain ⟨hg, hcore⟩ := hinv
  have hc := hcore hcl
  have hcr : s.opc ≠ OPc.crashed := hcl.2.2
  unfold step
  rw [if_neg hcr]
  cases e with
  | input r =>
    simp only
    obtain ⟨f1, f2, f3⟩ := inputStep_frame c r s
    exact ⟨⟨by rw [f1]; exact hcl.1, by rw [f2]; exact hcl.2.1, by rw [f3]; exact hcr⟩,
      (inputStep_out c _ s).2.2.2.2⟩
  | output =>
    simp only
    by_cases hw : s.opc = OPc.write
    · obtain ⟨g1, g2, _, _⟩ := output_progress_write c d X s P pot hOut hd hl hc hcl hw
      exact ⟨g1, g2⟩
    · by_cases hstay : (s.opc = OPc.top ∧ s.Buf2Dev = 0) ∨ s.opc = OPc.done
      · have hs : outputStep c d s = s := by
          rcases hstay with ⟨h1, h2⟩ | h1
          · simp only [outputStep, h1, h2, if_true]
          · simp only [outputStep, h1]
        rw [hs]
        exact ⟨hcl, rfl⟩
      · have hen : s.opc = OPc.top → 0 < s.Buf2Dev := by
          intro h
          by_contra h0
          exact hstay (Or.inl ⟨h, by omega⟩)
        obtain ⟨g1, g2, _, _⟩ := output_progress_simple c d X s P pot hN hbs hvol hl.bound hg hc
          hcl hen (fun h => hstay (Or.inr h)) hw
        exact ⟨g1, g2⟩

theorem clean_run {α σ : Type} (c : Cfg) (d : Dev σ) (X : List α) (a : Bool)
    (P : Nat) (pot : σ → TapeState → Nat)
    (hN : 2 ≤ c.Numblocks) (hbs : 0 < c.Blocksize) (hOut : 0 < c.Outsize)
    (hvol : c.OutVolsize = 0) (hd : d.sane)
    (hl : Dev.Live d c.TapeAware (c.Terminal || a) pot P) (es : List Ev) :
    ∀ s : RingSt α σ, RingInv c X s → clean s → s.Autoloader = a →
      clean (run c d s es) ∧ (run c d s es).Autoloader = a := by
  induction es with
  | nil => intro s _ hcl ha; exact ⟨hcl, ha⟩
  | cons e es ih =>
    intro s hinv hcl ha
    obtain ⟨h1, h2⟩ := clean_step c d X s e P pot hN hbs hOut hvol hd (by rw [ha]; exact hl)
      hinv hcl
    rw [run_cons]
    exact ih _ (inv_step c d X s e hN hbs hd hinv) h1 (by rw [h2, ha])

theorem clean_init {α σ : Type} (c : Cfg) (buf : Nat → Nat → α) (X : List α) (o : σ) (a : Bool) :
    clean (init c buf X o a) := by
  simp [clean, init]

/-- The facts about a run on an output on which the write loop comes to an
end: every state is free of errors and satisfies the invariant, and the
threads can run to their end from it. -/
theorem run_facts {α σ : Type} (c : Cfg) (d : Dev σ) (buf : Nat → Nat → α) (X : List α)
    (o : σ) (a : Bool) (P : Nat) (pot : σ → TapeState → Nat)
    (hN : 2 ≤ c.Numblocks) (hbs : 0 < c.Blocksize) (hOut : 0 < c.Outsize)
    (hvol : c.OutVolsize = 0) (hd : d.sane)
    (hl : Dev.Live d c.TapeAware (c.Terminal || a) pot P) (es : List Ev) :
    RingCore c X (run c d (init c buf X o a) es) ∧
    clean (run c d (init c buf X o a) es) ∧
    ∃ fs, finished (run c d (init c buf X o a) (es ++ fs)) := by
  have hinv := inv_run c d X es hN hbs hd _ (inv_init c buf X o a)
  obtain ⟨hcl, ha⟩ := clean_run c d X a P pot hN hbs hOut hvol hd hl es _
    (inv_init c buf X o a) (clean_init c buf X o a) rfl
  refine ⟨hinv.2 hcl, hcl, ?_⟩
  obtain ⟨fs, h1, _⟩ := live c d X a P pot hN hbs hOut hvol hd hl _ _ (Nat.le_refl _) hinv hcl ha
  exact ⟨fs, by rw [run_append]; exact h1⟩

/-! ## The ring of blocks: results -/

theorem afterWrite_ret_pos (ta tm : Bool) (t : TapeState) (k : Nat) (hk : 1 ≤ k) :
    (afterWrite ta tm t (WRes.ret k)).1 = Next.advance k := by
  have h0 : k ≠ 0 := by omega
  simp [afterWrite, WRes.isENOSPC, h0]

theorem live_of_accepting {σ : Type} (d : Dev σ) (ta tm : Bool) (h : d.accepting) :
    Dev.Live d ta tm (fun _ _ => 0) 0 := by
  constructor
  · intro _ _; exact Nat.le_refl _
  · intro dv t n hn
    obtain ⟨k, h1, h2⟩ := h dv n hn
    rw [h1, afterWrite_ret_pos ta tm t k h2]
    simp
  · intro dv t n k hn hk
    obtain ⟨k', h1, h2⟩ := h dv n hn
    rw [h1, afterWrite_ret_pos ta tm t k' h2] at hk
    cases hk
    exact h2
  · intro dv t n hn hk
    obtain ⟨k', h1, h2⟩ := h dv n hn
    rw [h1, afterWrite_ret_pos ta tm t k' h2] at hk
    cases hk
  · intro dv t n hn hk
    obtain ⟨k', h1, h2⟩ := h dv n hn
    rw [h1, afterWrite_ret_pos ta tm t k' h2] at hk
    cases hk

theorem fileDev_sane : fileDev.sane := by
  intro dv n k h
  simp [fileDev] at h
  omega

theorem fileDev_accepting : fileDev.accepting := by
  intro dv n hn
  exact ⟨n, rfl, hn⟩

theorem blockOf_length_full {α : Type} (X : List α) (bs i : Nat) (hbs : 0 < bs)
    (hi : i < X.length / bs) : (blockOf X bs i).length = bs := by
  unfold blockOf
  rw [List.length_take, List.length_drop]
  have h1 : i + 1 ≤ X.length / bs := hi
  have h2 := (Nat.le_div_iff_mul_le hbs).mp h1
  rw [Nat.add_mul] at h2
  omega

theorem blockOf_length_last {α : Type} (X : List α) (bs : Nat) (hbs : 0 < bs) :
    (blockOf X bs (X.length / bs)).length = X.length % bs := by
  unfold blockOf
  rw [List.length_take, List.length_drop]
  have h1 := Nat.mod_lt X.length hbs
  have h2 := Nat.div_add_mod X.length bs
  rw [Nat.mul_comm] at h2
  omega

theorem blocks_flatten {α : Type} (X : List α) (bs m : Nat) :
    ((List.range m).map (blockOf X bs)).flatten = X.take (m * bs) := by
  induction m with
  | zero => simp
  | succ m ih =>
    rw [List.range_succ, List.map_append, List.flatten_append, ih, Nat.add_mul, Nat.one_mul,
      List.take_add]
    simp [blockOf]

theorem blocks_flatten_all {α : Type} (X : List α) (bs : Nat) (hbs : 0 < bs) :
    ((List.range (X.length / bs + (if 0 < X.length % bs then 1 else 0))).map
      (blockOf X bs)).flatten = X := by
  rw [blocks_flatten]
  apply List.take_of_length_le
  have h2 := Nat.div_add_mod X.length bs
  rw [Nat.mul_comm] at h2
  split_ifs with h
  · rw [Nat.add_mul]
    have := Nat.mod_lt X.length hbs
    omega
  · rw [Nat.add_zero]
    omega

/-- The state of the threads at the end of a run without error. -/
theorem finished_facts {α σ : Type} (c : Cfg) (X : List α) (s : RingSt α σ)
    (hbs : 0 < c.Blocksize) (hc : RingCore c X s) (hf : finished s) :
    s.written = X ∧ s.Numout = X.length / c.Blocksize ∧ s.Rest = X.length % c.Blocksize ∧
    s.Finish = (((X.length / c.Blocksize) % c.Numblocks : Nat) : Int) ∧
    s.drained = (List.range (X.length / c.Blocksize +
      (if 0 < X.length % c.Blocksize then 1 else 0))).map (blockOf X c.Blocksize) := by
  obtain ⟨hi, ho⟩ := hf
  obtain ⟨h1, h2, h3⟩ := input_done_facts c X s hc hi
  obtain ⟨h4, h5⟩ := div_mod_of_eq _ _ _ _ h1 h2
  obtain ⟨e1, e2, e3⟩ := hc.ended (by simp [ho, OPc.ended])
  have hd := hc.drained_eq
  simp only [ho, OPc.drainedCount] at hd
  refine ⟨e3, by rw [e2, h4], h5.symm, by rw [h4]; exact h3, ?_⟩
  rw [hd, h5, e2, h4]
  split_ifs <;> rfl

/-- C1, failing run: the input is a character device with `IDevBSize = 50`
that holds the 150 bytes `0 .. 149`, read in blocks of 100 bytes; its first
`read` delivers 50 bytes and the second is interrupted by a signal. The run
ends without an error on either side, `write` has accepted 100 bytes, and
they are the bytes `50 .. 149`: the first 50 bytes of the input are lost. -/
theorem byte_identity_device :
    finished (run cfg100 fileDev
      (initDev cfg100 (fun _ _ => 0) (List.range 150) () false 50 interrupted) (turns 20)) ∧
    (run cfg100 fileDev
      (initDev cfg100 (fun _ _ => 0) (List.range 150) () false 50 interrupted) (turns 20)).written
      = (List.range 150).drop 50 ∧
    (run cfg100 fileDev
      (initDev cfg100 (fun _ _ => 0) (List.range 150) () false 50 interrupted) (turns 20)).written
      ≠ List.range 150 ∧
    (run cfg100 fileDev
      (initDev cfg100 (fun _ _ => 0) (List.range 150) () false 50 interrupted)
      (turns 20)).MainOutOK = true ∧
    (run cfg100 fileDev
      (initDev cfg100 (fun _ _ => 0) (List.range 150) () false 50 interrupted)
      (turns 20)).Terminate = false := by
  unfold finished
  set_option maxRecDepth 100000 in
  decide

/-- C1, for an input that is not a device: for every input `X`, block size of
at least 1 and at least 5 blocks, when the input is no block or character
device (`IDevBSize = 0`), with a single destination on which every write of
the write loop comes to succeed, possibly in part (and every read succeeding
possibly in part or being retried): at the end of every run the bytes handed
to successful writes are, in order, exactly `X`; the blocks before the last
give `Blocksize` bytes each and the last block gives `Rest` bytes; and the
end can be reached from every state of a run. -/
theorem byte_identity {α σ : Type} (c : Cfg) (d : Dev σ) (buf : Nat → Nat → α) (X : List α)
    (o : σ) (a : Bool) (P : Nat) (pot : σ → TapeState → Nat) (bsz : Nat)
    (hN : 5 ≤ c.Numblocks) (hbs : 1 ≤ c.Blocksize) (hOut : 1 ≤ c.Outsize)
    (hvol : c.OutVolsize = 0) (hd : d.sane)
    (hl : Dev.Live d c.TapeAware (c.Terminal || a) pot P) (hplain : bsz = 0) (es : List Ev) :
    (∃ fs, finished (run c d (initDev c buf X o a bsz []) (es ++ fs))) ∧
    (finished (run c d (initDev c buf X o a bsz []) es) →
      (run c d (initDev c buf X o a bsz []) es).written = X ∧
      (run c d (initDev c buf X o a bsz []) es).drained.flatten = X ∧
      (run c d (initDev c buf X o a bsz []) es).Rest = X.length % c.Blocksize ∧
      (run c d (initDev c buf X o a bsz []) es).drained =
        (List.range (X.length / c.Blocksize +
          (if 0 < X.length % c.Blocksize then 1 else 0))).map (blockOf X c.Blocksize) ∧
      (∀ i, i < X.length / c.Blocksize → (blockOf X c.Blocksize i).length = c.Blocksize) ∧
      (blockOf X c.Blocksize (X.length / c.Blocksize)).length
        = (run c d (initDev c buf X o a bsz []) es).Rest) := by
  subst hplain
  have hinit : initDev c buf X o a 0 [] = init c buf X o a := rfl
  rw [hinit]
  obtain ⟨hc, hcl, hlive⟩ := run_facts c d buf X o a P pot (by omega) hbs hOut hvol hd hl es
  refine ⟨hlive, ?_⟩
  intro hf
  obtain ⟨h1, h2, h3, h4, h5⟩ := finished_facts c X _ hbs hc hf
  refine ⟨h1, ?_, h3, h5, fun i hi => blockOf_length_full X _ i hbs hi, ?_⟩
  · rw [h5]
    exact blocks_flatten_all X _ hbs
  · rw [h3]
    exact blockOf_length_last X _ hbs

/-- Witness of `byte_identity`: scenario 2 of the specification, 33 bytes
from a pipe through 5 blocks of 16 bytes. -/
theorem byte_identity_witness :
    (run cfg16 fileDev (initDev cfg16 (fun _ _ => 0) input33 () false 0 [])
      (turns 30)).written = input33 ∧
    (run cfg16 fileDev (initDev cfg16 (fun _ _ => 0) input33 () false 0 [])
      (turns 30)).drained.flatten = input33 ∧
    (run cfg16 fileDev (initDev cfg16 (fun _ _ => 0) input33 () false 0 [])
      (turns 30)).Rest = input33.length % cfg16.Blocksize ∧
    (run cfg16 fileDev (initDev cfg16 (fun _ _ => 0) input33 () false 0 [])
      (turns 30)).drained =
      (List.range (input33.length / cfg16.Blocksize +
        (if 0 < input33.length % cfg16.Blocksize then 1 else 0))).map
          (blockOf input33 cfg16.Blocksize) ∧
    (∀ i, i < input33.length / cfg16.Blocksize →
      (blockOf input33 cfg16.Blocksize i).length = cfg16.Blocksize) ∧
    (blockOf input33 cfg16.Blocksize (input33.length / cfg16.Blocksize)).length
      = (run cfg16 fileDev (initDev cfg16 (fun _ _ => 0) input33 () false 0 [])
        (turns 30)).Rest :=
  (byte_identity cfg16 fileDev (fun _ _ => 0) input33 () false 0 (fun _ _ => 0) 0
    (by decide) (by decide) (by decide) rfl fileDev_sane
    (live_of_accepting fileDev _ _ fileDev_accepting) rfl (turns 30)).2
    (by
      unfold finished
      set_option maxRecDepth 100000 in
      decide)

/-- C3, failing run: the input is a character device with `IDevBSize = 50`
that holds 200 bytes, read in blocks of 100 bytes, so `k = 2` and `r = 0`;
its first `read` delivers 50 bytes, the second is interrupted by a signal,
and the following ones deliver 100 bytes, 50 bytes and the end of the input.
`inputThread` ends without a read error with `Finish = 1`, `Rest = 50` and
one full block counted, not with `Finish = 2 mod 5` and `Rest = 0`. -/
theorem finish_index_and_rest_device :
    (List.range 200).length = 2 * cfg100.Blocksize + 0 ∧
    (run cfg100 fileDev
      (initDev cfg100 (fun _ _ => 0) (List.range 200) () false 50 interruptedOnce)
      (turns 12)).ipc = IPc.done ∧
    (run cfg100 fileDev
      (initDev cfg100 (fun _ _ => 0) (List.range 200) () false 50 interruptedOnce)
      (turns 12)).Finish = 1 ∧
    (run cfg100 fileDev
      (initDev cfg100 (fun _ _ => 0) (List.range 200) () false 50 interruptedOnce)
      (turns 12)).Rest = 50 ∧
    (run cfg100 fileDev
      (initDev cfg100 (fun _ _ => 0) (List.range 200) () false 50 interruptedOnce)
      (turns 12)).Numin = 1 ∧
    (run cfg100 fileDev
      (initDev cfg100 (fun _ _ => 0) (List.range 200) () false 50 interruptedOnce)
      (turns 12)).Terminate = false := by
  set_option maxRecDepth 100000 in
  decide

/-- C3, for an input that is not a device: for an input of `L = k*bs + r`
bytes with `r < bs`, read from a single volume that is no block or character
device (`IDevBSize = 0`) without read error, `inputThread` comes to its end
from every state of a run, and when it has ended `Finish = k mod Numblocks`
and `Rest = r`; in particular `Rest = 0` and `Finish = k mod Numblocks` for
`L = k*bs`. -/
theorem finish_index_and_rest {α σ : Type} (c : Cfg) (d : Dev σ) (buf : Nat → Nat → α)
    (X : List α) (o : σ) (a : Bool) (P : Nat) (pot : σ → TapeState → Nat) (k r bsz : Nat)
    (hN : 5 ≤ c.Numblocks) (hbs : 1 ≤ c.Blocksize) (hOut : 1 ≤ c.Outsize)
    (hvol : c.OutVolsize = 0) (hd : d.sane)
    (hl : Dev.Live d c.TapeAware (c.Terminal || a) pot P)
    (hL : X.length = k * c.Blocksize + r) (hr : r < c.Blocksize) (hplain : bsz = 0)
    (es : List Ev) :
    (∃ fs, (run c d (initDev c buf X o a bsz []) (es ++ fs)).ipc = IPc.done) ∧
    ((run c d (initDev c buf X o a bsz []) es).ipc = IPc.done →
      (run c d (initDev c buf X o a bsz []) es).Finish = ((k % c.Numblocks : Nat) : Int) ∧
      (run c d (initDev c buf X o a bsz []) es).Rest = r) := by
  subst hplain
  have hinit : initDev c buf X o a 0 [] = init c buf X o a := rfl
  rw [hinit]
  obtain ⟨hc, hcl, fs, hf⟩ := run_facts c d buf X o a P pot (by omega) hbs hOut hvol hd hl es
  refine ⟨⟨fs, hf.1⟩, ?_⟩
  intro hdone
  obtain ⟨h1, h2, h3⟩ := input_done_facts c X _ hc hdone
  obtain ⟨h4, h5⟩ := div_mod_of_eq _ _ _ _ h1 h2
  obtain ⟨h6, h7⟩ := div_mod_of_eq _ _ _ _ hL hr
  rw [h6] at h4
  rw [h7] at h5
  rw [h3, ← h4, h5]
  exact ⟨rfl, rfl⟩

/-- Witness of `finish_index_and_rest`: 80 bytes are 5 blocks of 16 bytes, so
`Finish = 5 mod 5 = 0` and `Rest = 0`. -/
theorem finish_index_and_rest_witness :
    (run cfg16 fileDev (initDev cfg16 (fun _ _ => 0) input80 () false 0 [])
      (turns 30)).Finish = ((5 % cfg16.Numblocks : Nat) : Int) ∧
    (run cfg16 fileDev (initDev cfg16 (fun _ _ => 0) input80 () false 0 [])
      (turns 30)).Rest = 0 :=
  (finish_index_and_rest cfg16 fileDev (fun _ _ => 0) input80 () false 0 (fun _ _ => 0) 5 0 0
    (by decide) (by decide) (by decide) rfl fileDev_sane
    (live_of_accepting fileDev _ _ fileDev_accepting) (by decide) (by decide) rfl (turns 30)).2
    (by
      set_option maxRecDepth 100000 in
      decide)

/-- C6: on an output whose `write` fails with `EIO`, with 5 blocks of 100 bytes
(`-b 5 -s 100`) and an input of 250 bytes, the run in which `inputThread` fills
one block and `outputThread` then meets the error ends with both threads
returned, `Buf2Dev = 0` and `Dev2Buf = 6 = Numblocks + 1`: the error path posts
`Dev2Buf` itself and once more in `terminateOutputThread(dest,1)`. -/
theorem write_error_semaphores :
    finished (run cfg100 brokenDev (init cfg100 (fun _ _ => 0) input250 () false)
      errorSchedule) ∧
    (run cfg100 brokenDev (init cfg100 (fun _ _ => 0) input250 () false) errorSchedule).Dev2Buf
      = cfg100.Numblocks + 1 ∧
    (run cfg100 brokenDev (init cfg100 (fun _ _ => 0) input250 () false) errorSchedule).Buf2Dev
      = 0 ∧
    (run cfg100 brokenDev (init cfg100 (fun _ _ => 0) input250 () false)
      errorSchedule).MainOutOK = false := by
  unfold finished
  set_option maxRecDepth 1000000 in
  decide

/-! ### Tape end-of-media -/

theorem tapeAfter_snoc (ta tm : Bool) (t : TapeState) (rs : List WRes) (r : WRes) :
    tapeAfter ta tm t (rs ++ [r]) = (afterWrite ta tm (tapeAfter ta tm t rs) r).2 := by
  simp [tapeAfter, List.foldl_append]

theorem trailingENOSPC_snoc (rs : List WRes) (r : WRes) :
    trailingENOSPC (rs ++ [r]) = if r.isENOSPC then trailingENOSPC rs + 1 else 0 := by
  unfold trailingENOSPC
  rw [List.reverse_append, List.reverse_singleton, List.singleton_append, List.takeWhile_cons]
  split_ifs <;> simp

/-- With `TapeAware`, `countENOSPC` is the parity of the number of `ENOSPC`
results that the last results consist of. -/
theorem count_parity (rs : List WRes) :
    (tapeAfter true true {} rs).countENOSPC = trailingENOSPC rs % 2 := by
  induction rs using List.reverseRecOn with
  | nil => rfl
  | append_singleton rs r ih =>
    rw [tapeAfter_snoc, trailingENOSPC_snoc]
    generalize tapeAfter true true {} rs = t at ih
    have hlt : trailingENOSPC rs % 2 < 2 := Nat.mod_lt _ (by decide)
    cases r with
    | ret k =>
      by_cases hk : k = 0
      · subst hk
        by_cases h0 : t.countENOSPC = 0
        · simp [afterWrite, WRes.isENOSPC, h0]; omega
        · have h1 : ¬ (t.countENOSPC + 1 ≤ 1) := by omega
          simp [afterWrite, WRes.isENOSPC, h1]; omega
      · simp [afterWrite, WRes.isENOSPC, hk]
    | fail e =>
      cases e
      case ENOSPC =>
        by_cases h0 : t.countENOSPC = 0
        · simp [afterWrite, WRes.isENOSPC, h0]; omega
        · have h1 : ¬ (t.countENOSPC + 1 ≤ 1) := by omega
          simp [afterWrite, WRes.isENOSPC, h1]; omega
      all_goals simp [afterWrite, WRes.isENOSPC]

theorem tapeRun_get (ta tm : Bool) (pre rs : List WRes) (r : WRes) :
    ∀ t, (tapeRun ta tm t (pre ++ r :: rs))[pre.length]?
      = some (afterWrite ta tm (tapeAfter ta tm t pre) r).1 := by
  induction pre with
  | nil => intro t; simp [tapeRun, tapeAfter]
  | cons p pre ih =>
    intro t
    have h := ih (afterWrite ta tm t p).2
    simpa [tapeRun, tapeAfter] using h

/-- C7, counterexample: of three `ENOSPC` results in a row the third is the
second of two consecutive ones, and it only makes the chunk be written
again; there is no change of volume. -/
theorem enospc_thrice :
    tapeRun true true {} [WRes.fail Errno.ENOSPC, WRes.fail Errno.ENOSPC, WRes.fail Errno.ENOSPC]
      = [Next.again, Next.newVolume, Next.again] := by
  decide

/-- C7, amended: with `TapeAware` and a terminal or autoloader, for every
sequence of write results, an `ENOSPC` (or zero-length) result that comes
after an even number of consecutive such results (none, in particular) only
makes the same chunk be written again, and one that comes after an odd number
of them leads to one call of `requestOutputVolume`. -/
theorem tape_end_of_media (pre rs : List WRes) (r : WRes) (hr : r.isENOSPC = true) :
    (tapeRun true true {} (pre ++ r :: rs))[pre.length]?
      = some (if trailingENOSPC pre % 2 = 0 then Next.again else Next.newVolume) := by
  rw [tapeRun_get]
  have hp := count_parity pre
  generalize tapeAfter true true {} pre = t at hp
  have hlt : trailingENOSPC pre % 2 < 2 := Nat.mod_lt _ (by decide)
  have hr2 : r = WRes.ret 0 ∨ r = WRes.fail Errno.ENOSPC := by
    simpa [WRes.isENOSPC] using hr
  by_cases h0 : trailingENOSPC pre % 2 = 0
  · rw [if_pos h0]
    have hc : t.countENOSPC = 0 := by omega
    rcases hr2 with h | h <;> subst h <;> simp [afterWrite, WRes.isENOSPC, hc]
  · rw [if_neg h0]
    have hc : ¬ (t.countENOSPC + 1 ≤ 1) := by omega
    rcases hr2 with h | h <;> subst h <;> simp [afterWrite, WRes.isENOSPC, hc]

/-- Witness of `tape_end_of_media`: after a write of 16 bytes and one `ENOSPC`,
a second `ENOSPC` leads to a change of volume. -/
theorem tape_end_of_media_witness :
    (tapeRun true true {}
      ([WRes.ret 16, WRes.fail Errno.ENOSPC] ++ WRes.fail Errno.ENOSPC :: [WRes.ret 16]))[
        [WRes.ret 16, WRes.fail Errno.ENOSPC].length]?
      = some (if trailingENOSPC [WRes.ret 16, WRes.fail Errno.ENOSPC] % 2 = 0 then Next.again
          else Next.newVolume) :=
  tape_end_of_media [WRes.ret 16, WRes.fail Errno.ENOSPC] [WRes.ret 16]
    (WRes.fail Errno.ENOSPC) (by decide)

/-! ### The output of tapetest.c -/

theorem full_sane {σ : Type} (d : Dev σ) (h : d.full) : d.sane := by
  intro dv n k hk
  rw [h dv n] at hk
  injection hk with hk
  omega

theorem full_accepting {σ : Type} (d : Dev σ) (h : d.full) : d.accepting :=
  fun dv n hn => ⟨n, h dv n, hn⟩

theorem fileDev_full : fileDev.full := fun _ _ => rfl

theorem cnt_set (f : Th → Nat) (x t : Th) :
    ∀ (l : List Th) (i : Nat), l[i]? = some t → cnt f (l.set i x) + f t = cnt f l + f x := by
  intro l
  induction l with
  | nil => intro i h; simp at h
  | cons a l ih =>
    intro i h
    cases i with
    | zero =>
      simp at h
      subst h
      simp [cnt]
      omega
    | succ i =>
      simp at h
      have := ih i h
      simp [cnt] at this ⊢
      omega

theorem cnt_map_congr (f h : Th → Nat) (g : Th → Th) (l : List Th)
    (hp : ∀ t ∈ l, f (g t) = h t) : cnt f (l.map g) = cnt h l := by
  induction l with
  | nil => rfl
  | cons a l ih =>
    have h1 := hp a (List.mem_cons_self _ _)
    have h2 := ih (fun t ht => hp t (List.mem_cons_of_mem _ ht))
    simp [cnt] at h2 ⊢
    omega

theorem cnt_le_of_mem (f : Th → Nat) (l : List Th) (t : Th) (h : t ∈ l) : f t ≤ cnt f l := by
  induction l with
  | nil => simp at h
  | cons a l ih =>
    simp [cnt] at ih ⊢
    rcases List.mem_cons.1 h with h1 | h1
    · subst h1; omega
    · have := ih h1
      omega

theorem cnt_zero (f : Th → Nat) (l : List Th) (h : cnt f l = 0) (t : Th) (ht : t ∈ l) :
    f t = 0 := by
  have := cnt_le_of_mem f l t ht
  omega

theorem mem_of_get (l : List Th) (i : Nat) (t : Th) (h : l[i]? = some t) : t ∈ l := by
  rw [List.getElem?_eq_some] at h
  obtain ⟨hi, rfl⟩ := h
  exact List.getElem_mem _

theorem mem_set_self (l : List Th) (i : Nat) (t x : Th) (h : l[i]? = some t) :
    x ∈ l.set i x := by
  rw [List.getElem?_eq_some] at h
  obtain ⟨hi, _⟩ := h
  exact List.mem_iff_getElem.2 ⟨i, by simpa using hi, by simp⟩

theorem pairAt_lt (ps : List (Nat × Int)) (r : Nat) (h : r < ps.length) :
    pairAt ps r = ps[r] := by
  simp [pairAt, List.getD, List.getElem?_eq_getElem h]

theorem pairAt_ge (ps : List (Nat × Int)) (r : Nat) (h : ps.length ≤ r) :
    pairAt ps r = (0xdeadbeef, 0) := by
  simp [pairAt, List.getD, List.getElem?_eq_none h]

theorem pairAt_ptr (ps : List (Nat × Int)) (hps : ∀ p ∈ ps, p.1 ≠ 0 ∧ 0 < p.2) (r : Nat) :
    (pairAt ps r).1 ≠ 0 ∧ 0 ≤ (pairAt ps r).2 := by
  by_cases h : r < ps.length
  · rw [pairAt_lt ps r h]
    have := hps _ (List.getElem_mem h)
    exact ⟨this.1, by omega⟩
  · rw [pairAt_ge ps r (by omega)]
    simp

theorem pairAt_size (ps : List (Nat × Int)) (hps : ∀ p ∈ ps, p.1 ≠ 0 ∧ 0 < p.2) (r : Nat) :
    (pairAt ps r).2 = 0 ↔ ps.length ≤ r := by
  by_cases h : r < ps.length
  · rw [pairAt_lt ps r h]
    have := hps _ (List.getElem_mem h)
    constructor
    · intro h0; omega
    · intro h0; omega
  · rw [pairAt_ge ps r (by omega)]
    simp
    omega

theorem headD_drop (ps : List (Nat × Int)) (r : Nat) :
    (ps.drop r).headD (0xdeadbeef, 0) = pairAt ps r := by
  simp [pairAt, List.getD, List.headD_eq_head?_getD, List.head?_drop]

theorem take_succ_pairAt (ps : List (Nat × Int)) (r : Nat) (h : r < ps.length) :
    ps.take r ++ [pairAt ps r] = ps.take (r + 1) := by
  rw [pairAt_lt ps r h, List.take_succ, List.getElem?_eq_getElem h]
  rfl

theorem set_same (l : List Th) (i : Nat) (t : Th) (h : l[i]? = some t) : l.set i t = l := by
  apply List.ext_getElem?
  intro j
  by_cases hj : i = j
  · subst hj
    rw [List.getElem?_eq_some] at h
    obtain ⟨hi, rfl⟩ := h
    simp [List.getElem?_set_self hi, List.getElem?_eq_getElem hi]
  · rw [List.getElem?_set_ne hj]

theorem main_set (l : List Th) (i : Nat) (t t' : Th) (h : l[i]? = some t)
    (hm : t'.isMain = t.isMain) (hmain : ∃ m, l[0]? = some m ∧ m.isMain = true) :
    ∃ m, (l.set i t')[0]? = some m ∧ m.isMain = true := by
  obtain ⟨m, h1, h2⟩ := hmain
  by_cases hi : i = 0
  · subst hi
    rw [h1] at h
    injection h with h
    subst h
    refine ⟨t', ?_, by rw [hm, h2]⟩
    rw [List.getElem?_eq_some] at h1
    obtain ⟨h0, _⟩ := h1
    exact List.getElem?_set_self h0
  · exact ⟨m, by rw [List.getElem?_set_ne hi]; exact h1, h2⟩

theorem main_mem (ps : List (Nat × Int)) (st : FanSt) (h : FanInv ps st) :
    ∃ m ∈ st.threads, m.isMain = true := by
  obtain ⟨m, h1, h2⟩ := h.has_main
  exact ⟨m, mem_of_get _ _ _ h1, h2⟩

/-- The invariant of a thread only depends on some of the shared state. -/
theorem thOK_frame (ps : List (Nat × Int)) (st st' : FanSt) (t : Th) (h : ThOK ps st t)
    (hr : st'.rounds = st.rounds)
    (hs : t.pc.isLast = true → st'.stage = st.stage)
    (ha : t.pc = SPc.write → st'.SendAt = st.SendAt)
    (hb : t.isMain = true → t.pc = SPc.waiting → st'.stage = 0 →
      st'.buf = (pairAt ps st'.rounds).1 ∧ st'.size = (pairAt ps st'.rounds).2) :
    ThOK ps st' t := by
  constructor
  · intro h1; rw [hs h1]; exact h.stage_pc h1
  · exact h.first_none
  · exact h.not_torn
  · exact h.obs_prefix
  · exact h.failed_pc
  · exact h.main_pc
  · rw [hr]; exact h.early
  · rw [hr]; exact h.late
  · intro h1; rw [hr, ha h1]; exact h.writing h1
  · rw [hr]; exact h.finished
  · exact hb

/-- A step of a thread that leaves the shared state as it is. -/
theorem fanInv_own (ps : List (Nat × Int)) (st : FanSt) (i : Nat) (t t' : Th)
    (h : FanInv ps st) (hget : st.threads[i]? = some t)
    (hm : t'.isMain = t.isMain)
    (hL : t'.isL = t.isL)
    (hA : st.rounds ≤ ps.length → t'.isA = t.isA ∧ t'.isIn = t.isIn)
    (hc : st.rounds = ps.length + 1 →
      t'.pc = SPc.woken ∨ t'.pc = SPc.back ∨ t'.pc = SPc.done)
    (hok : ThOK ps st t') :
    FanInv ps { st with threads := st.threads.set i t' } := by
  have hcL := cnt_set Th.isL t' t _ _ hget
  have hcA := cnt_set Th.isA t' t _ _ hget
  have hcI := cnt_set Th.isIn t' t _ _ hget
  constructor
  · exact h.rounds_le
  · exact h.stage_le
  · exact h.lock_eq
  · have := h.cntL
    simp only at this ⊢
    omega
  · intro h1 h2
    have := h.open_counts h1 h2
    have := hA h2
    simp only at h1 h2 ⊢
    omega
  · intro h1
    have h3 := h.last_counts h1
    have := hA h3.1
    simp only at h1 ⊢
    omega
  · intro h1
    have := h.closed h1
    refine ⟨this.1, ?_⟩
    intro t2 ht2
    rcases List.mem_or_eq_of_mem_set ht2 with h2 | h2
    · exact this.2 t2 h2
    · subst h2; exact hc h1
  · exact h.globals
  · exact h.statics1
  · exact h.statics2
  · exact h.statics3
  · exact h.skipped_eq
  · exact h.posts_eq
  · exact main_set _ _ _ _ hget hm h.has_main
  · intro t2 ht2
    rcases List.mem_or_eq_of_mem_set ht2 with h2 | h2
    · exact thOK_frame ps st _ t2 (h.threads_ok t2 h2) rfl (fun _ => rfl) (fun _ => rfl)
        (fun a b c => (h.threads_ok t2 h2).main_waiting a b c)
    · subst h2
      exact thOK_frame ps st _ t2 hok rfl (fun _ => rfl) (fun _ => rfl)
        (fun a b c => hok.main_waiting a b c)

theorem stage_zero_of_A (ps : List (Nat × Int)) (st : FanSt) (h : FanInv ps st) (t : Th)
    (ht : t ∈ st.threads) (hA : t.isA = 1) : st.stage = 0 := by
  by_contra hne
  have := cnt_zero _ _ (h.last_counts hne).2.1 t ht
  omega

theorem rounds_le_of_pc (ps : List (Nat × Int)) (st : FanSt) (h : FanInv ps st) (t : Th)
    (ht : t ∈ st.threads)
    (hpc : t.pc ≠ SPc.woken ∧ t.pc ≠ SPc.back ∧ t.pc ≠ SPc.done) :
    st.rounds ≤ ps.length := by
  by_contra hne
  have h1 := h.rounds_le
  have h2 := (h.closed (by omega)).2 t ht
  rcases h2 with h2 | h2 | h2
  · exact hpc.1 h2
  · exact hpc.2.1 h2
  · exact hpc.2.2 h2

theorem drop_cons_facts (ps : List (Nat × Int)) (r : Nat) (p : Nat × Int)
    (rest : List (Nat × Int)) (h : p :: rest = ps.drop r) :
    r < ps.length ∧ rest = ps.drop (r + 1) := by
  have h1 : r < ps.length := by
    by_contra hne
    rw [List.drop_eq_nil_of_le (by omega)] at h
    simp at h
  refine ⟨h1, ?_⟩
  have h2 : ps.drop (r + 1) = (ps.drop r).tail := by
    rw [List.tail_drop]
  rw [h2, ← h]
  rfl

theorem fanInv_back (ps : List (Nat × Int)) (hps : ∀ p ∈ ps, p.1 ≠ 0 ∧ 0 < p.2)
    (st : FanSt) (i : Nat) (o : Outcome) (t : Th)
    (h : FanInv ps st) (hget : st.threads[i]? = some t) (hpc : t.pc = SPc.back) :
    FanInv ps { st with threads := st.threads.set i (ownStep o st t) } := by
  have hmem := mem_of_get _ _ _ hget
  have hok := h.threads_ok t hmem
  have hfirst := hok.first_none (by simp [hpc])
  obtain ⟨ho1, ho2, ho3, ho4, ho5, ho6, ho7, ho8, ho9, ho10, ho11⟩ := hok
  have hrl := h.rounds_le
  unfold ownStep
  simp only [hpc]
  cases hM : t.isMain <;> cases hF : t.failed
  · -- a sender, not failed
    simp only [Bool.false_eq_true, if_false]
    have hl := ho8 (Or.inr hpc) hF
    simp only [hM, Bool.false_eq_true, if_false] at hl
    obtain ⟨hl1, hl2⟩ := hl
    have hst := stage_zero_of_A ps st h t hmem (by simp [Th.isA, hpc, hF])
    obtain ⟨hg1, hg2⟩ := h.globals hst hl1
    have hsz := pairAt_size ps hps (st.rounds - 1)
    by_cases h0 : st.SendSize = 0
    · rw [if_pos h0]
      have hR : ps.length ≤ st.rounds - 1 := hsz.1 (by rw [← hg2]; exact h0)
      have hobs : t.obs = ps := by rw [hl2, List.take_of_length_le hR]
      refine fanInv_own ps st i t _ h hget ?_ ?_ ?_ ?_ ?_
      · simp only [hM]
      · simp [Th.isL, hpc, SPc.isLast]
      · intro h1; omega
      · intro _; simp
      · refine ⟨?_, ?_, ho3, ho4, ?_, ?_, ?_, ?_, ?_, ?_, ?_⟩
        all_goals first
          | (intro hx; simp [SPc.isLast, SPc.early, hM, hF] at hx; done)
          | (intro hx hy; simp [SPc.isLast, SPc.early, hM, hF] at hy; done)
          | skip
        · intro _; exact hfirst
        · intro _ _; simp only [hM, Bool.false_eq_true, if_false]; exact hobs
    · rw [if_neg h0]
      have hR : ¬ ps.length ≤ st.rounds - 1 := fun hc => h0 (by rw [hg2]; exact hsz.2 hc)
      refine fanInv_own ps st i t _ h hget ?_ ?_ ?_ ?_ ?_
      · simp only [hM]
      · simp [Th.isL, hpc, SPc.isLast]
      · intro _; simp [Th.isA, Th.isIn, hpc, hF]
      · intro h1; omega
      · refine ⟨?_, ?_, ho3, ho4, ?_, ?_, ?_, ?_, ?_, ?_, ?_⟩
        all_goals first
          | (intro hx; simp [SPc.isLast, SPc.early, hM, hF] at hx; done)
          | (intro hx hy; simp [SPc.isLast, SPc.early, hM, hF] at hy; done)
          | skip
        · intro _
          exact ⟨hl1, by omega, hg2, fun _ => hl2, fun a ha => by simp [hfirst] at ha⟩
  · -- a sender, failed
    simp only [Bool.false_eq_true, if_false, if_true]
    refine fanInv_own ps st i t _ h hget ?_ ?_ ?_ ?_ ?_
    · simp only [hM]
    · simp [Th.isL, hpc, SPc.isLast]
    · intro _; simp [Th.isA, Th.isIn, hpc, hF]
    · intro _; simp
    · refine ⟨?_, ?_, ho3, ho4, ?_, ?_, ?_, ?_, ?_, ?_, ?_⟩
      all_goals first
        | (intro hx; simp [SPc.isLast, SPc.early, hM, hF] at hx; done)
        | (intro hx hy; simp [SPc.isLast, SPc.early, hM, hF] at hy; done)
        | skip
      · intro _; exact hfirst
      · intro _; simp [hM]
  · -- outputThread
    simp only [if_true]
    have hl := ho8 (Or.inr hpc) hF
    simp only [hM, if_true] at hl
    obtain ⟨hl1, hl2⟩ := hl
    cases htodo : t.todo with
    | nil =>
      simp only
      have hR : st.rounds = ps.length + 1 := by
        rw [htodo] at hl2
        have h2 : ps.length ≤ st.rounds - 1 := by
          by_contra hne
          have h3 : (ps.drop (st.rounds - 1)).length = ps.length - (st.rounds - 1) :=
            List.length_drop _ _
          rw [← hl2] at h3
          simp at h3
          omega
        omega
      refine fanInv_own ps st i t _ h hget ?_ ?_ ?_ ?_ ?_
      · simp only [hM]
      · simp [Th.isL, hpc, SPc.isLast]
      · intro h1; omega
      · intro _; simp
      · refine ⟨?_, ?_, ho3, ho4, ?_, ?_, ?_, ?_, ?_, ?_, ?_⟩
        all_goals first
          | (intro hx; simp [SPc.isLast, SPc.early, hM, hF] at hx; done)
          | (intro hx hy; simp [SPc.isLast, SPc.early, hM, hF] at hy; done)
          | skip
        · intro _; exact hfirst
        · intro _ _; simp only [if_true]; exact hR
    | cons p rest =>
      simp only
      rw [htodo] at hl2
      obtain ⟨h1, h2⟩ := drop_cons_facts ps _ p rest hl2
      have h3 : st.rounds - 1 + 1 = st.rounds := by omega
      rw [h3] at h2
      refine fanInv_own ps st i t _ h hget ?_ ?_ ?_ ?_ ?_
      · simp only [hM]
      · simp [Th.isL, hpc, SPc.isLast]
      · intro _; simp [Th.isA, Th.isIn, hpc, hF]
      · intro h4; omega
      · refine ⟨?_, ?_, ho3, ho4, ?_, ?_, ?_, ?_, ?_, ?_, ?_⟩
        all_goals first
          | (intro hx; simp [SPc.isLast, SPc.early, hM, hF] at hx; done)
          | (intro hx hy; simp [SPc.isLast, SPc.early, hM, hF] at hy; done)
          | skip
        · intro _; exact hfirst
        · intro _ _; simp only [if_true]; exact h2
  · -- outputThread never fails
    have := (ho5 hF).2
    rw [hM] at this
    exact absurd this (by simp)

theorem fanInv_write (ps : List (Nat × Int))
    (st : FanSt) (i : Nat) (o : Outcome) (t : Th)
    (h : FanInv ps st) (hget : st.threads[i]? = some t) (hpc : t.pc = SPc.write) :
    FanInv ps { st with threads := st.threads.set i (ownStep o st t) } := by
  have hmem := mem_of_get _ _ _ hget
  have hok := h.threads_ok t hmem
  obtain ⟨ho1, ho2, ho3, ho4, ho5, ho6, ho7, ho8, ho9, ho10, ho11⟩ := hok
  have hF : t.failed = false := by
    by_contra hne
    exact (ho5 (by simpa using hne)).1 hpc
  have hM : t.isMain = false := by
    by_contra hne
    exact ho6 (by simpa using hne) hpc
  obtain ⟨hw1, hw2, hw3, hw4, hw5⟩ := ho9 hpc
  have hst := stage_zero_of_A ps st h t hmem (by simp [Th.isA, hpc, hF])
  obtain ⟨hg1, hg2⟩ := h.globals hst hw1
  have htake : ps.take (st.rounds - 1) ++ [(st.SendAt, t.size)] = ps.take st.rounds := by
    have := take_succ_pairAt ps (st.rounds - 1) (by omega)
    have h3 : st.rounds - 1 + 1 = st.rounds := by omega
    rw [h3] at this
    rw [← this, hg1, hw3]
  have key : ∃ t1 : Th,
      ownStep o st t = (match o with
        | Outcome.all => { t1 with pc := SPc.call, first := none }
        | Outcome.part => t1
        | Outcome.error => { t1 with pc := SPc.call, first := none, failed := true }) ∧
      t1.isMain = false ∧ t1.pc = SPc.write ∧ t1.failed = false ∧ t1.obs = ps.take st.rounds ∧
      t1.torn = false ∧ t1.size = t.size ∧ t1.first = some st.SendAt := by
    unfold ownStep
    simp only [hpc]
    cases hfi : t.first with
    | none =>
      refine ⟨{ t with obs := t.obs ++ [(st.SendAt, t.size)], first := some st.SendAt },
        ?_, hM, hpc, hF, ?_, ho3, rfl, rfl⟩
      · cases o <;> simp [hpc]
      · simp only
        rw [hw4 hfi, htake]
    | some a =>
      obtain ⟨ha1, ha2⟩ := hw5 a hfi
      refine ⟨{ t with torn := t.torn || decide (a ≠ st.SendAt) },
        ?_, hM, hpc, hF, ha2, ?_, rfl, ?_⟩
      · cases o <;> simp [hpc, hfi]
      · simp [ho3, ha1]
      · simp only [hfi, ha1]
  obtain ⟨t1, hk0, hk1, hk2, hk3, hk4, hk5, hk6, hk7⟩ := key
  rw [hk0]
  have hpre : ps.take st.rounds <+: ps := List.take_prefix _ _
  cases o
  · -- the block is done
    simp only
    refine fanInv_own ps st i t _ h hget ?_ ?_ ?_ ?_ ?_
    · simp only [hk1, hM]
    · simp [Th.isL, hpc, SPc.isLast]
    · intro _; simp [Th.isA, Th.isIn, hpc, hF]
    · intro h4; omega
    · refine ⟨?_, ?_, hk5, by rw [hk4]; exact hpre, ?_, ?_, ?_, ?_, ?_, ?_, ?_⟩
      all_goals first
        | (intro hx; simp [SPc.isLast, SPc.early, hk1, hk3] at hx; done)
        | (intro hx hy; simp [SPc.isLast, SPc.early, hk1, hk3] at hy; done)
        | skip
      · intro _; rfl
      · intro _ _; simp only [hk1, Bool.false_eq_true, if_false]; exact hk4
  · -- there is more to write
    simp only
    refine fanInv_own ps st i t _ h hget ?_ ?_ ?_ ?_ ?_
    · simp only [hk1, hM]
    · simp [Th.isL, hpc, hk2, SPc.isLast]
    · intro _; simp [Th.isA, Th.isIn, hpc, hF, hk2, hk3]
    · intro h4; omega
    · refine ⟨?_, ?_, hk5, by rw [hk4]; exact hpre, ?_, ?_, ?_, ?_, ?_, ?_, ?_⟩
      all_goals first
        | (intro hx; simp [SPc.isLast, SPc.early, hk1, hk2, hk3] at hx; done)
        | (intro hx hy; simp [SPc.isLast, SPc.early, hk1, hk2, hk3] at hy; done)
        | skip
      · intro _
        refine ⟨hw1, hw2, by rw [hk6]; exact hw3, ?_, ?_⟩
        · intro hx; rw [hk7] at hx; simp at hx
        · intro a ha
          rw [hk7] at ha
          injection ha with ha
          exact ⟨ha.symm, hk4⟩
  · -- the write has failed
    simp only
    refine fanInv_own ps st i t _ h hget ?_ ?_ ?_ ?_ ?_
    · simp only [hk1, hM]
    · simp [Th.isL, hpc, SPc.isLast]
    · intro _; simp [Th.isA, Th.isIn, hpc, hF]
    · intro h4; omega
    · refine ⟨?_, ?_, hk5, by rw [hk4]; exact hpre, ?_, ?_, ?_, ?_, ?_, ?_, ?_⟩
      all_goals first
        | (intro hx; simp [SPc.isLast, SPc.early, hk1, hk3] at hx; done)
        | (intro hx hy; simp [SPc.isLast, SPc.early, hk1, hk3] at hy; done)
        | skip
      · intro _; rfl
      · intro _; simp [hk1]

theorem cnt_unique (f : Th → Nat) (a b : Th) :
    ∀ l : List Th, cnt f l = 1 → a ∈ l → f a = 1 → b ∈ l → b ≠ a → f b = 0 := by
  intro l
  induction l with
  | nil => intro _ ha; simp at ha
  | cons x l ih =>
    intro hc ha hfa hb hne
    have hsum : f x + cnt f l = 1 := by
      simpa [cnt] using hc
    rcases List.mem_cons.1 ha with ha1 | ha1
    · subst ha1
      rcases List.mem_cons.1 hb with hb1 | hb1
      · exact absurd hb1 hne
      · exact cnt_zero f l (by omega) b hb1
    · have := cnt_le_of_mem f l a ha1
      rcases List.mem_cons.1 hb with hb1 | hb1
      · subst hb1; omega
      · exact ih (by omega) ha1 hfa hb1 hne

theorem pc_of_notA (t : Th) (hA : t.isA = 0) (hL : t.isL = 0) :
    t.pc = SPc.waiting ∨ t.pc = SPc.done ∨
      (t.failed = true ∧ (t.pc = SPc.woken ∨ t.pc = SPc.back ∨ t.pc = SPc.write)) := by
  unfold Th.isA at hA
  unfold Th.isL at hL
  cases hpc : t.pc <;> cases hf : t.failed <;> simp [hpc, hf, SPc.isLast] at hA hL ⊢

theorem set_pc_same (t : Th) (pc : SPc) (h : t.pc = pc) : { t with pc := pc } = t := by
  cases t
  simp only at h
  subst h
  rfl

theorem fanInv_stutter (ps : List (Nat × Int)) (st : FanSt) (i : Nat) (t : Th) (pc : SPc)
    (h : FanInv ps st) (hget : st.threads[i]? = some t) (hpc : t.pc = pc) :
    FanInv ps { st with threads := st.threads.set i { t with pc := pc } } := by
  rw [set_pc_same t pc hpc, set_same _ _ _ hget]
  exact h

theorem fanInv_woken (ps : List (Nat × Int)) (st : FanSt) (i : Nat) (t : Th)
    (h : FanInv ps st) (hget : st.threads[i]? = some t) (hpc : t.pc = SPc.woken) :
    FanInv ps { st with threads := st.threads.set i { t with pc := SPc.back } } := by
  have hmem := mem_of_get _ _ _ hget
  obtain ⟨ho1, ho2, ho3, ho4, ho5, ho6, ho7, ho8, ho9, ho10, ho11⟩ := h.threads_ok t hmem
  refine fanInv_own ps st i t _ h hget rfl ?_ ?_ ?_ ?_
  · simp [Th.isL, hpc, SPc.isLast]
  · intro _; simp [Th.isA, Th.isIn, hpc]
  · intro _; simp
  · refine ⟨?_, ?_, ho3, ho4, ?_, ?_, ?_, ?_, ?_, ?_, ?_⟩
    all_goals first
      | (intro hx; simp [SPc.isLast, SPc.early] at hx; done)
      | (intro hx hy; simp [SPc.isLast, SPc.early] at hy; done)
      | skip
    · intro _; exact ho2 (by simp [hpc])
    · intro hf; exact ⟨by simp, (ho5 hf).2⟩
    · intro _ hf; exact ho8 (Or.inl hpc) hf

/-- A step of the thread that arrived last, before its broadcast. -/
theorem fanInv_last (ps : List (Nat × Int)) (st st' : FanSt) (i : Nat) (t : Th) (pc' : SPc)
    (h : FanInv ps st) (hget : st.threads[i]? = some t)
    (hL : t.pc.isLast = true) (hL' : pc'.isLast = true)
    (hth : st'.threads = st.threads.set i { t with pc := pc' })
    (hr : st'.rounds = st.rounds) (hA : st'.ActSenders = st.ActSenders)
    (hN : st'.NumSenders = st.NumSenders) (hstage : st'.stage = pc'.stageOf)
    (hlock : st'.lock = true ↔ (1 ≤ st'.stage ∧ st'.stage ≤ 3))
    (hs1 : st'.stage = 1 →
      st'.buf = (pairAt ps st'.rounds).1 ∧ st'.size = (pairAt ps st'.rounds).2)
    (hs2 : st'.stage = 2 →
      st'.SendAt = (pairAt ps st'.rounds).1 ∧ st'.size = (pairAt ps st'.rounds).2)
    (hs3 : 3 ≤ st'.stage →
      st'.SendAt = (pairAt ps st'.rounds).1 ∧ st'.SendSize = (pairAt ps st'.rounds).2)
    (hsk : st'.skipped = decide (1 ≤ st'.rounds + (if st'.stage = 4 then 1 else 0)))
    (hpo : st'.posts = st'.rounds + (if st'.stage = 4 then 1 else 0) - 1) :
    FanInv ps st' := by
  have hmem := mem_of_get _ _ _ hget
  obtain ⟨ho1, ho2, ho3, ho4, ho5, ho6, ho7, ho8, ho9, ho10, ho11⟩ := h.threads_ok t hmem
  have hst : st.stage ≠ 0 := by
    rw [ho1 hL]
    cases hpc : t.pc <;> simp [hpc, SPc.isLast, SPc.stageOf] at hL ⊢
  have hst' : st'.stage ≠ 0 := by
    rw [hstage]
    cases pc' <;> simp [SPc.isLast, SPc.stageOf] at hL' ⊢
  have hle' : st'.stage ≤ 4 := by
    rw [hstage]
    cases pc' <;> simp [SPc.stageOf]
  obtain ⟨hc1, hc2, hc3, hc4⟩ := h.last_counts hst
  have hcL := cnt_set Th.isL { t with pc := pc' } t _ _ hget
  have hcA := cnt_set Th.isA { t with pc := pc' } t _ _ hget
  have hcI := cnt_set Th.isIn { t with pc := pc' } t _ _ hget
  have hcLold := h.cntL
  rw [if_neg hst] at hcLold
  have e1 : Th.isL { t with pc := pc' } = 1 := by simp [Th.isL, hL']
  have e2 : Th.isL t = 1 := by simp [Th.isL, hL]
  have e3 : Th.isA t = 0 := cnt_zero _ _ hc2 t hmem
  have hpcne : pc' ≠ SPc.call ∧ pc' ≠ SPc.write ∧ pc' ≠ SPc.woken ∧ pc' ≠ SPc.back ∧
      pc' ≠ SPc.done ∧ pc' ≠ SPc.waiting := by
    cases pc' <;> simp [SPc.isLast] at hL' ⊢
  have htne : t.pc ≠ SPc.call ∧ t.pc ≠ SPc.write ∧ t.pc ≠ SPc.woken ∧ t.pc ≠ SPc.back ∧
      t.pc ≠ SPc.done ∧ t.pc ≠ SPc.waiting := by
    cases hpc : t.pc <;> simp [hpc, SPc.isLast] at hL ⊢
  have e4 : Th.isA { t with pc := pc' } = 0 := by
    simp [Th.isA, hpcne.1, hpcne.2.1, hpcne.2.2.1, hpcne.2.2.2.1]
  have e5 : Th.isIn { t with pc := pc' } = Th.isIn t := by
    simp [Th.isIn, hpcne.1, hpcne.2.2.2.2.1, htne.1, htne.2.2.2.2.1]
  have hnewL : cnt Th.isL st'.threads = 1 := by rw [hth]; omega
  have hnewA : cnt Th.isA st'.threads = 0 := by rw [hth]; omega
  have hnewI : cnt Th.isIn st'.threads = cnt Th.isIn st.threads := by rw [hth]; omega
  have hself : { t with pc := pc' } ∈ st'.threads := by
    rw [hth]; exact mem_set_self _ _ _ _ hget
  constructor
  · rw [hr]; exact h.rounds_le
  · exact hle'
  · exact hlock
  · rw [if_neg hst']; exact hnewL
  · intro h1; exact absurd h1 hst'
  · intro _
    rw [hr, hA, hN, hnewI]
    exact ⟨hc1, hnewA, hc3, hc4⟩
  · intro h1
    rw [hr] at h1
    omega
  · intro h1; exact absurd h1 hst'
  · exact hs1
  · exact hs2
  · exact hs3
  · exact hsk
  · exact hpo
  · rw [hth]
    exact main_set _ _ _ _ hget rfl h.has_main
  · intro t2 ht2
    by_cases heq : t2 = { t with pc := pc' }
    · subst heq
      refine ⟨?_, ?_, ho3, ho4, ?_, ?_, ?_, ?_, ?_, ?_, ?_⟩
      · intro _; exact hstage
      · intro _; exact ho2 htne.2.1
      · intro hf; exact ⟨hpcne.2.1, (ho5 hf).2⟩
      · intro _; exact hpcne.2.1
      · intro _ hf
        have he : t.pc.early = true := by
          cases hpc : t.pc <;> simp [hpc, SPc.isLast, SPc.early] at hL ⊢
        rw [hr]
        exact ho7 he hf
      · intro hx
        rcases hx with hx | hx
        · exact absurd hx hpcne.2.2.1
        · exact absurd hx hpcne.2.2.2.1
      · intro hx; exact absurd hx hpcne.2.1
      · intro hx; exact absurd hx hpcne.2.2.2.2.1
      · intro _ hx; exact absurd hx hpcne.2.2.2.2.2
    · have h2L := cnt_unique Th.isL _ t2 _ hnewL hself e1 ht2 heq
      have h2A := cnt_zero _ _ hnewA t2 ht2
      have hold : t2 ∈ st.threads := by
        rw [hth] at ht2
        rcases List.mem_or_eq_of_mem_set ht2 with h3 | h3
        · exact h3
        · exact absurd h3 heq
      have hok2 := h.threads_ok t2 hold
      have hcls := pc_of_notA t2 h2A h2L
      apply thOK_frame ps st st' t2 hok2 hr
      · intro hx
        simp [Th.isL, hx] at h2L
      · intro hx
        rcases hcls with h4 | h4 | ⟨h4, _⟩
        · rw [hx] at h4; simp at h4
        · rw [hx] at h4; simp at h4
        · exact absurd hx (hok2.failed_pc h4).1
      · intro _ _ hx
        exact absurd hx hst'

theorem main_not_failed (ps : List (Nat × Int)) (st : FanSt) (t : Th) (hok : ThOK ps st t)
    (hM : t.isMain = true) : t.failed = false := by
  by_contra hne
  have := (hok.failed_pc (by simpa using hne)).2
  rw [hM] at this
  exact absurd this (by simp)

/-- What holds when a thread is about to enter `syncSenders`. -/
theorem arrive_facts (ps : List (Nat × Int)) (hps : ∀ p ∈ ps, p.1 ≠ 0 ∧ 0 < p.2)
    (st : FanSt) (i : Nat) (t : Th)
    (h : FanInv ps st) (hget : st.threads[i]? = some t) (hpc : t.pc = SPc.call) :
    st.stage = 0 ∧ st.rounds ≤ ps.length ∧
    st.ActSenders = cnt Th.isA st.threads ∧ st.NumSenders + 1 = cnt Th.isIn st.threads ∧
    1 ≤ st.ActSenders ∧
    (t.isMain = true → t.failed = false ∧ syncArgs t = pairAt ps st.rounds ∧
      (syncArgs t).1 ≠ 0 ∧ ¬ (syncArgs t).2 < 0) ∧
    (t.isMain = false → (syncArgs t).1 = 0 ∧ ((syncArgs t).2 < 0 ↔ t.failed = true)) := by
  have hmem := mem_of_get _ _ _ hget
  have hok := h.threads_ok t hmem
  have hst := stage_zero_of_A ps st h t hmem (by simp [Th.isA, hpc])
  have hR := rounds_le_of_pc ps st h t hmem (by simp [hpc])
  obtain ⟨h1, h2, h3⟩ := h.open_counts hst hR
  refine ⟨hst, hR, h1, h2, h3, ?_, ?_⟩
  · intro hM
    have hf := main_not_failed ps st t hok hM
    have he := hok.early (by simp [hpc, SPc.early]) hf
    simp only [hM, if_true] at he
    have ha : syncArgs t = pairAt ps st.rounds := by
      unfold syncArgs
      simp only [hM, if_true]
      rw [he, headD_drop]
    have hp := pairAt_ptr ps hps st.rounds
    rw [ha]
    exact ⟨hf, rfl, hp.1, by omega⟩
  · intro hM
    unfold syncArgs
    simp only [hM, Bool.false_eq_true, if_false]
    refine ⟨trivial, ?_⟩
    cases t.failed <;> simp

/-- The thread enters `syncSenders` and is not the last to arrive. -/
theorem fanInv_arrive_wait (ps : List (Nat × Int)) (hps : ∀ p ∈ ps, p.1 ≠ 0 ∧ 0 < p.2)
    (st st' : FanSt) (i : Nat) (t : Th)
    (h : FanInv ps st) (hget : st.threads[i]? = some t) (hpc : t.pc = SPc.call)
    (hne : st.ActSenders - 1 ≠ 0)
    (hth : st'.threads = st.threads.set i { t with pc := SPc.waiting })
    (hbuf : st'.buf = if (syncArgs t).1 ≠ 0 then (syncArgs t).1 else st.buf)
    (hsize : st'.size = if (syncArgs t).1 ≠ 0 then (syncArgs t).2 else st.size)
    (hnum : st'.NumSenders = if (syncArgs t).2 < 0 then st.NumSenders - 1 else st.NumSenders)
    (hact : st'.ActSenders = st.ActSenders - 1)
    (hsk : st'.skipped = st.skipped) (hat : st'.SendAt = st.SendAt)
    (hss : st'.SendSize = st.SendSize) (hlk : st'.lock = st.lock) (hpo : st'.posts = st.posts)
    (hr : st'.rounds = st.rounds) (hsg : st'.stage = st.stage) :
    FanInv ps st' := by
  have hmem := mem_of_get _ _ _ hget
  obtain ⟨ho1, ho2, ho3, ho4, ho5, ho6, ho7, ho8, ho9, ho10, ho11⟩ := h.threads_ok t hmem
  obtain ⟨hst, hR, hcA, hcI, hpos, hmain, hsend⟩ := arrive_facts ps hps st i t h hget hpc
  have hsA := cnt_set Th.isA { t with pc := SPc.waiting } t _ _ hget
  have hsI := cnt_set Th.isIn { t with pc := SPc.waiting } t _ _ hget
  have hsL := cnt_set Th.isL { t with pc := SPc.waiting } t _ _ hget
  have e1 : Th.isA t = 1 := by simp [Th.isA, hpc]
  have e2 : Th.isA { t with pc := SPc.waiting } = 0 := by simp [Th.isA]
  have e3 : Th.isIn t = 1 := by simp [Th.isIn, hpc]
  have e4 : Th.isIn { t with pc := SPc.waiting } = if t.failed = true then 0 else 1 := by
    cases hf : t.failed <;> simp [Th.isIn, hf]
  have e5 : Th.isL t = 0 := by simp [Th.isL, hpc, SPc.isLast]
  have e6 : Th.isL { t with pc := SPc.waiting } = 0 := by simp [Th.isL, SPc.isLast]
  have hnum' : st'.NumSenders = st.NumSenders - (if t.failed = true then 1 else 0) := by
    rw [hnum]
    cases hM : t.isMain
    · have := (hsend hM).2
      by_cases hf : t.failed = true
      · rw [if_pos (this.2 hf), if_pos hf]
      · rw [if_neg (fun hc => hf (this.1 hc)), if_neg hf]; omega
    · have := hmain hM
      rw [if_neg this.2.2.2, if_neg (by simp [this.1])]; omega
  have hcLold := h.cntL
  rw [if_pos hst] at hcLold
  constructor
  · rw [hr]; exact h.rounds_le
  · rw [hsg]; exact h.stage_le
  · rw [hlk, hsg]; exact h.lock_eq
  · rw [hsg, if_pos hst, hth]; omega
  · intro _ _
    rw [hact, hnum', hth]
    refine ⟨?_, ?_, ?_⟩
    · omega
    · split_ifs at e4 ⊢ <;> omega
    · omega
  · intro h1; rw [hsg] at h1; exact absurd hst h1
  · intro h1; rw [hr] at h1; omega
  · rw [hsg, hr, hat, hss]; exact h.globals
  · intro h1; rw [hsg] at h1; omega
  · intro h1; rw [hsg] at h1; omega
  · intro h1; rw [hsg] at h1; omega
  · rw [hsk, hr, hsg]; exact h.skipped_eq
  · rw [hpo, hr, hsg]; exact h.posts_eq
  · rw [hth]; exact main_set _ _ _ _ hget rfl h.has_main
  · intro t2 ht2
    have hbufmain : t.isMain = true →
        st'.buf = (pairAt ps st'.rounds).1 ∧ st'.size = (pairAt ps st'.rounds).2 := by
      intro hM
      obtain ⟨_, ha, hb, _⟩ := hmain hM
      rw [hbuf, hsize, if_pos hb, if_pos hb, ha, hr]
      exact ⟨rfl, rfl⟩
    have hbufsend : t.isMain = false → st'.buf = st.buf ∧ st'.size = st.size := by
      intro hM
      have := (hsend hM).1
      rw [hbuf, hsize, if_neg (by simp [this]), if_neg (by simp [this])]
      exact ⟨rfl, rfl⟩
    rw [hth] at ht2
    rcases List.mem_or_eq_of_mem_set ht2 with h2 | h2
    · have hok2 := h.threads_ok t2 h2
      apply thOK_frame ps st st' t2 hok2 hr
      · intro _; exact hsg
      · intro _; exact hat
      · intro hM2 hw hs0
        cases hM : t.isMain
        · obtain ⟨hb1, hb2⟩ := hbufsend hM
          rw [hb1, hb2, hr]
          exact hok2.main_waiting hM2 hw hst
        · exact hbufmain hM
    · subst h2
      refine ⟨?_, ?_, ho3, ho4, ?_, ?_, ?_, ?_, ?_, ?_, ?_⟩
      all_goals first
        | (intro hx; simp [SPc.isLast, SPc.early] at hx; done)
        | (intro hx hy; simp [SPc.isLast, SPc.early] at hy; done)
        | skip
      · intro _; exact ho2 (by simp [hpc])
      · intro hf; exact ⟨by simp, (ho5 hf).2⟩
      · intro _ hf
        rw [hr]
        exact ho7 (by simp [hpc, SPc.early]) hf
      · intro hM _ _
        exact hbufmain hM

/-- The thread enters `syncSenders` and is the last to arrive. -/
theorem fanInv_arrive_last (ps : List (Nat × Int)) (hps : ∀ p ∈ ps, p.1 ≠ 0 ∧ 0 < p.2)
    (st st' : FanSt) (i : Nat) (t : Th)
    (h : FanInv ps st) (hget : st.threads[i]? = some t) (hpc : t.pc = SPc.call)
    (he : st.ActSenders - 1 = 0)
    (hth : st'.threads = st.threads.set i { t with pc := SPc.setAt })
    (hbuf : st'.buf = if (syncArgs t).1 ≠ 0 then (syncArgs t).1 else st.buf)
    (hsize : st'.size = if (syncArgs t).1 ≠ 0 then (syncArgs t).2 else st.size)
    (hnum : st'.NumSenders = if (syncArgs t).2 < 0 then st.NumSenders - 1 else st.NumSenders)
    (hact : st'.ActSenders = st'.NumSenders + 1)
    (hsk : st'.skipped = st.skipped) (hat : st'.SendAt = st.SendAt)
    (hss : st'.SendSize = st.SendSize) (hlk : st'.lock = true) (hpo : st'.posts = st.posts)
    (hr : st'.rounds = st.rounds) (hsg : st'.stage = 1) :
    FanInv ps st' := by
  have hmem := mem_of_get _ _ _ hget
  obtain ⟨ho1, ho2, ho3, ho4, ho5, ho6, ho7, ho8, ho9, ho10, ho11⟩ := h.threads_ok t hmem
  obtain ⟨hst, hR, hcA, hcI, hpos, hmain, hsend⟩ := arrive_facts ps hps st i t h hget hpc
  have hsA := cnt_set Th.isA { t with pc := SPc.setAt } t _ _ hget
  have hsI := cnt_set Th.isIn { t with pc := SPc.setAt } t _ _ hget
  have hsL := cnt_set Th.isL { t with pc := SPc.setAt } t _ _ hget
  have e1 : Th.isA t = 1 := by simp [Th.isA, hpc]
  have e2 : Th.isA { t with pc := SPc.setAt } = 0 := by simp [Th.isA]
  have e3 : Th.isIn t = 1 := by simp [Th.isIn, hpc]
  have e4 : Th.isIn { t with pc := SPc.setAt } = if t.failed = true then 0 else 1 := by
    cases hf : t.failed <;> simp [Th.isIn, hf]
  have e5 : Th.isL t = 0 := by simp [Th.isL, hpc, SPc.isLast]
  have e6 : Th.isL { t with pc := SPc.setAt } = 1 := by simp [Th.isL, SPc.isLast]
  have hnum' : st'.NumSenders = st.NumSenders - (if t.failed = true then 1 else 0) := by
    rw [hnum]
    cases hM : t.isMain
    · have := (hsend hM).2
      by_cases hf : t.failed = true
      · rw [if_pos (this.2 hf), if_pos hf]
      · rw [if_neg (fun hc => hf (this.1 hc)), if_neg hf]; omega
    · have := hmain hM
      rw [if_neg this.2.2.2, if_neg (by simp [this.1])]; omega
  have hcLold := h.cntL
  rw [if_pos hst] at hcLold
  have hnewL : cnt Th.isL st'.threads = 1 := by rw [hth]; omega
  have hnewA : cnt Th.isA st'.threads = 0 := by rw [hth]; omega
  have hself : { t with pc := SPc.setAt } ∈ st'.threads := by
    rw [hth]; exact mem_set_self _ _ _ _ hget
  have hbufmain : t.isMain = true →
      st'.buf = (pairAt ps st'.rounds).1 ∧ st'.size = (pairAt ps st'.rounds).2 := by
    intro hM
    obtain ⟨_, ha, hb, _⟩ := hmain hM
    rw [hbuf, hsize, if_pos hb, if_pos hb, ha, hr]
    exact ⟨rfl, rfl⟩
  have hbufsend : t.isMain = false → st'.buf = st.buf ∧ st'.size = st.size := by
    intro hM
    have := (hsend hM).1
    rw [hbuf, hsize, if_neg (by simp [this]), if_neg (by simp [this])]
    exact ⟨rfl, rfl⟩
  constructor
  · rw [hr]; exact h.rounds_le
  · rw [hsg]; omega
  · rw [hlk, hsg]; simp
  · rw [hsg]; simpa using hnewL
  · intro h1; rw [hsg] at h1; omega
  · intro _
    rw [hr, hact, hnum']
    refine ⟨hR, hnewA, ?_, ?_⟩
    · rw [hth]; split_ifs at e4 ⊢ <;> omega
    · rw [hth]; split_ifs at e4 ⊢ <;> omega
  · intro h1; rw [hr] at h1; omega
  · intro h1; rw [hsg] at h1; omega
  · intro _
    cases hM : t.isMain
    · -- a sender is the last: `outputThread` is waiting
      obtain ⟨m, hm1, hm2⟩ := h.has_main
      have hi : i ≠ 0 := by
        intro hi
        subst hi
        rw [hm1] at hget
        injection hget with hget
        subst hget
        rw [hm2] at hM
        exact absurd hM (by simp)
      have hmnew : m ∈ st'.threads := by
        rw [hth]
        exact mem_of_get _ 0 _ (by rw [List.getElem?_set_ne hi]; exact hm1)
      have hmold := mem_of_get _ _ _ hm1
      have hmA := cnt_zero _ _ hnewA m hmnew
      have hmL := cnt_zero _ _ hcLold m hmold
      have hokm := h.threads_ok m hmold
      have hmf := main_not_failed ps st m hokm hm2
      have hw : m.pc = SPc.waiting := by
        rcases pc_of_notA m hmA hmL with h4 | h4 | ⟨h4, _⟩
        · exact h4
        · have := hokm.finished h4 hmf
          simp only [hm2, if_true] at this
          omega
        · rw [hmf] at h4
          exact absurd h4 (by simp)
      obtain ⟨hb1, hb2⟩ := hbufsend hM
      rw [hb1, hb2, hr]
      exact hokm.main_waiting hm2 hw hst
    · exact hbufmain hM
  · intro h1; rw [hsg] at h1; omega
  · intro h1; rw [hsg] at h1; omega
  · rw [hsk, hr, hsg]
    have := h.skipped_eq
    rw [hst] at this
    simpa using this
  · rw [hpo, hr, hsg]
    have := h.posts_eq
    rw [hst] at this
    simpa using this
  · rw [hth]; exact main_set _ _ _ _ hget rfl h.has_main
  · intro t2 ht2
    by_cases heq : t2 = { t with pc := SPc.setAt }
    · subst heq
      refine ⟨?_, ?_, ho3, ho4, ?_, ?_, ?_, ?_, ?_, ?_, ?_⟩
      all_goals first
        | (intro hx; simp [SPc.isLast, SPc.early] at hx; done)
        | (intro hx hy; simp [SPc.isLast, SPc.early] at hy; done)
        | skip
      · intro _; rw [hsg]; rfl
      · intro _; exact ho2 (by simp [hpc])
      · intro hf; exact ⟨by simp, (ho5 hf).2⟩
      · intro _ hf
        rw [hr]
        exact ho7 (by simp [hpc, SPc.early]) hf
    · have h2L := cnt_unique Th.isL _ t2 _ hnewL hself e6 ht2 heq
      have hold : t2 ∈ st.threads := by
        rw [hth] at ht2
        rcases List.mem_or_eq_of_mem_set ht2 with h3 | h3
        · exact h3
        · exact absurd h3 heq
      have hok2 := h.threads_ok t2 hold
      apply thOK_frame ps st st' t2 hok2 hr
      · intro hx
        simp [Th.isL, hx] at h2L
      · intro _; exact hat
      · intro _ _ hx
        rw [hsg] at hx
        omega

theorem wake_of_waiting (t : Th) (h : t.pc = SPc.waiting) :
    wake t = { t with pc := SPc.woken } := by
  simp [wake, h]

theorem wake_of_not_waiting (t : Th) (h : t.pc ≠ SPc.waiting) : wake t = t := by
  simp [wake, h]

theorem wake_isMain (t : Th) : (wake t).isMain = t.isMain := by
  unfold wake
  split_ifs <;> rfl

/-- The invariant of a thread that has arrived, after the broadcast. -/
theorem thOK_wake (ps : List (Nat × Int)) (st st' : FanSt) (t : Th) (hok : ThOK ps st t)
    (hA : t.isA = 0) (hL : t.isL = 0) (hR : st.rounds ≤ ps.length)
    (hr : st'.rounds = st.rounds + 1) : ThOK ps st' (wake t) := by
  obtain ⟨ho1, ho2, ho3, ho4, ho5, ho6, ho7, ho8, ho9, ho10, ho11⟩ := hok
  rcases pc_of_notA t hA hL with hpc | hpc | ⟨hF, hpc⟩
  · rw [wake_of_waiting t hpc]
    refine ⟨?_, ?_, ho3, ho4, ?_, ?_, ?_, ?_, ?_, ?_, ?_⟩
    all_goals first
      | (intro hx; simp [SPc.isLast, SPc.early] at hx; done)
      | (intro hx hy; simp [SPc.isLast, SPc.early] at hy; done)
      | skip
    · intro _; exact ho2 (by simp [hpc])
    · intro hf; exact ⟨by simp, (ho5 hf).2⟩
    · intro _ hf
      have := ho7 (by simp [hpc, SPc.early]) hf
      rw [hr]
      exact ⟨by omega, this⟩
  · rw [wake_of_not_waiting t (by simp [hpc])]
    refine ⟨?_, ho2, ho3, ho4, ho5, ho6, ?_, ?_, ?_, ?_, ?_⟩
    all_goals first
      | (intro hx; simp [hpc, SPc.isLast, SPc.early] at hx; done)
      | (intro hx hy; simp [hpc, SPc.isLast, SPc.early] at hy; done)
      | skip
    · intro _ hf
      have := ho10 hpc hf
      cases hM : t.isMain
      · simpa [hM] using this
      · simp only [hM, if_true] at this
        omega
  · have hnw : t.pc ≠ SPc.waiting := by
      rcases hpc with h1 | h1 | h1 <;> simp [h1]
    rw [wake_of_not_waiting t hnw]
    have hnwr := (ho5 hF).1
    refine ⟨?_, ho2, ho3, ho4, ho5, ho6, ?_, ?_, ?_, ?_, ?_⟩
    · intro hx
      rcases hpc with h1 | h1 | h1 <;> simp [h1, SPc.isLast] at hx
    · intro _ hf; rw [hF] at hf; exact absurd hf (by simp)
    · intro _ hf; rw [hF] at hf; exact absurd hf (by simp)
    · intro hx; exact absurd hx hnwr
    · intro _ hf; rw [hF] at hf; exact absurd hf (by simp)
    · intro _ hx; exact absurd hx hnw

theorem wake_counts (t : Th) (hL : t.isL = 0) (hA : t.isA = 0 ∨ t.pc = SPc.back) :
    (wake t).isA = t.isIn ∧ (wake t).isIn = t.isIn ∧ (wake t).isL = 0 := by
  rcases hA with hA | hA
  · rcases pc_of_notA t hA hL with hpc | hpc | ⟨hF, hpc⟩
    · rw [wake_of_waiting t hpc]
      cases hf : t.failed <;> simp [Th.isA, Th.isIn, Th.isL, hpc, hf, SPc.isLast]
    · rw [wake_of_not_waiting t (by simp [hpc])]
      simp [Th.isA, Th.isIn, Th.isL, hpc, SPc.isLast]
    · have hnw : t.pc ≠ SPc.waiting := by
        rcases hpc with h1 | h1 | h1 <;> simp [h1]
      rw [wake_of_not_waiting t hnw]
      rcases hpc with h1 | h1 | h1 <;> simp [Th.isA, Th.isIn, Th.isL, h1, hF, SPc.isLast]
  · rw [wake_of_not_waiting t (by simp [hA])]
    cases hf : t.failed <;> simp [Th.isA, Th.isIn, Th.isL, hA, hf, SPc.isLast]

theorem wake_pc (ps : List (Nat × Int)) (st : FanSt) (t : Th) (hok : ThOK ps st t)
    (hL : t.isL = 0) (hA : t.isA = 0 ∨ t.pc = SPc.back) :
    (wake t).pc = SPc.woken ∨ (wake t).pc = SPc.back ∨ (wake t).pc = SPc.done := by
  rcases hA with hA | hA
  · rcases pc_of_notA t hA hL with hpc | hpc | ⟨hF, hpc⟩
    · rw [wake_of_waiting t hpc]; simp
    · rw [wake_of_not_waiting t (by simp [hpc])]; simp [hpc]
    · have hnwr := (hok.failed_pc hF).1
      have hnw : t.pc ≠ SPc.waiting := by
        rcases hpc with h1 | h1 | h1 <;> simp [h1]
      rw [wake_of_not_waiting t hnw]
      rcases hpc with h1 | h1 | h1
      · exact Or.inl h1
      · exact Or.inr (Or.inl h1)
      · exact absurd h1 hnwr
  · rw [wake_of_not_waiting t (by simp [hA])]
    exact Or.inr (Or.inl hA)

/-- The thread that arrived last broadcasts the condition. -/
theorem fanInv_bcast (ps : List (Nat × Int)) (st st' : FanSt) (i : Nat) (t : Th)
    (h : FanInv ps st) (hget : st.threads[i]? = some t) (hpc : t.pc = SPc.bcast)
    (hth : st'.threads = (st.threads.map wake).set i { t with pc := SPc.back })
    (hbuf : st'.buf = st.buf) (hsize : st'.size = st.size)
    (hnum : st'.NumSenders = st.NumSenders) (hact : st'.ActSenders = st.ActSenders)
    (hsk : st'.skipped = st.skipped) (hat : st'.SendAt = st.SendAt)
    (hss : st'.SendSize = st.SendSize) (hlk : st'.lock = st.lock) (hpo : st'.posts = st.posts)
    (hr : st'.rounds = st.rounds + 1) (hsg : st'.stage = 0) :
    FanInv ps st' := by
  have hmem := mem_of_get _ _ _ hget
  have hokt := h.threads_ok t hmem
  obtain ⟨ho1, ho2, ho3, ho4, ho5, ho6, ho7, ho8, ho9, ho10, ho11⟩ := hokt
  have hst : st.stage = 4 := by
    rw [ho1 (by simp [hpc, SPc.isLast]), hpc]; rfl
  obtain ⟨hc1, hc2, hc3, hc4⟩ := h.last_counts (by omega)
  have hcLold := h.cntL
  rw [if_neg (by omega)] at hcLold
  -- the list of threads before the others are woken
  have hwt : wake { t with pc := SPc.back } = { t with pc := SPc.back } :=
    wake_of_not_waiting _ (by simp)
  have hth' : st'.threads = (st.threads.set i { t with pc := SPc.back }).map wake := by
    rw [hth, List.map_set, hwt]
  have hsA := cnt_set Th.isA { t with pc := SPc.back } t _ _ hget
  have hsI := cnt_set Th.isIn { t with pc := SPc.back } t _ _ hget
  have hsL := cnt_set Th.isL { t with pc := SPc.back } t _ _ hget
  have e1 : Th.isL t = 1 := by simp [Th.isL, hpc, SPc.isLast]
  have e2 : Th.isL { t with pc := SPc.back } = 0 := by simp [Th.isL, SPc.isLast]
  have e3 : Th.isIn { t with pc := SPc.back } = Th.isIn t := by
    simp [Th.isIn, hpc]
  have hL1 : cnt Th.isL (st.threads.set i { t with pc := SPc.back }) = 0 := by omega
  have hmemb : ∀ t2 ∈ st.threads.set i { t with pc := SPc.back },
      t2.isL = 0 ∧ (t2 = { t with pc := SPc.back } ∨ (t2 ∈ st.threads ∧ t2.isA = 0)) := by
    intro t2 ht2
    have h2L := cnt_zero _ _ hL1 t2 ht2
    rcases List.mem_or_eq_of_mem_set ht2 with h3 | h3
    · exact ⟨h2L, Or.inr ⟨h3, cnt_zero _ _ hc2 t2 h3⟩⟩
    · exact ⟨h2L, Or.inl h3⟩
  have hcnt : ∀ t2 ∈ st.threads.set i { t with pc := SPc.back },
      (wake t2).isA = t2.isIn ∧ (wake t2).isIn = t2.isIn ∧ (wake t2).isL = 0 := by
    intro t2 ht2
    obtain ⟨h2L, h2⟩ := hmemb t2 ht2
    rcases h2 with h2 | ⟨_, h2⟩
    · exact wake_counts t2 h2L (Or.inr (by rw [h2]))
    · exact wake_counts t2 h2L (Or.inl h2)
  have hnewA : cnt Th.isA st'.threads = cnt Th.isIn st.threads := by
    rw [hth', cnt_map_congr Th.isA Th.isIn wake _ (fun t2 ht2 => (hcnt t2 ht2).1)]
    omega
  have hnewI : cnt Th.isIn st'.threads = cnt Th.isIn st.threads := by
    rw [hth', cnt_map_congr Th.isIn Th.isIn wake _ (fun t2 ht2 => (hcnt t2 ht2).2.1)]
    omega
  have hnewL : cnt Th.isL st'.threads = 0 := by
    rw [hth', cnt_map_congr Th.isL (fun _ => 0) wake _ (fun t2 ht2 => (hcnt t2 ht2).2.2)]
    simp [cnt]
  have hmain1 : 1 ≤ cnt Th.isIn st.threads := by
    obtain ⟨m, hm1, hm2⟩ := main_mem ps st h
    have hokm := h.threads_ok m hm1
    have hmf := main_not_failed ps st m hokm hm2
    have hnd : m.pc ≠ SPc.done := by
      intro hd
      have := hokm.finished hd hmf
      simp only [hm2, if_true] at this
      omega
    have : Th.isIn m = 1 := by simp [Th.isIn, hmf, hnd]
    have := cnt_le_of_mem Th.isIn _ m hm1
    omega
  have hlockold : st.lock = false := by
    by_contra hne
    have := h.lock_eq.1 (by simpa using hne)
    omega
  constructor
  · rw [hr]; omega
  · rw [hsg]; omega
  · rw [hlk, hlockold, hsg]; simp
  · rw [hsg, if_pos rfl]; exact hnewL
  · intro _ _
    rw [hact, hnum, hnewA, hnewI]
    exact ⟨hc3, hc4, by omega⟩
  · intro h1; exact absurd hsg h1
  · intro _
    refine ⟨hsg, ?_⟩
    intro t2' ht2'
    rw [hth'] at ht2'
    obtain ⟨t2, ht2, rfl⟩ := List.mem_map.1 ht2'
    obtain ⟨h2L, h2⟩ := hmemb t2 ht2
    rcases h2 with h2 | ⟨h3, h2⟩
    · rw [h2, hwt]; simp
    · exact wake_pc ps st t2 (h.threads_ok t2 h3) h2L (Or.inl h2)
  · intro _ _
    rw [hat, hss, hr]
    exact h.statics3 (by omega)
  · intro h1; rw [hsg] at h1; omega
  · intro h1; rw [hsg] at h1; omega
  · intro h1; rw [hsg] at h1; omega
  · rw [hsk, hr, hsg]
    have := h.skipped_eq
    rw [hst] at this
    simpa using this
  · rw [hpo, hr, hsg]
    have := h.posts_eq
    rw [hst] at this
    simpa using this
  · obtain ⟨m, hm1, hm2⟩ := main_set _ i t { t with pc := SPc.back } hget rfl h.has_main
    refine ⟨wake m, ?_, by rw [wake_isMain, hm2]⟩
    rw [hth', List.getElem?_map, hm1]
    rfl
  · intro t2' ht2'
    rw [hth'] at ht2'
    obtain ⟨t2, ht2, rfl⟩ := List.mem_map.1 ht2'
    obtain ⟨h2L, h2⟩ := hmemb t2 ht2
    rcases h2 with h2 | ⟨h3, h2⟩
    · rw [h2, hwt]
      refine ⟨?_, ?_, ho3, ho4, ?_, ?_, ?_, ?_, ?_, ?_, ?_⟩
      all_goals first
        | (intro hx; simp [SPc.isLast, SPc.early] at hx; done)
        | (intro hx hy; simp [SPc.isLast, SPc.early] at hy; done)
        | skip
      · intro _; exact ho2 (by simp [hpc])
      · intro hf; exact ⟨by simp, (ho5 hf).2⟩
      · intro _ hf
        have := ho7 (by simp [hpc, SPc.early]) hf
        rw [hr]
        exact ⟨by omega, this⟩
    · exact thOK_wake ps st st' t2 (h.threads_ok t2 h3) h2 h2L hc1 hr

/-- A step does not change what the system allows. -/
theorem fanStep_spurious (st : FanSt) (e : FanEv) :
    (fanStep st e).spurious = st.spurious := by
  unfold fanStep
  by_cases ha : st.aborted = true
  · rw [if_pos ha]
  · rw [if_neg ha]
    cases hget : st.threads[e.thread]? with
    | none => rfl
    | some t =>
      simp only
      cases hpc : t.pc <;> simp only [syncSenders] <;> (try split_ifs) <;> rfl

/-- The assertion of `syncSenders` holds in a step from a state in which the
static `buf` is set when a thread is about to publish it. -/
theorem fanStep_aborted (st : FanSt) (e : FanEv) (ha : st.aborted = false)
    (hb : ∀ t, st.threads[e.thread]? = some t → t.pc = SPc.setAt → st.buf ≠ 0) :
    (fanStep st e).aborted = false := by
  unfold fanStep
  rw [if_neg (by simp [ha])]
  cases hget : st.threads[e.thread]? with
  | none => exact ha
  | some t =>
    simp only
    cases hpc : t.pc <;> simp only [syncSenders] <;> (try split_ifs) <;>
      first
        | exact ha
        | exact absurd (by assumption) (hb t hget hpc)

/-- Every step of every thread keeps the invariant. -/
theorem fanInv_step_inv (ps : List (Nat × Int)) (hps : ∀ p ∈ ps, p.1 ≠ 0 ∧ 0 < p.2)
    (st : FanSt) (e : FanEv) (h : FanInv ps st) (hq : st.quiet) :
    FanInv ps (fanStep st e) := by
  unfold fanStep
  rw [if_neg (by simp [hq.2])]
  cases hget : st.threads[e.thread]? with
  | none => exact h
  | some t =>
    simp only
    cases hpc : t.pc <;> simp only
    · -- call
      by_cases hlock : st.lock = true
      · simp only [syncSenders, if_pos hlock]
        exact fanInv_stutter ps st _ t _ h hget hpc
      · by_cases hact : st.ActSenders - 1 ≠ 0
        · simp only [syncSenders, if_neg hlock, if_pos hact]
          exact fanInv_arrive_wait ps hps st _ _ t h hget hpc hact rfl rfl rfl rfl rfl rfl rfl
            rfl rfl rfl rfl rfl
        · simp only [syncSenders, if_neg hlock, if_neg hact]
          exact fanInv_arrive_last ps hps st _ _ t h hget hpc (by simpa using hact) rfl rfl rfl
            rfl rfl rfl rfl rfl rfl rfl rfl rfl
    · -- setAt
      have hst := (h.threads_ok t (mem_of_get _ _ _ hget)).stage_pc (by simp [hpc, SPc.isLast])
      rw [hpc] at hst
      simp only [SPc.stageOf] at hst
      have hl := h.statics1 hst
      have hbuf : st.buf ≠ 0 := by rw [hl.1]; exact (pairAt_ptr ps hps st.rounds).1
      simp only [syncSenders, if_neg hbuf]
      refine fanInv_last ps st _ _ t SPc.setSize h hget (by simp [hpc, SPc.isLast]) rfl rfl rfl
        rfl rfl rfl ?_ ?_ ?_ ?_ ?_ ?_
      · have := h.lock_eq
        rw [hst] at this
        simpa using this
      · intro hx; simp at hx
      · intro _; exact ⟨hl.1, hl.2⟩
      · intro hx; simp at hx
      · have := h.skipped_eq
        rw [hst] at this
        simpa using this
      · have := h.posts_eq
        rw [hst] at this
        simpa using this
    · -- setSize
      have hst := (h.threads_ok t (mem_of_get _ _ _ hget)).stage_pc (by simp [hpc, SPc.isLast])
      rw [hpc] at hst
      simp only [SPc.stageOf] at hst
      have hl := h.statics2 hst
      simp only [syncSenders]
      refine fanInv_last ps st _ _ t SPc.post h hget (by simp [hpc, SPc.isLast]) rfl rfl rfl
        rfl rfl rfl ?_ ?_ ?_ ?_ ?_ ?_
      · have := h.lock_eq
        rw [hst] at this
        simpa using this
      · intro hx; simp at hx
      · intro hx; simp at hx
      · intro _; exact ⟨hl.1, hl.2⟩
      · have := h.skipped_eq
        rw [hst] at this
        simpa using this
      · have := h.posts_eq
        rw [hst] at this
        simpa using this
    · -- post
      have hst := (h.threads_ok t (mem_of_get _ _ _ hget)).stage_pc (by simp [hpc, SPc.isLast])
      rw [hpc] at hst
      simp only [SPc.stageOf] at hst
      have hl := h.statics3 (by omega)
      have hsk := h.skipped_eq
      have hpo := h.posts_eq
      rw [hst] at hsk hpo
      simp only [syncSenders]
      refine fanInv_last ps st _ _ t SPc.bcast h hget (by simp [hpc, SPc.isLast]) rfl rfl rfl
        rfl rfl rfl ?_ ?_ ?_ ?_ ?_ ?_
      · simp
      · intro hx; simp at hx
      · intro hx; simp at hx
      · intro _; exact ⟨hl.1, hl.2⟩
      · simp
      · simp only [if_true]
        by_cases h0 : 1 ≤ st.rounds
        · have : st.skipped = true := by rw [hsk]; simpa using h0
          rw [if_pos this, hpo]
          simp
          omega
        · have : st.skipped = false := by rw [hsk]; simpa using h0
          rw [this, hpo]
          simp
          omega
    · -- bcast
      simp only [syncSenders]
      exact fanInv_bcast ps st _ _ t h hget hpc rfl rfl rfl rfl rfl rfl rfl rfl rfl rfl rfl rfl
    · -- waiting
      simp only [syncSenders]
      rw [if_neg (by simp [hq.1])]
      exact fanInv_stutter ps st _ t _ h hget hpc
    · -- woken
      by_cases hlock : st.lock = true
      · simp only [syncSenders, if_pos hlock]
        exact fanInv_stutter ps st _ t _ h hget hpc
      · simp only [syncSenders, if_neg hlock]
        exact fanInv_woken ps st _ t h hget hpc
    · exact fanInv_back ps hps st _ _ t h hget hpc
    · exact fanInv_write ps st _ _ t h hget hpc
    · exact h

/-- A step from a state that satisfies the invariant on a system without
spurious wakeups. -/
theorem fanInv_step (ps : List (Nat × Int)) (hps : ∀ p ∈ ps, p.1 ≠ 0 ∧ 0 < p.2)
    (st : FanSt) (e : FanEv) (h : FanInv ps st) (hq : st.quiet) :
    FanInv ps (fanStep st e) ∧ (fanStep st e).quiet := by
  refine ⟨fanInv_step_inv ps hps st e h hq, ?_, ?_⟩
  · rw [fanStep_spurious]; exact hq.1
  · apply fanStep_aborted st e hq.2
    intro t hget hpc
    have hst := (h.threads_ok t (mem_of_get _ _ _ hget)).stage_pc (by simp [hpc, SPc.isLast])
    rw [hpc] at hst
    simp only [SPc.stageOf] at hst
    rw [(h.statics1 hst).1]
    exact (pairAt_ptr ps hps st.rounds).1

theorem fanInv_run (ps : List (Nat × Int)) (hps : ∀ p ∈ ps, p.1 ≠ 0 ∧ 0 < p.2)
    (es : List FanEv) : ∀ st, FanInv ps st → st.quiet →
      FanInv ps (fanRun st es) ∧ (fanRun st es).quiet := by
  induction es with
  | nil => intro st h hq; exact ⟨h, hq⟩
  | cons e es ih =>
    intro st h hq
    exact ih _ (fanInv_step ps hps st e h hq).1 (fanInv_step ps hps st e h hq).2

theorem cnt_replicate (f : Th → Nat) (x : Th) (K : Nat) :
    cnt f (List.replicate K x) = K * f x := by
  induction K with
  | zero => simp [cnt]
  | succ K ih =>
    simp only [cnt, List.replicate_succ, List.map_cons, List.sum_cons] at ih ⊢
    rw [ih]
    ring

theorem fanInv_init (ps : List (Nat × Int)) (K : Nat) : FanInv ps (fanInit K ps) := by
  constructor
  · simp [fanInit]
  · simp [fanInit]
  · simp [fanInit]
  · simp [fanInit, cnt, Th.isL, SPc.isLast]
  · intro _ _
    have hA := cnt_replicate Th.isA { isMain := false } K
    have hI := cnt_replicate Th.isIn { isMain := false } K
    have e1 : Th.isA { isMain := false } = 1 := by simp [Th.isA]
    have e2 : Th.isIn { isMain := false } = 1 := by simp [Th.isIn]
    rw [e1] at hA
    rw [e2] at hI
    simp only [cnt] at hA hI
    simp only [fanInit, cnt, List.map_cons, List.sum_cons, hA, hI]
    simp [Th.isA, Th.isIn]
    omega
  · intro h1; simp [fanInit] at h1
  · intro h1; simp [fanInit] at h1
  · intro _ h1; simp [fanInit] at h1
  · intro h1; simp [fanInit] at h1
  · intro h1; simp [fanInit] at h1
  · intro h1; simp [fanInit] at h1
  · simp [fanInit]
  · simp [fanInit]
  · exact ⟨{ isMain := true, todo := ps }, by simp [fanInit], rfl⟩
  · intro t ht
    simp only [fanInit, List.mem_cons, List.mem_replicate] at ht
    rcases ht with ht | ⟨_, ht⟩
    · subst ht
      constructor <;> simp [SPc.isLast, SPc.early, fanInit]
    · subst ht
      constructor <;> simp [SPc.isLast, SPc.early, fanInit]

/-! ## The barrier of the senders: progress -/

theorem toULL_natCast (v : Nat) (h : v < 2 ^ 64) : toULL (v : ℚ) = some v := by
  unfold toULL
  have h1 : (0 : ℚ) ≤ (v : ℚ) := Nat.cast_nonneg v
  have h2 : (v : ℚ) < 2 ^ 64 := by exact_mod_cast h
  rw [if_pos ⟨h1, h2⟩, Nat.floor_natCast]

theorem toULL_small (d : ℚ) (h0 : 0 < d) (h : d < 90) : toULL d = some ⌊d⌋₊ := by
  unfold toULL
  have h2 : d < 2 ^ 64 := lt_trans h (by norm_num)
  rw [if_pos ⟨le_of_lt h0, h2⟩]

theorem calcint_percent (v : ℚ) (dflt : Nat) :
    calcint (Scanned.numch v '%') dflt =
      if v ≤ 0 then CalcRes.rejected "invalid argument - must be > 0"
      else if v ≥ 90 then CalcRes.rejected "invalid value for percentage (must be 0..90)"
      else CalcRes.ret ⌊v⌋₊ := by
  unfold calcint
  by_cases h0 : v ≤ 0
  · simp only [if_pos h0]
  · simp only [if_neg h0]
    by_cases h90 : v ≥ 90
    · simp [h90]
    · have h1 : 0 < v := not_le.mp h0
      have h2 : v < 90 := not_le.mp h90
      simp [h90, h0, CalcRes.ofDouble, toULL_small v h1 h2]

theorem calcval_percent (v : ℚ) :
    calcval (Scanned.numch v '%') =
      if v ≤ 0 then CalcRes.rejected "negative value out of range"
      else if v ≥ 90 then CalcRes.rejected "invalid value for percentage (must be 0..90)"
      else CalcRes.ret ⌊v⌋₊ := by
  unfold calcval
  by_cases h0 : v ≤ 0
  · simp only [if_pos h0]
  · simp only [if_neg h0]
    by_cases h90 : v ≥ 90
    · simp [h90]
    · have h1 : 0 < v := not_le.mp h0
      have h2 : v < 90 := not_le.mp h90
      simp [h90, h0, CalcRes.ofDouble, toULL_small v h1 h2]

/-- C11, counterexample: exactly 90% is rejected by both size parsers, with
the message of the percentage check. -/
theorem percent_ninety_rejected :
    calcint (Scanned.numch 90 '%') 0 =
      CalcRes.rejected "invalid value for percentage (must be 0..90)" ∧
    calcval (Scanned.numch 90 '%') =
      CalcRes.rejected "invalid value for percentage (must be 0..90)" := by
  rw [calcint_percent, calcval_percent]
  norm_num

/-- C11, amended: for every number `v` with the suffix `%`, calcint and
calcval accept the value if and only if `0 < v < 90`, and then return `v`
truncated; from 90% on, 90% included, the value is rejected with `invalid
value for percentage (must be 0..90)`. -/
theorem percent_bounds (v : ℚ) (dflt : Nat) :
    ((∃ n, calcint (Scanned.numch v '%') dflt = CalcRes.ret n) ↔ 0 < v ∧ v < 90) ∧
    ((∃ n, calcval (Scanned.numch v '%') = CalcRes.ret n) ↔ 0 < v ∧ v < 90) ∧
    (calcint (Scanned.numch v '%') dflt =
      if v ≤ 0 then CalcRes.rejected "invalid argument - must be > 0"
      else if v ≥ 90 then CalcRes.rejected "invalid value for percentage (must be 0..90)"
      else CalcRes.ret ⌊v⌋₊) ∧
    (calcval (Scanned.numch v '%') =
      if v ≤ 0 then CalcRes.rejected "negative value out of range"
      else if v ≥ 90 then CalcRes.rejected "invalid value for percentage (must be 0..90)"
      else CalcRes.ret ⌊v⌋₊) := by
  refine ⟨?_, ?_, calcint_percent v dflt, calcval_percent v⟩
  · rw [calcint_percent]
    by_cases h0 : v ≤ 0
    · simp only [if_pos h0]
      constructor
      · rintro ⟨n, hn⟩; cases hn
      · rintro ⟨h1, _⟩; exact absurd h1 (not_lt.mpr h0)
    · simp only [if_neg h0]
      by_cases h90 : v ≥ 90
      · simp only [if_pos h90]
        constructor
        · rintro ⟨n, hn⟩; cases hn
        · rintro ⟨_, h2⟩; exact absurd h2 (not_lt.mpr h90)
      · simp only [if_neg h90]
        exact ⟨fun _ => ⟨not_le.mp h0, not_le.mp h90⟩, fun _ => ⟨_, rfl⟩⟩
  · rw [calcval_percent]
    by_cases h0 : v ≤ 0
    · simp only [if_pos h0]
      constructor
      · rintro ⟨n, hn⟩; cases hn
      · rintro ⟨h1, _⟩; exact absurd h1 (not_lt.mpr h0)
    · simp only [if_neg h0]
      by_cases h90 : v ≥ 90
      · simp only [if_pos h90]
        constructor
        · rintro ⟨n, hn⟩; cases hn
        · rintro ⟨_, h2⟩; exact absurd h2 (not_lt.mpr h90)
      · simp only [if_neg h90]
        exact ⟨fun _ => ⟨not_le.mp h0, not_le.mp h90⟩, fun _ => ⟨_, rfl⟩⟩

/-- C12, counterexample: the plain number 100 is rejected by calcint, the
parser of the command line. -/
theorem plain_number_low :
    calcint (Scanned.num 100) 0 =
      CalcRes.rejected "invalid low value for option - missing suffix?" := by
  unfold calcint
  norm_num

/-- C12, amended: for every positive integer `v` (below `2^53`, where a
double holds it exactly) written without a suffix, calcval returns `v` as a
byte count; calcint returns `v` only if `v > 100` and rejects `1 ≤ v ≤ 100`
with `invalid low value for option - missing suffix?`. -/
theorem plain_number (v dflt : Nat) (h0 : 0 < v) (h : v < 2 ^ 53) :
    calcval (Scanned.num (v : ℚ)) = CalcRes.ret v ∧
    calcint (Scanned.num (v : ℚ)) dflt =
      if v ≤ 100 then CalcRes.rejected "invalid low value for option - missing suffix?"
      else CalcRes.ret v := by
  have h64 : v < 2 ^ 64 := lt_trans h (by norm_num)
  have hpos : ¬ ((v : ℚ) ≤ 0) := by
    have : (0 : ℚ) < (v : ℚ) := by exact_mod_cast h0
    exact not_le.mpr this
  constructor
  · unfold calcval
    simp only [if_neg hpos, CalcRes.ofDouble, toULL_natCast v h64]
  · unfold calcint
    simp only [if_neg hpos]
    by_cases h100 : v ≤ 100
    · have : (v : ℚ) ≤ 100 := by exact_mod_cast h100
      rw [if_pos this, if_pos h100]
    · have : ¬ ((v : ℚ) ≤ 100) := by
        intro hc
        exact h100 (by exact_mod_cast hc)
      rw [if_neg this, if_neg h100]
      simp only [CalcRes.ofDouble, toULL_natCast v h64]

theorem plain_number_witness :
    (0 < 4096 ∧ 4096 < 2 ^ 53) ∧
    calcval (Scanned.num ((4096 : Nat) : ℚ)) = CalcRes.ret 4096 ∧
    calcint (Scanned.num ((4096 : Nat) : ℚ)) 0 =
      if 4096 ≤ 100 then CalcRes.rejected "invalid low value for option - missing suffix?"
      else CalcRes.ret 4096 :=
  ⟨by decide, plain_number 4096 0 (by decide) (by decide)⟩

/-! ## Watermarks -/

theorem checkBufferSizing_watermarks (s s1 : Settings) (h : checkBufferSizing s = Except.ok s1) :
    s1.StartRead = s.StartRead ∧ s1.StartWrite = s.StartWrite := by
  unfold checkBufferSizing at h
  repeat' split at h
  all_goals first
    | (cases h; exact ⟨rfl, rfl⟩)
    | cases h

/-- C13, counterexample: with the low watermark at 1% and the high watermark
at 99% (`-s 1000 -m 10000 -p 1 -P 99`) startup validation ends the program. -/
theorem both_watermarks_rejected :
    checkOptions bothWatermarks =
      Except.error "setting both low watermark and high watermark doesn't make any sense..." := by
  decide!

/-- C13, amended: a configuration that sets both a low watermark below 100%
(`StartRead < 1`) and a high watermark above 0% (`StartWrite > 0`) never
passes startup validation, so at most one of the two gates is active in a
run. -/
theorem watermarks_exclusive (s s1 : Settings)
    (h : s.StartRead < 1 ∧ s.StartWrite > 0) : checkOptions s ≠ Except.ok s1 := by
  intro hok
  have hb := checkOptions_ok s s1 hok
  obtain ⟨hr, hw⟩ := checkBufferSizing_watermarks s s1 hb
  unfold checkOptions at hok
  split at hok
  · cases hok
  · rw [hb] at hok
    simp only at hok
    unfold checkRemaining at hok
    rw [if_pos ⟨by rw [hr]; exact h.1, by rw [hw]; exact h.2⟩] at hok
    cases hok

theorem watermarks_exclusive_witness :
    (bothWatermarks.StartRead < 1 ∧ bothWatermarks.StartWrite > 0) ∧
    checkOptions bothWatermarks ≠ Except.ok bothWatermarks :=
  ⟨by decide!, watermarks_exclusive bothWatermarks bothWatermarks (by decide!)⟩

theorem high_watermark_alone_passes :
    checkOptions highWatermark = Except.ok { highWatermark with Numblocks := 10 } := by
  decide!

theorem parseOption_P_ok (sc : Option Dbl) (s s1 : Settings)
    (h : parseOption_P sc s = Except.ok s1) :
    ((sc = some Dbl.nan ∧ s1.StartWrite = Dbl.nan) ∨ (0 < s1.StartWrite ∧ s1.StartWrite ≤ 1)) ∧
    s1.StartRead = s.StartRead := by
  unfold parseOption_P at h
  simp only at h
  split at h
  · cases h
  · rename_i hc
    cases h
    refine ⟨?_, rfl⟩
    rcases Dbl.pass_P _ hc with hn | hr
    · left
      rw [Dbl.hundred_eq, Dbl.div_num_eq_nan _ 100 (by norm_num)] at hn
      cases sc with
      | none => simp at hn
      | some d =>
        simp only at hn
        subst hn
        exact ⟨rfl, rfl⟩
    · exact Or.inr hr

theorem parseOption_p_ok (sc : Option Dbl) (s s1 : Settings)
    (h : parseOption_p sc s = Except.ok s1) :
    ((sc = some Dbl.nan ∧ s1.StartRead = Dbl.nan) ∨ (0 ≤ s1.StartRead ∧ s1.StartRead < 1)) ∧
    s1.StartWrite = s.StartWrite := by
  unfold parseOption_p at h
  simp only at h
  split at h
  · cases h
  · rename_i hc
    cases h
    refine ⟨?_, rfl⟩
    rcases Dbl.pass_p _ hc with hn | hr
    · left
      cases sc with
      | none => simp at hn
      | some d =>
        simp only at hn ⊢
        rw [Dbl.hundred_eq, Dbl.div_num_eq_nan _ 100 (by norm_num)] at hn
        subst hn
        exact ⟨rfl, rfl⟩
    · exact Or.inr hr

theorem readConfigFile_startread_range (sc : Option Dbl) (s : Settings) :
    (readConfigFile_startread sc s = s ∨
      (0 < (readConfigFile_startread sc s).StartRead ∧
       (readConfigFile_startread sc s).StartRead ≤ 1)) ∧
    (readConfigFile_startread sc s).StartWrite = s.StartWrite := by
  unfold readConfigFile_startread
  simp only
  split
  · rename_i hc
    exact ⟨Or.inr ⟨hc.2, hc.1⟩, rfl⟩
  · exact ⟨Or.inl rfl, rfl⟩

theorem readConfigFile_startwrite_range (sc : Option Dbl) (s : Settings) :
    (readConfigFile_startwrite sc s = s ∨
      (0 < (readConfigFile_startwrite sc s).StartWrite ∧
       (readConfigFile_startwrite sc s).StartWrite ≤ 1)) ∧
    (readConfigFile_startwrite sc s).StartRead = s.StartRead := by
  unfold readConfigFile_startwrite
  simp only
  split
  · rename_i hc
    exact ⟨Or.inr ⟨hc.2, hc.1⟩, rfl⟩
  · exact ⟨Or.inl rfl, rfl⟩

/-- One watermark item keeps each watermark in `[0, 1]` or NaN. -/
theorem applyWatermarkArg_range (s s1 : Settings) (a : WatermarkArg)
    (hs : (s.StartRead = Dbl.nan ∨ (0 ≤ s.StartRead ∧ s.StartRead ≤ 1)) ∧
      (s.StartWrite = Dbl.nan ∨ (0 ≤ s.StartWrite ∧ s.StartWrite ≤ 1)))
    (h : applyWatermarkArg s a = Except.ok s1) :
    (s1.StartRead = Dbl.nan ∨ (0 ≤ s1.StartRead ∧ s1.StartRead ≤ 1)) ∧
    (s1.StartWrite = Dbl.nan ∨ (0 ≤ s1.StartWrite ∧ s1.StartWrite ≤ 1)) := by
  obtain ⟨h1, h2⟩ := hs
  cases a with
  | optP sc =>
    obtain ⟨k1, k3⟩ := parseOption_P_ok sc s s1 h
    refine ⟨by rw [k3]; exact h1, ?_⟩
    rcases k1 with k1 | k1
    · exact Or.inl k1.2
    · exact Or.inr ⟨Dbl.le_from_lt _ _ k1.1, k1.2⟩
  | optp sc =>
    obtain ⟨k1, k3⟩ := parseOption_p_ok sc s s1 h
    refine ⟨?_, by rw [k3]; exact h2⟩
    rcases k1 with k1 | k1
    · exact Or.inl k1.2
    · exact Or.inr ⟨k1.1, Dbl.le_from_lt _ _ k1.2⟩
  | startread sc =>
    simp only [applyWatermarkArg] at h
    cases h
    obtain ⟨k1, k2⟩ := readConfigFile_startread_range sc s
    rcases k1 with k1 | k1
    · rw [k1]; exact ⟨h1, h2⟩
    · exact ⟨Or.inr ⟨Dbl.le_from_lt _ _ k1.1, k1.2⟩, by rw [k2]; exact h2⟩
  | startwrite sc =>
    simp only [applyWatermarkArg] at h
    cases h
    obtain ⟨k1, k2⟩ := readConfigFile_startwrite_range sc s
    rcases k1 with k1 | k1
    · rw [k1]; exact ⟨h1, h2⟩
    · exact ⟨by rw [k2]; exact h1, Or.inr ⟨Dbl.le_from_lt _ _ k1.1, k1.2⟩⟩

/-- One watermark item whose value is not NaN keeps the watermarks in
`[0, 1]`. -/
theorem applyWatermarkArg_number (s s1 : Settings) (a : WatermarkArg)
    (ha : a.value ≠ some Dbl.nan)
    (hs : 0 ≤ s.StartRead ∧ s.StartRead ≤ 1 ∧ 0 ≤ s.StartWrite ∧ s.StartWrite ≤ 1)
    (h : applyWatermarkArg s a = Except.ok s1) :
    0 ≤ s1.StartRead ∧ s1.StartRead ≤ 1 ∧ 0 ≤ s1.StartWrite ∧ s1.StartWrite ≤ 1 := by
  obtain ⟨h1, h2, h3, h4⟩ := hs
  cases a with
  | optP sc =>
    obtain ⟨k1, k3⟩ := parseOption_P_ok sc s s1 h
    rcases k1 with k1 | k1
    · exact absurd k1.1 ha
    · exact ⟨by rw [k3]; exact h1, by rw [k3]; exact h2, Dbl.le_from_lt _ _ k1.1, k1.2⟩
  | optp sc =>
    obtain ⟨k1, k3⟩ := parseOption_p_ok sc s s1 h
    rcases k1 with k1 | k1
    · exact absurd k1.1 ha
    · exact ⟨k1.1, Dbl.le_from_lt _ _ k1.2, by rw [k3]; exact h3, by rw [k3]; exact h4⟩
  | startread sc =>
    simp only [applyWatermarkArg] at h
    cases h
    obtain ⟨k1, k2⟩ := readConfigFile_startread_range sc s
    rcases k1 with k1 | k1
    · rw [k1]; exact ⟨h1, h2, h3, h4⟩
    · exact ⟨Dbl.le_from_lt _ _ k1.1, k1.2, by rw [k2]; exact h3, by rw [k2]; exact h4⟩
  | startwrite sc =>
    simp only [applyWatermarkArg] at h
    cases h
    obtain ⟨k1, k2⟩ := readConfigFile_startwrite_range sc s
    rcases k1 with k1 | k1
    · rw [k1]; exact ⟨h1, h2, h3, h4⟩
    · exact ⟨by rw [k2]; exact h1, by rw [k2]; exact h2, Dbl.le_from_lt _ _ k1.1, k1.2⟩

theorem applyWatermarkArgs_range (l : List WatermarkArg) :
    ∀ (s s1 : Settings),
      ((s.StartRead = Dbl.nan ∨ (0 ≤ s.StartRead ∧ s.StartRead ≤ 1)) ∧
        (s.StartWrite = Dbl.nan ∨ (0 ≤ s.StartWrite ∧ s.StartWrite ≤ 1))) →
      applyWatermarkArgs s l = Except.ok s1 →
      (s1.StartRead = Dbl.nan ∨ (0 ≤ s1.StartRead ∧ s1.StartRead ≤ 1)) ∧
      (s1.StartWrite = Dbl.nan ∨ (0 ≤ s1.StartWrite ∧ s1.StartWrite ≤ 1)) := by
  induction l with
  | nil =>
    intro s s1 hs h
    simp only [applyWatermarkArgs] at h
    cases h
    exact hs
  | cons a l ih =>
    intro s s1 hs h
    simp only [applyWatermarkArgs] at h
    cases ha : applyWatermarkArg s a with
    | error e => rw [ha] at h; cases h
    | ok s2 =>
      rw [ha] at h
      exact ih s2 s1 (applyWatermarkArg_range s s2 a hs ha) h

theorem applyWatermarkArgs_number (l : List WatermarkArg) :
    ∀ (s s1 : Settings), (∀ a ∈ l, a.value ≠ some Dbl.nan) →
      (0 ≤ s.StartRead ∧ s.StartRead ≤ 1 ∧ 0 ≤ s.StartWrite ∧ s.StartWrite ≤ 1) →
      applyWatermarkArgs s l = Except.ok s1 →
      0 ≤ s1.StartRead ∧ s1.StartRead ≤ 1 ∧ 0 ≤ s1.StartWrite ∧ s1.StartWrite ≤ 1 := by
  induction l with
  | nil =>
    intro s s1 _ hs h
    simp only [applyWatermarkArgs] at h
    cases h
    exact hs
  | cons a l ih =>
    intro s s1 hl hs h
    simp only [applyWatermarkArgs] at h
    cases ha : applyWatermarkArg s a with
    | error e => rw [ha] at h; cases h
    | ok s2 =>
      rw [ha] at h
      exact ih s2 s1 (fun b hb => hl b (List.mem_cons_of_mem _ hb))
        (applyWatermarkArg_number s s2 a (hl a (List.mem_cons_self _ _)) hs ha) h

/-- C14, counterexample: `-p 0` is accepted and leaves `StartRead = 0`, which
is not in `(0, 1]`; `-P 100` is accepted and leaves `StartWrite = 1`, which
is not in `[0, 1)`; `-p nan` and `-P nan` are accepted and leave NaN, which
is in no interval. -/
theorem watermark_bounds_reached :
    applyWatermarkArgs {} [WatermarkArg.optp (some 0)] = Except.ok { StartRead := 0 } ∧
    applyWatermarkArgs {} [WatermarkArg.optP (some 100)] = Except.ok { StartWrite := 1 } ∧
    applyWatermarkArgs {} [WatermarkArg.optp (some Dbl.nan)] =
      Except.ok { StartRead := Dbl.nan } ∧
    applyWatermarkArgs {} [WatermarkArg.optP (some Dbl.nan)] =
      Except.ok { StartWrite := Dbl.nan } ∧
    ¬ (0 ≤ Dbl.nan ∧ Dbl.nan ≤ 1) := by
  decide!

/-- C14, amended: after config-file loading and option parsing have accepted
their input, from the defaults `StartRead = 1`, `StartWrite = 0`: if no value
given to `-p`, `-P`, `startread` or `startwrite` is NaN, both watermarks lie
in the closed interval `[0, 1]`; in any case each watermark lies in `[0, 1]`
or is NaN. An accepted `-p` leaves `StartRead` in `[0, 1)`, or NaN if its
value is NaN; an accepted `-P` leaves `StartWrite` in `(0, 1]`, or NaN if its
value is NaN; the keys `startread` and `startwrite` store values in `(0, 1]`
and leave the watermark as it is otherwise. -/
theorem watermark_ranges (l : List WatermarkArg) (s1 : Settings)
    (h : applyWatermarkArgs {} l = Except.ok s1) :
    ((∀ a ∈ l, a.value ≠ some Dbl.nan) →
      0 ≤ s1.StartRead ∧ s1.StartRead ≤ 1 ∧ 0 ≤ s1.StartWrite ∧ s1.StartWrite ≤ 1) ∧
    (s1.StartRead = Dbl.nan ∨ (0 ≤ s1.StartRead ∧ s1.StartRead ≤ 1)) ∧
    (s1.StartWrite = Dbl.nan ∨ (0 ≤ s1.StartWrite ∧ s1.StartWrite ≤ 1)) ∧
    (∀ (sc : Option Dbl) (s2 : Settings), parseOption_p sc s1 = Except.ok s2 →
      (sc = some Dbl.nan ∧ s2.StartRead = Dbl.nan) ∨ (0 ≤ s2.StartRead ∧ s2.StartRead < 1)) ∧
    (∀ (sc : Option Dbl) (s2 : Settings), parseOption_P sc s1 = Except.ok s2 →
      (sc = some Dbl.nan ∧ s2.StartWrite = Dbl.nan) ∨
        (0 < s2.StartWrite ∧ s2.StartWrite ≤ 1)) ∧
    (∀ (sc : Option Dbl), readConfigFile_startread sc s1 = s1 ∨
      (0 < (readConfigFile_startread sc s1).StartRead ∧
        (readConfigFile_startread sc s1).StartRead ≤ 1)) ∧
    (∀ (sc : Option Dbl), readConfigFile_startwrite sc s1 = s1 ∨
      (0 < (readConfigFile_startwrite sc s1).StartWrite ∧
        (readConfigFile_startwrite sc s1).StartWrite ≤ 1)) := by
  have h0 : (0 : Dbl) ≤ 1 := by decide!
  have h1 : (1 : Dbl) ≤ 1 := by decide!
  have h2 : (0 : Dbl) ≤ 0 := by decide!
  obtain ⟨r1, r2⟩ := applyWatermarkArgs_range l {} s1 ⟨Or.inr ⟨h0, h1⟩, Or.inr ⟨h2, h0⟩⟩ h
  refine ⟨fun hl => applyWatermarkArgs_number l {} s1 hl ⟨h0, h1, h2, h0⟩ h, r1, r2, ?_, ?_,
    ?_, ?_⟩
  · intro sc s2 h2
    exact (parseOption_p_ok sc s1 s2 h2).1
  · intro sc s2 h2
    exact (parseOption_P_ok sc s1 s2 h2).1
  · intro sc
    exact (readConfigFile_startread_range sc s1).1
  · intro sc
    exact (readConfigFile_startwrite_range sc s1).1

/-- Witness of `watermark_ranges`: `startread = 50` and then `-p 25` are
accepted and leave `StartRead = 0.25`. -/
theorem watermark_ranges_witness :
    applyWatermarkArgs {} [WatermarkArg.startread (some 50), WatermarkArg.optp (some 25)] =
      Except.ok { StartRead := 1 / 4 } ∧
    (0 ≤ ({ StartRead := 1 / 4 } : Settings).StartRead ∧
      ({ StartRead := 1 / 4 } : Settings).StartRead ≤ 1 ∧
      0 ≤ ({ StartRead := 1 / 4 } : Settings).StartWrite ∧
      ({ StartRead := 1 / 4 } : Settings).StartWrite ≤ 1) ∧
    (∀ (sc : Option Dbl) (s2 : Settings),
      parseOption_p sc { StartRead := 1 / 4 } = Except.ok s2 →
      (sc = some Dbl.nan ∧ s2.StartRead = Dbl.nan) ∨ (0 ≤ s2.StartRead ∧ s2.StartRead < 1)) :=
  ⟨by decide!,
   (watermark_ranges [WatermarkArg.startread (some 50), WatermarkArg.optp (some 25)]
     { StartRead := 1 / 4 } (by decide!)).1 (by decide!),
   (watermark_ranges [WatermarkArg.startread (some 50), WatermarkArg.optp (some 25)]
     { StartRead := 1 / 4 } (by decide!)).2.2.2.1⟩

/-! ## Time differences and the rate limiter -/

theorem tdiv_1000 (x : Int) :
    x.tdiv 1000 = if 0 ≤ x then x / 1000 else -((-x) / 1000) := by
  by_cases h : 0 ≤ x
  · rw [if_pos h]
    exact Int.tdiv_eq_ediv h (by norm_num)
  · rw [if_neg h]
    have h1 : 0 ≤ -x := by omega
    have h2 : (-x).tdiv 1000 = (-x) / 1000 := Int.tdiv_eq_ediv h1 (by norm_num)
    have h3 : (-x).tdiv 1000 = -(x.tdiv 1000) := Int.neg_tdiv x 1000
    omega

theorem timediff_eq (t1 t2 : timespec) (hd : timediffDefined t1 t2) :
    timediff t1 t2 =
      if (t1.tv_sec - t2.tv_sec) * 1000000 + (t1.tv_nsec - t2.tv_nsec).tdiv 1000 < 0
      then some (0, t1)
      else some ((t1.tv_sec - t2.tv_sec) * 1000000 + (t1.tv_nsec - t2.tv_nsec).tdiv 1000, t2) := by
  unfold timediff
  unfold timediffDefined at hd
  simp only [if_pos hd]

theorem timediff_resets_iff (t1 t2 : timespec) (h1 : t1.normal) (h2 : t2.normal) :
    (t1.tv_sec - t2.tv_sec) * 1000000 + (t1.tv_nsec - t2.tv_nsec).tdiv 1000 < 0 ↔
      (t1.tv_sec < t2.tv_sec ∨ (t1.tv_sec = t2.tv_sec ∧ t1.tv_nsec + 1000 ≤ t2.tv_nsec)) := by
  unfold timespec.normal at h1 h2
  rw [tdiv_1000]
  by_cases hx : 0 ≤ t1.tv_nsec - t2.tv_nsec
  · rw [if_pos hx]
    constructor
    · intro h; omega
    · intro h; omega
  · rw [if_neg hx]
    constructor
    · intro h; omega
    · intro h; omega

theorem timediff_not_earlier (now cp : timespec) (hn : now.normal) (hc : cp.normal)
    (hd : timediffDefined now cp) (h : ¬ now.earlier cp) :
    timediff now cp =
      some ((now.tv_sec - cp.tv_sec) * 1000000 + (now.tv_nsec - cp.tv_nsec).tdiv 1000, cp) ∧
    0 ≤ (now.tv_sec - cp.tv_sec) * 1000000 + (now.tv_nsec - cp.tv_nsec).tdiv 1000 := by
  have hr := timediff_resets_iff now cp hn hc
  have hneg : ¬ ((now.tv_sec - cp.tv_sec) * 1000000 +
      (now.tv_nsec - cp.tv_nsec).tdiv 1000 < 0) := by
    intro hlt
    have := hr.mp hlt
    unfold timespec.earlier at h
    omega
  rw [timediff_eq now cp hd, if_neg hneg]
  exact ⟨rfl, not_lt.mp hneg⟩

/-- C16, counterexample: `now` is 999 ns earlier than the checkpoint, within
the same second; the elapsed time is 0 but the checkpoint is not reset. -/
theorem timediff_below_microsecond :
    (timespec.mk 5 0).earlier (timespec.mk 5 999) ∧
    timediff (timespec.mk 5 0) (timespec.mk 5 999) = some (0, timespec.mk 5 999) := by
  decide

/-- C16, amended: for every pair of timestamps (now, checkpoint) as the clock
gives them, whose difference the 64-bit arithmetic can hold, the result of
`timediff` is never negative; whenever now is earlier than the checkpoint the
result is 0, and the checkpoint is reset to now exactly if now lies in an
earlier second or at least 1000 ns back within the same second (the division
of the nanoseconds truncates towards zero); otherwise, in particular whenever
now is not earlier than the checkpoint, the checkpoint is left unchanged. -/
theorem clock_regression (now cp : timespec) (hn : now.normal) (hc : cp.normal)
    (hd : timediffDefined now cp) :
    ∃ (tdiff : Int) (cp1 : timespec), timediff now cp = some (tdiff, cp1) ∧ 0 ≤ tdiff ∧
      (now.earlier cp → tdiff = 0) ∧
      ((now.tv_sec < cp.tv_sec ∨ (now.tv_sec = cp.tv_sec ∧ now.tv_nsec + 1000 ≤ cp.tv_nsec)) →
        cp1 = now) ∧
      (¬ (now.tv_sec < cp.tv_sec ∨ (now.tv_sec = cp.tv_sec ∧ now.tv_nsec + 1000 ≤ cp.tv_nsec)) →
        cp1 = cp ∧
        tdiff = (now.tv_sec - cp.tv_sec) * 1000000 + (now.tv_nsec - cp.tv_nsec).tdiv 1000) ∧
      (¬ now.earlier cp → cp1 = cp) := by
  have hr := timediff_resets_iff now cp hn hc
  by_cases hlt : (now.tv_sec - cp.tv_sec) * 1000000 + (now.tv_nsec - cp.tv_nsec).tdiv 1000 < 0
  · refine ⟨0, now, ?_, le_refl 0, fun _ => rfl, fun _ => rfl, ?_, ?_⟩
    · rw [timediff_eq now cp hd, if_pos hlt]
    · intro hno
      exact absurd (hr.mp hlt) hno
    · intro hne
      have := hr.mp hlt
      unfold timespec.earlier at hne
      unfold timespec.normal at hn hc
      omega
  · refine ⟨_, cp, ?_, not_lt.mp hlt, ?_, ?_, fun _ => ⟨rfl, rfl⟩, fun _ => rfl⟩
    · rw [timediff_eq now cp hd, if_neg hlt]
    · intro he
      unfold timespec.earlier at he
      unfold timespec.normal at hn hc
      have hnr : ¬ (now.tv_sec < cp.tv_sec ∨
          (now.tv_sec = cp.tv_sec ∧ now.tv_nsec + 1000 ≤ cp.tv_nsec)) := fun hc1 => hlt (hr.mpr hc1)
      rw [tdiv_1000]
      by_cases hx : 0 ≤ now.tv_nsec - cp.tv_nsec
      · omega
      · rw [if_neg hx]
        omega
    · intro hre
      exact absurd (hr.mpr hre) hlt

theorem clock_regression_witness :
    (timespec.mk 4 999999999).normal ∧ (timespec.mk 5 0).normal ∧
    timediffDefined (timespec.mk 4 999999999) (timespec.mk 5 0) ∧
    ∃ (tdiff : Int) (cp1 : timespec),
      timediff (timespec.mk 4 999999999) (timespec.mk 5 0) = some (tdiff, cp1) ∧ 0 ≤ tdiff ∧
      ((timespec.mk 4 999999999).earlier (timespec.mk 5 0) → tdiff = 0) ∧
      (((timespec.mk 4 999999999).tv_sec < (timespec.mk 5 0).tv_sec ∨
        ((timespec.mk 4 999999999).tv_sec = (timespec.mk 5 0).tv_sec ∧
          (timespec.mk 4 999999999).tv_nsec + 1000 ≤ (timespec.mk 5 0).tv_nsec)) →
        cp1 = timespec.mk 4 999999999) ∧
      (¬ ((timespec.mk 4 999999999).tv_sec < (timespec.mk 5 0).tv_sec ∨
        ((timespec.mk 4 999999999).tv_sec = (timespec.mk 5 0).tv_sec ∧
          (timespec.mk 4 999999999).tv_nsec + 1000 ≤ (timespec.mk 5 0).tv_nsec)) →
        cp1 = timespec.mk 5 0 ∧
        tdiff = ((timespec.mk 4 999999999).tv_sec - (timespec.mk 5 0).tv_sec) * 1000000 +
          ((timespec.mk 4 999999999).tv_nsec - (timespec.mk 5 0).tv_nsec).tdiv 1000) ∧
      (¬ (timespec.mk 4 999999999).earlier (timespec.mk 5 0) → cp1 = timespec.mk 5 0) :=
  ⟨by decide, by decide, by decide,
   clock_regression (timespec.mk 4 999999999) (timespec.mk 5 0) (by decide) (by decide)
     (by decide)⟩

theorem wrapLL_id (x : Int) (h : inLL x) : wrapLL x = x := by
  unfold inLL at h
  unfold wrapLL
  omega

/-- C15, counterexample: with `Blocksize = 10240`, `TickTime = 10000`, a
limit of 10 GiB/s, an accumulated count of 8386833019363 and 781074693
microseconds since the checkpoint, the rate exceeds the limit and the
required sleep `(accumulated + Blocksize)/limit - elapsed` is 9999
microseconds and a fraction, less than `TickTime`; in `double` the product
`req * 1E6` is 10000, so enforceSpeedLimit sleeps for 10000 microseconds and
replaces the checkpoint. -/
theorem rate_limit_rounding :
    ((8386833019363 + 10240 : ℚ) / (781074693 / 1000000) > 10737418240) ∧
    ⌊((8386833019363 + 10240 : ℚ) / 10737418240 - 781074693 / 1000000) * 1000000⌋ = 9999 ∧
    timediff (timespec.mk 781 74693000) (timespec.mk 0 0) = some (781074693, timespec.mk 0 0) ∧
    enforceSpeedLimit 10240 10000 (timespec.mk 781 74693000) (timespec.mk 781 84693000)
      10737418240 8386833019363 (timespec.mk 0 0) =
      some { ret := 0, last := timespec.mk 781 84693000, slept := some 10000 } := by
  decide!

/-- C15, amended: for every limit, accumulated count `num` and checkpoint
`last` with the clock `now` not behind the checkpoint, if the rate
`(double)(num + Blocksize) / dt` computed in `double` exceeds the limit and
the required sleep as the code computes it,
`w = (long long)(((double)(num + Blocksize) / limit - dt) * 1E6)` with
`dt = (double)elapsed * 1E-6`, is below `TickTime`, then enforceSpeedLimit
does not sleep, leaves the checkpoint unchanged and returns
`num + Blocksize`. -/
theorem rate_limit_deferral (Blocksize : Nat) (TickTime : Int) (now woke last : timespec)
    (limit : Nat) (num : Int)
    (hn : now.normal) (hl : last.normal) (hclock : ¬ now.earlier last)
    (hacc : inLL (num + Blocksize))
    (elapsed : Int) (cp : timespec) (helapsed : timediff now last = some (elapsed, cp))
    (hrate : Dbl.ofInt (num + Blocksize) / (Dbl.ofInt elapsed * Dbl.micro) > Dbl.ofInt limit)
    (w : Int)
    (hw : ((Dbl.ofInt (num + Blocksize) / Dbl.ofInt limit - Dbl.ofInt elapsed * Dbl.micro)
      * 1000000).toLL = some w)
    (htick : w < TickTime) :
    enforceSpeedLimit Blocksize TickTime now woke limit num last =
      some { ret := num + Blocksize, last := last, slept := Option.none } := by
  have hd : timediffDefined now last := by
    unfold timediffDefined
    unfold timediff at helapsed
    by_contra hnd
    simp only [if_neg hnd] at helapsed
    cases helapsed
  have hcp := (timediff_not_earlier now last hn hl hd hclock).1
  rw [helapsed] at hcp
  have hcp1 : cp = last := by
    injection hcp with hcp
    exact (Prod.mk.inj hcp).2
  subst hcp1
  unfold enforceSpeedLimit
  simp only [wrapLL_id _ hacc, helapsed]
  by_cases hneg : num + (Blocksize : Int) < 0
  · rw [if_pos hneg]
  · rw [if_neg hneg, if_pos hrate]
    simp only [hw]
    rw [if_neg (not_le.mpr htick)]

/-- Witness of `rate_limit_deferral`: 10240 bytes in 5000 microseconds against
a limit of 1 MiB/s ask for a sleep of 4765 microseconds, less than a tick of
10000. -/
theorem rate_limit_deferral_witness :
    enforceSpeedLimit 10240 10000 (timespec.mk 100 5000000) (timespec.mk 100 5000000)
      1048576 0 (timespec.mk 100 0) =
      some { ret := 0 + ((10240 : Nat) : Int), last := timespec.mk 100 0, slept := Option.none } :=
  rate_limit_deferral 10240 10000 (timespec.mk 100 5000000) (timespec.mk 100 5000000)
    (timespec.mk 100 0) 1048576 0 (by decide) (by decide) (by decide) (by decide)
    5000 (timespec.mk 100 0) (by decide) (by decide!) 4765 (by decide!) (by decide)

/-! ## The watchdog -/

theorem watchdogStep_raised (g : Counters) (w : WatchSt) (h : w.Watchdog > 1) :
    watchdogStep g w = ([Signal.SIGKILL], Option.none) := by
  unfold watchdogStep
  rw [if_pos h]

theorem watchdogStep_kill_iff (g : Counters) (w : WatchSt) :
    Signal.SIGKILL ∈ (watchdogStep g w).1 ↔ w.Watchdog > 1 := by
  by_cases h : w.Watchdog > 1
  · rw [watchdogStep_raised g w h]
    simp [h]
  · unfold watchdogStep
    rw [if_neg h]
    simp only
    constructor
    · intro hk
      exfalso
      by_cases h1 : (w.ni = g.Numin ∧ g.Finish = -1) <;> by_cases h2 : w.no = g.Numout <;>
        simp [h1, h2] at hk
    · intro hc
      exact absurd hc h

theorem watchdogStep_armed (g : Counters) (w : WatchSt) (h : ¬ w.Watchdog > 1) :
    ∃ w1, (watchdogStep g w).2 = some w1 ∧
      (w1.Watchdog > 1 ↔ Signal.SIGINT ∈ (watchdogStep g w).1) := by
  unfold watchdogStep
  rw [if_neg h]
  refine ⟨_, rfl, ?_⟩
  by_cases h1 : (w.ni = g.Numin ∧ g.Finish = -1) <;> by_cases h2 : w.no = g.Numout <;>
    simp [h1, h2] <;> omega

theorem watchdogRun_raised (g : Counters) (gs : List Counters) (w : WatchSt)
    (h : w.Watchdog > 1) : watchdogRun w (g :: gs) = [[Signal.SIGKILL]] := by
  simp only [watchdogRun, watchdogStep_raised g w h]

theorem watchdogRun_armed (g : Counters) (gs : List Counters) (w : WatchSt)
    (h : ¬ w.Watchdog > 1) :
    ∃ w1, (watchdogStep g w).2 = some w1 ∧
      (w1.Watchdog > 1 ↔ Signal.SIGINT ∈ (watchdogStep g w).1) ∧
      watchdogRun w (g :: gs) = (watchdogStep g w).1 :: watchdogRun w1 gs := by
  obtain ⟨w1, h1, h2⟩ := watchdogStep_armed g w h
  refine ⟨w1, h1, h2, ?_⟩
  simp only [watchdogRun]
  cases hs : watchdogStep g w with
  | mk sigs o =>
    rw [hs] at h1
    simp only at h1
    subst h1
    rfl

theorem watchdogRun_kill (gs : List Counters) :
    ∀ (w : WatchSt) (k : Nat), Signal.SIGKILL ∈ (watchdogRun w gs).getD k [] →
      (k = 0 ∧ w.Watchdog > 1) ∨
      (1 ≤ k ∧ Signal.SIGINT ∈ (watchdogRun w gs).getD (k - 1) []) := by
  induction gs with
  | nil =>
    intro w k h
    simp [watchdogRun] at h
  | cons g gs ih =>
    intro w k h
    by_cases hw : w.Watchdog > 1
    · rw [watchdogRun_raised g gs w hw] at h
      cases k with
      | zero => exact Or.inl ⟨rfl, hw⟩
      | succ k => simp at h
    · obtain ⟨w1, h1, h2, h3⟩ := watchdogRun_armed g gs w hw
      rw [h3] at h ⊢
      cases k with
      | zero =>
        simp only [List.getD_cons_zero] at h
        exact absurd ((watchdogStep_kill_iff g w).mp h) hw
      | succ k =>
        simp only [List.getD_cons_succ] at h
        right
        refine ⟨by omega, ?_⟩
        rcases ih w1 k h with ⟨hk, hr⟩ | ⟨hk, hs⟩
        · subst hk
          simp only [Nat.zero_add, Nat.sub_self, List.getD_cons_zero]
          exact h2.mp hr
        · obtain ⟨j, rfl⟩ : ∃ j, k = j + 1 := ⟨k - 1, by omega⟩
          simp only [Nat.add_sub_cancel, List.getD_cons_succ] at hs ⊢
          exact hs

theorem watchdogRun_after_int (gs : List Counters) :
    ∀ (w : WatchSt) (k : Nat), Signal.SIGINT ∈ (watchdogRun w gs).getD k [] →
      k + 1 < gs.length → (watchdogRun w gs).getD (k + 1) [] = [Signal.SIGKILL] := by
  induction gs with
  | nil =>
    intro w k h
    simp [watchdogRun] at h
  | cons g gs ih =>
    intro w k h hlen
    by_cases hw : w.Watchdog > 1
    · rw [watchdogRun_raised g gs w hw] at h
      cases k with
      | zero => simp at h
      | succ k => simp at h
    · obtain ⟨w1, h1, h2, h3⟩ := watchdogRun_armed g gs w hw
      rw [h3] at h ⊢
      cases k with
      | zero =>
        simp only [List.getD_cons_zero] at h
        have hr := h2.mpr h
        cases gs with
        | nil => simp at hlen
        | cons g1 gs1 =>
          rw [watchdogRun_raised g1 gs1 w1 hr]
          rfl
      | succ k =>
        simp only [List.getD_cons_succ] at h ⊢
        exact ih w1 k h (by simpa using hlen)

/-- C17, counterexample: the watchdog is started, the first interval shows no
progress (SIGINT is sent), in the second interval both block counters advance
from 0 to 7, and SIGKILL is sent all the same. -/
theorem sigkill_after_progress :
    watchdogRun { ni := 0, no := 0, Watchdog := 1 }
      [{ Numin := 0, Numout := 0, Finish := -1 }, { Numin := 7, Numout := 7, Finish := -1 }] =
      [[Signal.SIGINT, Signal.SIGINT], [Signal.SIGKILL]] ∧
    progressed { Numin := 7, Numout := 7, Finish := -1 } { ni := 0, no := 0, Watchdog := 2 } ∧
    watchdogStep { Numin := 7, Numout := 7, Finish := -1 } { ni := 0, no := 0, Watchdog := 2 } =
      ([Signal.SIGKILL], Option.none) := by
  decide

/-- C17, amended: the watchdog step sends SIGKILL at an interval exactly if
its state is RAISED at the start of the interval, whether or not the block
counters advanced in it; in a run of a watchdog that starts not RAISED, a
SIGKILL at an interval is preceded by a SIGINT at the interval before, and a
SIGINT at an interval is followed by SIGKILL at the next interval, if the
process lives that long. -/
theorem watchdog_escalation (w : WatchSt) (gs : List Counters) (hw : w.Watchdog ≤ 1) :
    (∀ (g : Counters) (w1 : WatchSt),
      Signal.SIGKILL ∈ (watchdogStep g w1).1 ↔ w1.Watchdog > 1) ∧
    (∀ k, Signal.SIGKILL ∈ (watchdogRun w gs).getD k [] →
      1 ≤ k ∧ Signal.SIGINT ∈ (watchdogRun w gs).getD (k - 1) []) ∧
    (∀ k, Signal.SIGINT ∈ (watchdogRun w gs).getD k [] → k + 1 < gs.length →
      (watchdogRun w gs).getD (k + 1) [] = [Signal.SIGKILL]) := by
  refine ⟨watchdogStep_kill_iff, ?_, watchdogRun_after_int gs w⟩
  intro k hk
  rcases watchdogRun_kill gs w k hk with ⟨_, hr⟩ | h
  · omega
  · exact h

theorem watchdog_escalation_witness :
    (∀ (g : Counters) (w1 : WatchSt),
      Signal.SIGKILL ∈ (watchdogStep g w1).1 ↔ w1.Watchdog > 1) ∧
    (∀ k, Signal.SIGKILL ∈ (watchdogRun { ni := 0, no := 0, Watchdog := 1 }
        [{ Numin := 0, Numout := 0, Finish := -1 },
         { Numin := 7, Numout := 7, Finish := -1 }]).getD k [] →
      1 ≤ k ∧ Signal.SIGINT ∈ (watchdogRun { ni := 0, no := 0, Watchdog := 1 }
        [{ Numin := 0, Numout := 0, Finish := -1 },
         { Numin := 7, Numout := 7, Finish := -1 }]).getD (k - 1) []) ∧
    (∀ k, Signal.SIGINT ∈ (watchdogRun { ni := 0, no := 0, Watchdog := 1 }
        [{ Numin := 0, Numout := 0, Finish := -1 },
         { Numin := 7, Numout := 7, Finish := -1 }]).getD k [] →
      k + 1 < [({ Numin := 0, Numout := 0, Finish := -1 } : Counters),
         { Numin := 7, Numout := 7, Finish := -1 }].length →
      (watchdogRun { ni := 0, no := 0, Watchdog := 1 }
        [{ Numin := 0, Numout := 0, Finish := -1 },
         { Numin := 7, Numout := 7, Finish := -1 }]).getD (k + 1) [] = [Signal.SIGKILL]) :=
  watchdog_escalation { ni := 0, no := 0, Watchdog := 1 }
    [{ Numin := 0, Numout := 0, Finish := -1 }, { Numin := 7, Numout := 7, Finish := -1 }]
    (by decide)

/-! ## Messages and the exit status -/

theorem errormsg_flag (m : String) (l : LogSt) : (errormsg m l).1.ErrorOccurred = 1 := by
  unfold errormsg
  simp only
  split <;> split <;> rfl

theorem errormsg_code (m : String) (l : LogSt) :
    ∀ c, (errormsg m l).2 = some c → c = EXIT_FAILURE := by
  intro c h
  unfold errormsg at h
  by_cases hv : l.Verbose ≥ errors <;> by_cases hf : l.ErrorsFatal = 0 <;>
    simp [hv, hf] at h <;> exact h.symm

theorem infomsg_flag (m : String) (l : LogSt) :
    (infomsg m l).ErrorOccurred = l.ErrorOccurred := by
  unfold infomsg
  split <;> rfl

theorem statusmsg_flag (m : String) (l : LogSt) :
    (statusmsg m l).ErrorOccurred = l.ErrorOccurred := by
  unfold statusmsg
  split <;> rfl

theorem warningmsg_flag (m : String) (l : LogSt) :
    (warningmsg m l).ErrorOccurred = l.ErrorOccurred := by
  unfold warningmsg
  split <;> rfl

theorem exitStatus_flag (evs : List Event) :
    ∀ (l : LogSt), l.ErrorOccurred ≠ 0 → Event.help ∉ evs →
      exitStatus l evs = EXIT_FAILURE := by
  induction evs with
  | nil =>
    intro l h _
    simp only [exitStatus, if_pos h]
  | cons e evs ih =>
    intro l h hnh
    have hnh1 : Event.help ∉ evs := fun hc => hnh (List.mem_cons_of_mem _ hc)
    cases e with
    | infomsg m =>
      simp only [exitStatus]
      exact ih _ (by rw [infomsg_flag]; exact h) hnh1
    | statusmsg m =>
      simp only [exitStatus]
      exact ih _ (by rw [statusmsg_flag]; exact h) hnh1
    | warningmsg m =>
      simp only [exitStatus]
      exact ih _ (by rw [warningmsg_flag]; exact h) hnh1
    | errormsg m =>
      have hflag := errormsg_flag m l
      have hcode := errormsg_code m l
      cases hE : errormsg m l with
      | mk l1 o =>
        rw [hE] at hflag hcode
        cases o with
        | none =>
          simp only [exitStatus, hE]
          apply ih _ _ hnh1
          simp only at hflag
          rw [hflag]
          decide
        | some code =>
          simp only [exitStatus, hE]
          exact hcode code rfl
    | fatal m => simp only [exitStatus, fatal]
    | interrupt =>
      simp only [exitStatus]
      exact ih _ (by simp [sigHandler]) hnh1
    | setVerbose n =>
      simp only [exitStatus]
      exact ih _ h hnh1
    | setErrorsFatal =>
      simp only [exitStatus]
      exact ih _ h hnh1
    | help => exact absurd (List.mem_cons_self _ _) hnh

theorem exitStatus_clean (evs : List Event) :
    ∀ (l : LogSt), l.ErrorOccurred = 0 →
      (¬ ∃ e ∈ evs, e.isError = true ∨ e.isFatal = true ∨ e = Event.interrupt) →
      exitStatus l evs = EXIT_SUCCESS := by
  induction evs with
  | nil =>
    intro l h _
    simp [exitStatus, h]
  | cons e evs ih =>
    intro l h hn
    have hn1 : ¬ ∃ e ∈ evs, e.isError = true ∨ e.isFatal = true ∨ e = Event.interrupt := by
      rintro ⟨e1, he1, hp⟩
      exact hn ⟨e1, List.mem_cons_of_mem _ he1, hp⟩
    have hn0 : ¬ (e.isError = true ∨ e.isFatal = true ∨ e = Event.interrupt) := by
      intro hp
      exact hn ⟨e, List.mem_cons_self _ _, hp⟩
    cases e with
    | infomsg m =>
      simp only [exitStatus]
      exact ih _ (by rw [infomsg_flag]; exact h) hn1
    | statusmsg m =>
      simp only [exitStatus]
      exact ih _ (by rw [statusmsg_flag]; exact h) hn1
    | warningmsg m =>
      simp only [exitStatus]
      exact ih _ (by rw [warningmsg_flag]; exact h) hn1
    | errormsg m => exact absurd (Or.inl rfl) hn0
    | fatal m => exact absurd (Or.inr (Or.inl rfl)) hn0
    | interrupt => exact absurd (Or.inr (Or.inr rfl)) hn0
    | setVerbose n =>
      simp only [exitStatus]
      exact ih _ h hn1
    | setErrorsFatal =>
      simp only [exitStatus]
      exact ih _ h hn1
    | help => simp only [exitStatus]

theorem exitStatus_failure (evs : List Event) :
    ∀ (l : LogSt), Event.help ∉ evs →
      (∃ e ∈ evs, e.isError = true ∨ e.isFatal = true ∨ e = Event.interrupt) →
      exitStatus l evs = EXIT_FAILURE := by
  induction evs with
  | nil =>
    intro l _ h
    obtain ⟨e, he, _⟩ := h
    cases he
  | cons e evs ih =>
    intro l hnh hex
    have hnh1 : Event.help ∉ evs := fun hc => hnh (List.mem_cons_of_mem _ hc)
    have hex1 : (e.isError = true ∨ e.isFatal = true ∨ e = Event.interrupt) ∨
        ∃ e ∈ evs, e.isError = true ∨ e.isFatal = true ∨ e = Event.interrupt := by
      obtain ⟨e1, he1, hp⟩ := hex
      rcases List.mem_cons.mp he1 with rfl | hm
      · exact Or.inl hp
      · exact Or.inr ⟨e1, hm, hp⟩
    cases e with
    | infomsg m =>
      simp only [exitStatus]
      rcases hex1 with hp | hp
      · simp [Event.isError, Event.isFatal] at hp
      · exact ih _ hnh1 hp
    | statusmsg m =>
      simp only [exitStatus]
      rcases hex1 with hp | hp
      · simp [Event.isError, Event.isFatal] at hp
      · exact ih _ hnh1 hp
    | warningmsg m =>
      simp only [exitStatus]
      rcases hex1 with hp | hp
      · simp [Event.isError, Event.isFatal] at hp
      · exact ih _ hnh1 hp
    | errormsg m =>
      have hflag := errormsg_flag m l
      have hcode := errormsg_code m l
      cases hE : errormsg m l with
      | mk l1 o =>
        rw [hE] at hflag hcode
        cases o with
        | none =>
          simp only [exitStatus, hE]
          apply exitStatus_flag _ _ _ hnh1
          simp only at hflag
          rw [hflag]
          decide
        | some code =>
          simp only [exitStatus, hE]
          exact hcode code rfl
    | fatal m => simp only [exitStatus, fatal]
    | interrupt =>
      simp only [exitStatus]
      exact exitStatus_flag _ _ (by simp [sigHandler]) hnh1
    | setVerbose n =>
      simp only [exitStatus]
      rcases hex1 with hp | hp
      · simp [Event.isError, Event.isFatal] at hp
      · exact ih _ hnh1 hp
    | setErrorsFatal =>
      simp only [exitStatus]
      rcases hex1 with hp | hp
      · simp [Event.isError, Event.isFatal] at hp
      · exact ih _ hnh1 hp
    | help => exact absurd (List.mem_cons_self _ _) hnh

/-- C18, counterexample: a run in which SIGINT is delivered and neither
`errormsg` nor `fatal` is called ends with failure; a command line on which
`errormsg` is called (`-v x`) before `--version` ends with success. -/
theorem exit_status_differs :
    exitStatus {} [Event.infomsg "started", Event.interrupt] = EXIT_FAILURE ∧
    (∀ e ∈ [Event.infomsg "started", Event.interrupt], e.isError = false) ∧
    exitStatus {} [Event.errormsg "Invalid argument", Event.help] = EXIT_SUCCESS := by
  decide

/-- C18, amended: a run that does not leave through `usage`, `version` or
`--hash list` (which exit with success whatever happened before) exits with
failure if and only if `errormsg` was called, `fatal` was called, or a SIGINT
or SIGHUP was handled (sigHandler sets ErrorOccurred itself), and with
success otherwise; every call of `errormsg` sets ErrorOccurred to 1 at every
verbosity level, including those at which the message is suppressed, while
`infomsg`, `statusmsg` and `warningmsg` never change ErrorOccurred. -/
theorem exit_status (v : Nat) (ef : Int) (evs : List Event) (hnh : Event.help ∉ evs) :
    (exitStatus { Verbose := v, ErrorsFatal := ef } evs = EXIT_FAILURE ↔
      ∃ e ∈ evs, e.isError = true ∨ e.isFatal = true ∨ e = Event.interrupt) ∧
    (exitStatus { Verbose := v, ErrorsFatal := ef } evs = EXIT_FAILURE ∨
      exitStatus { Verbose := v, ErrorsFatal := ef } evs = EXIT_SUCCESS) ∧
    (∀ (l : LogSt) (evs1 : List Event), exitStatus l (Event.help :: evs1) = EXIT_SUCCESS) ∧
    (∀ (l : LogSt) (msg : String), (errormsg msg l).1.ErrorOccurred = 1 ∧
      ((errormsg msg l).1.written = l.written ↔ l.Verbose < errors)) ∧
    (∀ (l : LogSt) (msg : String),
      (infomsg msg l).ErrorOccurred = l.ErrorOccurred ∧
      (statusmsg msg l).ErrorOccurred = l.ErrorOccurred ∧
      (warningmsg msg l).ErrorOccurred = l.ErrorOccurred) := by
  have hiff : exitStatus { Verbose := v, ErrorsFatal := ef } evs = EXIT_FAILURE ↔
      ∃ e ∈ evs, e.isError = true ∨ e.isFatal = true ∨ e = Event.interrupt := by
    constructor
    · intro hf
      by_contra hno
      have hs := exitStatus_clean evs { Verbose := v, ErrorsFatal := ef } rfl hno
      rw [hs] at hf
      exact absurd hf (by decide)
    · exact exitStatus_failure evs _ hnh
  refine ⟨hiff, ?_, ?_, ?_, ?_⟩
  · by_cases hex : ∃ e ∈ evs, e.isError = true ∨ e.isFatal = true ∨ e = Event.interrupt
    · exact Or.inl (hiff.mpr hex)
    · exact Or.inr (exitStatus_clean evs _ rfl hex)
  · intro l evs1
    simp only [exitStatus]
  · intro l msg
    refine ⟨errormsg_flag msg l, ?_⟩
    unfold errormsg
    simp only
    by_cases hv : l.Verbose ≥ errors
    · simp only [if_pos hv]
      have : ¬ l.Verbose < errors := not_lt.mpr hv
      split <;> simp [this]
    · simp only [if_neg hv]
      have : l.Verbose < errors := not_le.mp hv
      split <;> simp [this]
  · intro l msg
    exact ⟨infomsg_flag msg l, statusmsg_flag msg l, warningmsg_flag msg l⟩

theorem exit_status_witness :
    Event.help ∉ [Event.warningmsg "w", Event.setVerbose 0, Event.errormsg "e"] ∧
    exitStatus { Verbose := 3, ErrorsFatal := 0 }
      [Event.warningmsg "w", Event.setVerbose 0, Event.errormsg "e"] = EXIT_FAILURE :=
  ⟨by decide,
   (exit_status 3 0 [Event.warningmsg "w", Event.setVerbose 0, Event.errormsg "e"]
     (by decide)).1.mpr ⟨Event.errormsg "e", by decide, Or.inl rfl⟩⟩

/-! ## The autoload time -/

/-- C19, the code: for every integer `t` with `1 ≤ t ≤ 2^32` the option
`-a t` enables the autoloader and sets AutoloadTime to `t - 1`, not to `t`:
requestOutputVolume then sleeps `t - 1` seconds, and not at all for
`t = 1`. -/
theorem autoload_delay (t : Nat) (s : Settings) (h1 : 1 ≤ t) (h2 : t ≤ 2 ^ 32) :
    parseOption_a (t : Int) false s = { s with Autoloader := true, AutoloadTime := t - 1 } ∧
    autoloadSleep (parseOption_a (t : Int) false s) = t - 1 := by
  have hp : parseOption_a (t : Int) false s =
      { s with Autoloader := true, AutoloadTime := t - 1 } := by
    unfold parseOption_a UINT_MAX
    have ha : ¬ ((t : Int) - 1 = 0 ∧ false = true) := by simp
    have hb : ¬ ((t : Int) - 1 < 0 ∨ (t : Int) - 1 > 2 ^ 32 - 1) := by
      have : (t : Int) ≤ 2 ^ 32 := by exact_mod_cast h2
      omega
    simp only [if_neg ha, if_neg hb]
    have hc : ((t : Int) - 1).toNat = t - 1 := by omega
    rw [hc]
  refine ⟨hp, ?_⟩
  rw [hp]
  unfold autoloadSleep
  simp only
  split
  · rfl
  · rename_i h0
    rw [not_not] at h0
    exact h0.symm

theorem autoload_delay_witness :
    parseOption_a ((5 : Nat) : Int) false {} = { Autoloader := true, AutoloadTime := 5 - 1 } ∧
    autoloadSleep (parseOption_a ((5 : Nat) : Int) false {}) = 5 - 1 :=
  autoload_delay 5 {} (by decide) (by decide)

/-! ## Open modes of the output -/

@[simp] theorem or_O_WRONLY (a b : OpenMode) :
    (a ||| b).O_WRONLY = (a.O_WRONLY || b.O_WRONLY) := rfl
@[simp] theorem or_O_CREAT (a b : OpenMode) :
    (a ||| b).O_CREAT = (a.O_CREAT || b.O_CREAT) := rfl
@[simp] theorem or_O_EXCL (a b : OpenMode) :
    (a ||| b).O_EXCL = (a.O_EXCL || b.O_EXCL) := rfl
@[simp] theorem or_O_TRUNC (a b : OpenMode) :
    (a ||| b).O_TRUNC = (a.O_TRUNC || b.O_TRUNC) := rfl
@[simp] theorem or_O_APPEND (a b : OpenMode) :
    (a ||| b).O_APPEND = (a.O_APPEND || b.O_APPEND) := rfl
@[simp] theorem or_O_SYNC (a b : OpenMode) :
    (a ||| b).O_SYNC = (a.O_SYNC || b.O_SYNC) := rfl
@[simp] theorem or_O_LARGEFILE (a b : OpenMode) :
    (a ||| b).O_LARGEFILE = (a.O_LARGEFILE || b.O_LARGEFILE) := rfl

/-- What option parsing keeps true: `OptSync` is empty or `O_SYNC`, and the
mode of every destination has `O_CREAT`, `O_WRONLY` and `O_LARGEFILE`. -/
theorem parseModeOpt_inv (st : OptState) (o : ModeOpt)
    (hs : st.OptSync = {} ∨ st.OptSync = O_SYNC)
    (hd : ∀ pm ∈ st.Dest, pm.2.O_WRONLY = true ∧ pm.2.O_CREAT = true ∧
      pm.2.O_LARGEFILE = true) :
    ((parseModeOpt st o).OptSync = {} ∨ (parseModeOpt st o).OptSync = O_SYNC) ∧
    (∀ pm ∈ (parseModeOpt st o).Dest, pm.2.O_WRONLY = true ∧ pm.2.O_CREAT = true ∧
      pm.2.O_LARGEFILE = true) := by
  cases o with
  | append => exact ⟨hs, hd⟩
  | truncate => exact ⟨hs, hd⟩
  | f => exact ⟨hs, hd⟩
  | c => exact ⟨Or.inr rfl, hd⟩
  | o path =>
    refine ⟨hs, ?_⟩
    intro pm hpm
    simp only [parseModeOpt] at hpm
    rcases List.mem_cons.mp hpm with rfl | hm
    · simp [O_WRONLY, O_CREAT, O_LARGEFILE]
    · exact hd pm hm

theorem parseModeOpts_inv (opts : List ModeOpt) :
    ∀ (st : OptState), (st.OptSync = {} ∨ st.OptSync = O_SYNC) →
      (∀ pm ∈ st.Dest, pm.2.O_WRONLY = true ∧ pm.2.O_CREAT = true ∧
        pm.2.O_LARGEFILE = true) →
      ((opts.foldl parseModeOpt st).OptSync = {} ∨
        (opts.foldl parseModeOpt st).OptSync = O_SYNC) ∧
      (∀ pm ∈ (opts.foldl parseModeOpt st).Dest, pm.2.O_WRONLY = true ∧
        pm.2.O_CREAT = true ∧ pm.2.O_LARGEFILE = true) := by
  induction opts with
  | nil =>
    intro st hs hd
    exact ⟨hs, hd⟩
  | cons o opts ih =>
    intro st hs hd
    simp only [List.foldl_cons]
    exact ih _ (parseModeOpt_inv st o hs hd).1 (parseModeOpt_inv st o hs hd).2

/-- C20, counterexample: after `-o out.bin` the output is opened with
`O_CREAT|O_WRONLY|O_EXCL|O_LARGEFILE` and reopened for the next volume with
`O_WRONLY|O_TRUNC|O_LARGEFILE|O_CREAT`; after `-o /dev/st0` it is opened with
`O_CREAT|O_WRONLY|O_LARGEFILE` and reopened with
`O_WRONLY|O_TRUNC|O_LARGEFILE`. -/
theorem reopen_mode_differs :
    (parseModeOpts plainOutput).Dest =
      [("out.bin", O_CREAT ||| O_WRONLY ||| O_EXCL ||| O_LARGEFILE)] ∧
    openDestinationMode "out.bin" (O_CREAT ||| O_WRONLY ||| O_EXCL ||| O_LARGEFILE) =
      O_CREAT ||| O_WRONLY ||| O_EXCL ||| O_LARGEFILE ∧
    requestOutputVolumeMode (parseModeOpts plainOutput).OptSync "out.bin" =
      O_WRONLY ||| O_TRUNC ||| O_LARGEFILE ||| O_CREAT ∧
    requestOutputVolumeMode (parseModeOpts plainOutput).OptSync "out.bin" ≠
      openDestinationMode "out.bin" (O_CREAT ||| O_WRONLY ||| O_EXCL ||| O_LARGEFILE) ∧
    (parseModeOpts tapeOutput).Dest =
      [("/dev/st0", O_CREAT ||| O_WRONLY ||| O_EXCL ||| O_LARGEFILE)] ∧
    openDestinationMode "/dev/st0" (O_CREAT ||| O_WRONLY ||| O_EXCL ||| O_LARGEFILE) =
      O_CREAT ||| O_WRONLY ||| O_LARGEFILE ∧
    requestOutputVolumeMode (parseModeOpts tapeOutput).OptSync "/dev/st0" =
      O_WRONLY ||| O_TRUNC ||| O_LARGEFILE := by
  decide

/-- C20, amended: for every command line and every destination created by
`-o`, the flags with which requestOutputVolume reopens the output do not
depend on the flags of the first open: they are
`O_WRONLY|O_TRUNC|O_LARGEFILE`, with `O_SYNC` if `-c` was given and with
`O_CREAT` unless the path begins with `/dev/`, never `O_EXCL` or `O_APPEND`.
They equal the flags of the first open exactly if the path does not begin
with `/dev/`, the destination was created with `O_TRUNC` and without `O_EXCL`
and `O_APPEND` (as after `-f`), and `-c` did not come after its `-o`. -/
theorem reopen_mode (opts : List ModeOpt) (path : String) (mode : OpenMode)
    (h : (path, mode) ∈ (parseModeOpts opts).Dest) :
    requestOutputVolumeMode (parseModeOpts opts).OptSync path =
      { O_WRONLY := true, O_TRUNC := true, O_LARGEFILE := true,
        O_CREAT := !isDev path, O_SYNC := (parseModeOpts opts).OptSync.O_SYNC,
        O_EXCL := false, O_APPEND := false } ∧
    (requestOutputVolumeMode (parseModeOpts opts).OptSync path =
        openDestinationMode path mode ↔
      (isDev path = false ∧ mode.O_TRUNC = true ∧ mode.O_EXCL = false ∧
        mode.O_APPEND = false ∧ mode.O_SYNC = (parseModeOpts opts).OptSync.O_SYNC)) := by
  obtain ⟨hs, hd⟩ := parseModeOpts_inv opts {} (Or.inl rfl) (by intro pm hpm; cases hpm)
  have hm := hd (path, mode) h
  simp only at hm
  obtain ⟨hm1, hm2, hm3⟩ := hm
  have hsync : (parseModeOpts opts).OptSync.O_WRONLY = false ∧
      (parseModeOpts opts).OptSync.O_CREAT = false ∧
      (parseModeOpts opts).OptSync.O_EXCL = false ∧
      (parseModeOpts opts).OptSync.O_TRUNC = false ∧
      (parseModeOpts opts).OptSync.O_APPEND = false ∧
      (parseModeOpts opts).OptSync.O_LARGEFILE = false := by
    unfold parseModeOpts
    rcases hs with hs | hs <;> rw [hs] <;> simp [O_SYNC]
  obtain ⟨k1, k2, k3, k4, k5, k6⟩ := hsync
  constructor
  · unfold requestOutputVolumeMode
    cases hdev : isDev path <;>
      simp [OpenMode.ext_iff, O_WRONLY, O_TRUNC, O_LARGEFILE, O_CREAT, k1, k2, k3, k4, k5, k6]
  · unfold requestOutputVolumeMode openDestinationMode
    cases hdev : isDev path
    · simp [OpenMode.ext_iff, O_WRONLY, O_TRUNC, O_LARGEFILE, O_CREAT, k1, k2, k3, k4, k5, k6,
        hm1, hm2, hm3]
      constructor
      · rintro ⟨a, b, c, d⟩
        exact ⟨b, a, c, d.symm⟩
      · rintro ⟨a, b, c, d⟩
        exact ⟨b, a, c, d.symm⟩
    · simp [OpenMode.ext_iff, O_WRONLY, O_TRUNC, O_LARGEFILE, O_CREAT, k1, k2, k3, k4, k5, k6,
        hm1, hm2, hm3]

theorem reopen_mode_witness :
    ("out.bin", O_CREAT ||| O_WRONLY ||| (O_TRUNC : OpenMode) ||| O_LARGEFILE) ∈
      (parseModeOpts forcedOutput).Dest ∧
    requestOutputVolumeMode (parseModeOpts forcedOutput).OptSync "out.bin" =
      openDestinationMode "out.bin" (O_CREAT ||| O_WRONLY ||| (O_TRUNC : OpenMode) ||| O_LARGEFILE) :=
  ⟨by decide,
   (reopen_mode forcedOutput "out.bin" (O_CREAT ||| O_WRONLY ||| O_TRUNC ||| O_LARGEFILE)
     (by decide)).2.mpr (by decide)⟩

/-! ## Start-up with several input volumes -/

/-- C21, counterexample: with `-i /dev/st0 -n 3`, no autoloader and no
terminal, the consistency check passes and the threads are started; at the
first end of file `readBlock` sets `Rest` and `Finish` and ends the input. -/
theorem three_volumes_no_operator :
    startup threeVolumes false false = Except.ok (threeVolumes, false) ∧
    afterRead false threeVolumes.Autoloader threeVolumes.NumVolumes false (RRes.ret 0) =
      AfterRead.last false := by
  constructor
  · simp [startup, checkOptions, checkBufferSizing, checkRemaining, threeVolumes,
      detectTerminal, OPTION_B, OPTION_M, OPTION_S]
  · decide

/-- C21, amended: whenever the settings pass the consistency check of `main`
(for a volume count other than 1 this needs an input file, nothing else) and
neither a terminal nor an autoloader is available, startup does not end the
program: the threads start with `Terminal = 0`, and `readBlock` treats the
first end of file, or a read error, as the end of the input without asking
for a volume, whatever the volume count; with a terminal or an autoloader
and a volume count other than 1 it asks for the next volume. -/
theorem multivolume_without_operator (s s1 : Settings) (h : checkOptions s = Except.ok s1)
    (ha : s1.Autoloader = false) :
    startup s false false = Except.ok (s1, false) ∧
    (∀ (Terminate : Bool),
      afterRead false s1.Autoloader s1.NumVolumes Terminate (RRes.ret 0) =
        AfterRead.last false ∧
      afterRead false s1.Autoloader s1.NumVolumes Terminate (RRes.fail Errno.EIO) =
        AfterRead.last (!Terminate)) ∧
    (∀ (Terminal Autoloader Terminate : Bool),
      (Terminal || Autoloader) = true → s1.NumVolumes ≠ 1 →
      afterRead Terminal Autoloader s1.NumVolumes Terminate (RRes.ret 0) =
        AfterRead.newVolume) := by
  refine ⟨?_, ?_, ?_⟩
  · simp [startup, h, detectTerminal]
  · intro t
    rw [ha]
    constructor
    · simp [afterRead]
    · simp [afterRead]
  · intro a b t hab hn
    cases a <;> cases b <;> simp [afterRead, hn] at hab ⊢

theorem multivolume_without_operator_witness :
    checkOptions threeVolumes = Except.ok threeVolumes ∧
    startup threeVolumes false false = Except.ok (threeVolumes, false) :=
  ⟨by simp [checkOptions, checkBufferSizing, checkRemaining, threeVolumes,
      OPTION_B, OPTION_M, OPTION_S],
   (multivolume_without_operator threeVolumes threeVolumes
     (by simp [checkOptions, checkBufferSizing, checkRemaining, threeVolumes,
       OPTION_B, OPTION_M, OPTION_S]) rfl).1⟩

/-! ## Divisions in the consistency check -/

/-- C26: `-b 0 -m 1M` passes the tests of the branch for `-b` with `-m`
(`Blocksize != 0`, `Totalmem > Blocksize`) and divides `Totalmem` by
`Numblocks = 0`; the config line `blocksize = 0.5` with `-m 1M` divides
`Totalmem` by `Blocksize = 0`; `-b 30000 -m 20000` is accepted with
`Blocksize = 0`. -/
theorem sizing_division_by_zero :
    zeroBlocks.Numblocks = 0 ∧
    checkOptions zeroBlocks = Except.error "division by zero" ∧
    halfBlocksize.Blocksize = 0 ∧
    checkOptions halfBlocksize = Except.error "division by zero" ∧
    checkOptions manyBlocks = Except.ok { manyBlocks with Blocksize := 0 } := by
  have hc : calcval (Scanned.num (1 / 2)) = CalcRes.ret 0 := by
    have hf : ⌊((1 : ℚ) / 2)⌋₊ = 0 := by
      rw [Nat.floor_eq_zero]
      norm_num
    unfold calcval CalcRes.ofDouble toULL
    norm_num [hf]
  refine ⟨?_, ?_, ?_, ?_, ?_⟩
  · simp [zeroBlocks, parseOption_m, parseOption_b]
  · simp [zeroBlocks, parseOption_m, parseOption_b, checkOptions, checkBufferSizing,
      OPTION_B, OPTION_M, OPTION_S]
  · unfold halfBlocksize
    rw [hc]
    simp [parseOption_m, readConfigFile_blocksize]
  · unfold halfBlocksize
    rw [hc]
    simp [parseOption_m, readConfigFile_blocksize, checkOptions,
      checkBufferSizing, OPTION_B, OPTION_M, OPTION_S]
  · simp [manyBlocks, parseOption_m, parseOption_b, checkOptions, checkBufferSizing,
      checkRemaining, OPTION_B, OPTION_M, OPTION_S]

/-! ## Flags in config files -/

/-- C27: for the key `tapeaware` every value that `parseFlag` reads as true
sets `TapeAware` to 0 and every value it reads as false sets `TapeAware` to
1, the other way round than the keys `memlock` and `logstatus` set their
flags. -/
theorem tapeaware_polarity (valuestr : String) (f : ConfigFlags) :
    readConfigFile_flag "tapeaware" valuestr f =
      (match parseFlag valuestr with
       | flag_t.on => { f with TapeAware := 0 }
       | flag_t.off => { f with TapeAware := 1 }
       | flag_t.invalid => f) ∧
    readConfigFile_flag "memlock" valuestr f =
      (match parseFlag valuestr with
       | flag_t.on => { f with Memlock := 1 }
       | flag_t.off => { f with Memlock := 0 }
       | flag_t.invalid => f) ∧
    readConfigFile_flag "logstatus" valuestr f =
      (match parseFlag valuestr with
       | flag_t.on => { f with StatusLog := 1 }
       | flag_t.off => { f with StatusLog := 0 }
       | flag_t.invalid => f) ∧
    parseFlag "yes" = flag_t.on ∧ parseFlag "no" = flag_t.off ∧
    (readConfigFile_flag "tapeaware" "yes" {}).TapeAware = 0 ∧
    (readConfigFile_flag "tapeaware" "no" {}).TapeAware = 1 := by
  have h1 : strcaseeq "tapeaware" "showstatus" = false := by decide
  have h2 : strcaseeq "tapeaware" "tapeaware" = true := by decide
  have h3 : strcaseeq "memlock" "showstatus" = false := by decide
  have h4 : strcaseeq "memlock" "tapeaware" = false := by decide
  have h5 : strcaseeq "memlock" "logstatus" = false := by decide
  have h6 : strcaseeq "memlock" "memlock" = true := by decide
  have h7 : strcaseeq "logstatus" "showstatus" = false := by decide
  have h8 : strcaseeq "logstatus" "tapeaware" = false := by decide
  have h9 : strcaseeq "logstatus" "logstatus" = true := by decide
  refine ⟨?_, ?_, ?_, by decide, by decide, by decide, by decide⟩
  · unfold readConfigFile_flag
    simp only [h1, h2, Bool.false_eq_true, if_false, if_true]
  · unfold readConfigFile_flag
    simp only [h3, h4, h5, h6, Bool.false_eq_true, if_false, if_true]
  · unfold readConfigFile_flag
    simp only [h7, h8, h9, Bool.false_eq_true, if_false, if_true]

/-! ## The command of the autoloader -/

/-- C28: without an explicit command `requestOutputVolume` formats the
default command with `Infile`, not with the output file: with the input file
`/dev/st0` and the output `/dev/st1` the command is `mt -f /dev/st0 offline`;
with an autoloader on the output, where the consistency check demands that no
input file is set, the argument is a null pointer. The text is cut to the
size of the buffer, which is made for the name of the output; the command of
`requestInputVolume` names the input file and fits. -/
theorem output_autoload_command (Infile outfile : String) :
    requestOutputVolume_cmd Option.none (some Infile) outfile =
      some (String.mk (("mt -f " ++ Infile ++ " offline").toList.take (16 + outfile.length))) ∧
    requestOutputVolume_cmd Option.none Option.none outfile = Option.none ∧
    requestOutputVolume_cmd Option.none (some "/dev/st0") "/dev/st1" =
      some "mt -f /dev/st0 offline" ∧
    requestOutputVolume_cmd Option.none (some "/dev/tape/by-id/scsi-1") "t" =
      some "mt -f /dev/tape/b" ∧
    requestInputVolume_cmd Option.none "/dev/st0" = "mt -f /dev/st0 offline" := by
  refine ⟨?_, rfl, by decide, by decide, by decide⟩
  simp [requestOutputVolume_cmd, snprintf, default_cmd, sizeof_default_cmd]

/-! ## Several outputs and several volumes -/

theorem parseOutOpt_count (s : Settings) (o : OutOpt) (h : o.isFile = true ∨ o.isHash = true) :
    (parseOutOpt s o).NumSenders - (parseOutOpt s o).Hashers = s.NumSenders - s.Hashers ∧
    (parseOutOpt s o).Autoloader = s.Autoloader ∧
    (parseOutOpt s o).OutVolsize = s.OutVolsize := by
  cases o with
  | file p => simp [parseOutOpt]
  | stdout => simp [OutOpt.isFile, OutOpt.isHash] at h
  | network a c => simp [OutOpt.isFile, OutOpt.isHash] at h
  | hash n found =>
    cases found
    · simp [parseOutOpt]
    · simp [parseOutOpt]

theorem parseOutOpts_count (opts : List OutOpt) :
    ∀ (s : Settings), (∀ o ∈ opts, o.isFile = true ∨ o.isHash = true) →
      (parseOutOpts s opts).NumSenders - (parseOutOpts s opts).Hashers =
        s.NumSenders - s.Hashers := by
  induction opts with
  | nil => intro s _; rfl
  | cons o opts ih =>
    intro s h
    have h1 := parseOutOpt_count s o (h o (List.mem_cons_self _ _))
    have h2 := ih (parseOutOpt s o) (fun o1 ho1 => h o1 (List.mem_cons_of_mem _ ho1))
    simp only [parseOutOpts, List.foldl_cons] at h2 ⊢
    rw [h2, h1.1]

/-- C29: after `-o a.img -o b.img -D 1G` the consistency check of `main`
passes: outputs to files are not counted in `NumSenders` before
`openDestinationFiles`, so for every command line whose outputs are files
and hashes the test `NumSenders - Hashers > 0` sees -1 and the message
`multi-volume support is unsupported with multiple outputs` is not given. -/
theorem multiple_files_accepted (opts : List OutOpt)
    (h : ∀ o ∈ opts, o.isFile = true ∨ o.isHash = true) :
    (parseOutOpts {} opts).NumSenders - (parseOutOpts {} opts).Hashers = -1 ∧
    ¬ ((parseOutOpts {} opts).NumSenders - (parseOutOpts {} opts).Hashers > 0) ∧
    checkOptions twoFiles = Except.ok twoFiles := by
  have h1 := parseOutOpts_count opts {} h
  have h2 : (parseOutOpts {} opts).NumSenders - (parseOutOpts {} opts).Hashers = -1 := by
    rw [h1]; rfl
  refine ⟨h2, by rw [h2]; decide, ?_⟩
  simp [twoFiles, parseOutOpts, parseOutOpt, checkOptions, checkBufferSizing, checkRemaining,
    OPTION_B, OPTION_M, OPTION_S]

theorem multiple_files_accepted_witness :
    (parseOutOpts {} [OutOpt.file "a.img", OutOpt.file "b.img"]).NumSenders -
      (parseOutOpts {} [OutOpt.file "a.img", OutOpt.file "b.img"]).Hashers = -1 ∧
    checkOptions twoFiles = Except.ok twoFiles :=
  ⟨(multiple_files_accepted [OutOpt.file "a.img", OutOpt.file "b.img"] (by decide)).1,
   (multiple_files_accepted [OutOpt.file "a.img", OutOpt.file "b.img"] (by decide)).2.2⟩

/-! ## The default output -/

theorem addDigestDestination_fds (lib algo : Int) (name : String) (Dest : List dest_t)
    (hl : lib ≠ -2 ∧ lib < 0) (hd : ∀ d ∈ Dest, d.fd ≠ -2 ∧ d.fd < 0) :
    addDigestDestination lib algo name Dest ≠ [] ∧
    ∀ d ∈ addDigestDestination lib algo name Dest, d.fd ≠ -2 ∧ d.fd < 0 := by
  unfold addDigestDestination
  cases Dest with
  | nil =>
    refine ⟨by simp, ?_⟩
    intro d hd1
    simp at hd1
    subst hd1
    exact hl
  | cons d0 rest =>
    refine ⟨by simp, ?_⟩
    intro d hd1
    simp only [List.mem_cons] at hd1
    rcases hd1 with rfl | rfl | hm
    · exact hd _ (List.mem_cons_self _ _)
    · exact hl
    · exact hd _ (List.mem_cons_of_mem _ hm)

theorem digests_fds (libs : List Int) :
    ∀ (Dest : List dest_t), (∀ lib ∈ libs, lib ≠ -2 ∧ lib < 0) →
      (∀ d ∈ Dest, d.fd ≠ -2 ∧ d.fd < 0) →
      ∀ d ∈ libs.foldl (fun Dest lib => addDigestDestination lib 0 "md5" Dest) Dest,
        d.fd ≠ -2 ∧ d.fd < 0 := by
  induction libs with
  | nil => intro Dest _ hd; exact hd
  | cons lib libs ih =>
    intro Dest hl hd
    simp only [List.foldl_cons]
    exact ih _ (fun l hl1 => hl l (List.mem_cons_of_mem _ hl1))
      (addDigestDestination_fds lib 0 "md5" Dest (hl lib (List.mem_cons_self _ _)) hd).2

theorem digests_nonempty (libs : List Int) :
    ∀ (Dest : List dest_t), (libs ≠ [] ∨ Dest ≠ []) →
      libs.foldl (fun Dest lib => addDigestDestination lib 0 "md5" Dest) Dest ≠ [] := by
  induction libs with
  | nil =>
    intro Dest h
    rcases h with h | h
    · exact absurd rfl h
    · exact h
  | cons lib libs ih =>
    intro Dest _
    simp only [List.foldl_cons]
    apply ih
    right
    unfold addDigestDestination
    cases Dest <;> simp

theorem selectDestination_none (Dest : List dest_t) (h : ∀ d ∈ Dest, d.fd < 0) :
    selectDestination Dest = Option.none := by
  induction Dest with
  | nil => rfl
  | cons d rest ih =>
    simp only [selectDestination, if_pos (h d (List.mem_cons_self _ _))]
    exact ih (fun d1 hd1 => h d1 (List.mem_cons_of_mem _ hd1))

/-- C30: for every list of destinations that holds only hash destinations,
at least one (each created by `addDigestDestination` with one of the
constants `USE_MHASH` .. `USE_RHASH`, which are -3 .. -7), `outputIsSet`
returns 1, because it looks for `fd != -2`; standard output is not added, and
`main` ends with `no output to send data to`. -/
theorem hash_only_output (libs : List Int) (fd : Int) (hne : libs ≠ [])
    (hl : ∀ lib ∈ libs, lib = USE_MHASH ∨ lib = USE_GCRYPT ∨ lib = USE_LIBMD5 ∨
      lib = USE_SSLMD5 ∨ lib = USE_RHASH) :
    outputIsSet (digestsOnly libs) = true ∧
    mainOutput fd (digestsOnly libs) = Except.error "no output to send data to" := by
  have hl1 : ∀ lib ∈ libs, lib ≠ -2 ∧ lib < 0 := by
    intro lib hlib
    rcases hl lib hlib with h | h | h | h | h <;> subst h <;> decide
  have hf := digests_fds libs [] hl1 (by intro d hd; cases hd)
  have hn := digests_nonempty libs [] (Or.inl hne)
  have hset : outputIsSet (digestsOnly libs) = true := by
    unfold digestsOnly
    cases hD : libs.foldl (fun Dest lib => addDigestDestination lib 0 "md5" Dest) [] with
    | nil => exact absurd hD hn
    | cons d rest =>
      rw [hD] at hf
      simp only [outputIsSet, if_pos (hf d (List.mem_cons_self _ _)).1]
  refine ⟨hset, ?_⟩
  unfold mainOutput
  simp only [hset, if_true]
  rw [selectDestination_none (digestsOnly libs) (fun d hd => (hf d hd).2)]

theorem hash_only_output_witness :
    outputIsSet (digestsOnly [USE_SSLMD5]) = true ∧
    mainOutput 3 (digestsOnly [USE_SSLMD5]) = Except.error "no output to send data to" :=
  hash_only_output [USE_SSLMD5] 3 (by decide) (by decide)

/-! ## The main output next to other destinations -/

/-- C23, counterexample: with one sender, the first round of the barrier is
completed (the condition has been broadcast once, `ActSenders` is back at
`NumSenders + 1 = 2`) and `Dev2Buf` has not been posted. -/
theorem first_round_without_post :
    (fanRun (fanInit 1 ps3) firstRound).rounds = 1 ∧
    (fanRun (fanInit 1 ps3) firstRound).stage = 0 ∧
    (fanRun (fanInit 1 ps3) firstRound).ActSenders = 2 ∧
    (fanRun (fanInit 1 ps3) firstRound).NumSenders = 1 ∧
    (fanRun (fanInit 1 ps3) firstRound).posts = 0 := by
  set_option maxRecDepth 100000 in
  decide

/-- C23, amended: every time the last participant arrives at the barrier
(`syncSenders` decrements `ActSenders` to 0), `ActSenders` is reset to
`NumSenders + 1`; one free block is released (one post of `Dev2Buf`) in every
round but the first, in which `skipped` is still 0 and nothing is posted:
when `r >= 1` rounds are completed, `Dev2Buf` has been posted `r - 1`
times. -/
theorem barrier_completion (K : Nat) (ps : List (Nat × Int))
    (hps : ∀ p ∈ ps, p.1 ≠ 0 ∧ 0 < p.2) (es : List FanEv) :
    ((fanRun (fanInit K ps) es).stage ≠ 0 →
      (fanRun (fanInit K ps) es).ActSenders = (fanRun (fanInit K ps) es).NumSenders + 1) ∧
    (fanRun (fanInit K ps) es).posts =
      (fanRun (fanInit K ps) es).rounds +
        (if (fanRun (fanInit K ps) es).stage = 4 then 1 else 0) - 1 ∧
    (fanRun (fanInit K ps) es).skipped =
      decide (1 ≤ (fanRun (fanInit K ps) es).rounds +
        (if (fanRun (fanInit K ps) es).stage = 4 then 1 else 0)) ∧
    (∀ (b : Nat) (s : Int) (st : FanSt), st.lock = false → st.ActSenders - 1 = 0 →
      (syncSenders b s SPc.call st).2.ActSenders =
        (syncSenders b s SPc.call st).2.NumSenders + 1) ∧
    (∀ (b : Nat) (s : Int) (st : FanSt),
      (syncSenders b s SPc.post st).2.posts = if st.skipped then st.posts + 1 else st.posts) := by
  have h := (fanInv_run ps hps es _ (fanInv_init ps K) ⟨rfl, rfl⟩).1
  refine ⟨?_, h.posts_eq, h.skipped_eq, ?_, ?_⟩
  · intro hs
    obtain ⟨_, _, h3, h4⟩ := h.last_counts hs
    omega
  · intro b s st hl h0
    simp [syncSenders, hl, h0]
  · intro b s st
    simp [syncSenders]

theorem barrier_completion_witness :
    (fanRun (fanInit 1 ps3) firstRound).posts =
      (fanRun (fanInit 1 ps3) firstRound).rounds +
        (if (fanRun (fanInit 1 ps3) firstRound).stage = 4 then 1 else 0) - 1 :=
  (barrier_completion 1 ps3 (by decide) firstRound).2.1

/-! ## Output volumes of a fixed size -/

theorem core_cfg {α σ : Type} (c c1 : Cfg) (X : List α) (s : RingSt α σ)
    (h1 : c1.Numblocks = c.Numblocks) (h2 : c1.Blocksize = c.Blocksize)
    (h : RingCore c X s) : RingCore c1 X s := by
  cases c
  cases c1
  simp only at h1 h2
  subst h1
  subst h2
  obtain ⟨a1, a2, a3, a4, a5, a6, a7, a8, a9, a10, a11, a12, a13, a14, a15, a16, a17, a18, a19,
    a20, a21, a22, a23, a24⟩ := h
  exact ⟨a1, a2, a3, a4, a5, a6, a7, a8, a9, a10, a11, a12, a13, a14, a15, a16, a17, a18, a19,
    a20, a21, a22, a23, a24⟩

theorem inv_cfg {α σ : Type} (c c1 : Cfg) (X : List α) (s : RingSt α σ)
    (h1 : c1.Numblocks = c.Numblocks) (h2 : c1.Blocksize = c.Blocksize)
    (h : RingInv c X s) : RingInv c1 X s :=
  ⟨h.1, fun hcl => core_cfg c c1 X s h1 h2 (h.2 hcl)⟩

/-- Away from the `-D` test a step does not depend on `OutVolsize`. -/
theorem step_cfg {α σ : Type} (c : Cfg) (d : Dev σ) (s : RingSt α σ) (e : Ev)
    (h : s.opc ≠ OPc.volchk ∨ ∃ r, e = Ev.input r) :
    step c d s e = step { c with OutVolsize := 0 } d s e := by
  unfold step
  by_cases hcr : s.opc = OPc.crashed
  · simp only [if_pos hcr]
  · simp only [if_neg hcr]
    cases e with
    | input r => rfl
    | output =>
      rcases h with h | ⟨r, hr⟩
      · simp only
        unfold outputStep
        cases ho : s.opc <;> first | rfl | exact absurd ho h
      · cases hr

/-- The `-D` test when every change of volume succeeds and a volume holds at
least one block. -/
theorem volchk_step {α σ : Type} (c : Cfg) (d : Dev σ) (s : RingSt α σ)
    (hbs : 0 < c.Blocksize) (hV : c.Blocksize ≤ c.OutVolsize) (hch : d.changes)
    (ho : s.opc = OPc.volchk) :
    ∃ o, outputStep c d s =
      (if 0 < s.Numout ∧ s.Numout % (c.OutVolsize / c.Blocksize) = 0 then
        { s with out := o, volumes := s.volumes + 1, cuts := s.cuts ++ [s.written.length],
                 opc := OPc.write }
       else { s with opc := OPc.write }) := by
  have hm : 0 < c.OutVolsize / c.Blocksize := Nat.div_pos hV hbs
  have hv0 : c.OutVolsize ≠ 0 := by omega
  obtain ⟨o, hso⟩ := hch s.out
  refine ⟨o, ?_⟩
  simp only [outputStep, ho]
  by_cases h0 : 0 < s.Numout
  · have hcr : ¬ (c.Blocksize = 0 ∨ c.OutVolsize / c.Blocksize = 0) := by omega
    simp only [hv0, ne_eq, not_false_eq_true, h0, and_self, if_true, if_neg hcr, true_and]
    by_cases hmod : s.Numout % (c.OutVolsize / c.Blocksize) = 0
    · simp only [if_pos hmod, requestOutputVolume, hso]
    · simp only [if_neg hmod]
  · have h1 : ¬ (c.OutVolsize ≠ 0 ∧ 0 < s.Numout) := fun hc => h0 hc.2
    have h2 : ¬ (0 < s.Numout ∧ s.Numout % (c.OutVolsize / c.Blocksize) = 0) :=
      fun hc => h0 hc.1
    simp only [if_neg h1, if_neg h2]

theorem clean_step_vol {α σ : Type} (c : Cfg) (d : Dev σ) (X : List α)
    (s : RingSt α σ) (e : Ev) (P : Nat) (pot : σ → TapeState → Nat)
    (hN : 2 ≤ c.Numblocks) (hbs : 0 < c.Blocksize) (hOut : 0 < c.Outsize)
    (hV : c.Blocksize ≤ c.OutVolsize) (hch : d.changes) (hd : d.sane)
    (hl : Dev.Live d c.TapeAware (c.Terminal || s.Autoloader) pot P)
    (hinv : RingInv c X s) (hcl : clean s) :
    clean (step c d s e) ∧ (step c d s e).Autoloader = s.Autoloader := by
  by_cases h : s.opc ≠ OPc.volchk ∨ ∃ r, e = Ev.input r
  · rw [step_cfg c d s e h]
    exact clean_step { c with OutVolsize := 0 } d X s e P pot hN hbs hOut rfl hd hl
      (inv_cfg c _ X s rfl rfl hinv) hcl
  · rw [not_or] at h
    obtain ⟨h1, h2⟩ := h
    have ho : s.opc = OPc.volchk := by
      by_contra hc
      exact h1 hc
    have he : e = Ev.output := by
      cases e with
      | input r => exact absurd ⟨r, rfl⟩ h2
      | output => rfl
    subst he
    obtain ⟨o, hs⟩ := volchk_step c d s hbs hV hch ho
    unfold step
    rw [if_neg hcl.2.2]
    simp only
    rw [hs]
    obtain ⟨c1, c2, c3⟩ := hcl
    split_ifs
    · exact ⟨⟨c1, c2, by simp⟩, rfl⟩
    · exact ⟨⟨c1, c2, by simp⟩, rfl⟩

theorem progress_vol {α σ : Type} (c : Cfg) (d : Dev σ) (X : List α)
    (s : RingSt α σ) (P : Nat) (pot : σ → TapeState → Nat)
    (hN : 2 ≤ c.Numblocks) (hbs : 0 < c.Blocksize) (hOut : 0 < c.Outsize)
    (hV : c.Blocksize ≤ c.OutVolsize) (hch : d.changes) (hd : d.sane)
    (hl : Dev.Live d c.TapeAware (c.Terminal || s.Autoloader) pot P)
    (hinv : RingInv c X s) (hcl : clean s) (hnf : ¬ finished s) :
    ∃ e, clean (step c d s e) ∧ (step c d s e).Autoloader = s.Autoloader ∧
      measureIn (step c d s e) + measureOut c (X.length / c.Blocksize) P pot (step c d s e)
        < measureIn s + measureOut c (X.length / c.Blocksize) P pot s := by
  by_cases ho : s.opc = OPc.volchk
  · refine ⟨Ev.output, ?_⟩
    obtain ⟨g1, g2⟩ := clean_step_vol c d X s Ev.output P pot hN hbs hOut hV hch hd hl hinv hcl
    refine ⟨g1, g2, ?_⟩
    have hc := hinv.2 hcl
    obtain ⟨o, hs⟩ := volchk_step c d s hbs hV hch ho
    have e1 := hc.rest_eq (Or.inr ho) (by simp [ho])
    have e2 := blocksize_le c X s hc (Or.inl (by simp [ho, OPc.holding]))
    have e3 := Nat.mul_le_mul_right (P + 1) (show s.rest ≤ c.Blocksize by omega)
    have e4 := hl.bound o s.tape
    have e5 := hl.bound s.out s.tape
    unfold step
    rw [if_neg hcl.2.2]
    simp only
    rw [hs]
    unfold measureIn measureOut
    split_ifs
    · simp only [ho, OPc.rank]
      omega
    · simp only [ho, OPc.rank]
      omega
  · obtain ⟨e, h1, h2, h3⟩ := progress { c with OutVolsize := 0 } d X s P pot hN hbs hOut rfl hd
      hl (inv_cfg c _ X s rfl rfl hinv) hcl hnf
    refine ⟨e, ?_, ?_, ?_⟩
    · rw [step_cfg c d s e (Or.inl ho)]; exact h1
    · rw [step_cfg c d s e (Or.inl ho)]; exact h2
    · rw [step_cfg c d s e (Or.inl ho)]; exact h3

theorem live_vol {α σ : Type} (c : Cfg) (d : Dev σ) (X : List α) (a : Bool)
    (P : Nat) (pot : σ → TapeState → Nat)
    (hN : 2 ≤ c.Numblocks) (hbs : 0 < c.Blocksize) (hOut : 0 < c.Outsize)
    (hV : c.Blocksize ≤ c.OutVolsize) (hch : d.changes) (hd : d.sane)
    (hl : Dev.Live d c.TapeAware (c.Terminal || a) pot P) :
    ∀ (n : Nat) (s : RingSt α σ),
      measureIn s + measureOut c (X.length / c.Blocksize) P pot s ≤ n →
      RingInv c X s → clean s → s.Autoloader = a →
      ∃ es, finished (run c d s es) ∧ clean (run c d s es) := by
  intro n
  induction n with
  | zero =>
    intro s hm hinv hcl ha
    by_cases hf : finished s
    · exact ⟨[], hf, hcl⟩
    · obtain ⟨e, _, _, h⟩ := progress_vol c d X s P pot hN hbs hOut hV hch hd
        (by rw [ha]; exact hl) hinv hcl hf
      omega
  | succ n ih =>
    intro s hm hinv hcl ha
    by_cases hf : finished s
    · exact ⟨[], hf, hcl⟩
    · obtain ⟨e, h1, h2, h3⟩ := progress_vol c d X s P pot hN hbs hOut hV hch hd
        (by rw [ha]; exact hl) hinv hcl hf
      obtain ⟨es, h4, h5⟩ := ih (step c d s e) (by omega) (inv_step c d X s e hN hbs hd hinv) h1
        (by rw [h2, ha])
      exact ⟨e :: es, by rw [run_cons]; exact h4, by rw [run_cons]; exact h5⟩

theorem clean_run_vol {α σ : Type} (c : Cfg) (d : Dev σ) (X : List α) (a : Bool)
    (P : Nat) (pot : σ → TapeState → Nat)
    (hN : 2 ≤ c.Numblocks) (hbs : 0 < c.Blocksize) (hOut : 0 < c.Outsize)
    (hV : c.Blocksize ≤ c.OutVolsize) (hch : d.changes) (hd : d.sane)
    (hl : Dev.Live d c.TapeAware (c.Terminal || a) pot P) (es : List Ev) :
    ∀ s : RingSt α σ, RingInv c X s → clean s → s.Autoloader = a →
      clean (run c d s es) ∧ (run c d s es).Autoloader = a := by
  induction es with
  | nil => intro s _ hcl ha; exact ⟨hcl, ha⟩
  | cons e es ih =>
    intro s hinv hcl ha
    obtain ⟨h1, h2⟩ := clean_step_vol c d X s e P pot hN hbs hOut hV hch hd
      (by rw [ha]; exact hl) hinv hcl
    rw [run_cons]
    exact ih _ (inv_step c d X s e hN hbs hd hinv) h1 (by rw [h2, ha])

/-- The facts about a run with `-D` on an output on which the write loop comes
to an end and every change of volume succeeds. -/
theorem run_facts_vol {α σ : Type} (c : Cfg) (d : Dev σ) (buf : Nat → Nat → α) (X : List α)
    (o : σ) (a : Bool) (P : Nat) (pot : σ → TapeState → Nat)
    (hN : 2 ≤ c.Numblocks) (hbs : 0 < c.Blocksize) (hOut : 0 < c.Outsize)
    (hV : c.Blocksize ≤ c.OutVolsize) (hch : d.changes) (hd : d.sane)
    (hl : Dev.Live d c.TapeAware (c.Terminal || a) pot P) (es : List Ev) :
    RingCore c X (run c d (init c buf X o a) es) ∧
    clean (run c d (init c buf X o a) es) ∧
    ∃ fs, finished (run c d (init c buf X o a) (es ++ fs)) := by
  have hinv := inv_run c d X es hN hbs hd _ (inv_init c buf X o a)
  obtain ⟨hcl, ha⟩ := clean_run_vol c d X a P pot hN hbs hOut hV hch hd hl es _
    (inv_init c buf X o a) (clean_init c buf X o a) rfl
  refine ⟨hinv.2 hcl, hcl, ?_⟩
  obtain ⟨fs, h1, _⟩ := live_vol c d X a P pot hN hbs hOut hV hch hd hl _ _ (Nat.le_refl _)
    hinv hcl ha
  exact ⟨fs, by rw [run_append]; exact h1⟩

theorem inputStep_vol {α σ : Type} (c : Cfg) (r : ReadRes) (s : RingSt α σ) :
    (inputStep c r s).volumes = s.volumes ∧ (inputStep c r s).cuts = s.cuts ∧
    (inputStep c r s).drained = s.drained ∧ (inputStep c r s).opc = s.opc ∧
    (inputStep c r s).Numout = s.Numout := by
  obtain ⟨_, _, h3, h4, _, _, _, _, _, _, h11, h12, h13, _⟩ := inputStep_same c r s
  exact ⟨h11, h12, h13, h3, h4⟩

theorem outputStep_vol {α σ : Type} (c : Cfg) (d : Dev σ) (s : RingSt α σ)
    (h1 : s.opc ≠ OPc.write) (h2 : s.opc ≠ OPc.volchk) (h3 : s.opc ≠ OPc.post) :
    (outputStep c d s).volumes = s.volumes ∧ (outputStep c d s).cuts = s.cuts ∧
    (outputStep c d s).drained = s.drained ∧ (outputStep c d s).opc ≠ OPc.write ∧
    (outputStep c d s).opc ≠ OPc.post := by
  unfold outputStep
  cases hopc : s.opc <;> simp only
  · split_ifs <;> simp [hopc]
  · split_ifs <;> simp
  · split_ifs <;> simp
  · split_ifs <;> simp
  · exact absurd hopc h2
  · exact absurd hopc h1
  · exact absurd hopc h3
  · unfold nextBlock
    split_ifs <;> simp
  · unfold nextBlock
    split_ifs <;> simp
  · simp
  · simp [terminateOutputThread]
  · simp [hopc]
  · simp [hopc]

theorem writeStep_vol {α σ : Type} (c : Cfg) (d : Dev σ) (s : RingSt α σ)
    (hfull : d.full) (hOut : 0 < c.Outsize) (hh : s.haderror = false) (hr : 0 < s.rest) :
    (writeStep c d s).volumes = s.volumes ∧ (writeStep c d s).cuts = s.cuts ∧
    (writeStep c d s).drained = s.drained ∧
    ((writeStep c d s).opc = OPc.write ∨ (writeStep c d s).opc = OPc.post) := by
  have hn : 1 ≤ min s.rest c.Outsize := by
    rw [Nat.le_min]; exact ⟨hr, hOut⟩
  unfold writeStep
  simp only [hh, hfull _ _, afterWrite_ret_pos _ _ _ _ hn, Bool.false_eq_true, if_false]
  unfold writeLoop
  split_ifs <;> simp

theorem div_step (j m : Nat) :
    j / m = (j - 1) / m + (if 0 < j ∧ j % m = 0 then 1 else 0) := by
  cases j with
  | zero => simp
  | succ k =>
    rw [Nat.succ_div]
    simp only [Nat.add_sub_cancel, Nat.succ_pos, true_and, Nat.dvd_iff_mod_eq_zero]

theorem volumes_step {α σ : Type} (c : Cfg) (d : Dev σ) (X : List α) (s : RingSt α σ) (e : Ev)
    (hbs : 0 < c.Blocksize) (hOut : 0 < c.Outsize) (hV : c.Blocksize ≤ c.OutVolsize)
    (hfull : d.full) (hch : d.changes)
    (hc : RingCore c X s) (hcl : clean s) (hJ : Volumes c s) :
    Volumes c (step c d s e) := by
  obtain ⟨hJ1, hJ2⟩ := hJ
  unfold step
  rw [if_neg hcl.2.2]
  cases e with
  | input r =>
    obtain ⟨f1, f2, f3, f4, _⟩ := inputStep_vol c r s
    simp only
    unfold Volumes checked
    rw [f1, f2, f3, f4]
    exact ⟨hJ1, hJ2⟩
  | output =>
    simp only
    by_cases hw : s.opc = OPc.write
    · have hst : outputStep c d s = writeStep c d s := by
        unfold outputStep
        simp [hw]
      obtain ⟨f1, f2, f3, f4⟩ := writeStep_vol c d s hfull hOut hcl.2.1 (hc.rest_le hw).1
      rw [hst]
      unfold Volumes checked
      rw [f1, f2, f3]
      have hflag : (if (writeStep c d s).opc = OPc.write ∨ (writeStep c d s).opc = OPc.post
          then 1 else 0) = 1 := if_pos f4
      rw [hflag]
      unfold checked at hJ1
      simp only [hw, true_or, if_true] at hJ1
      exact ⟨hJ1, hJ2⟩
    · by_cases hp : s.opc = OPc.post
      · unfold Volumes checked at *
        simp only [outputStep, hp]
        simp only [hp, or_true, if_true] at hJ1
        simp only [List.length_append, List.length_singleton]
        refine ⟨?_, hJ2⟩
        simp only [reduceCtorEq, or_self, if_false, Nat.add_zero]
        exact hJ1
      · by_cases hv : s.opc = OPc.volchk
        · obtain ⟨o, hs⟩ := volchk_step c d s hbs hV hch hv
          have hm : 0 < c.OutVolsize / c.Blocksize := Nat.div_pos hV hbs
          have hlen : s.drained.length = s.Numout := by
            rw [hc.drained_eq]
            simp [hv, OPc.drainedCount]
          have hwl : s.written.length = s.Numout * c.Blocksize := by
            rw [hc.opos (by simp [hv, OPc.ended])]
            simp only [hv, OPc.progress, Nat.add_zero, List.length_take]
            have h5 := hc.ipos_le
            have h6 := Nat.mul_le_mul_right c.Blocksize hc.out_le
            omega
          have hck : checked s = s.Numout := by
            unfold checked
            simp [hv, hlen]
          rw [hck] at hJ1
          have hds := div_step s.Numout (c.OutVolsize / c.Blocksize)
          rw [hs]
          unfold Volumes checked
          by_cases hcond : 0 < s.Numout ∧ s.Numout % (c.OutVolsize / c.Blocksize) = 0
          · simp only [if_pos hcond] at hds ⊢
            simp only [true_or, if_true, hlen, Nat.add_sub_cancel]
            refine ⟨by omega, ?_⟩
            rw [List.range_succ, List.map_append, ← hJ2, hwl]
            simp only [List.map_singleton]
            have hj : s.Numout = (s.Numout / (c.OutVolsize / c.Blocksize)) *
                (c.OutVolsize / c.Blocksize) := by
              have := Nat.div_add_mod s.Numout (c.OutVolsize / c.Blocksize)
              rw [hcond.2, Nat.add_zero, Nat.mul_comm] at this
              exact this.symm
            have hv1 : s.volumes + 1 = s.Numout / (c.OutVolsize / c.Blocksize) := by omega
            rw [hv1, ← hj]
          · simp only [if_neg hcond] at hds ⊢
            simp only [true_or, if_true, hlen, Nat.add_sub_cancel]
            exact ⟨by omega, hJ2⟩
        · obtain ⟨f1, f2, f3, f4, f5⟩ := outputStep_vol c d s hw hv hp
          unfold Volumes checked at *
          rw [f1, f2, f3]
          have hflag : (if (outputStep c d s).opc = OPc.write ∨ (outputStep c d s).opc = OPc.post
              then 1 else 0) = 0 := if_neg (by rintro (h | h); exact f4 h; exact f5 h)
          have hflag0 : (if s.opc = OPc.write ∨ s.opc = OPc.post then 1 else 0) = 0 :=
            if_neg (by rintro (h | h); exact hw h; exact hp h)
          rw [hflag]
          rw [hflag0] at hJ1
          exact ⟨hJ1, hJ2⟩

theorem full_live {σ : Type} (d : Dev σ) (ta tm : Bool) (h : d.full) :
    Dev.Live d ta tm (fun _ _ => 0) 0 :=
  live_of_accepting d ta tm (full_accepting d h)

theorem volumes_run {α σ : Type} (c : Cfg) (d : Dev σ) (buf : Nat → Nat → α) (X : List α)
    (o : σ) (a : Bool) (hN : 2 ≤ c.Numblocks) (hbs : 0 < c.Blocksize) (hOut : 0 < c.Outsize)
    (hV : c.Blocksize ≤ c.OutVolsize) (hfull : d.full) (hch : d.changes)
    (es : List Ev) : Volumes c (run c d (init c buf X o a) es) := by
  induction es using List.reverseRecOn with
  | nil => simp [run, Volumes, checked, init]
  | append_singleton es e ih =>
    obtain ⟨hc, hcl, _⟩ := run_facts_vol c d buf X o a 0 (fun _ _ => 0) hN hbs hOut hV hch
      (full_sane d hfull) (full_live d _ _ hfull) es
    rw [run_append]
    exact volumes_step c d X _ e hbs hOut hV hfull hch hc hcl ih

theorem fileDev_changes : fileDev.changes := fun _ => ⟨(), rfl⟩

theorem volumes_only_at_test {α σ : Type} (c : Cfg) (d : Dev σ) (X : List α) (s : RingSt α σ)
    (e : Ev) (hOut : 0 < c.Outsize) (hfull : d.full) (hc : RingCore c X s) (hcl : clean s)
    (h : (step c d s e).volumes ≠ s.volumes) : s.opc = OPc.volchk ∧ e = Ev.output := by
  unfold step at h
  rw [if_neg hcl.2.2] at h
  cases e with
  | input r =>
    simp only at h
    exact absurd (inputStep_vol c r s).1 h
  | output =>
    simp only at h
    refine ⟨?_, rfl⟩
    by_contra hv
    by_cases hw : s.opc = OPc.write
    · have hst : outputStep c d s = writeStep c d s := by
        unfold outputStep
        simp [hw]
      rw [hst] at h
      exact h (writeStep_vol c d s hfull hOut hcl.2.1 (hc.rest_le hw).1).1
    · by_cases hp : s.opc = OPc.post
      · simp [outputStep, hp] at h
      · exact h (outputStep_vol c d s hw hv hp).1

/-- C24: with an output volume size `V = OutVolsize` of at least one block
(`Blocksize >= 1`), an output that takes every byte it is offered and changes
of volume that succeed, in every run and every interleaving: `outputThread`
comes to the `-D` test for the block with index `j = Numout` when `j` blocks
are written completely (`j * Blocksize` bytes), and requests a change of
volume there if and only if `j > 0` and `j mod (V / Blocksize) = 0`; no other
step requests one. So when the test has been made for `k` blocks there were
`(k - 1) / (V / Blocksize)` changes, the `i`-th of them after exactly
`(i + 1) * (V / Blocksize)` blocks: every completed volume holds
`V / Blocksize` blocks, which are at most `V` bytes. The threads can always
run to their end, and then all of the input is written. -/
theorem output_volume_size {α σ : Type} (c : Cfg) (d : Dev σ) (buf : Nat → Nat → α)
    (X : List α) (o : σ) (a : Bool)
    (hN : 5 ≤ c.Numblocks) (hbs : 1 ≤ c.Blocksize) (hOut : 1 ≤ c.Outsize)
    (hV : c.Blocksize ≤ c.OutVolsize) (hfull : d.full) (hch : d.changes) (es : List Ev) :
    ((run c d (init c buf X o a) es).opc = OPc.volchk →
      (run c d (init c buf X o a) es).drained.length = (run c d (init c buf X o a) es).Numout ∧
      (run c d (init c buf X o a) es).written.length =
        (run c d (init c buf X o a) es).Numout * c.Blocksize ∧
      (step c d (run c d (init c buf X o a) es) Ev.output).opc = OPc.write ∧
      (step c d (run c d (init c buf X o a) es) Ev.output).volumes =
        (run c d (init c buf X o a) es).volumes +
          (if 0 < (run c d (init c buf X o a) es).Numout ∧
              (run c d (init c buf X o a) es).Numout % (c.OutVolsize / c.Blocksize) = 0
           then 1 else 0)) ∧
    (∀ e, (step c d (run c d (init c buf X o a) es) e).volumes ≠
        (run c d (init c buf X o a) es).volumes →
      (run c d (init c buf X o a) es).opc = OPc.volchk ∧ e = Ev.output) ∧
    (run c d (init c buf X o a) es).volumes =
      (checked (run c d (init c buf X o a) es) - 1) / (c.OutVolsize / c.Blocksize) ∧
    (run c d (init c buf X o a) es).cuts =
      (List.range (run c d (init c buf X o a) es).volumes).map
        (fun i => (i + 1) * (c.OutVolsize / c.Blocksize) * c.Blocksize) ∧
    1 ≤ c.OutVolsize / c.Blocksize ∧
    (c.OutVolsize / c.Blocksize) * c.Blocksize ≤ c.OutVolsize ∧
    (∃ fs, finished (run c d (init c buf X o a) (es ++ fs))) ∧
    (finished (run c d (init c buf X o a) es) →
      (run c d (init c buf X o a) es).written = X ∧
      (run c d (init c buf X o a) es).volumes =
        (X.length / c.Blocksize + (if 0 < X.length % c.Blocksize then 1 else 0) - 1) /
          (c.OutVolsize / c.Blocksize)) := by
  obtain ⟨hc, hcl, hlive⟩ := run_facts_vol c d buf X o a 0 (fun _ _ => 0) (by omega) hbs hOut hV
    hch (full_sane d hfull) (full_live d _ _ hfull) es
  obtain ⟨hJ1, hJ2⟩ := volumes_run c d buf X o a (by omega) hbs hOut hV hfull hch es
  generalize run c d (init c buf X o a) es = s at hc hcl hJ1 hJ2 ⊢
  refine ⟨?_, ?_, hJ1, hJ2, Nat.div_pos hV hbs, Nat.div_mul_le_self _ _, hlive, ?_⟩
  · intro hv
    have hlen : s.drained.length = s.Numout := by
      rw [hc.drained_eq]
      simp [hv, OPc.drainedCount]
    have hwl : s.written.length = s.Numout * c.Blocksize := by
      rw [hc.opos (by simp [hv, OPc.ended])]
      simp only [hv, OPc.progress, Nat.add_zero, List.length_take]
      have h5 := hc.ipos_le
      have h6 := Nat.mul_le_mul_right c.Blocksize hc.out_le
      omega
    obtain ⟨o1, hs⟩ := volchk_step c d s hbs hV hch hv
    refine ⟨hlen, hwl, ?_, ?_⟩
    · unfold step
      rw [if_neg hcl.2.2]
      simp only
      rw [hs]
      split_ifs <;> rfl
    · unfold step
      rw [if_neg hcl.2.2]
      simp only
      rw [hs]
      split_ifs <;> rfl
  · intro e he
    exact volumes_only_at_test c d X s e hOut hfull hc hcl he
  · intro hf
    obtain ⟨f1, _, _, _, f5⟩ := finished_facts c X s hbs hc hf
    refine ⟨f1, ?_⟩
    rw [hJ1]
    unfold checked
    rw [f5]
    simp [hf.2]

/-- Witness of `output_volume_size`: 450 bytes in blocks of 100 bytes with
volumes of 250 bytes, that is of two blocks: at the end of a run there were
two changes of volume, after 200 and after 400 bytes. -/
theorem output_volume_size_witness :
    (∃ fs, finished (run cfgVol fileDev (init cfgVol (fun _ _ => 0) input450 () false)
      ([] ++ fs))) ∧
    (∀ es, finished (run cfgVol fileDev (init cfgVol (fun _ _ => 0) input450 () false) es) →
      (run cfgVol fileDev (init cfgVol (fun _ _ => 0) input450 () false) es).written = input450 ∧
      (run cfgVol fileDev (init cfgVol (fun _ _ => 0) input450 () false) es).volumes = 2 ∧
      (run cfgVol fileDev (init cfgVol (fun _ _ => 0) input450 () false) es).cuts = [200, 400]) :=
  ⟨(output_volume_size cfgVol fileDev (fun _ _ => 0) input450 () false (by decide) (by decide)
      (by decide) (by decide) fileDev_full fileDev_changes []).2.2.2.2.2.2.1,
   fun es hf => by
    have h := output_volume_size cfgVol fileDev (fun _ _ => 0) input450 () false (by decide)
      (by decide) (by decide) (by decide) fileDev_full fileDev_changes es
    obtain ⟨_, _, _, h4, _, _, _, h8⟩ := h
    obtain ⟨h9, h10⟩ := h8 hf
    have hlen : input450.length = 450 := by
      unfold input450
      exact List.length_replicate _ _
    have hv : (run cfgVol fileDev (init cfgVol (fun _ _ => 0) input450 () false) es).volumes
        = 2 := by
      rw [h10, hlen]
      rfl
    refine ⟨h9, hv, ?_⟩
    rw [h4, hv]
    rfl⟩

/-! ## Reading from a device -/

/-- C25: with blocks of 100 bytes, a device that delivers 50 bytes per `read`
and a signal that interrupts the second `read`: `devread` returns -1 after it
has stored 50 bytes, `readBlock` calls it again, and the new call starts at
offset 0 of the block. The block that `readBlock` hands on holds the bytes 50
.. 149 of the device; the bytes 0 .. 49 are lost. Without the interruption
the block holds the bytes 0 .. 99. -/
theorem devread_eintr_loses_bytes :
    (devread 100 50 0 10 interrupted device150).1 = -1 ∧
    (devread 100 50 0 10 interrupted device150).2.1.errno = some Errno.EINTR ∧
    load (devread 100 50 0 10 interrupted device150).2.1.Buffer 0 0 50 = List.range 50 ∧
    (readBlock 100 50 0 10 interrupted device150).ret = 1 ∧
    (readBlock 100 50 0 10 interrupted device150).num = 100 ∧
    load (readBlock 100 50 0 10 interrupted device150).state.Buffer 0 0 100 =
      (List.range 150).drop 50 ∧
    (readBlock 100 50 0 10 interrupted device150).state.input = [] ∧
    (readBlock 100 50 0 10 uninterrupted device150).ret = 1 ∧
    load (readBlock 100 50 0 10 uninterrupted device150).state.Buffer 0 0 100 =
      List.range 100 := by
  set_option maxRecDepth 100000 in
  decide
